import Mathlib

/-!
# Cell-list molecular dynamics: a shallow embedding

The C sources (`data.h`, `data.c`, `boundary.c`, `setup.c`, `md.c`, `args.c`) are
embedded as pure functions over an explicit memory.  A pointer to a `particle_t` is a heap
address (`Nat`), `NULL` is `none`, `double` is an arbitrary ordered ring or field `K`
(exact arithmetic), `int` is `Int`.  Loops whose trip count depends on the heap
(`while (p != NULL)`) carry a fuel argument.  The rounding of `double` is modelled for
`update_cells` alone (`update_cells_fl`, `round53`), to show where the results in exact
arithmetic stop holding for the compiled program.
-/

set_option autoImplicit false

namespace MD

/-! ## Data model (`data.h`) -/

/-- The record `struct particle_t`: position within the cell, acceleration, velocity,
the two list links and the identifier. -/
structure particle_t (K : Type) where
  x : K
  y : K
  ax : K
  ay : K
  vx : K
  vy : K
  next : Option Nat
  prev : Option Nat
  part_id : Int

/-- The assignment `p->next = v` on a record. -/
@[simps] def particle_t.setNext {K : Type} (r : particle_t K) (v : Option Nat) : particle_t K :=
  { r with next := v }

/-- The assignment `p->prev = v` on a record. -/
@[simps] def particle_t.setPrev {K : Type} (r : particle_t K) (v : Option Nat) : particle_t K :=
  { r with prev := v }

/-- The assignment `p->x = v` on a record. -/
@[simps] def particle_t.setX {K : Type} (r : particle_t K) (v : K) : particle_t K :=
  { r with x := v }

/-- The assignment `p->y = v` on a record. -/
@[simps] def particle_t.setY {K : Type} (r : particle_t K) (v : K) : particle_t K :=
  { r with y := v }

/-- The assignment `p->ax = v` on a record. -/
@[simps] def particle_t.setAx {K : Type} (r : particle_t K) (v : K) : particle_t K :=
  { r with ax := v }

/-- The assignment `p->ay = v` on a record. -/
@[simps] def particle_t.setAy {K : Type} (r : particle_t K) (v : K) : particle_t K :=
  { r with ay := v }

/-- The assignment `p->vx = v` on a record. -/
@[simps] def particle_t.setVx {K : Type} (r : particle_t K) (v : K) : particle_t K :=
  { r with vx := v }

/-- The assignment `p->vy = v` on a record. -/
@[simps] def particle_t.setVy {K : Type} (r : particle_t K) (v : K) : particle_t K :=
  { r with vy := v }

/-- The fields of a record other than the two list links. -/
def particle_t.data {K : Type} (r : particle_t K) : K × K × K × K × K × K × Int :=
  (r.x, r.y, r.ax, r.ay, r.vx, r.vy, r.part_id)

/-- The global variables of `data.c`. -/
structure Globals (K : Type) where
  t_end : K
  r_cut_off : K
  cell_size : K
  x : Int
  y : Int
  num_particles : Int
  niters : Int
  dt : K
  dth : K
  r_cut_off_2 : K
  r_cut_off_2_inv : K
  r_cut_off_6_inv : K
  Uc : K
  Duc : K
  seed : Int
  init_temp : K
  num_part_per_dim : Int

/-- The memory the routines work on: the particle heap, the heads `cells[i][j].head`
of the 2-D array of `struct cell_list`, and the allocation frontier used by `malloc`. -/
structure Mem (K : Type) where
  heap : Nat → particle_t K
  cells : Int → Int → Option Nat
  brk : Nat

/-- Write one particle record. -/
def Mem.modify {K : Type} (m : Mem K) (p : Nat) (f : particle_t K → particle_t K) : Mem K :=
  { m with heap := fun n => if n = p then f (m.heap p) else m.heap n }

/-- Write `cells[i][j].head`. -/
def Mem.setHead {K : Type} (m : Mem K) (i j : Int) (v : Option Nat) : Mem K :=
  { m with cells := fun a b => if a = i ∧ b = j then v else m.cells a b }

/-! ## Control flow: exits, fuel and loops -/

/-- How a routine ends: it returns, it calls `exit(1)`, or the fuel of the model ran out. -/
inductive Outcome (σ : Type) where
  | ok : σ → Outcome σ
  | fatal : Outcome σ
  | outOfFuel : Outcome σ

/-- Sequencing of routines: a fatal exit or an exhausted fuel ends the run. -/
def Outcome.bind {σ τ : Type} (o : Outcome σ) (f : σ → Outcome τ) : Outcome τ :=
  match o with
  | .ok s => f s
  | .fatal => .fatal
  | .outOfFuel => .outOfFuel

instance Outcome.decFatal {σ : Type} (o : Outcome σ) : Decidable (o = Outcome.fatal) :=
  match o with
  | .ok _ => isFalse (fun h => Outcome.noConfusion h)
  | .fatal => isTrue rfl
  | .outOfFuel => isFalse (fun h => Outcome.noConfusion h)

instance Outcome.decOutOfFuel {σ : Type} (o : Outcome σ) : Decidable (o = Outcome.outOfFuel) :=
  match o with
  | .ok _ => isFalse (fun h => Outcome.noConfusion h)
  | .fatal => isFalse (fun h => Outcome.noConfusion h)
  | .outOfFuel => isTrue rfl

/-- The loop `while (p != NULL) { ... }`: the body returns the new state together with
the pointer the next iteration starts from. -/
def whileSome {σ : Type} (body : Nat → σ → Outcome (σ × Option Nat)) :
    Nat → Option Nat → σ → Outcome σ
  | _, none, s => .ok s
  | 0, some _, _ => .outOfFuel
  | fuel + 1, some p, s =>
    match body p s with
    | .ok (s1, nxt) => whileSome body fuel nxt s1
    | .fatal => .fatal
    | .outOfFuel => .outOfFuel

/-- The values of the loop variable of `for (int i = lo; i < hi; i++)`. -/
def loopIdx (lo hi : Int) : List Int :=
  (List.range (hi - lo).toNat).map (fun (k : Nat) => lo + (k : Int))

/-- The loop `for (i ...) { ... }` over the given values of the loop variable. -/
def forEach {ι σ : Type} (body : ι → σ → Outcome σ) : List ι → σ → Outcome σ
  | [], s => .ok s
  | i :: rest, s =>
    match body i s with
    | .ok s1 => forEach body rest s1
    | .fatal => .fatal
    | .outOfFuel => .outOfFuel

/-- The loop nest `for (i = 1; i < x+1; i++) for (j = 1; j < y+1; j++) { ... }` over the
real cells. -/
def forCells {K σ : Type} (g : Globals K) (body : Int → Int → σ → Outcome σ) (s : σ) :
    Outcome σ :=
  forEach (fun i s => forEach (fun j s => body i j s) (loopIdx 1 (g.y + 1)) s)
    (loopIdx 1 (g.x + 1)) s

/-! ## Cell lists (`data.c`) -/

/-- The routine `add_particle(&cells[i][j], p)`. -/
def add_particle {K : Type} (m : Mem K) (i j : Int) (p : Nat) : Mem K :=
  let m1 := m.modify p (fun r => r.setPrev none)
  let m2 :=
    match m1.cells i j with
    | some h =>
      let m1a := m1.modify h (fun r => r.setPrev (some p))
      m1a.modify p (fun r => r.setNext (m1a.cells i j))
    | none => m1.modify p (fun r => r.setNext none)
  m2.setHead i j (some p)

/-- The routine `remove_particle(&cells[i][j], p)`. -/
def remove_particle {K : Type} (m : Mem K) (i j : Int) (p : Nat) : Mem K :=
  let m1 := if m.cells i j = some p then m.setHead i j (m.heap p).next else m
  let m2 :=
    match (m1.heap p).prev with
    | some q => m1.modify q (fun r => r.setNext (m1.heap p).next)
    | none => m1
  let m3 :=
    match (m2.heap p).next with
    | some q => m2.modify q (fun r => r.setPrev (m2.heap p).prev)
    | none => m2
  let m4 := m3.modify p (fun r => r.setNext none)
  m4.modify p (fun r => r.setPrev none)

/-! ## Periodic boundary (`boundary.c`) -/

/-- The routine `apply_boundary()`. -/
def apply_boundary {K : Type} (g : Globals K) (m : Mem K) : Mem K :=
  let m1 := (loopIdx 1 (g.y + 1)).foldl (fun m j =>
      let ma := m.setHead 0 j (m.cells g.x j)
      ma.setHead (g.x + 1) j (ma.cells 1 j)) m
  (loopIdx 0 (g.x + 2)).foldl (fun m i =>
      let ma := m.setHead i 0 (m.cells i g.y)
      ma.setHead i (g.y + 1) (ma.cells i 1)) m1

/-! ## Integrator and cell migration (`md.c`) -/

section OrderedRing

variable {K : Type} [LinearOrderedCommRing K]

/-- One iteration of the `while` loop of `move_particles`. -/
def move_particles_body (g : Globals K) (p : Nat) (m : Mem K) : Outcome (Mem K × Option Nat) :=
  let m1 := m.modify p (fun r => r.setVx (r.vx + g.dth * r.ax))
  let m2 := m1.modify p (fun r => r.setVy (r.vy + g.dth * r.ay))
  let m3 := m2.modify p (fun r => r.setX (r.x + g.dt * r.vx))
  let m4 := m3.modify p (fun r => r.setY (r.y + g.dt * r.vy))
  .ok (m4, (m4.heap p).next)

/-- The routine `move_particles()`. -/
def move_particles (g : Globals K) (fuel : Nat) (m : Mem K) : Outcome (Mem K) :=
  forCells g (fun i j m => whileSome (move_particles_body g) fuel (m.cells i j) m) m

/-- One iteration of the `while` loop of `update_cells` for the particle `p` met in the
list of cell `(i, j)`; `p_next` is read before the list is changed. -/
def update_cells_body (g : Globals K) (i j : Int) (p : Nat) (m : Mem K) :
    Outcome (Mem K × Option Nat) :=
  let p_next := (m.heap p).next
  if (m.heap p).x < 0 ∨ (m.heap p).x ≥ g.cell_size ∨
      (m.heap p).y < 0 ∨ (m.heap p).y ≥ g.cell_size then
    if (m.heap p).x < -g.cell_size ∨ (m.heap p).x ≥ 2 * g.cell_size ∨
        (m.heap p).y < -g.cell_size ∨ (m.heap p).y ≥ 2 * g.cell_size then
      .fatal
    else
      let x_shift : Int :=
        if (m.heap p).x < 0 then -1 else if (m.heap p).x ≥ g.cell_size then 1 else 0
      let y_shift : Int :=
        if (m.heap p).y < 0 then -1 else if (m.heap p).y ≥ g.cell_size then 1 else 0
      let new_i := i + x_shift
      let new_i := if new_i = 0 then g.x else new_i
      let new_i := if new_i = g.x + 1 then 1 else new_i
      let new_j := j + y_shift
      let new_j := if new_j = 0 then g.y else new_j
      let new_j := if new_j = g.y + 1 then 1 else new_j
      let m1 := m.modify p (fun r => r.setX (r.x + (x_shift : K) * -g.cell_size))
      let m2 := m1.modify p (fun r => r.setY (r.y + (y_shift : K) * -g.cell_size))
      let m3 := remove_particle m2 i j p
      let m4 := add_particle m3 new_i new_j p
      .ok (m4, p_next)
  else
    .ok (m, p_next)

/-- The routine `update_cells()`. -/
def update_cells (g : Globals K) (fuel : Nat) (m : Mem K) : Outcome (Mem K) :=
  forCells g (fun i j m => whileSome (update_cells_body g i j) fuel (m.cells i j) m) m

/-- One iteration of the `while` loop of `update_velocity`; the state carries
`kinetic_energy`. -/
def update_velocity_body (g : Globals K) (p : Nat) (s : Mem K × K) :
    Outcome ((Mem K × K) × Option Nat) :=
  let m1 := s.1.modify p (fun r => r.setVx (r.vx + g.dth * r.ax))
  let m2 := m1.modify p (fun r => r.setVy (r.vy + g.dth * r.ay))
  let ke := s.2 + ((m2.heap p).vx * (m2.heap p).vx + (m2.heap p).vy * (m2.heap p).vy)
  .ok ((m2, ke), (m2.heap p).next)

end OrderedRing

section OrderedField

variable {K : Type} [LinearOrderedField K]

/-- The routine `update_velocity()`, returning the memory and the kinetic energy. -/
def update_velocity (g : Globals K) (fuel : Nat) (m : Mem K) : Outcome (Mem K × K) :=
  (forCells g (fun i j s => whileSome (update_velocity_body g) fuel (s.1.cells i j) s)
    (m, 0)).bind
    (fun s => .ok (s.1, s.2 * ((1 / 2) / (g.num_particles : K))))

end OrderedField

/-! ## Force evaluation (`md.c`) -/

section OrderedField

variable {K : Type} [LinearOrderedField K]

/-- One iteration of the first `while` loop of `comp_accel`: zero the acceleration. -/
def comp_accel_zero (p : Nat) (m : Mem K) : Outcome (Mem K × Option Nat) :=
  let m1 := m.modify p (fun r => r.setAx 0)
  let m2 := m1.modify p (fun r => r.setAy 0)
  .ok (m2, (m2.heap p).next)

/-- One iteration of the innermost `while` loop of `comp_accel`: the candidate `q` of the
neighbour cell `(i+a, j+b)` against the particle `p` of cell `(i, j)`; the state carries
`pot_energy`. -/
def comp_accel_pair (g : Globals K) (sqrt : K → K) (i j a b : Int) (p q : Nat)
    (s : Mem K × K) : Outcome ((Mem K × K) × Option Nat) :=
  if p = q then
    .ok (s, (s.1.heap q).next)
  else
    let cell_offset_x := ((i - 1 : Int) : K) * g.cell_size
    let cell_offset_y := ((j - 1 : Int) : K) * g.cell_size
    let p_real_x := cell_offset_x + (s.1.heap p).x
    let p_real_y := cell_offset_y + (s.1.heap p).y
    let q_real_x := ((i + a - 1 : Int) : K) * g.cell_size + (s.1.heap q).x
    let q_real_y := ((j + b - 1 : Int) : K) * g.cell_size + (s.1.heap q).y
    let dx := p_real_x - q_real_x
    let dy := p_real_y - q_real_y
    let r_2 := dx * dx + dy * dy
    if r_2 < g.r_cut_off_2 then
      let r_2_inv := 1 / r_2
      let r_6_inv := r_2_inv * r_2_inv * r_2_inv
      let f := 48 * r_2_inv * r_6_inv * (r_6_inv - 1 / 2)
      let m1 := s.1.modify p (fun r => r.setAx (r.ax + f * dx))
      let m2 := m1.modify p (fun r => r.setAy (r.ay + f * dy))
      let pot := s.2 + (4 * r_6_inv * (r_6_inv - 1) - g.Uc - g.Duc * (sqrt r_2 - g.r_cut_off))
      .ok ((m2, pot), (m2.heap q).next)
    else
      .ok (s, (s.1.heap q).next)

/-- One iteration of the `while (p != NULL)` loop of the second loop nest of
`comp_accel`: the particle `p` of cell `(i, j)` against the nine neighbour cells. -/
def comp_accel_particle (g : Globals K) (sqrt : K → K) (fuel : Nat) (i j : Int) (p : Nat)
    (s : Mem K × K) : Outcome ((Mem K × K) × Option Nat) :=
  (forEach (fun a s =>
      forEach (fun b s =>
        whileSome (comp_accel_pair g sqrt i j a b p) fuel (s.1.cells (i + a) (j + b)) s)
        (loopIdx (-1) 2) s)
    (loopIdx (-1) 2) s).bind
    (fun s1 => .ok (s1, (s1.1.heap p).next))

/-- The routine `comp_accel()`, returning the memory and the potential energy per
particle; `sqrt` is the square root of `math.h`. -/
def comp_accel (g : Globals K) (sqrt : K → K) (fuel : Nat) (m : Mem K) : Outcome (Mem K × K) :=
  (forCells g (fun i j m => whileSome comp_accel_zero fuel (m.cells i j) m) m).bind
    (fun m1 =>
      (forCells g (fun i j s =>
          whileSome (comp_accel_particle g sqrt fuel i j) fuel (s.1.cells i j) s)
        (m1, 0)).bind
        (fun s => .ok (s.1, s.2 / (g.num_particles : K))))

end OrderedField

/-! ## Set-up (`setup.c`) -/

section OrderedField

variable {K : Type} [LinearOrderedField K]

/-- The routine `setup()`: the constants derived from the parsed options. -/
def setup (g : Globals K) : Globals K :=
  let r_cut_off_2 := g.r_cut_off * g.r_cut_off
  let r_cut_off_2_inv := 1 / r_cut_off_2
  let r_cut_off_6_inv := r_cut_off_2_inv * r_cut_off_2_inv * r_cut_off_2_inv
  let Uc := 4 * r_cut_off_6_inv * (r_cut_off_6_inv - 1)
  let Duc := -48 * r_cut_off_6_inv * (r_cut_off_6_inv - 1 / 2) / g.r_cut_off
  let dt := g.t_end / (g.niters : K)
  let dth := dt / 2
  { t_end := g.t_end, r_cut_off := g.r_cut_off, cell_size := g.cell_size, x := g.x, y := g.y,
    num_particles := g.num_particles, niters := g.niters, dt := dt, dth := dth,
    r_cut_off_2 := r_cut_off_2, r_cut_off_2_inv := r_cut_off_2_inv,
    r_cut_off_6_inv := r_cut_off_6_inv, Uc := Uc, Duc := Duc, seed := g.seed,
    init_temp := g.init_temp, num_part_per_dim := g.num_part_per_dim }

/-- What `problem_setup` uses from the C library: `sqrt`, `cos`, `sin`, `M_PI`,
`RAND_MAX`, and the value returned by the `k`-th call of `rand()` after `srand(seed)`. -/
structure Libm (K : Type) where
  sqrt : K → K
  cos : K → K
  sin : K → K
  pi : K
  rand_max : Int
  rand : Nat → Int

/-- The local state of the first loop nest of `problem_setup`: the memory, the two
velocity sums and the number of calls of `rand()` made so far. -/
structure SetupState (K : Type) where
  mem : Mem K
  v_sum_x : K
  v_sum_y : K
  calls : Nat

/-- The body of the innermost loop of the first loop nest of `problem_setup`: create the
particle of lattice position `(a, b)` of cell `(i, j)`; `malloc` returns the allocation
frontier. -/
def problem_setup_place (lib : Libm K) (g : Globals K) (v_magnitude placeholder : K)
    (i j a b : Int) (s : SetupState K) : SetupState K :=
  let part_x := (1 / 2) * (1 / (g.num_part_per_dim : K)) + (a : K) / (g.num_part_per_dim : K)
  let part_y := (1 / 2) * (1 / (g.num_part_per_dim : K)) + (b : K) / (g.num_part_per_dim : K)
  let phi := (lib.rand s.calls : K) * placeholder
  let rand_vx := lib.cos phi
  let rand_vy := lib.sin phi
  let p := s.mem.brk
  let m0 : Mem K := { heap := s.mem.heap, cells := s.mem.cells, brk := s.mem.brk + 1 }
  let m1 := m0.modify p (fun r => r.setX (part_x * g.cell_size))
  let m2 := m1.modify p (fun r => r.setY (part_y * g.cell_size))
  let m3 := m2.modify p (fun r => r.setVx (rand_vx * v_magnitude))
  let m4 := m3.modify p (fun r => r.setVy (rand_vy * v_magnitude))
  let m5 := add_particle m4 i j p
  { mem := m5, v_sum_x := s.v_sum_x + (m5.heap p).vx, v_sum_y := s.v_sum_y + (m5.heap p).vy,
    calls := s.calls + 1 }

/-- One iteration of the `while` loop of the second loop nest of `problem_setup`. -/
def problem_setup_shift (v_avg_x v_avg_y : K) (p : Nat) (m : Mem K) :
    Outcome (Mem K × Option Nat) :=
  let m1 := m.modify p (fun r => r.setVx (r.vx - v_avg_x))
  let m2 := m1.modify p (fun r => r.setVy (r.vy - v_avg_y))
  .ok (m2, (m2.heap p).next)

/-- The globals after the assignment `num_particles = x * y * num_part_per_dim *
num_part_per_dim` of `problem_setup`. -/
def problem_setup_globals (g : Globals K) : Globals K :=
  { t_end := g.t_end, r_cut_off := g.r_cut_off, cell_size := g.cell_size, x := g.x, y := g.y,
    num_particles := g.x * g.y * g.num_part_per_dim * g.num_part_per_dim,
    niters := g.niters, dt := g.dt, dth := g.dth, r_cut_off_2 := g.r_cut_off_2,
    r_cut_off_2_inv := g.r_cut_off_2_inv, r_cut_off_6_inv := g.r_cut_off_6_inv,
    Uc := g.Uc, Duc := g.Duc, seed := g.seed, init_temp := g.init_temp,
    num_part_per_dim := g.num_part_per_dim }

/-- The first loop nest of `problem_setup`: the lattice of every real cell. -/
def problem_setup_lattice (lib : Libm K) (g : Globals K) (v_magnitude placeholder : K)
    (s : SetupState K) : Outcome (SetupState K) :=
  forCells g (fun i j s =>
      forEach (fun a s =>
        forEach (fun b s =>
            .ok (problem_setup_place lib g v_magnitude placeholder i j a b s))
          (loopIdx 0 g.num_part_per_dim) s)
        (loopIdx 0 g.num_part_per_dim) s)
    s

/-- The routine `problem_setup()`: it sets `cells` (all heads `NULL` after `calloc`) and
`num_particles`, creates the particles and removes the mean velocity. -/
def problem_setup (lib : Libm K) (g : Globals K) (fuel : Nat) (m : Mem K) :
    Outcome (Globals K × Mem K) :=
  let m0 : Mem K := { heap := m.heap, cells := fun _ _ => none, brk := m.brk }
  let g1 := problem_setup_globals g
  let v_magnitude := lib.sqrt (3 * g.init_temp)
  let placeholder := 2 * lib.pi / (lib.rand_max : K)
  (problem_setup_lattice lib g1 v_magnitude placeholder
    { mem := m0, v_sum_x := 0, v_sum_y := 0, calls := 0 }).bind
    (fun s =>
      let v_avg_x := s.v_sum_x / (g1.num_particles : K)
      let v_avg_y := s.v_sum_y / (g1.num_particles : K)
      (forCells g1 (fun i j m =>
          whileSome (problem_setup_shift v_avg_x v_avg_y) fuel (m.cells i j) m) s.mem).bind
        (fun m2 => .ok (g1, m2)))

end OrderedField

/-! ## Vocabulary of the specification: lists, grid, boxes, pair terms -/

/-- The pointers met when following `next` from `start` until `NULL` are exactly `L`. -/
def chain {K : Type} (h : Nat → particle_t K) (start : Option Nat) : List Nat → Prop
  | [] => start = none
  | q :: rest => start = some q ∧ chain h (h q).next rest

/-- A doubly-linked chain: following `next` from `start` gives `L`, and every `prev`
points at the predecessor (`pv` for the first element). -/
def dll {K : Type} (h : Nat → particle_t K) (pv : Option Nat) (start : Option Nat) :
    List Nat → Prop
  | [] => start = none
  | q :: rest => start = some q ∧ (h q).prev = pv ∧ dll h (some q) (h q).next rest

instance chain.dec {K : Type} (h : Nat → particle_t K) :
    (start : Option Nat) → (L : List Nat) → Decidable (chain h start L)
  | start, [] => inferInstanceAs (Decidable (start = none))
  | start, q :: rest =>
    @instDecidableAnd _ _ (inferInstanceAs (Decidable (start = some q)))
      (chain.dec h (h q).next rest)

instance dll.dec {K : Type} (h : Nat → particle_t K) :
    (pv start : Option Nat) → (L : List Nat) → Decidable (dll h pv start L)
  | _, start, [] => inferInstanceAs (Decidable (start = none))
  | pv, start, q :: rest =>
    @instDecidableAnd _ _ (inferInstanceAs (Decidable (start = some q)))
      (@instDecidableAnd _ _ (inferInstanceAs (Decidable ((h q).prev = pv)))
        (dll.dec h (some q) (h q).next rest))

/-- The real cells in the order the loop nest visits them. -/
def cellOrder {K : Type} (g : Globals K) : List (Int × Int) :=
  (loopIdx 1 (g.x + 1)).flatMap (fun i => (loopIdx 1 (g.y + 1)).map (fun j => (i, j)))

/-- The cells of the padded grid, ghost layer included. -/
def paddedOrder {K : Type} (g : Globals K) : List (Int × Int) :=
  (loopIdx 0 (g.x + 2)).flatMap (fun i => (loopIdx 0 (g.y + 2)).map (fun j => (i, j)))

/-- The particles of all real cells, cell after cell, for a family `A` of lists. -/
def allParts {K : Type} (g : Globals K) (A : Int → Int → List Nat) : List Nat :=
  (cellOrder g).flatMap (fun c => A c.1 c.2)

/-- The state invariant of the cell grid: every real cell `(i, j)` heads a well-formed
doubly-linked list `A i j`, and every particle is a member of exactly one of them. -/
def WF {K : Type} (g : Globals K) (m : Mem K) (A : Int → Int → List Nat) : Prop :=
  (∀ c ∈ cellOrder g, dll m.heap none (m.cells c.1 c.2) (A c.1 c.2)) ∧ (allParts g A).Nodup

instance WF.dec {K : Type} (g : Globals K) (m : Mem K) (A : Int → Int → List Nat) :
    Decidable (WF g m A) := by
  unfold WF
  exact inferInstance

/-- The cell `(i, j)` is a real cell of the grid. -/
def realCell {K : Type} (g : Globals K) (i j : Int) : Prop :=
  1 ≤ i ∧ i ≤ g.x ∧ 1 ≤ j ∧ j ≤ g.y

instance realCell.dec {K : Type} (g : Globals K) (i j : Int) : Decidable (realCell g i j) := by
  unfold realCell
  exact inferInstance

/-- The periodic wrap of a cell index on an axis with `n` real cells: ghost index `0`
is the last real index, ghost index `n + 1` is the first, real indices are kept. -/
def wrapIdx (n i : Int) : Int :=
  if i = 0 then n else if i = n + 1 then 1 else i

section OrderedRing

variable {K : Type} [LinearOrderedCommRing K]

/-- The local coordinates of the record lie in the box of one cell. -/
def inRange (g : Globals K) (r : particle_t K) : Prop :=
  0 ≤ r.x ∧ r.x < g.cell_size ∧ 0 ≤ r.y ∧ r.y < g.cell_size

instance inRange.dec (g : Globals K) (r : particle_t K) : Decidable (inRange g r) := by
  unfold inRange
  exact inferInstance

/-- A local coordinate of the record is more than one cell away from the box. -/
def tooFar (g : Globals K) (r : particle_t K) : Prop :=
  r.x < -g.cell_size ∨ r.x ≥ 2 * g.cell_size ∨ r.y < -g.cell_size ∨ r.y ≥ 2 * g.cell_size

instance tooFar.dec (g : Globals K) (r : particle_t K) : Decidable (tooFar g r) := by
  unfold tooFar
  exact inferInstance

/-- The axis shift of a local coordinate `v`: `-1` below the box, `+1` at or above
`cs`, else `0`. -/
def shiftOf (cs v : K) : Int :=
  if v < 0 then -1 else if v ≥ cs then 1 else 0

/-- The record after migration: the local coordinates rebased by the axis shifts, the
other data kept. -/
def migrated (g : Globals K) (r : particle_t K) : K × K × K × K × K × K × Int :=
  (r.x - (shiftOf g.cell_size r.x : K) * g.cell_size,
   r.y - (shiftOf g.cell_size r.y : K) * g.cell_size, r.ax, r.ay, r.vx, r.vy, r.part_id)

end OrderedRing

section OrderedField

variable {K : Type} [LinearOrderedField K]

/-- The displacement in `x` from the candidate `q` of neighbour offset `a` to `p`:
`p.x - q.x - a * cell_size`. -/
def pairDx (g : Globals K) (h : Nat → particle_t K) (p q : Nat) (a : Int) : K :=
  (h p).x - (h q).x - (a : K) * g.cell_size

/-- The displacement in `y` from the candidate `q` of neighbour offset `b` to `p`:
`p.y - q.y - b * cell_size`. -/
def pairDy (g : Globals K) (h : Nat → particle_t K) (p q : Nat) (b : Int) : K :=
  (h p).y - (h q).y - (b : K) * g.cell_size

/-- The squared distance `dx^2 + dy^2` of a pair. -/
def pairR2 (g : Globals K) (h : Nat → particle_t K) (p q : Nat) (a b : Int) : K :=
  pairDx g h p q a ^ 2 + pairDy g h p q b ^ 2

/-- The Lennard-Jones factor `48 * (1/r2) * (1/r2)^3 * ((1/r2)^3 - 0.5)`. -/
def ljFactor (r2 : K) : K :=
  48 * (1 / r2) * (1 / r2) ^ 3 * ((1 / r2) ^ 3 - 1 / 2)

/-- The contribution `f * (dx, dy)` of the candidate `q` to the acceleration of `p`: zero
for `q = p` and for `r2 ≥ cutoff^2`. -/
def pairForce (g : Globals K) (h : Nat → particle_t K) (p q : Nat) (a b : Int) : K × K :=
  if q ≠ p ∧ pairR2 g h p q a b < g.r_cut_off ^ 2 then
    (ljFactor (pairR2 g h p q a b) * pairDx g h p q a,
      ljFactor (pairR2 g h p q a b) * pairDy g h p q b)
  else (0, 0)

/-- The contribution `4 * r6inv * (r6inv - 1) - Uc - Duc * (sqrt r2 - cutoff)` of one visit
to the potential energy: zero for `q = p` and for `r2 ≥ cutoff^2`. -/
def pairEnergy (g : Globals K) (sqrt : K → K) (h : Nat → particle_t K) (p q : Nat)
    (a b : Int) : K :=
  if q ≠ p ∧ pairR2 g h p q a b < g.r_cut_off ^ 2 then
    4 * (1 / pairR2 g h p q a b) ^ 3 * ((1 / pairR2 g h p q a b) ^ 3 - 1) - g.Uc -
      g.Duc * (sqrt (pairR2 g h p q a b) - g.r_cut_off)
  else 0

/-- The sum of `t a b q` over the offsets `a, b ∈ {-1, 0, 1}` and the particles `q` of the
list of cell `(i + a, j + b)`, in the order of the scan. -/
def neighbourSum {M : Type} [AddCommMonoid M] (A : Int → Int → List Nat) (i j : Int)
    (t : Int → Int → Nat → M) : M :=
  ((loopIdx (-1) 2).map (fun a =>
    ((loopIdx (-1) 2).map (fun b => ((A (i + a) (j + b)).map (fun q => t a b q)).sum)).sum)).sum

end OrderedField

/-- The memory `m` with the stored accelerations replaced by `u` and `v`. -/
def withAccel {K : Type} (m : Mem K) (u v : Nat → K) : Mem K where
  heap := fun n => ((m.heap n).setAx (u n)).setAy (v n)
  cells := m.cells
  brk := m.brk

/-! ## Auxiliary states and invariants of the proofs -/

/-- The family of lists `A` with the list of cell `(i, j)` replaced by `L`. -/
def setList (A : Int → Int → List Nat) (i j : Int) (L : List Nat) : Int → Int → List Nat :=
  fun a b => if a = i ∧ b = j then L else A a b

/-- Every real cell heads the well-formed doubly-linked list `A i j`. -/
def cellsDll {K : Type} (g : Globals K) (m : Mem K) (A : Int → Int → List Nat) : Prop :=
  ∀ i j, realCell g i j → dll m.heap none (m.cells i j) (A i j)

/-- No particle is a member of the lists of two real cells. -/
def cellsDisjoint {K : Type} (g : Globals K) (A : Int → Int → List Nat) : Prop :=
  ∀ i j a b p, realCell g i j → realCell g a b → p ∈ A i j → p ∈ A a b → i = a ∧ j = b

section OrderedRing

variable {K : Type} [LinearOrderedCommRing K]

/-- The memory after the relocating branch of `update_cells` for the particle `p` of
cell `(i, j)`. -/
def update_cells_move (g : Globals K) (m : Mem K) (i j : Int) (p : Nat) : Mem K :=
  let m1 := m.modify p (fun r => r.setX (r.x + (shiftOf g.cell_size (m.heap p).x : K) * -g.cell_size))
  let m2 := m1.modify p (fun r => r.setY (r.y + (shiftOf g.cell_size (m.heap p).y : K) * -g.cell_size))
  add_particle (remove_particle m2 i j p) (wrapIdx g.x (i + shiftOf g.cell_size (m.heap p).x))
    (wrapIdx g.y (j + shiftOf g.cell_size (m.heap p).y)) p

/-- The family of lists after the relocating branch of `update_cells` for the particle
`p` of cell `(i, j)`: `p` leaves the list of `(i, j)` and becomes the head of the list of
its destination. -/
def moveList (g : Globals K) (m : Mem K) (A : Int → Int → List Nat) (i j : Int) (p : Nat) :
    Int → Int → List Nat :=
  let A1 := setList A i j ((A i j).erase p)
  let ni := wrapIdx g.x (i + shiftOf g.cell_size (m.heap p).x)
  let nj := wrapIdx g.y (j + shiftOf g.cell_size (m.heap p).y)
  setList A1 ni nj (p :: A1 ni nj)

/-- The relation kept by `update_cells` between the memory `m0` with lists `A0` at the
call and the memory `m` with lists `A` at any later point of the traversal: the grid is
well formed, the particles are the same, every particle is either where it was with its
data, or in its destination cell with its coordinates rebased, and the ghost heads are
untouched. -/
structure Migr (g : Globals K) (m0 : Mem K) (A0 : Int → Int → List Nat) (m : Mem K)
    (A : Int → Int → List Nat) : Prop where
  dll : cellsDll g m A
  disj : cellsDisjoint g A
  same : ∀ p, (∃ i j, realCell g i j ∧ p ∈ A i j) ↔ (∃ i j, realCell g i j ∧ p ∈ A0 i j)
  track : ∀ i j p, realCell g i j → p ∈ A0 i j →
    (p ∈ A i j ∧ (m.heap p).data = (m0.heap p).data) ∨
    (¬ tooFar g (m0.heap p) ∧
      p ∈ A (wrapIdx g.x (i + shiftOf g.cell_size (m0.heap p).x))
          (wrapIdx g.y (j + shiftOf g.cell_size (m0.heap p).y)) ∧
      (m.heap p).data = migrated g (m0.heap p))
  ghost : ∀ i j, ¬ realCell g i j → m.cells i j = m0.cells i j

/-- The record of a particle after the half kick and the drift of `move_particles`. -/
def move_particles_rec (g : Globals K) (r : particle_t K) : particle_t K :=
  (((r.setVx (r.vx + g.dth * r.ax)).setVy (r.vy + g.dth * r.ay)).setX
    (r.x + g.dt * (r.vx + g.dth * r.ax))).setY (r.y + g.dt * (r.vy + g.dth * r.ay))

end OrderedRing

section OrderedField

variable {K : Type} [LinearOrderedField K]

/-- The invariant of the first loop nest of `problem_setup`: the real cells head
well-formed disjoint lists of particles below the allocation frontier, every particle
lies in the box of its cell, and the ghost heads are null. -/
structure LatticeInv (g : Globals K) (s : SetupState K) (A : Int → Int → List Nat) :
    Prop where
  dll : cellsDll g s.mem A
  disj : cellsDisjoint g A
  fresh : ∀ i j p, p ∈ A i j → p < s.mem.brk
  box : ∀ i j, realCell g i j → ∀ p ∈ A i j, inRange g (s.mem.heap p)
  ghost : ∀ i j, ¬ realCell g i j → s.mem.cells i j = none

/-- The record of a particle after the second loop nest of `problem_setup`. -/
def problem_setup_shift_rec (v_avg_x v_avg_y : K) (r : particle_t K) : particle_t K :=
  (r.setVx (r.vx - v_avg_x)).setVy (r.vy - v_avg_y)

/-- The record of a particle after the first loop nest of `comp_accel`. -/
def comp_accel_zero_rec (r : particle_t K) : particle_t K :=
  (r.setAx 0).setAy 0

/-- What one visit of the candidate `q` of the neighbour cell `(i+a, j+b)` adds to
`p->ax`, `p->ay` and `pot_energy` in `comp_accel`, computed as the code does from the
heap `h`. -/
def comp_accel_terms (g : Globals K) (sqrt : K → K) (h : Nat → particle_t K)
    (i j a b : Int) (p q : Nat) : K × K × K :=
  if p = q then (0, 0, 0)
  else
    let p_real_x := ((i - 1 : Int) : K) * g.cell_size + (h p).x
    let p_real_y := ((j - 1 : Int) : K) * g.cell_size + (h p).y
    let q_real_x := ((i + a - 1 : Int) : K) * g.cell_size + (h q).x
    let q_real_y := ((j + b - 1 : Int) : K) * g.cell_size + (h q).y
    let dx := p_real_x - q_real_x
    let dy := p_real_y - q_real_y
    let r_2 := dx * dx + dy * dy
    if r_2 < g.r_cut_off_2 then
      let r_2_inv := 1 / r_2
      let r_6_inv := r_2_inv * r_2_inv * r_2_inv
      let f := 48 * r_2_inv * r_6_inv * (r_6_inv - 1 / 2)
      (f * dx, f * dy, 4 * r_6_inv * (r_6_inv - 1) - g.Uc - g.Duc * (sqrt r_2 - g.r_cut_off))
    else (0, 0, 0)

/-- The state of `comp_accel` after `p->ax += t.1; p->ay += t.2.1; pot_energy += t.2.2`. -/
def addAccel (s : Mem K × K) (p : Nat) (t : K × K × K) : Mem K × K :=
  ((s.1.modify p (fun r => r.setAx (r.ax + t.1))).modify p (fun r => r.setAy (r.ay + t.2.1)),
    s.2 + t.2.2)

/-- The memory `m` has the `next` links, the positions and the heads of the reference
heap `h0` and heads `c0`. -/
def sameGeom (h0 : Nat → particle_t K) (c0 : Int → Int → Option Nat) (m : Mem K) : Prop :=
  (∀ n, (m.heap n).next = (h0 n).next ∧ (m.heap n).x = (h0 n).x ∧ (m.heap n).y = (h0 n).y) ∧
    m.cells = c0

end OrderedField

/-! ## Concrete states -/

/-- A small memory used to instantiate the list theorems: cell (1,1) holds the list
`[1, 2]`, every other cell is empty. -/
def exMem : Mem Int where
  heap := fun n =>
    { x := 0, y := 0, ax := 0, ay := 0, vx := 0, vy := 0,
      next := if n = 1 then some 2 else none,
      prev := if n = 2 then some 1 else none,
      part_id := 0 }
  cells := fun i j => if i = 1 ∧ j = 1 then some 1 else none
  brk := 3

/-- Example globals over the integers: a 2 x 2 grid of cells of size 8, cut-off 1, one
step of length 2, one particle per cell. -/
def exGlobals : Globals Int where
  t_end := 2
  r_cut_off := 1
  cell_size := 8
  x := 2
  y := 2
  num_particles := 4
  niters := 1
  dt := 2
  dth := 1
  r_cut_off_2 := 1
  r_cut_off_2_inv := 1
  r_cut_off_6_inv := 1
  Uc := 0
  Duc := -24
  seed := 100
  init_temp := 1
  num_part_per_dim := 1

/-- An example record over the integers with the given position and velocity, zero
acceleration and no links. -/
def exParticle (x y vx vy : Int) : particle_t Int :=
  { x := x, y := y, ax := 0, ay := 0, vx := vx, vy := vy, next := none, prev := none,
    part_id := 0 }

/-- An example memory for `exGlobals`: one particle in the middle of each of the four
real cells, particle `0` of cell `(1, 1)` moving in `x` with velocity `5`. -/
def exGrid : Mem Int where
  heap := fun n => if n = 0 then exParticle 4 4 5 0 else exParticle 4 4 0 0
  cells := fun i j =>
    if i = 1 ∧ j = 1 then some 0 else if i = 1 ∧ j = 2 then some 1
    else if i = 2 ∧ j = 1 then some 2 else if i = 2 ∧ j = 2 then some 3 else none
  brk := 4

/-- The state `exGrid` after the drift of `move_particles`: particle `0` has moved to
local `x = 14`, still in the list of cell `(1, 1)`. -/
def exDrifted : Mem Int where
  heap := fun n => if n = 0 then exParticle 14 4 5 0 else exParticle 4 4 0 0
  cells := exGrid.cells
  brk := 4

/-- The lists of the real cells of `exGrid`. -/
def exLists : Int → Int → List Nat :=
  fun i j =>
    if i = 1 ∧ j = 1 then [0] else if i = 1 ∧ j = 2 then [1]
    else if i = 2 ∧ j = 1 then [2] else if i = 2 ∧ j = 2 then [3] else []

/-- Example globals over the rationals: the defaults of `data.c` on a 2 x 2 grid. -/
def exGlobalsQ : Globals Rat where
  t_end := 1 / 2
  r_cut_off := 5 / 2
  cell_size := 5 / 2
  x := 2
  y := 2
  num_particles := 0
  niters := 1000
  dt := 0
  dth := 0
  r_cut_off_2 := 0
  r_cut_off_2_inv := 0
  r_cut_off_6_inv := 0
  Uc := 0
  Duc := 0
  seed := 100
  init_temp := 1
  num_part_per_dim := 2

/-- An example memory over the rationals: the two particles `0` and `1` form the list of
cell `(1, 1)`; particle `0` has drifted to `x = 3` past the right edge of the cell. -/
def exGridQ : Mem Rat where
  heap := fun n =>
    { x := if n = 0 then 3 else 1, y := 1, ax := 0, ay := 0, vx := 0, vy := 0,
      next := if n = 0 then some 1 else none, prev := if n = 1 then some 0 else none,
      part_id := 0 }
  cells := fun i j => if i = 1 ∧ j = 1 then some 0 else none
  brk := 2

/-- The lists of the real cells of `exGridQ`. -/
def exListsQ : Int → Int → List Nat :=
  fun i j => if i = 1 ∧ j = 1 then [0, 1] else []

/-- The lists of the padded grid of `exGridQ` after `apply_boundary`: every cell has the
list of its wrapped real cell. -/
def exPaddedQ : Int → Int → List Nat :=
  fun i j => exListsQ (wrapIdx 2 i) (wrapIdx 2 j)

/-- An example C library for `problem_setup`. -/
def exLibm : Libm Rat where
  sqrt := fun v => v
  cos := fun _ => 1
  sin := fun _ => 0
  pi := 3
  rand_max := 2147483647
  rand := fun k => k

/-! ## Auxiliary definitions for `update_velocity` -/

section OrderedRing

variable {K : Type} [LinearOrderedCommRing K]

/-- The record of a particle after one iteration of the loop of `update_velocity`. -/
def update_velocity_rec (g : Globals K) (r : particle_t K) : particle_t K :=
  (r.setVx (r.vx + g.dth * r.ax)).setVy (r.vy + g.dth * r.ay)

/-- The square of the velocity of a record, the term added to `kinetic_energy`. -/
def speed2 (r : particle_t K) : K :=
  r.vx * r.vx + r.vy * r.vy

end OrderedRing

/-! ## Command line (`args.c`) and the routine `main` (`md.c`) -/

/-- The option variables of `args.c` and the base name of the output files kept by
`vtk.c`. -/
structure Flags where
  verbose : Int
  no_output : Int
  output_freq : Int
  enable_checkpoints : Int
  basename : String

/-- What `parse_args` uses from the C library: `atoi`, `atol`, `atof`, and the conversion
of a `double` to `int` made by the assignment `niters = atof(optarg)`. -/
structure Libc (K : Type) where
  atoi : String → Int
  atol : String → Int
  atof : String → K
  toInt : K → Int

/-- The two ways `parse_args` leaves the program through `exit(1)`: after the help
message alone (`-h` or an option `getopt_long` does not know), and after the message that
the cell size must be greater than or equal to the cut off distance. -/
inductive ExitCause
  | help
  | config
  deriving DecidableEq

section OrderedField

variable {K : Type} [LinearOrderedField K]

/-- The static initialisers of the globals of `data.c`; a global without initialiser
starts at zero. -/
def initGlobals : Globals K where
  t_end := 1 / 2
  r_cut_off := 5 / 2
  cell_size := 5 / 2
  x := 500
  y := 500
  num_particles := 0
  niters := 1000
  dt := 0
  dth := 0
  r_cut_off_2 := 0
  r_cut_off_2_inv := 0
  r_cut_off_6_inv := 0
  Uc := 0
  Duc := 0
  seed := 0
  init_temp := 1
  num_part_per_dim := 2

/-- The static initialisers of the option variables of `args.c`. -/
def initFlags : Flags where
  verbose := 0
  no_output := 0
  output_freq := 100
  enable_checkpoints := 0
  basename := ""

/-- The routine `set_defaults()`. -/
def set_defaults (s : Globals K × Flags) : Globals K × Flags :=
  ({ s.1 with seed := 100 }, { s.2 with basename := "out/md" })

/-- The `switch` of `parse_args` for one value `c` returned by `getopt_long`, with its
`optarg`. -/
def parse_args_case (lc : Libc K) (c : Char) (optarg : String) (s : Globals K × Flags) :
    Except ExitCause (Globals K × Flags) :=
  if c = 'x' then .ok ({ s.1 with x := lc.atoi optarg }, s.2)
  else if c = 'y' then .ok ({ s.1 with y := lc.atoi optarg }, s.2)
  else if c = 'p' then .ok ({ s.1 with num_part_per_dim := lc.atoi optarg }, s.2)
  else if c = 's' then .ok ({ s.1 with cell_size := lc.atof optarg }, s.2)
  else if c = 'r' then .ok ({ s.1 with r_cut_off := lc.atof optarg }, s.2)
  else if c = 't' then .ok ({ s.1 with t_end := lc.atof optarg }, s.2)
  else if c = 'i' then .ok ({ s.1 with niters := lc.toInt (lc.atof optarg) }, s.2)
  else if c = 'd' then .ok ({ s.1 with dt := lc.atof optarg }, s.2)
  else if c = 'f' then .ok (s.1, { s.2 with output_freq := lc.atoi optarg })
  else if c = 'e' then .ok ({ s.1 with seed := lc.atol optarg }, s.2)
  else if c = 'n' then .ok (s.1, { s.2 with no_output := 1 })
  else if c = 'o' then .ok (s.1, { s.2 with basename := optarg })
  else if c = 'c' then .ok (s.1, { s.2 with enable_checkpoints := 1 })
  else if c = 'v' then .ok (s.1, { s.2 with verbose := 1 })
  else if c = '?' ∨ c = 'h' then .error .help
  else .ok s

/-- The `while` loop of `parse_args` over the values that `getopt_long` returns before
`-1`, each with its `optarg`. -/
def parse_args_loop (lc : Libc K) :
    List (Char × String) → Globals K × Flags → Except ExitCause (Globals K × Flags)
  | [], s => .ok s
  | o :: rest, s =>
    match parse_args_case lc o.1 o.2 s with
    | .ok s1 => parse_args_loop lc rest s1
    | .error e => .error e

/-- The routine `parse_args()`: the option loop, then the check of the cut off against the
cell size. -/
def parse_args (lc : Libc K) (opts : List (Char × String)) (s : Globals K × Flags) :
    Except ExitCause (Globals K × Flags) :=
  match parse_args_loop lc opts s with
  | .ok s1 => if s1.1.r_cut_off > s1.1.cell_size then .error .config else .ok s1
  | .error e => .error e

/-- The local variables of `main` that the time loop changes, with the memory. -/
structure Sim (K : Type) where
  mem : Mem K
  potential_energy : K
  kinetic_energy : K
  iters : Int
  t : K

/-- How `main` ends after `parse_args`: it reaches the end of the time loop, `update_cells`
calls `exit(1)`, the remainder `iters % output_freq` is taken with `output_freq = 0`
(undefined in C, a trap on the usual targets), or the fuel of the model runs out. -/
inductive Run (σ : Type) where
  | ok (s : σ)
  | fatal
  | divZero
  | outOfFuel

/-- The result of a routine as a result of `main`. -/
def Run.ofOutcome {σ : Type} (o : Outcome σ) : Run σ :=
  match o with
  | .ok s => .ok s
  | .fatal => .fatal
  | .outOfFuel => .outOfFuel

/-- Sequencing in `main`. -/
def Run.bind {σ τ : Type} (o : Run σ) (f : σ → Run τ) : Run τ :=
  match o with
  | .ok s => f s
  | .fatal => .fatal
  | .divZero => .divZero
  | .outOfFuel => .outOfFuel

/-- The five routines of the body of the time loop in the order of the source:
`move_particles`, `update_cells`, `apply_boundary`, `comp_accel`, `update_velocity`; the
values are the memory, `potential_energy` and `kinetic_energy`. -/
def main_routines (g : Globals K) (sqrt : K → K) (fuel : Nat) (m : Mem K) :
    Outcome (Mem K × K × K) :=
  (move_particles g fuel m).bind (fun m1 =>
    (update_cells g fuel m1).bind (fun m2 =>
      (comp_accel g sqrt fuel (apply_boundary g m2)).bind (fun r =>
        (update_velocity g fuel r.1).bind (fun u => .ok (u.1, r.2, u.2)))))

/-- The test `iters % output_freq == 0` of the body of the time loop: `none` when
`output_freq` is `0`, where the remainder is undefined. -/
def output_due (f : Flags) (iters : Int) : Option Bool :=
  if f.output_freq = 0 then none else some (decide (Int.tmod iters f.output_freq = 0))

/-- The body of the time loop of `main`, with the increments `t += dt, iters++`: the five
routines, then the test `iters % output_freq == 0` that guards the status line and the
checkpoint (output that changes no variable of the program). -/
def main_body (g : Globals K) (f : Flags) (sqrt : K → K) (fuel : Nat) (s : Sim K) :
    Run (Sim K) :=
  match main_routines g sqrt fuel s.mem with
  | .ok r =>
    match output_due f s.iters with
    | none => .divZero
    | some _ =>
      .ok { mem := r.1, potential_energy := r.2.1, kinetic_energy := r.2.2,
            iters := s.iters + 1, t := s.t + g.dt }
  | .fatal => .fatal
  | .outOfFuel => .outOfFuel

/-- The time loop `for (t = 0.0; t < t_end; t += dt, iters++)` of `main`; `steps` bounds
the number of iterations. -/
def main_loop (g : Globals K) (f : Flags) (sqrt : K → K) (fuel : Nat) :
    Nat → Sim K → Run (Sim K)
  | steps, s =>
    if s.t < g.t_end then
      match steps with
      | 0 => .outOfFuel
      | steps + 1 => (main_body g f sqrt fuel s).bind (main_loop g f sqrt fuel steps)
    else .ok s

/-- The routine `main`, up to the end of the time loop: `set_defaults`, `parse_args`,
`setup`, `problem_setup`, `apply_boundary`, `comp_accel`, then the time loop. An `exit(1)`
of `parse_args` ends it before `setup`. -/
def main (lc : Libc K) (lib : Libm K) (opts : List (Char × String)) (fuel steps : Nat)
    (m : Mem K) : Except ExitCause (Run (Globals K × Sim K)) :=
  match parse_args lc opts (set_defaults (initGlobals, initFlags)) with
  | .error e => .error e
  | .ok s =>
    .ok ((Run.ofOutcome (problem_setup lib (setup s.1) fuel m)).bind (fun r =>
      (Run.ofOutcome (comp_accel r.1 lib.sqrt fuel (apply_boundary r.1 r.2))).bind (fun c =>
        (main_loop r.1 s.2 lib.sqrt fuel steps
          { mem := c.1, potential_energy := 0, kinetic_energy := 0, iters := 0,
            t := 0 }).bind (fun z => .ok (r.1, z)))))

/-- The time loop with its test left out: `n` executions of the body, one after the
other. -/
def repeatBody {σ : Type} (body : σ → Run σ) : Nat → σ → Run σ
  | 0, s => .ok s
  | n + 1, s => (body s).bind (repeatBody body n)

end OrderedField

/-- The number written by a string of decimal digits. -/
def readNat (s : String) : Nat :=
  s.data.foldl (fun n c => 10 * n + (c.toNat - 48)) 0

/-- An example C library for `parse_args`: it reads unsigned decimal integers. -/
def exLibc : Libc Rat where
  atoi := fun s => (readNat s : Int)
  atol := fun s => (readNat s : Int)
  atof := fun s => (readNat s : Rat)
  toInt := fun v => v.floor

/-! ## Auxiliary definitions for the lattice of `problem_setup` -/

/-- The family `B` with the entry of cell `(i, j)` replaced by `L`. -/
def setPairs (B : Int → Int → List (Int × Int)) (i j : Int) (L : List (Int × Int)) :
    Int → Int → List (Int × Int) :=
  fun a b => if a = i ∧ b = j then L else B a b

/-- The lattice positions `(a, b)` of one cell in the order in which its list holds their
particles after the loops over `a` and `b`: the particle created last is the head. -/
def latticeOrder (n : Int) : List (Int × Int) :=
  (loopIdx 0 n).reverse.flatMap (fun a => (loopIdx 0 n).reverse.flatMap (fun b => [(a, b)]))

/-- The lattice positions `(a, b)` with `a, b` in `0..n-1`, each once. -/
def latticeIndex (n : Int) : List (Int × Int) :=
  (loopIdx 0 n).flatMap (fun a => (loopIdx 0 n).map (fun b => (a, b)))

section OrderedField

variable {K : Type} [LinearOrderedField K]

/-- The local coordinates `(part_x * cell_size, part_y * cell_size)` that `problem_setup`
writes for the lattice position `(a, b)`. -/
def latticeLocal (g : Globals K) (ab : Int × Int) : K × K :=
  (((1 / 2) * (1 / (g.num_part_per_dim : K)) + (ab.1 : K) / (g.num_part_per_dim : K)) *
      g.cell_size,
    ((1 / 2) * (1 / (g.num_part_per_dim : K)) + (ab.2 : K) / (g.num_part_per_dim : K)) *
      g.cell_size)

/-- The global coordinates of a record of cell `(i, j)` as `write_vtk` and `comp_accel`
reconstruct them: `((i-1) * cell_size + p.x, (j-1) * cell_size + p.y)`. -/
def globalPos (g : Globals K) (i j : Int) (r : particle_t K) : K × K :=
  (((i - 1 : Int) : K) * g.cell_size + r.x, ((j - 1 : Int) : K) * g.cell_size + r.y)

/-- The lattice point of the specification for the position `(a, b)` of cell `(i, j)`:
`(((i-1) + (a + 1/2)/n) * cell_size, ((j-1) + (b + 1/2)/n) * cell_size)`. -/
def latticePoint (g : Globals K) (i j : Int) (ab : Int × Int) : K × K :=
  ((((i - 1 : Int) : K) + ((ab.1 : K) + 1 / 2) / (g.num_part_per_dim : K)) * g.cell_size,
    (((j - 1 : Int) : K) + ((ab.2 : K) + 1 / 2) / (g.num_part_per_dim : K)) * g.cell_size)

/-- The invariant of the first loop nest of `problem_setup` that follows the positions
and the velocity sums: the real cells head well-formed disjoint lists of particles below
the allocation frontier, the ghost heads are null, the local coordinates along the list of
a cell are those of the lattice positions `B i j`, and `v_sum_x`, `v_sum_y` are the sums of
the stored velocities. -/
structure LatticeTrack (g : Globals K) (s : SetupState K) (A : Int → Int → List Nat)
    (B : Int → Int → List (Int × Int)) : Prop where
  dll : cellsDll g s.mem A
  disj : cellsDisjoint g A
  fresh : ∀ i j p, p ∈ A i j → p < s.mem.brk
  ghost : ∀ i j, ¬ realCell g i j → s.mem.cells i j = none
  pos : ∀ i j, (A i j).map (fun p => ((s.mem.heap p).x, (s.mem.heap p).y)) =
    (B i j).map (latticeLocal g)
  sumx : s.v_sum_x = ((allParts g A).map (fun p => (s.mem.heap p).vx)).sum
  sumy : s.v_sum_y = ((allParts g A).map (fun p => (s.mem.heap p).vy)).sum

end OrderedField

/-! ## Auxiliary definitions for the periodic scan of `comp_accel` -/

/-- The lists that the cells of the padded grid head after `apply_boundary`: cell `(i, j)`
has the list of the real cell it wraps to. -/
def paddedLists {K : Type} (g : Globals K) (A : Int → Int → List Nat) : Int → Int → List Nat :=
  fun i j => A (wrapIdx g.x i) (wrapIdx g.y j)

/-- Example globals over the rationals on a 3 x 3 grid, before `setup`. -/
def exGlobals3 : Globals Rat :=
  { exGlobalsQ with x := 3, y := 3 }

/-- An example memory on the 3 x 3 grid: particle `0` is alone in cell `(1, 1)` at
`(1/4, 1/4)`, particle `1` is alone in cell `(3, 3)` at `(9/4, 9/4)`. -/
def exCorners : Mem Rat where
  heap := fun n =>
    { x := if n = 0 then 1 / 4 else 9 / 4, y := if n = 0 then 1 / 4 else 9 / 4,
      ax := 0, ay := 0, vx := 0, vy := 0, next := none, prev := none, part_id := 0 }
  cells := fun i j => if i = 1 ∧ j = 1 then some 0 else if i = 3 ∧ j = 3 then some 1 else none
  brk := 2

/-- The lists of the real cells of `exCorners`. -/
def exCornerLists : Int → Int → List Nat :=
  fun i j => if i = 1 ∧ j = 1 then [0] else if i = 3 ∧ j = 3 then [1] else []

/-- The nine neighbour offsets `(a, b)` in the order of the scan of `comp_accel`. -/
def offsets : List (Int × Int) :=
  (loopIdx (-1) 2).flatMap (fun a => (loopIdx (-1) 2).map (fun b => (a, b)))

/-- The particles of the real cells, each with its cell, cell after cell. -/
def cellParts {K : Type} (g : Globals K) (A : Int → Int → List Nat) :
    List ((Int × Int) × Nat) :=
  (cellOrder g).flatMap (fun c => (A c.1 c.2).map (fun p => (c, p)))

/-- The real cell that the neighbour cell of `c` at offset `o` wraps to. -/
def wrapCell {K : Type} (g : Globals K) (c o : Int × Int) : Int × Int :=
  (wrapIdx g.x (c.1 + o.1), wrapIdx g.y (c.2 + o.2))

/-! ## The all-pairs minimum-image sum of the specification -/

section MinImage

variable {K : Type} [LinearOrderedField K] [FloorRing K]

/-- The minimum image of the displacement `d` on a periodic axis of length `L`: the
displacement shifted by the multiple of `L` nearest to it. -/
def minImage (L d : K) : K :=
  d - L * (round (d / L) : K)

/-- The minimum-image displacement from the particle `v.2` of the real cell `v.1` to the
particle `p` of the real cell `c`, in the periodic domain of size `x * cell_size` by
`y * cell_size`, from the global coordinates of the two particles. -/
def minImageDisp (g : Globals K) (h : Nat → particle_t K) (c : Int × Int) (p : Nat)
    (v : (Int × Int) × Nat) : K × K :=
  (minImage ((g.x : K) * g.cell_size)
      ((globalPos g c.1 c.2 (h p)).1 - (globalPos g v.1.1 v.1.2 (h v.2)).1),
    minImage ((g.y : K) * g.cell_size)
      ((globalPos g c.1 c.2 (h p)).2 - (globalPos g v.1.1 v.1.2 (h v.2)).2))

/-- The term of the all-pairs sum of the specification for the particle `v.2 ≠ p`:
`f * (dx, dy)` over the minimum-image displacement when `dx^2 + dy^2 < cutoff^2`, and
zero otherwise. -/
def minImageForce (g : Globals K) (h : Nat → particle_t K) (c : Int × Int) (p : Nat)
    (v : (Int × Int) × Nat) : K × K :=
  if v.2 ≠ p ∧ (minImageDisp g h c p v).1 ^ 2 + (minImageDisp g h c p v).2 ^ 2 <
      g.r_cut_off ^ 2 then
    (ljFactor ((minImageDisp g h c p v).1 ^ 2 + (minImageDisp g h c p v).2 ^ 2) *
        (minImageDisp g h c p v).1,
      ljFactor ((minImageDisp g h c p v).1 ^ 2 + (minImageDisp g h c p v).2 ^ 2) *
        (minImageDisp g h c p v).2)
  else (0, 0)

/-- The all-pairs sum of the specification for the particle `p` of the real cell `c`: the
sum of the minimum-image terms over all particles of the real cells. -/
def allPairsSum (g : Globals K) (h : Nat → particle_t K) (A : Int → Int → List Nat)
    (c : Int × Int) (p : Nat) : K × K :=
  (((cellParts g A).map (fun v => (minImageForce g h c p v).1)).sum,
    ((cellParts g A).map (fun v => (minImageForce g h c p v).2)).sum)

end MinImage

/-! ## The pair potential of `comp_accel` as a function of the squared distance -/

section OrderedField

variable {K : Type} [LinearOrderedField K]

/-- The unshifted pair potential `4 * r_6_inv * (r_6_inv - 1)` of `comp_accel` at the
squared distance `r_2`, with `r_6_inv = (1 / r_2)^3`. -/
def ljPotential (r_2 : K) : K :=
  4 * (1 / r_2) ^ 3 * ((1 / r_2) ^ 3 - 1)

/-- The term `4 * r_6_inv * (r_6_inv - 1) - Uc - Duc * (sqrt(r_2) - r_cut_off)` that one
visit within the cut off adds to `pot_energy` in `comp_accel`, at the squared distance
`r_2`. -/
def shiftedEnergy (g : Globals K) (sqrt : K → K) (r_2 : K) : K :=
  ljPotential r_2 - g.Uc - g.Duc * (sqrt r_2 - g.r_cut_off)

end OrderedField

/-! ## Global coordinates on one axis -/

section OrderedRing

variable {K : Type} [LinearOrderedCommRing K]

/-- The global coordinate `(cell_index - 1) * cell_size + local` on one axis, as
`comp_accel` and `write_vtk` reconstruct it from the cell index and the local
coordinate. -/
def globalCoord (cs : K) (i : Int) (v : K) : K :=
  ((i - 1 : Int) : K) * cs + v

end OrderedRing

/-- The options of the command line `-f 0 -x 1 -y 1 -p 1` as `getopt_long` returns
them. -/
def exOptsZero : List (Char × String) :=
  [('f', "0"), ('x', "1"), ('y', "1"), ('p', "1")]

/-- The globals and option variables after `set_defaults` and `parse_args` on
`exOptsZero`: one cell, one particle, `output_freq = 0`. -/
def exParsedZero : Globals Rat × Flags :=
  ({ (initGlobals : Globals Rat) with seed := 100, x := 1, y := 1, num_part_per_dim := 1 },
    { initFlags with basename := "out/md", output_freq := 0 })

/-! ## `update_cells` with the rounding of `double` -/

/-- The number of binary digits of `a`, at most `fuel` of them counted; `bitLength a a`
is the number of binary digits of `a`. -/
def bitLength : Nat → Nat → Nat
  | 0, _ => 0
  | fuel + 1, a => if a = 0 then 0 else bitLength fuel (a / 2) + 1

/-- Rounding to nearest of binary64 on integers: the nearest integer with at most 53
significant bits, a tie going to the even significand; `bitLength a a - 53` is the
number of low bits that do not fit.  A `double` of magnitude below
`2 ^ 1023` that is a multiple of a fixed power of two `u` is `n * u` for an integer `n`
with `round53 n = n`, and the sum of two such values computed in `double` is
`round53 (n1 + n2) * u`; overflow and subnormal numbers are outside this model. -/
def round53 (n : Int) : Int :=
  let a := n.natAbs
  if a < 2 ^ 53 then n
  else
    let e := bitLength a a - 53
    let q := a / 2 ^ e
    let r := a % 2 ^ e
    let half := 2 ^ (e - 1)
    let q1 := if r < half then q else if half < r then q + 1
      else if q % 2 = 0 then q else q + 1
    if n < 0 then -((q1 * 2 ^ e : Nat) : Int) else ((q1 * 2 ^ e : Nat) : Int)

section OrderedRing

variable {K : Type} [LinearOrderedCommRing K]

/-- One iteration of the `while` loop of `update_cells` (`md.c`), every arithmetic result
of type `double` passed through the rounding `fl`: the products `2*cell_size` and
`x_shift * -cell_size` and the sum stored in `p->x`, `p->y`.  Negation and comparison
do not round.  With `fl` the identity this is `update_cells_body`. -/
def update_cells_body_fl (fl : K → K) (g : Globals K) (i j : Int) (p : Nat) (m : Mem K) :
    Outcome (Mem K × Option Nat) :=
  let p_next := (m.heap p).next
  if (m.heap p).x < 0 ∨ (m.heap p).x ≥ g.cell_size ∨
      (m.heap p).y < 0 ∨ (m.heap p).y ≥ g.cell_size then
    if (m.heap p).x < -g.cell_size ∨ (m.heap p).x ≥ fl (2 * g.cell_size) ∨
        (m.heap p).y < -g.cell_size ∨ (m.heap p).y ≥ fl (2 * g.cell_size) then
      .fatal
    else
      let x_shift : Int :=
        if (m.heap p).x < 0 then -1 else if (m.heap p).x ≥ g.cell_size then 1 else 0
      let y_shift : Int :=
        if (m.heap p).y < 0 then -1 else if (m.heap p).y ≥ g.cell_size then 1 else 0
      let new_i := i + x_shift
      let new_i := if new_i = 0 then g.x else new_i
      let new_i := if new_i = g.x + 1 then 1 else new_i
      let new_j := j + y_shift
      let new_j := if new_j = 0 then g.y else new_j
      let new_j := if new_j = g.y + 1 then 1 else new_j
      let m1 := m.modify p (fun r => r.setX (fl (r.x + fl ((x_shift : K) * -g.cell_size))))
      let m2 := m1.modify p (fun r => r.setY (fl (r.y + fl ((y_shift : K) * -g.cell_size))))
      let m3 := remove_particle m2 i j p
      let m4 := add_particle m3 new_i new_j p
      .ok (m4, p_next)
  else
    .ok (m, p_next)

/-- The routine `update_cells` (`md.c`) with the rounding `fl` of `double`. -/
def update_cells_fl (fl : K → K) (g : Globals K) (fuel : Nat) (m : Mem K) :
    Outcome (Mem K) :=
  forCells g (fun i j m => whileSome (update_cells_body_fl fl g i j) fuel (m.cells i j) m) m

end OrderedRing

/-- What a run leaves of the particle `p`: the heads of the lists of the cells `(1, 1)`
and `(2, 1)` and the coordinates of `p`, or nothing if the run did not return. -/
def observe (o : Outcome (Mem Int)) (p : Nat) :
    Option (Option Nat × Option Nat × Int × Int) :=
  match o with
  | .ok m => some (m.cells 1 1, m.cells 2 1, (m.heap p).x, (m.heap p).y)
  | _ => none

/-- Globals for binary64 coordinates counted in units of `2 ^ (-60)`: a 2 x 2 grid of
cells of size `2.5`, the default of `data.c`. -/
def exGlobals64 : Globals Int :=
  { exGlobals with cell_size := 5 * 2 ^ 59, r_cut_off := 5 * 2 ^ 59 }

/-- One particle, at local `x = -12 * 2 ^ (-60)` (about `-1e-17`) and `y = 1`, in the
list of the cell `(i, 1)`; every other list is empty. -/
def exEdge (i : Int) : Mem Int where
  heap := fun _ => exParticle (-12) (2 ^ 60) 0 0
  cells := fun a b => if a = i ∧ b = 1 then some 0 else none
  brk := 1

/-- The lists of `exEdge i`. -/
def exEdgeLists (i : Int) : Int → Int → List Nat :=
  fun a b => if a = i ∧ b = 1 then [0] else []

/-! ## Memory writes and the two list primitives, field by field -/

section Lemmas

variable {K : Type}

@[simp] theorem particle_t.setNext_data (r : particle_t K) (v : Option Nat) :
    (r.setNext v).data = r.data := rfl
@[simp] theorem particle_t.setPrev_data (r : particle_t K) (v : Option Nat) :
    (r.setPrev v).data = r.data := rfl

@[simp] theorem Mem.modify_heap (m : Mem K) (p : Nat) (f : particle_t K → particle_t K) (n : Nat) :
    (m.modify p f).heap n = if n = p then f (m.heap p) else m.heap n := rfl
@[simp] theorem Mem.modify_cells (m : Mem K) (p : Nat) (f : particle_t K → particle_t K) :
    (m.modify p f).cells = m.cells := rfl
@[simp] theorem Mem.modify_brk (m : Mem K) (p : Nat) (f : particle_t K → particle_t K) :
    (m.modify p f).brk = m.brk := rfl
@[simp] theorem Mem.setHead_heap (m : Mem K) (i j : Int) (v : Option Nat) :
    (m.setHead i j v).heap = m.heap := rfl
@[simp] theorem Mem.setHead_cells (m : Mem K) (i j : Int) (v : Option Nat) (a b : Int) :
    (m.setHead i j v).cells a b = if a = i ∧ b = j then v else m.cells a b := rfl
@[simp] theorem Mem.setHead_brk (m : Mem K) (i j : Int) (v : Option Nat) :
    (m.setHead i j v).brk = m.brk := rfl

theorem add_particle_cells (m : Mem K) (i j : Int) (p : Nat) (a b : Int) :
    (add_particle m i j p).cells a b = if a = i ∧ b = j then some p else m.cells a b := by
  unfold add_particle
  cases h : m.cells i j <;> simp only [Mem.modify_cells, h, Mem.setHead_cells]

theorem add_particle_brk (m : Mem K) (i j : Int) (p : Nat) :
    (add_particle m i j p).brk = m.brk := by
  unfold add_particle
  cases h : m.cells i j <;> simp only [Mem.modify_cells, h, Mem.setHead_brk, Mem.modify_brk]

theorem add_particle_data (m : Mem K) (i j : Int) (p n : Nat) :
    ((add_particle m i j p).heap n).data = (m.heap n).data := by
  unfold add_particle
  cases h : m.cells i j <;> simp only [h, Mem.modify_cells, Mem.setHead_heap, Mem.modify_heap] <;>
    split_ifs <;> subst_vars <;> simp

theorem add_particle_next_self (m : Mem K) (i j : Int) (p : Nat) :
    ((add_particle m i j p).heap p).next = m.cells i j := by
  unfold add_particle
  cases h : m.cells i j <;> simp only [h, Mem.modify_cells, Mem.setHead_heap, Mem.modify_heap] <;>
    simp

theorem add_particle_next_other (m : Mem K) (i j : Int) (p n : Nat) (hn : n ≠ p) :
    ((add_particle m i j p).heap n).next = (m.heap n).next := by
  unfold add_particle
  cases h : m.cells i j with
  | none => simp only [h, Mem.modify_cells, Mem.setHead_heap, Mem.modify_heap, if_neg hn]
  | some v =>
    simp only [h, Mem.modify_cells, Mem.setHead_heap, Mem.modify_heap, if_neg hn]
    split_ifs with e e2
    · exact absurd (e.trans e2) hn
    · subst e
      simp
    · rfl

theorem add_particle_prev_self (m : Mem K) (i j : Int) (p : Nat) (hp : m.cells i j ≠ some p) :
    ((add_particle m i j p).heap p).prev = none := by
  unfold add_particle
  cases h : m.cells i j with
  | none => simp only [h, Mem.modify_cells, Mem.setHead_heap, Mem.modify_heap]; simp
  | some v =>
    have hv : p ≠ v := fun e => hp (by rw [h, e])
    simp only [h, Mem.modify_cells, Mem.setHead_heap, Mem.modify_heap, if_neg hv]
    simp

theorem add_particle_prev_other (m : Mem K) (i j : Int) (p n : Nat) (hn : n ≠ p) :
    ((add_particle m i j p).heap n).prev =
      if m.cells i j = some n then some p else (m.heap n).prev := by
  unfold add_particle
  cases h : m.cells i j with
  | none => simp only [h, Mem.modify_cells, Mem.setHead_heap, Mem.modify_heap, if_neg hn]; simp
  | some v =>
    simp only [h, Mem.modify_cells, Mem.setHead_heap, Mem.modify_heap, if_neg hn]
    by_cases hv : n = v
    · subst hv
      simp [hn]
    · have hv2 : v ≠ n := fun e => hv e.symm
      simp [hv, hv2]

theorem ite_setNext_next (h : Nat → particle_t K) (p q : Nat) (v : Option Nat)
    (hv : (h p).next = v) : (if p = q then (h q).setNext v else h p).next = v := by
  split_ifs with e
  · simp
  · exact hv

theorem ite_setNext_prev (h : Nat → particle_t K) (p q : Nat) (v : Option Nat) :
    (if p = q then (h q).setNext v else h p).prev = (h p).prev := by
  split_ifs with e
  · simp [e]
  · rfl

theorem remove_particle_cells (m : Mem K) (i j : Int) (p : Nat) (a b : Int) :
    (remove_particle m i j p).cells a b =
      if a = i ∧ b = j ∧ m.cells i j = some p then (m.heap p).next else m.cells a b := by
  unfold remove_particle
  by_cases hh : m.cells i j = some p <;> simp only [hh, if_true, if_false] <;>
    cases h1 : (m.heap p).prev <;> cases h2 : (m.heap p).next <;>
    simp only [Mem.setHead_heap, h1, h2, Mem.modify_heap, Mem.modify_cells, Mem.setHead_cells,
      ite_setNext_next m.heap p _ _ h2, and_true, and_false, if_false]

theorem remove_particle_brk (m : Mem K) (i j : Int) (p : Nat) :
    (remove_particle m i j p).brk = m.brk := by
  unfold remove_particle
  by_cases hh : m.cells i j = some p <;> simp only [hh, if_true, if_false] <;>
    cases h1 : (m.heap p).prev <;> cases h2 : (m.heap p).next <;>
    simp only [Mem.setHead_heap, h1, h2, Mem.modify_heap, Mem.modify_brk, Mem.setHead_brk,
      ite_setNext_next m.heap p _ _ h2]

theorem remove_particle_data (m : Mem K) (i j : Int) (p n : Nat) :
    ((remove_particle m i j p).heap n).data = (m.heap n).data := by
  unfold remove_particle
  by_cases hh : m.cells i j = some p <;> simp only [hh, if_true, if_false] <;>
    cases h1 : (m.heap p).prev <;> cases h2 : (m.heap p).next <;>
    simp only [Mem.setHead_heap, h1, h2, Mem.modify_heap,
      ite_setNext_next m.heap p _ _ h2] <;>
    split_ifs <;> subst_vars <;> simp

theorem remove_particle_self (m : Mem K) (i j : Int) (p : Nat) :
    ((remove_particle m i j p).heap p).next = none ∧
      ((remove_particle m i j p).heap p).prev = none := by
  unfold remove_particle
  simp

theorem remove_particle_next_other (m : Mem K) (i j : Int) (p n : Nat) (hn : n ≠ p) :
    ((remove_particle m i j p).heap n).next =
      if (m.heap p).prev = some n then (m.heap p).next else (m.heap n).next := by
  unfold remove_particle
  by_cases hh : m.cells i j = some p <;> simp only [hh, if_true, if_false] <;>
    cases h1 : (m.heap p).prev <;> cases h2 : (m.heap p).next <;>
    simp only [Mem.setHead_heap, h1, h2, Mem.modify_heap, if_neg hn,
      ite_setNext_next m.heap p _ _ h2,
      ite_setNext_prev m.heap p] <;>
    split_ifs <;> subst_vars <;> simp_all

theorem remove_particle_prev_other (m : Mem K) (i j : Int) (p n : Nat) (hn : n ≠ p) :
    ((remove_particle m i j p).heap n).prev =
      if (m.heap p).next = some n then (m.heap p).prev else (m.heap n).prev := by
  unfold remove_particle
  by_cases hh : m.cells i j = some p <;> simp only [hh, if_true, if_false] <;>
    cases h1 : (m.heap p).prev <;> cases h2 : (m.heap p).next <;>
    simp only [Mem.setHead_heap, h1, h2, Mem.modify_heap, if_neg hn,
      ite_setNext_next m.heap p _ _ h2,
      ite_setNext_prev m.heap p] <;>
    split_ifs <;> subst_vars <;> simp_all

/-! ## Chains -/

theorem chain_congr (h h1 : Nat → particle_t K) :
    ∀ (L : List Nat) (s : Option Nat), (∀ q ∈ L, (h1 q).next = (h q).next) →
      chain h s L → chain h1 s L
  | [], _, _, hc => hc
  | q :: rest, _, hq, hc => by
    refine ⟨hc.1, ?_⟩
    rw [hq q (List.mem_cons_self _ _)]
    exact chain_congr h h1 rest _ (fun r hr => hq r (List.mem_cons_of_mem _ hr)) hc.2

theorem dll_congr (h h1 : Nat → particle_t K) :
    ∀ (L : List Nat) (pv s : Option Nat),
      (∀ q ∈ L, (h1 q).next = (h q).next ∧ (h1 q).prev = (h q).prev) →
      dll h pv s L → dll h1 pv s L
  | [], _, _, _, hc => hc
  | q :: rest, _, _, hq, hc => by
    refine ⟨hc.1, ?_, ?_⟩
    · rw [(hq q (List.mem_cons_self _ _)).2]; exact hc.2.1
    · rw [(hq q (List.mem_cons_self _ _)).1]
      exact dll_congr h h1 rest _ _ (fun r hr => hq r (List.mem_cons_of_mem _ hr)) hc.2.2

theorem dll_chain (h : Nat → particle_t K) :
    ∀ (L : List Nat) (pv s : Option Nat), dll h pv s L → chain h s L
  | [], _, _, hc => hc
  | _ :: rest, _, _, hc => ⟨hc.1, dll_chain h rest _ _ hc.2.2⟩

theorem chain_unique (h : Nat → particle_t K) :
    ∀ (L L1 : List Nat) (s : Option Nat), chain h s L → chain h s L1 → L = L1
  | [], [], _, _, _ => rfl
  | [], _ :: _, _, h1, h2 => by
    have := h1.symm.trans h2.1
    cases this
  | _ :: _, [], _, h1, h2 => by
    have := h2.symm.trans h1.1
    cases this
  | q :: rest, r :: rest1, _, h1, h2 => by
    have e : some q = some r := h1.1.symm.trans h2.1
    cases e
    rw [chain_unique h rest rest1 _ h1.2 h2.2]

theorem chain_append (h : Nat → particle_t K) :
    ∀ (A B : List Nat) (s : Option Nat), chain h s (A ++ B) → ∃ t, chain h t B
  | [], _, s, hc => ⟨s, hc⟩
  | _ :: A, B, _, hc => chain_append h A B _ hc.2

theorem chain_head (h : Nat → particle_t K) (q : Nat) (B : List Nat) (t : Option Nat)
    (hc : chain h t (q :: B)) : chain h (some q) (q :: B) :=
  ⟨rfl, hc.2⟩

theorem chain_nodup (h : Nat → particle_t K) :
    ∀ (L : List Nat) (s : Option Nat), chain h s L → L.Nodup
  | [], _, _ => List.nodup_nil
  | q :: rest, s, hc => by
    refine List.nodup_cons.2 ⟨?_, chain_nodup h rest _ hc.2⟩
    intro hmem
    obtain ⟨A, B, hAB⟩ := List.append_of_mem hmem
    have h1 : chain h (h q).next (A ++ q :: B) := hAB ▸ hc.2
    obtain ⟨t, ht⟩ := chain_append h A (q :: B) _ h1
    have h2 : chain h (some q) (q :: B) := chain_head h q B t ht
    have h3 : chain h (some q) (q :: rest) := ⟨rfl, hc.2⟩
    have e := chain_unique h _ _ _ h2 h3
    have hl := congrArg List.length e
    rw [hAB] at hl
    simp at hl
    omega

theorem dll_nodup (h : Nat → particle_t K) (L : List Nat) (pv s : Option Nat)
    (hd : dll h pv s L) : L.Nodup :=
  chain_nodup h L s (dll_chain h L pv s hd)

/-- Adding `p` in front of a chain that does not contain it. -/
theorem add_particle_chain (m : Mem K) (i j : Int) (p : Nat) (L : List Nat)
    (hL : chain m.heap (m.cells i j) L) (hp : p ∉ L) :
    chain (add_particle m i j p).heap ((add_particle m i j p).cells i j) (p :: L) := by
  refine ⟨by simp [add_particle_cells], ?_⟩
  rw [add_particle_next_self]
  refine chain_congr m.heap _ L _ (fun q hq => ?_) hL
  exact add_particle_next_other m i j p q (fun e => hp (e ▸ hq))

theorem add_particle_dll (m : Mem K) (i j : Int) (p : Nat) (L : List Nat)
    (hL : dll m.heap none (m.cells i j) L) (hp : p ∉ L) :
    dll (add_particle m i j p).heap none ((add_particle m i j p).cells i j) (p :: L) := by
  have hnd := dll_nodup _ _ _ _ hL
  have hhead : m.cells i j ≠ some p := by
    intro e
    cases L with
    | nil => have := e.symm.trans hL; cases this
    | cons q rest =>
      have := e.symm.trans hL.1
      cases this
      exact hp (List.mem_cons_self _ _)
  refine ⟨by simp [add_particle_cells], add_particle_prev_self m i j p hhead, ?_⟩
  rw [add_particle_next_self]
  cases L with
  | nil => exact hL
  | cons q rest =>
    have hqp : q ≠ p := fun e => hp (e ▸ List.mem_cons_self _ _)
    refine ⟨hL.1, ?_, ?_⟩
    · rw [add_particle_prev_other m i j p q hqp, if_pos hL.1]
    · rw [add_particle_next_other m i j p q hqp]
      refine dll_congr m.heap _ rest _ _ (fun r hr => ?_) hL.2.2
      have hrp : r ≠ p := fun e => hp (e ▸ List.mem_cons_of_mem _ hr)
      refine ⟨add_particle_next_other m i j p r hrp, ?_⟩
      rw [add_particle_prev_other m i j p r hrp, if_neg]
      rw [hL.1]
      intro e
      cases e
      exact (List.nodup_cons.1 hnd).1 hr

theorem chain_start (h : Nat → particle_t K) (L : List Nat) (s : Option Nat)
    (hc : chain h s L) : s = L.head? := by
  cases L with
  | nil => exact hc
  | cons q rest => exact hc.1

theorem dll_mid (h : Nat → particle_t K) (p : Nat) (B : List Nat) :
    ∀ (A : List Nat) (pv s : Option Nat), dll h pv s (A ++ p :: B) →
      ((A = [] ∧ (h p).prev = pv) ∨ ∃ l ∈ A, (h p).prev = some l) ∧
        dll h (some p) (h p).next B
  | [], _, _, hd => ⟨Or.inl ⟨rfl, hd.2.1⟩, hd.2.2⟩
  | a :: A, _, _, hd => by
    obtain ⟨h1, h2⟩ := dll_mid h p B A _ _ hd.2.2
    refine ⟨Or.inr ?_, h2⟩
    rcases h1 with ⟨hA, hp⟩ | ⟨l, hl, hp⟩
    · exact ⟨a, List.mem_cons_self _ _, hp⟩
    · exact ⟨l, List.mem_cons_of_mem _ hl, hp⟩

/-- The part of the list behind the removed particle. -/
theorem remove_particle_dll_tail (m : Mem K) (i j : Int) (p : Nat) (B : List Nat)
    (hB : dll m.heap (some p) (m.heap p).next B) (hpB : p ∉ B)
    (hpv : ∀ q ∈ B, (m.heap p).prev ≠ some q) :
    dll (remove_particle m i j p).heap (m.heap p).prev (m.heap p).next B := by
  have hnd := dll_nodup _ _ _ _ hB
  cases B with
  | nil => exact hB
  | cons b B1 =>
    have hbp : b ≠ p := fun e => hpB (e ▸ List.mem_cons_self _ _)
    refine ⟨hB.1, ?_, ?_⟩
    · rw [remove_particle_prev_other m i j p b hbp, if_pos hB.1]
    · rw [remove_particle_next_other m i j p b hbp, if_neg (hpv b (List.mem_cons_self _ _))]
      refine dll_congr m.heap _ B1 _ _ (fun r hr => ?_) hB.2.2
      have hrp : r ≠ p := fun e => hpB (e ▸ List.mem_cons_of_mem _ hr)
      rw [remove_particle_next_other m i j p r hrp, remove_particle_prev_other m i j p r hrp,
        if_neg (hpv r (List.mem_cons_of_mem _ hr)), if_neg]
      · exact ⟨rfl, rfl⟩
      · rw [hB.1]
        intro e
        cases e
        exact (List.nodup_cons.1 hnd).1 hr

theorem remove_particle_dll_aux (m : Mem K) (i j : Int) (p : Nat) (B : List Nat) :
    ∀ (A : List Nat) (pv s : Option Nat), dll m.heap pv s (A ++ p :: B) →
      (A ++ p :: B).Nodup → (∀ q ∈ A ++ p :: B, pv ≠ some q) →
      dll (remove_particle m i j p).heap pv (if A = [] then (m.heap p).next else s) (A ++ B)
  | [], pv, s, hd, hnd, hpv => by
    have hpB : p ∉ B := (List.nodup_cons.1 hnd).1
    have e : (m.heap p).prev = pv := hd.2.1
    have := remove_particle_dll_tail m i j p B hd.2.2 hpB
      (fun q hq => e ▸ hpv q (List.mem_cons_of_mem _ hq))
    rw [e] at this
    simpa using this
  | a :: A, pv, s, hd, hnd, hpv => by
    have hnd1 : (A ++ p :: B).Nodup := (List.nodup_cons.1 hnd).2
    have haL : a ∉ A ++ p :: B := (List.nodup_cons.1 hnd).1
    have hap : a ≠ p := fun e => haL (by simp [e])
    have haB : a ∉ B := fun e => haL (by simp [e])
    have haA : a ∉ A := fun e => haL (by simp [e])
    obtain ⟨hprev, htail⟩ := dll_mid m.heap p B A _ _ hd.2.2
    have hnx : (m.heap p).next = B.head? := chain_start _ _ _ (dll_chain _ _ _ _ htail)
    have ih := remove_particle_dll_aux m i j p B A (some a) (m.heap a).next hd.2.2 hnd1
      (fun q hq e => haL (by cases e; exact hq))
    refine ⟨hd.1, ?_, ?_⟩
    · rw [remove_particle_prev_other m i j p a hap, if_neg]
      · exact hd.2.1
      · rw [hnx]
        intro e
        exact haB (List.mem_of_mem_head? e)
    · rw [remove_particle_next_other m i j p a hap]
      rcases hprev with ⟨hA, hp⟩ | ⟨l, hl, hp⟩
      · rw [if_pos hp]
        simpa [hA] using ih
      · have hne : A ≠ [] := List.ne_nil_of_mem hl
        rw [if_neg (by rw [hp]; intro e; cases e; exact haA hl)]
        simpa [hne] using ih

/-- Removing a member of a well-formed list leaves the well-formed list without it. -/
theorem remove_particle_dll (m : Mem K) (i j : Int) (p : Nat) (L : List Nat)
    (hL : dll m.heap none (m.cells i j) L) (hp : p ∈ L) :
    dll (remove_particle m i j p).heap none ((remove_particle m i j p).cells i j)
      (L.erase p) := by
  have hnd := dll_nodup _ _ _ _ hL
  obtain ⟨A, B, hAB⟩ := List.append_of_mem hp
  subst hAB
  have hpA : p ∉ A := fun e => by
    have := List.nodup_append.1 hnd
    exact this.2.2 e (List.mem_cons_self _ _)
  have haux := remove_particle_dll_aux m i j p B A none (m.cells i j) hL hnd
    (fun q _ e => by cases e)
  have hstart := chain_start _ _ _ (dll_chain _ _ _ _ hL)
  have herase : (A ++ p :: B).erase p = A ++ B := by
    rw [List.erase_append_right _ hpA, List.erase_cons_head]
  rw [herase, remove_particle_cells]
  cases A with
  | nil =>
    have e : m.cells i j = some p := by simpa using hstart
    simpa [e] using haux
  | cons a A1 =>
    have e : m.cells i j = some a := by simpa using hstart
    have hap : a ≠ p := fun e => hpA (e ▸ List.mem_cons_self _ _)
    simpa [e, hap] using haux

theorem remove_particle_frame (m : Mem K) (i j : Int) (p : Nat) (L : List Nat)
    (hL : dll m.heap none (m.cells i j) L) (hp : p ∈ L) (q : Nat) (hq : q ∉ L) :
    ((remove_particle m i j p).heap q).next = (m.heap q).next ∧
      ((remove_particle m i j p).heap q).prev = (m.heap q).prev := by
  have hqp : q ≠ p := fun e => hq (e ▸ hp)
  obtain ⟨A, B, hAB⟩ := List.append_of_mem hp
  subst hAB
  obtain ⟨hprev, htail⟩ := dll_mid m.heap p B A _ _ hL
  have hnx : (m.heap p).next = B.head? := chain_start _ _ _ (dll_chain _ _ _ _ htail)
  rw [remove_particle_next_other m i j p q hqp, remove_particle_prev_other m i j p q hqp]
  constructor
  · rw [if_neg]
    rcases hprev with ⟨_, hpv⟩ | ⟨l, hl, hpv⟩
    · rw [hpv]; intro e; cases e
    · rw [hpv]; intro e; cases e; exact hq (by simp [hl])
  · rw [if_neg]
    rw [hnx]
    intro e
    exact hq (by simp [List.mem_of_mem_head? e])

/-! ## `add_particle` and `remove_particle` -/

/-- **C1.** `add_particle(cell, p)` with `p` not in the cell's list `L`: afterwards the
cell's list is `p` followed by `L` in its old order, `p.prev` is null, `p.next` is the old
head (null when `L` is empty), the old head's `prev` is `p`, and no other link, no other
field and no other cell head changes. -/
theorem add_particle_spec (m : Mem K) (i j : Int) (p : Nat) (L : List Nat)
    (hL : chain m.heap (m.cells i j) L) (hp : p ∉ L) :
    chain (add_particle m i j p).heap ((add_particle m i j p).cells i j) (p :: L) ∧
    ((add_particle m i j p).heap p).prev = none ∧
    ((add_particle m i j p).heap p).next = m.cells i j ∧
    m.cells i j = L.head? ∧
    (∀ h, m.cells i j = some h → ((add_particle m i j p).heap h).prev = some p) ∧
    (∀ q, q ≠ p → ((add_particle m i j p).heap q).next = (m.heap q).next) ∧
    (∀ q, q ≠ p → m.cells i j ≠ some q →
      ((add_particle m i j p).heap q).prev = (m.heap q).prev) ∧
    (∀ q, ((add_particle m i j p).heap q).data = (m.heap q).data) ∧
    (∀ a b, (a, b) ≠ (i, j) → (add_particle m i j p).cells a b = m.cells a b) := by
  have hstart := chain_start _ _ _ hL
  have hhead : ∀ h, m.cells i j = some h → h ≠ p := by
    intro h hh e
    rw [hstart] at hh
    exact hp (e ▸ List.mem_of_mem_head? hh)
  refine ⟨add_particle_chain m i j p L hL hp,
    add_particle_prev_self m i j p (fun e => hhead p e rfl),
    add_particle_next_self m i j p, hstart, ?_,
    fun q hq => add_particle_next_other m i j p q hq, ?_,
    fun q => add_particle_data m i j p q, ?_⟩
  · intro h hh
    rw [add_particle_prev_other m i j p h (hhead h hh), if_pos hh]
  · intro q hq hne
    rw [add_particle_prev_other m i j p q hq, if_neg hne]
  · intro a b hab
    rw [add_particle_cells, if_neg]
    rintro ⟨rfl, rfl⟩
    exact hab rfl

/-- **C2.** `remove_particle(cell, p)` on a well-formed doubly-linked cell list `L` that
contains `p`: afterwards the cell's list is `L` with `p` deleted, the others in their old
order and again a well-formed doubly-linked chain; the head advances to the successor of
`p` when `p` was the head; `p.next` and `p.prev` are null. -/
theorem remove_particle_spec (m : Mem K) (i j : Int) (p : Nat) (L : List Nat)
    (hL : dll m.heap none (m.cells i j) L) (hp : p ∈ L) :
    dll (remove_particle m i j p).heap none ((remove_particle m i j p).cells i j)
      (L.filter (fun q => q != p)) ∧
    (m.cells i j = some p → (remove_particle m i j p).cells i j = (m.heap p).next) ∧
    (m.cells i j ≠ some p → (remove_particle m i j p).cells i j = m.cells i j) ∧
    ((remove_particle m i j p).heap p).next = none ∧
    ((remove_particle m i j p).heap p).prev = none := by
  have hnd := dll_nodup _ _ _ _ hL
  refine ⟨?_, ?_, ?_, remove_particle_self m i j p⟩
  · rw [← List.Nodup.erase_eq_filter hnd p]
    exact remove_particle_dll m i j p L hL hp
  · intro e
    rw [remove_particle_cells]
    simp [e]
  · intro e
    rw [remove_particle_cells]
    simp [e]

theorem add_particle_spec_witness :
    chain (add_particle exMem 1 1 0).heap ((add_particle exMem 1 1 0).cells 1 1) [0, 1, 2] :=
  (add_particle_spec exMem 1 1 0 [1, 2] (by decide) (by decide)).1

theorem remove_particle_spec_witness :
    dll (remove_particle exMem 1 1 1).heap none ((remove_particle exMem 1 1 1).cells 1 1) [2] :=
  (remove_particle_spec exMem 1 1 1 [1, 2] (by decide) (by decide)).1

/-! ## `apply_boundary` -/

theorem mem_loopIdx (lo hi i : Int) : i ∈ loopIdx lo hi ↔ lo ≤ i ∧ i < hi := by
  unfold loopIdx
  simp only [List.mem_map, List.mem_range]
  constructor
  · rintro ⟨k, hk, rfl⟩
    omega
  · rintro ⟨h1, h2⟩
    refine ⟨(i - lo).toNat, ?_, ?_⟩ <;> omega

theorem apply_boundary_cols (x : Int) (hx : 1 ≤ x) :
    ∀ (l : List Int) (m : Mem K) (a b : Int),
      (l.foldl (fun m j =>
          let ma := m.setHead 0 j (m.cells x j)
          ma.setHead (x + 1) j (ma.cells 1 j)) m).cells a b =
        if b ∈ l ∧ a = 0 then m.cells x b
        else if b ∈ l ∧ a = x + 1 then m.cells 1 b else m.cells a b
  | [], m, a, b => by simp
  | j :: l, m, a, b => by
    rw [List.foldl_cons, apply_boundary_cols x hx l]
    have h1 : ¬ (x = 0) := by omega
    have h2 : ¬ (x = x + 1) := by omega
    have h3 : ¬ ((1 : Int) = x + 1) := by omega
    have h4 : ¬ ((1 : Int) = 0) := by omega
    simp only [Mem.setHead_cells, List.mem_cons, h1, h2, h3, h4, false_and, if_false]
    by_cases ha : a = 0
    · subst ha
      have h5 : ¬ ((0 : Int) = x + 1) := by omega
      by_cases hb : b = j <;> by_cases hl : b ∈ l <;> simp [*]
    · by_cases ha2 : a = x + 1
      · subst ha2
        by_cases hb : b = j <;> by_cases hl : b ∈ l <;> simp [*]
      · by_cases hb : b = j <;> by_cases hl : b ∈ l <;> simp [*]

theorem apply_boundary_rows (y : Int) (hy : 1 ≤ y) :
    ∀ (l : List Int) (m : Mem K) (a b : Int),
      (l.foldl (fun m i =>
          let ma := m.setHead i 0 (m.cells i y)
          ma.setHead i (y + 1) (ma.cells i 1)) m).cells a b =
        if a ∈ l ∧ b = 0 then m.cells a y
        else if a ∈ l ∧ b = y + 1 then m.cells a 1 else m.cells a b
  | [], m, a, b => by simp
  | i :: l, m, a, b => by
    rw [List.foldl_cons, apply_boundary_rows y hy l]
    have h1 : ¬ (y = 0) := by omega
    have h2 : ¬ (y = y + 1) := by omega
    have h3 : ¬ ((1 : Int) = y + 1) := by omega
    have h4 : ¬ ((1 : Int) = 0) := by omega
    simp only [Mem.setHead_cells, List.mem_cons, h1, h2, h3, h4, and_false, if_false]
    by_cases ha : b = 0
    · subst ha
      have h5 : ¬ ((0 : Int) = y + 1) := by omega
      by_cases hb : a = i <;> by_cases hl : a ∈ l <;> simp [*]
    · by_cases ha2 : b = y + 1
      · subst ha2
        by_cases hb : a = i <;> by_cases hl : a ∈ l <;> simp [*]
      · by_cases hb : a = i <;> by_cases hl : a ∈ l <;> simp [*]

theorem apply_boundary_heap_fold {ι : Type} (f : Mem K → ι → Mem K)
    (hf : ∀ m i, (f m i).heap = m.heap) :
    ∀ (l : List ι) (m : Mem K), (l.foldl f m).heap = m.heap
  | [], _ => rfl
  | i :: l, m => by rw [List.foldl_cons, apply_boundary_heap_fold f hf l, hf]

/-- The heads after `apply_boundary`, in closed form. -/
theorem apply_boundary_cells (g : Globals K) (m : Mem K) (hx : 1 ≤ g.x) (hy : 1 ≤ g.y)
    (i j : Int) (hi0 : 0 ≤ i) (hi1 : i ≤ g.x + 1) (hj0 : 0 ≤ j) (hj1 : j ≤ g.y + 1) :
    (apply_boundary g m).cells i j = m.cells (wrapIdx g.x i) (wrapIdx g.y j) := by
  unfold apply_boundary
  simp only []
  rw [apply_boundary_rows g.y hy, apply_boundary_cols g.x hx, apply_boundary_cols g.x hx,
    apply_boundary_cols g.x hx]
  simp only [mem_loopIdx, wrapIdx]
  have a1 : ¬ (g.x = 0) := by omega
  have a2 : ¬ (g.x = g.x + 1) := by omega
  have a3 : ¬ ((1 : Int) = g.x + 1) := by omega
  have a4 : ¬ ((1 : Int) = 0) := by omega
  have a5 : ¬ ((0 : Int) = g.x + 1) := by omega
  have a6 : ¬ (g.x + 1 = 0) := by omega
  have b1 : ¬ (g.y = 0) := by omega
  have b3 : ¬ ((1 : Int) = g.y + 1) := by omega
  have b5 : ¬ ((0 : Int) = g.y + 1) := by omega
  have b6 : ¬ (g.y + 1 = 0) := by omega
  have c1 : (1 : Int) ≤ g.y ∧ g.y < g.y + 1 := by omega
  have c2 : (1 : Int) ≤ 1 ∧ (1 : Int) < g.y + 1 := by omega
  have c3 : (0 : Int) ≤ i ∧ i < g.x + 2 := by omega
  by_cases h1 : i = 0
  · subst h1
    by_cases h3 : j = 0
    · subst h3
      simp [*]
    · by_cases h4 : j = g.y + 1
      · subst h4
        simp [*]
      · have c4 : 1 ≤ j ∧ j < g.y + 1 := by omega
        simp [*]
  · by_cases h2 : i = g.x + 1
    · subst h2
      by_cases h3 : j = 0
      · subst h3
        simp [*]
      · by_cases h4 : j = g.y + 1
        · subst h4
          simp [*]
        · have c4 : 1 ≤ j ∧ j < g.y + 1 := by omega
          simp [*]
    · by_cases h3 : j = 0
      · subst h3
        simp [*]
      · by_cases h4 : j = g.y + 1
        · subst h4
          simp [*]
        · simp [*]

theorem apply_boundary_heap (g : Globals K) (m : Mem K) :
    (apply_boundary g m).heap = m.heap := by
  unfold apply_boundary
  simp only []
  rw [apply_boundary_heap_fold (fun (m : Mem K) (i : Int) =>
      (m.setHead i 0 (m.cells i g.y)).setHead i (g.y + 1)
        ((m.setHead i 0 (m.cells i g.y)).cells i 1)) (fun _ _ => rfl),
    apply_boundary_heap_fold (fun (m : Mem K) (j : Int) =>
      (m.setHead 0 j (m.cells g.x j)).setHead (g.x + 1) j
        ((m.setHead 0 j (m.cells g.x j)).cells 1 j)) (fun _ _ => rfl)]

/-- **C3.** On a grid with `x, y ≥ 1`, after `apply_boundary` every cell `(i, j)` of the
padded grid has the head of the real cell `(wrap i, wrap j)` (the four corners included),
and the heads of the real cells are the ones before the call. -/
theorem apply_boundary_spec (g : Globals K) (m : Mem K) (hx : 1 ≤ g.x) (hy : 1 ≤ g.y) :
    (∀ i j, 0 ≤ i → i ≤ g.x + 1 → 0 ≤ j → j ≤ g.y + 1 →
      (apply_boundary g m).cells i j =
        (apply_boundary g m).cells (wrapIdx g.x i) (wrapIdx g.y j) ∧
      1 ≤ wrapIdx g.x i ∧ wrapIdx g.x i ≤ g.x ∧ 1 ≤ wrapIdx g.y j ∧ wrapIdx g.y j ≤ g.y) ∧
    (∀ i j, 1 ≤ i → i ≤ g.x → 1 ≤ j → j ≤ g.y →
      (apply_boundary g m).cells i j = m.cells i j) ∧
    (apply_boundary g m).cells 0 0 = m.cells g.x g.y ∧
    (apply_boundary g m).cells 0 (g.y + 1) = m.cells g.x 1 ∧
    (apply_boundary g m).cells (g.x + 1) 0 = m.cells 1 g.y ∧
    (apply_boundary g m).cells (g.x + 1) (g.y + 1) = m.cells 1 1 := by
  have hreal : ∀ i j, 1 ≤ i → i ≤ g.x → 1 ≤ j → j ≤ g.y →
      (apply_boundary g m).cells i j = m.cells i j := by
    intro i j h1 h2 h3 h4
    rw [apply_boundary_cells g m hx hy i j (by omega) (by omega) (by omega) (by omega)]
    have e1 : wrapIdx g.x i = i := by unfold wrapIdx; split_ifs <;> omega
    have e2 : wrapIdx g.y j = j := by unfold wrapIdx; split_ifs <;> omega
    rw [e1, e2]
  refine ⟨?_, hreal, ?_, ?_, ?_, ?_⟩
  · intro i j h1 h2 h3 h4
    have w1 : 1 ≤ wrapIdx g.x i ∧ wrapIdx g.x i ≤ g.x := by
      unfold wrapIdx; split_ifs <;> omega
    have w2 : 1 ≤ wrapIdx g.y j ∧ wrapIdx g.y j ≤ g.y := by
      unfold wrapIdx; split_ifs <;> omega
    refine ⟨?_, w1.1, w1.2, w2.1, w2.2⟩
    rw [apply_boundary_cells g m hx hy i j h1 h2 h3 h4, hreal _ _ w1.1 w1.2 w2.1 w2.2]
  · rw [apply_boundary_cells g m hx hy 0 0 (by omega) (by omega) (by omega) (by omega)]
    simp [wrapIdx]
  · rw [apply_boundary_cells g m hx hy 0 (g.y + 1) (by omega) (by omega) (by omega) (by omega)]
    have : ¬ (g.y + 1 = 0) := by omega
    simp [wrapIdx, this]
  · rw [apply_boundary_cells g m hx hy (g.x + 1) 0 (by omega) (by omega) (by omega) (by omega)]
    have : ¬ (g.x + 1 = 0) := by omega
    simp [wrapIdx, this]
  · rw [apply_boundary_cells g m hx hy (g.x + 1) (g.y + 1) (by omega) (by omega) (by omega)
      (by omega)]
    have h1 : ¬ (g.x + 1 = 0) := by omega
    have h2 : ¬ (g.y + 1 = 0) := by omega
    simp [wrapIdx, h1, h2]

theorem apply_boundary_spec_witness :
    (apply_boundary exGlobals exMem).cells 0 0 = exMem.cells exGlobals.x exGlobals.y :=
  (apply_boundary_spec exGlobals exMem (by decide) (by decide)).2.2.1

/-! ## Loops -/

theorem forEach_append {ι σ : Type} (body : ι → σ → Outcome σ) :
    ∀ (l1 l2 : List ι) (s : σ),
      forEach body (l1 ++ l2) s = (forEach body l1 s).bind (forEach body l2)
  | [], _, _ => rfl
  | i :: l1, l2, s => by
    simp only [List.cons_append, forEach]
    cases h : body i s with
    | ok s1 => exact forEach_append body l1 l2 s1
    | fatal => rfl
    | outOfFuel => rfl

theorem forEach_map {ι κ σ : Type} (f : κ → ι) (body : ι → σ → Outcome σ) :
    ∀ (l : List κ) (s : σ), forEach body (l.map f) s = forEach (fun k s => body (f k) s) l s
  | [], _ => rfl
  | k :: l, s => by
    simp only [List.map_cons, forEach]
    cases h : body (f k) s with
    | ok s1 => simp only [forEach_map f body l s1]
    | fatal => rfl
    | outOfFuel => rfl

theorem forEach_flatMap {ι κ σ : Type} (f : κ → List ι) (body : ι → σ → Outcome σ) :
    ∀ (l : List κ) (s : σ),
      forEach body (l.flatMap f) s = forEach (fun k s => forEach body (f k) s) l s
  | [], _ => rfl
  | k :: l, s => by
    simp only [List.flatMap_cons, forEach_append, forEach]
    cases h : forEach body (f k) s with
    | ok s1 => simp only [Outcome.bind, forEach_flatMap f body l s1]
    | fatal => rfl
    | outOfFuel => rfl

/-- The loop nest over the real cells is one loop over `cellOrder`. -/
theorem forCells_eq {σ : Type} (g : Globals K) (body : Int → Int → σ → Outcome σ) (s : σ) :
    forCells g body s = forEach (fun c s => body c.1 c.2 s) (cellOrder g) s := by
  unfold forCells cellOrder
  rw [forEach_flatMap]
  congr 1
  funext i s1
  rw [forEach_map]

/-- Loop rule for `forEach`: an invariant indexed by the values already processed. -/
theorem forEach_spec {ι σ : Type} (body : ι → σ → Outcome σ) (l : List ι)
    (I : List ι → σ → Prop) (Q : Prop)
    (hstep : ∀ done i rest s, l = done ++ i :: rest → I done s →
      (body i s = .fatal ∧ Q) ∨ ∃ s1, body i s = .ok s1 ∧ I (done ++ [i]) s1) :
    ∀ (rest done : List ι) (s : σ), l = done ++ rest → I done s →
      (forEach body rest s = .fatal ∧ Q) ∨ ∃ s1, forEach body rest s = .ok s1 ∧ I l s1
  | [], done, s, hl, hI => by
    refine Or.inr ⟨s, rfl, ?_⟩
    rw [hl, List.append_nil]
    exact hI
  | i :: rest, done, s, hl, hI => by
    rcases hstep done i rest s hl hI with ⟨hf, hq⟩ | ⟨s1, hb, hI1⟩
    · exact Or.inl ⟨by simp only [forEach, hf], hq⟩
    · have := forEach_spec body l I Q hstep rest (done ++ [i]) s1 (by simp [hl]) hI1
      simpa only [forEach, hb] using this

/-- Loop rule for `whileSome`: an invariant indexed by the pointers still to be visited;
fuel of at least their number is enough. -/
theorem whileSome_spec {σ : Type} (body : Nat → σ → Outcome (σ × Option Nat))
    (I : List Nat → σ → Prop) (Q : Prop)
    (hstep : ∀ p rest s, I (p :: rest) s →
      (body p s = .fatal ∧ Q) ∨ ∃ s1, body p s = .ok (s1, rest.head?) ∧ I rest s1) :
    ∀ (L : List Nat) (fuel : Nat) (s : σ), L.length ≤ fuel → I L s →
      (whileSome body fuel L.head? s = .fatal ∧ Q) ∨
        ∃ s1, whileSome body fuel L.head? s = .ok s1 ∧ I [] s1
  | [], fuel, s, _, hI => by
    refine Or.inr ⟨s, ?_, hI⟩
    cases fuel <;> rfl
  | p :: rest, 0, s, hlen, _ => by simp at hlen
  | p :: rest, fuel + 1, s, hlen, hI => by
    rcases hstep p rest s hI with ⟨hf, hq⟩ | ⟨s1, hb, hI1⟩
    · exact Or.inl ⟨by simp only [List.head?_cons, whileSome, hf], hq⟩
    · have := whileSome_spec body I Q hstep rest fuel s1 (by simpa using hlen) hI1
      simpa only [List.head?_cons, whileSome, hb] using this

/-! ## The real cells -/

theorem nodup_loopIdx (lo hi : Int) : (loopIdx lo hi).Nodup := by
  unfold loopIdx
  refine List.Nodup.map ?_ (List.nodup_range _)
  intro a b h
  simpa using h

theorem mem_cellOrder (g : Globals K) (i j : Int) : (i, j) ∈ cellOrder g ↔ realCell g i j := by
  unfold cellOrder realCell
  simp only [List.mem_flatMap, List.mem_map, mem_loopIdx, Prod.mk.injEq]
  constructor
  · rintro ⟨a, ha, b, hb, rfl, rfl⟩
    omega
  · rintro h
    exact ⟨i, by omega, j, by omega, rfl, rfl⟩

theorem nodup_cellOrder (g : Globals K) : (cellOrder g).Nodup := by
  unfold cellOrder
  rw [List.nodup_flatMap]
  refine ⟨fun i _ => ?_, ?_⟩
  · refine List.Nodup.map ?_ (nodup_loopIdx _ _)
    intro a b h
    simpa using h
  · refine List.Nodup.pairwise_of_forall_ne (nodup_loopIdx _ _) ?_
    intro a _ b _ hab
    simp only [Function.onFun]
    intro c hc1 hc2
    simp only [List.mem_map] at hc1 hc2
    obtain ⟨_, _, rfl⟩ := hc1
    obtain ⟨_, _, h⟩ := hc2
    exact hab (by simpa using (congrArg Prod.fst h).symm)

theorem mem_allParts (g : Globals K) (A : Int → Int → List Nat) (p : Nat) :
    p ∈ allParts g A ↔ ∃ i j, realCell g i j ∧ p ∈ A i j := by
  unfold allParts
  simp only [List.mem_flatMap, Prod.exists]
  constructor
  · rintro ⟨i, j, hc, hp⟩
    exact ⟨i, j, (mem_cellOrder g i j).1 hc, hp⟩
  · rintro ⟨i, j, hc, hp⟩
    exact ⟨i, j, (mem_cellOrder g i j).2 hc, hp⟩

/-- The grid invariant, cell by cell: well-formed lists that are pairwise disjoint. -/
theorem WF_iff (g : Globals K) (m : Mem K) (A : Int → Int → List Nat) :
    WF g m A ↔
      (∀ i j, realCell g i j → dll m.heap none (m.cells i j) (A i j)) ∧
      (∀ i j a b p, realCell g i j → realCell g a b → p ∈ A i j → p ∈ A a b →
        i = a ∧ j = b) := by
  unfold WF
  constructor
  · rintro ⟨hd, hn⟩
    refine ⟨fun i j hr => hd (i, j) ((mem_cellOrder g i j).2 hr), ?_⟩
    intro i j a b p h1 h2 hp1 hp2
    by_contra hne
    have hne2 : (i, j) ≠ (a, b) := fun e => hne (by cases e; exact ⟨rfl, rfl⟩)
    have hpw := (List.nodup_flatMap.1 hn).2
    have hsym : Symmetric (Function.onFun List.Disjoint fun c : Int × Int => A c.1 c.2) :=
      fun _ _ h => h.symm
    have := hpw.forall hsym ((mem_cellOrder g i j).2 h1) ((mem_cellOrder g a b).2 h2) hne2
    exact this hp1 hp2
  · rintro ⟨hd, hdis⟩
    refine ⟨fun c hc => hd c.1 c.2 ((mem_cellOrder g c.1 c.2).1 hc), ?_⟩
    unfold allParts
    rw [List.nodup_flatMap]
    refine ⟨fun c hc => dll_nodup _ _ _ _ (hd c.1 c.2 ((mem_cellOrder g c.1 c.2).1 hc)), ?_⟩
    refine List.Nodup.pairwise_of_forall_ne (nodup_cellOrder g) ?_
    intro c hc d hd2 hcd
    simp only [Function.onFun]
    intro p hp1 hp2
    have := hdis c.1 c.2 d.1 d.2 p ((mem_cellOrder g c.1 c.2).1 hc)
      ((mem_cellOrder g d.1 d.2).1 hd2) hp1 hp2
    exact hcd (Prod.ext this.1 this.2)

/-! ## The grid invariant under the list primitives -/

theorem setList_self (A : Int → Int → List Nat) (i j : Int) (L : List Nat) :
    setList A i j L i j = L := by
  simp [setList]

theorem setList_other (A : Int → Int → List Nat) (i j a b : Int) (L : List Nat)
    (h : ¬ (a = i ∧ b = j)) : setList A i j L a b = A a b := by
  simp [setList, h]

/-- Writes that keep every link and every real head keep the lists. -/
theorem cellsDll_congr (g : Globals K) (m m1 : Mem K) (A : Int → Int → List Nat)
    (hlink : ∀ n, (m1.heap n).next = (m.heap n).next ∧ (m1.heap n).prev = (m.heap n).prev)
    (hcells : ∀ i j, realCell g i j → m1.cells i j = m.cells i j)
    (hd : cellsDll g m A) : cellsDll g m1 A := by
  intro i j hr
  rw [hcells i j hr]
  exact dll_congr m.heap m1.heap _ _ _ (fun q _ => hlink q) (hd i j hr)

theorem cellsDll_remove (g : Globals K) (m : Mem K) (A : Int → Int → List Nat) (i j : Int)
    (p : Nat) (hd : cellsDll g m A) (hx : cellsDisjoint g A) (hr : realCell g i j)
    (hp : p ∈ A i j) :
    cellsDll g (remove_particle m i j p) (setList A i j ((A i j).erase p)) := by
  intro a b hab
  by_cases e : a = i ∧ b = j
  · obtain ⟨rfl, rfl⟩ := e
    rw [setList_self]
    exact remove_particle_dll m a b p _ (hd a b hab) hp
  · rw [setList_other _ _ _ _ _ _ e, remove_particle_cells]
    have e2 : ¬ (a = i ∧ b = j ∧ m.cells i j = some p) := fun h => e ⟨h.1, h.2.1⟩
    rw [if_neg e2]
    refine dll_congr m.heap _ _ _ _ (fun q hq => ?_) (hd a b hab)
    refine remove_particle_frame m i j p _ (hd i j hr) hp q ?_
    intro hq2
    exact e (hx a b i j q hab hr hq hq2)

theorem cellsDisjoint_remove (g : Globals K) (A : Int → Int → List Nat) (i j : Int)
    (p : Nat) (hx : cellsDisjoint g A) :
    cellsDisjoint g (setList A i j ((A i j).erase p)) := by
  have hsub : ∀ a b q, q ∈ setList A i j ((A i j).erase p) a b → q ∈ A a b := by
    intro a b q hq
    by_cases e : a = i ∧ b = j
    · obtain ⟨rfl, rfl⟩ := e
      rw [setList_self] at hq
      exact List.mem_of_mem_erase hq
    · rwa [setList_other _ _ _ _ _ _ e] at hq
  intro a b c d q h1 h2 hq1 hq2
  exact hx a b c d q h1 h2 (hsub _ _ _ hq1) (hsub _ _ _ hq2)

theorem cellsDll_add (g : Globals K) (m : Mem K) (A : Int → Int → List Nat) (i j : Int)
    (p : Nat) (hd : cellsDll g m A) (hx : cellsDisjoint g A) (hr : realCell g i j)
    (hp : ∀ a b, realCell g a b → p ∉ A a b) :
    cellsDll g (add_particle m i j p) (setList A i j (p :: A i j)) := by
  intro a b hab
  by_cases e : a = i ∧ b = j
  · obtain ⟨rfl, rfl⟩ := e
    rw [setList_self]
    exact add_particle_dll m a b p _ (hd a b hab) (hp a b hab)
  · rw [setList_other _ _ _ _ _ _ e, add_particle_cells, if_neg e]
    refine dll_congr m.heap _ _ _ _ (fun q hq => ?_) (hd a b hab)
    have hqp : q ≠ p := fun h => hp a b hab (h ▸ hq)
    refine ⟨add_particle_next_other m i j p q hqp, ?_⟩
    rw [add_particle_prev_other m i j p q hqp, if_neg]
    intro hh
    have hs := chain_start _ _ _ (dll_chain _ _ _ _ (hd i j hr))
    rw [hs] at hh
    exact e (hx a b i j q hab hr hq (List.mem_of_mem_head? hh))

theorem cellsDisjoint_add (g : Globals K) (A : Int → Int → List Nat) (i j : Int)
    (p : Nat) (hx : cellsDisjoint g A) (hr : realCell g i j)
    (hp : ∀ a b, realCell g a b → p ∉ A a b) :
    cellsDisjoint g (setList A i j (p :: A i j)) := by
  have hmem : ∀ a b q, realCell g a b → q ∈ setList A i j (p :: A i j) a b →
      (q = p ∧ a = i ∧ b = j) ∨ (q ≠ p ∧ q ∈ A a b) := by
    intro a b q hab hq
    by_cases e : a = i ∧ b = j
    · obtain ⟨rfl, rfl⟩ := e
      rw [setList_self] at hq
      rcases List.mem_cons.1 hq with h | h
      · exact Or.inl ⟨h, rfl, rfl⟩
      · exact Or.inr ⟨fun e => hp a b hab (e ▸ h), h⟩
    · rw [setList_other _ _ _ _ _ _ e] at hq
      exact Or.inr ⟨fun e => hp a b hab (e ▸ hq), hq⟩
  intro a b c d q h1 h2 hq1 hq2
  rcases hmem a b q h1 hq1 with ⟨e1, rfl, rfl⟩ | ⟨n1, m1⟩
  · rcases hmem c d q h2 hq2 with ⟨_, rfl, rfl⟩ | ⟨n2, _⟩
    · exact ⟨rfl, rfl⟩
    · exact absurd e1 n2
  · rcases hmem c d q h2 hq2 with ⟨e2, _, _⟩ | ⟨_, m2⟩
    · exact absurd e2 n1
    · exact hx a b c d q h1 h2 m1 m2

/-! ## `update_cells` -/

section OrderedRing

variable {K : Type} [LinearOrderedCommRing K]

theorem wrapIdx_seq (n k : Int) :
    (if (if k = 0 then n else k) = n + 1 then 1 else (if k = 0 then n else k)) = wrapIdx n k := by
  unfold wrapIdx
  by_cases h : k = 0
  · have : ¬ (n = n + 1) := by omega
    simp [h, this]
  · simp [h]

theorem update_cells_body_stay (g : Globals K) (i j : Int) (p : Nat) (m : Mem K)
    (h : inRange g (m.heap p)) :
    update_cells_body g i j p m = .ok (m, (m.heap p).next) := by
  unfold update_cells_body
  obtain ⟨h1, h2, h3, h4⟩ := h
  have : ¬ ((m.heap p).x < 0 ∨ (m.heap p).x ≥ g.cell_size ∨
      (m.heap p).y < 0 ∨ (m.heap p).y ≥ g.cell_size) := by
    simp only [not_or, not_lt, ge_iff_le, not_le]
    exact ⟨h1, h2, h3, h4⟩
  simp only [if_neg this]

theorem not_inRange_iff (g : Globals K) (r : particle_t K) :
    ¬ inRange g r ↔ (r.x < 0 ∨ r.x ≥ g.cell_size ∨ r.y < 0 ∨ r.y ≥ g.cell_size) := by
  unfold inRange
  constructor
  · intro h
    by_contra hc
    simp only [not_or, not_lt, ge_iff_le, not_le] at hc
    exact h hc
  · rintro h ⟨h1, h2, h3, h4⟩
    rcases h with h | h | h | h
    · exact absurd h1 (not_le.2 h)
    · exact absurd h2 (not_lt.2 h)
    · exact absurd h3 (not_le.2 h)
    · exact absurd h4 (not_lt.2 h)

theorem update_cells_body_fatal (g : Globals K) (i j : Int) (p : Nat) (m : Mem K)
    (h1 : ¬ inRange g (m.heap p)) (h2 : tooFar g (m.heap p)) :
    update_cells_body g i j p m = .fatal := by
  unfold update_cells_body
  rw [not_inRange_iff] at h1
  unfold tooFar at h2
  simp only [if_pos h1, if_pos h2]

theorem update_cells_body_move (g : Globals K) (i j : Int) (p : Nat) (m : Mem K)
    (h1 : ¬ inRange g (m.heap p)) (h2 : ¬ tooFar g (m.heap p)) :
    update_cells_body g i j p m = .ok (update_cells_move g m i j p, (m.heap p).next) := by
  unfold update_cells_body update_cells_move
  rw [not_inRange_iff] at h1
  unfold tooFar at h2
  simp only [if_pos h1, if_neg h2, wrapIdx_seq]
  rfl

theorem realCell_wrap (n i : Int) (cs v : K) (h1 : 1 ≤ i) (h2 : i ≤ n) :
    1 ≤ wrapIdx n (i + shiftOf cs v) ∧ wrapIdx n (i + shiftOf cs v) ≤ n := by
  unfold wrapIdx shiftOf
  split_ifs <;> omega

theorem migrated_inRange (g : Globals K) (r : particle_t K) (h2 : ¬ tooFar g r) :
    0 ≤ (migrated g r).1 ∧ (migrated g r).1 < g.cell_size ∧
      0 ≤ (migrated g r).2.1 ∧ (migrated g r).2.1 < g.cell_size := by
  unfold tooFar at h2
  simp only [not_or, not_lt, ge_iff_le, not_le] at h2
  obtain ⟨a1, a2, a3, a4⟩ := h2
  unfold migrated shiftOf
  refine ⟨?_, ?_, ?_, ?_⟩
  · show 0 ≤ r.x - _
    split_ifs with c1 c2
    · push_cast; linarith
    · push_cast; linarith
    · push_cast; linarith [not_lt.1 c1]
  · show r.x - _ < _
    split_ifs with c1 c2
    · push_cast; linarith
    · push_cast; linarith
    · push_cast; linarith [not_le.1 c2]
  · show 0 ≤ r.y - _
    split_ifs with c1 c2
    · push_cast; linarith
    · push_cast; linarith
    · push_cast; linarith [not_lt.1 c1]
  · show r.y - _ < _
    split_ifs with c1 c2
    · push_cast; linarith
    · push_cast; linarith
    · push_cast; linarith [not_le.1 c2]

theorem update_cells_move_data (g : Globals K) (m : Mem K) (i j : Int) (p q : Nat) :
    ((update_cells_move g m i j p).heap q).data =
      if q = p then migrated g (m.heap p) else (m.heap q).data := by
  unfold update_cells_move
  simp only [add_particle_data, remove_particle_data, Mem.modify_heap]
  by_cases h : q = p
  · subst h
    simp [particle_t.data, migrated, sub_eq_add_neg]
  · simp [h]

end OrderedRing

theorem data_fields {K : Type} (r s : particle_t K) (h : r.data = s.data) :
    r.x = s.x ∧ r.y = s.y ∧ r.ax = s.ax ∧ r.ay = s.ay ∧ r.vx = s.vx ∧ r.vy = s.vy ∧
      r.part_id = s.part_id := by
  simpa [particle_t.data] using h

section OrderedRing

variable {K : Type} [LinearOrderedCommRing K]

theorem inRange_congr (g : Globals K) (r s : particle_t K) (h : r.data = s.data) :
    inRange g r ↔ inRange g s := by
  obtain ⟨hx, hy, _⟩ := data_fields r s h
  unfold inRange
  rw [hx, hy]

theorem tooFar_congr (g : Globals K) (r s : particle_t K) (h : r.data = s.data) :
    tooFar g r ↔ tooFar g s := by
  obtain ⟨hx, hy, _⟩ := data_fields r s h
  unfold tooFar
  rw [hx, hy]

theorem inRange_of_migrated (g : Globals K) (r s : particle_t K) (h2 : ¬ tooFar g s)
    (h : r.data = migrated g s) : inRange g r := by
  have hm := migrated_inRange g s h2
  rw [← h] at hm
  exact hm

theorem Migr_refl (g : Globals K) (m : Mem K) (A : Int → Int → List Nat) (h : WF g m A) :
    Migr g m A m A where
  dll := ((WF_iff g m A).1 h).1
  disj := ((WF_iff g m A).1 h).2
  same := fun _ => Iff.rfl
  track := fun _ _ _ _ hp => Or.inl ⟨hp, rfl⟩
  ghost := fun _ _ _ => rfl

theorem mem_moveList (g : Globals K) (m : Mem K) (A : Int → Int → List Nat) (i j : Int)
    (p : Nat) (hd : cellsDll g m A) (hx : cellsDisjoint g A) (hr : realCell g i j)
    (hp : p ∈ A i j) (a b : Int) (hab : realCell g a b) (q : Nat) :
    q ∈ moveList g m A i j p a b ↔
      (q = p ∧ a = wrapIdx g.x (i + shiftOf g.cell_size (m.heap p).x) ∧
        b = wrapIdx g.y (j + shiftOf g.cell_size (m.heap p).y)) ∨ (q ≠ p ∧ q ∈ A a b) := by
  have hnd : (A i j).Nodup := dll_nodup _ _ _ _ (hd i j hr)
  have h1 : ∀ c d, realCell g c d →
      (q ∈ setList A i j ((A i j).erase p) c d ↔ q ≠ p ∧ q ∈ A c d) := by
    intro c d hcd
    by_cases e : c = i ∧ d = j
    · obtain ⟨rfl, rfl⟩ := e
      rw [setList_self, hnd.mem_erase_iff]
    · rw [setList_other _ _ _ _ _ _ e]
      constructor
      · intro hq
        refine ⟨?_, hq⟩
        rintro rfl
        exact e (hx c d i j q hcd hr hq hp)
      · exact fun h => h.2
  simp only [moveList]
  by_cases e : a = wrapIdx g.x (i + shiftOf g.cell_size (m.heap p).x) ∧
      b = wrapIdx g.y (j + shiftOf g.cell_size (m.heap p).y)
  · obtain ⟨rfl, rfl⟩ := e
    rw [setList_self, List.mem_cons, h1 _ _ hab]
    constructor
    · rintro (h | h)
      · exact Or.inl ⟨h, rfl, rfl⟩
      · exact Or.inr h
    · rintro (h | h)
      · exact Or.inl h.1
      · exact Or.inr h
  · rw [setList_other _ _ _ _ _ _ e, h1 _ _ hab]
    constructor
    · exact fun h => Or.inr h
    · rintro (h | h)
      · exact absurd h.2 e
      · exact h

theorem update_cells_move_wf (g : Globals K) (m : Mem K) (A : Int → Int → List Nat)
    (i j : Int) (p : Nat) (hd : cellsDll g m A) (hx : cellsDisjoint g A)
    (hr : realCell g i j) (hp : p ∈ A i j) :
    cellsDll g (update_cells_move g m i j p) (moveList g m A i j p) ∧
      cellsDisjoint g (moveList g m A i j p) := by
  have hnd : (A i j).Nodup := dll_nodup _ _ _ _ (hd i j hr)
  have hdest : realCell g (wrapIdx g.x (i + shiftOf g.cell_size (m.heap p).x))
      (wrapIdx g.y (j + shiftOf g.cell_size (m.heap p).y)) := by
    have e1 := realCell_wrap g.x i g.cell_size (m.heap p).x hr.1 hr.2.1
    have e2 := realCell_wrap g.y j g.cell_size (m.heap p).y hr.2.2.1 hr.2.2.2
    exact ⟨e1.1, e1.2, e2.1, e2.2⟩
  have hd2 : cellsDll g ((m.modify p (fun r => r.setX (r.x +
        (shiftOf g.cell_size (m.heap p).x : K) * -g.cell_size))).modify p
      (fun r => r.setY (r.y + (shiftOf g.cell_size (m.heap p).y : K) * -g.cell_size))) A := by
    refine cellsDll_congr g m _ A (fun n => ?_) (fun _ _ _ => rfl) hd
    simp only [Mem.modify_heap]
    split_ifs with h
    · subst h; simp
    · exact ⟨rfl, rfl⟩
  have hd3 := cellsDll_remove g _ A i j p hd2 hx hr hp
  have hx3 := cellsDisjoint_remove g A i j p hx
  have hp3 : ∀ a b, realCell g a b → p ∉ setList A i j ((A i j).erase p) a b := by
    intro a b hab
    by_cases e : a = i ∧ b = j
    · obtain ⟨rfl, rfl⟩ := e
      rw [setList_self, hnd.mem_erase_iff]
      exact fun h => h.1 rfl
    · rw [setList_other _ _ _ _ _ _ e]
      exact fun hq => e (hx a b i j p hab hr hq hp)
  exact ⟨cellsDll_add g _ _ _ _ p hd3 hx3 hdest hp3, cellsDisjoint_add g _ _ _ p hx3 hdest hp3⟩

theorem update_cells_move_ghost (g : Globals K) (m : Mem K) (i j : Int) (p : Nat)
    (hr : realCell g i j) (a b : Int) (hab : ¬ realCell g a b) :
    (update_cells_move g m i j p).cells a b = m.cells a b := by
  have hdest : realCell g (wrapIdx g.x (i + shiftOf g.cell_size (m.heap p).x))
      (wrapIdx g.y (j + shiftOf g.cell_size (m.heap p).y)) := by
    have e1 := realCell_wrap g.x i g.cell_size (m.heap p).x hr.1 hr.2.1
    have e2 := realCell_wrap g.y j g.cell_size (m.heap p).y hr.2.2.1 hr.2.2.2
    exact ⟨e1.1, e1.2, e2.1, e2.2⟩
  simp only [update_cells_move]
  rw [add_particle_cells, remove_particle_cells, if_neg, if_neg]
  · rfl
  · rintro ⟨rfl, rfl, _⟩
    exact hab hr
  · rintro ⟨rfl, rfl⟩
    exact hab hdest

/-- The relocating branch keeps the relation with the memory at the call. -/
theorem Migr_move (g : Globals K) (m0 m : Mem K) (A0 A : Int → Int → List Nat) (i j : Int)
    (p : Nat) (hM : Migr g m0 A0 m A) (hr : realCell g i j) (hp : p ∈ A i j)
    (h1 : ¬ inRange g (m.heap p)) (h2 : ¬ tooFar g (m.heap p)) :
    Migr g m0 A0 (update_cells_move g m i j p) (moveList g m A i j p) := by
  have hwf := update_cells_move_wf g m A i j p hM.dll hM.disj hr hp
  have hmem := mem_moveList g m A i j p hM.dll hM.disj hr hp
  have hdest : realCell g (wrapIdx g.x (i + shiftOf g.cell_size (m.heap p).x))
      (wrapIdx g.y (j + shiftOf g.cell_size (m.heap p).y)) := by
    have e1 := realCell_wrap g.x i g.cell_size (m.heap p).x hr.1 hr.2.1
    have e2 := realCell_wrap g.y j g.cell_size (m.heap p).y hr.2.2.1 hr.2.2.2
    exact ⟨e1.1, e1.2, e2.1, e2.2⟩
  refine ⟨hwf.1, hwf.2, ?_, ?_, ?_⟩
  · intro q
    rw [← hM.same q]
    constructor
    · rintro ⟨a, b, hab, hq⟩
      rcases (hmem a b hab q).1 hq with ⟨rfl, _, _⟩ | ⟨_, hq2⟩
      · exact ⟨i, j, hr, hp⟩
      · exact ⟨a, b, hab, hq2⟩
    · rintro ⟨a, b, hab, hq⟩
      by_cases e : q = p
      · exact ⟨_, _, hdest, (hmem _ _ hdest q).2 (Or.inl ⟨e, rfl, rfl⟩)⟩
      · exact ⟨a, b, hab, (hmem a b hab q).2 (Or.inr ⟨e, hq⟩)⟩
  · intro a b q hab hq
    by_cases e : q = p
    · subst e
      rcases hM.track a b q hab hq with ⟨hq1, hdat⟩ | ⟨hnf, _, hdat⟩
      · obtain ⟨rfl, rfl⟩ := hM.disj a b i j q hab hr hq1 hp
        obtain ⟨ex, ey, _⟩ := data_fields _ _ hdat
        refine Or.inr ⟨(tooFar_congr g _ _ hdat).not.1 h2, ?_, ?_⟩
        · rw [← ex, ← ey]
          exact (hmem _ _ hdest q).2 (Or.inl ⟨rfl, rfl, rfl⟩)
        · rw [update_cells_move_data, if_pos rfl]
          simp only [migrated, ex, ey]
          obtain ⟨_, _, e3, e4, e5, e6, e7⟩ := data_fields _ _ hdat
          rw [e3, e4, e5, e6, e7]
      · exact absurd (inRange_of_migrated g _ _ hnf hdat) h1
    · have hdq : ((update_cells_move g m i j p).heap q).data = (m.heap q).data := by
        rw [update_cells_move_data, if_neg e]
      rcases hM.track a b q hab hq with ⟨hq1, hdat⟩ | ⟨hnf, hq1, hdat⟩
      · exact Or.inl ⟨(hmem a b hab q).2 (Or.inr ⟨e, hq1⟩), hdq.trans hdat⟩
      · have hd2 := realCell_wrap g.x a g.cell_size (m0.heap q).x hab.1 hab.2.1
        have hd3 := realCell_wrap g.y b g.cell_size (m0.heap q).y hab.2.2.1 hab.2.2.2
        exact Or.inr ⟨hnf, (hmem _ _ ⟨hd2.1, hd2.2, hd3.1, hd3.2⟩ q).2 (Or.inr ⟨e, hq1⟩),
          hdq.trans hdat⟩
  · intro a b hab
    rw [update_cells_move_ghost g m i j p hr a b hab]
    exact hM.ghost a b hab

theorem moveList_self (g : Globals K) (m : Mem K) (A : Int → Int → List Nat) (i j : Int)
    (p : Nat) (pre rest : List Nat) (hA : A i j = pre ++ p :: rest) (hnd : (A i j).Nodup) :
    moveList g m A i j p i j = pre ++ rest ∨ moveList g m A i j p i j = (p :: pre) ++ rest := by
  have hpre : p ∉ pre := by
    rw [hA] at hnd
    exact fun e => (List.nodup_append.1 hnd).2.2 e (List.mem_cons_self _ _)
  have he : (A i j).erase p = pre ++ rest := by
    rw [hA, List.erase_append_right _ hpre, List.erase_cons_head]
  simp only [moveList]
  by_cases e : i = wrapIdx g.x (i + shiftOf g.cell_size (m.heap p).x) ∧
      j = wrapIdx g.y (j + shiftOf g.cell_size (m.heap p).y)
  · right
    obtain ⟨e1, e2⟩ := e
    rw [← e1, ← e2, setList_self, setList_self, he]
    rfl
  · left
    rw [setList_other _ _ _ _ _ _ e, setList_self, he]

/-- One pass of the `while` loop of `update_cells` over the list of the real cell
`(i, j)`. -/
theorem update_cells_walk (g : Globals K) (m0 : Mem K) (A0 : Int → Int → List Nat)
    (i j : Int) (hr : realCell g i j) (done : List (Int × Int))
    (hdone : ∀ c ∈ done, realCell g c.1 c.2) (fuel : Nat)
    (hfuel : (allParts g A0).length ≤ fuel) (m : Mem K) (A : Int → Int → List Nat)
    (hM : Migr g m0 A0 m A)
    (hV : ∀ c ∈ done, ∀ q ∈ A c.1 c.2, inRange g (m.heap q)) :
    (whileSome (update_cells_body g i j) fuel (m.cells i j) m = .fatal ∧
        ∃ a b p, realCell g a b ∧ p ∈ A0 a b ∧ tooFar g (m0.heap p)) ∨
      ∃ m1, whileSome (update_cells_body g i j) fuel (m.cells i j) m = .ok m1 ∧
        ∃ A1, Migr g m0 A0 m1 A1 ∧
          ∀ c ∈ done ++ [(i, j)], ∀ q ∈ A1 c.1 c.2, inRange g (m1.heap q) := by
  have hstart : m.cells i j = (A i j).head? :=
    chain_start _ _ _ (dll_chain _ _ _ _ (hM.dll i j hr))
  have hlen : (A i j).length ≤ fuel := by
    refine le_trans ?_ hfuel
    refine List.Subperm.length_le (List.Nodup.subperm (dll_nodup _ _ _ _ (hM.dll i j hr)) ?_)
    intro q hq
    exact (mem_allParts g A0 q).2 ((hM.same q).1 ⟨i, j, hr, hq⟩)
  have key := whileSome_spec (update_cells_body g i j)
    (fun rest m1 => ∃ A1 pre, Migr g m0 A0 m1 A1 ∧ A1 i j = pre ++ rest ∧
      (∀ c ∈ done, ∀ q ∈ A1 c.1 c.2, inRange g (m1.heap q)) ∧
      ∀ q ∈ pre, inRange g (m1.heap q))
    (∃ a b p, realCell g a b ∧ p ∈ A0 a b ∧ tooFar g (m0.heap p)) ?_
    (A i j) fuel m hlen ⟨A, [], hM, rfl, hV, fun _ h => absurd h (List.not_mem_nil _)⟩
  · rw [hstart]
    rcases key with h | ⟨m1, h1, A1, pre, hM1, hA1, hV1, hpre⟩
    · exact Or.inl h
    · refine Or.inr ⟨m1, h1, A1, hM1, ?_⟩
      intro c hc q hq
      rcases List.mem_append.1 hc with hc | hc
      · exact hV1 c hc q hq
      · rw [List.mem_singleton] at hc
        subst hc
        rw [hA1, List.append_nil] at hq
        exact hpre q hq
  · rintro p rest m1 ⟨A1, pre, hM1, hA1, hV1, hpre⟩
    have hp : p ∈ A1 i j := by rw [hA1]; simp
    have hnext : (m1.heap p).next = rest.head? := by
      have hd := hM1.dll i j hr
      rw [hA1] at hd
      exact chain_start _ _ _ (dll_chain _ _ _ _ (dll_mid m1.heap p rest pre _ _ hd).2)
    by_cases hin : inRange g (m1.heap p)
    · refine Or.inr ⟨m1, ?_, A1, pre ++ [p], hM1, ?_, hV1, ?_⟩
      · rw [update_cells_body_stay g i j p m1 hin, hnext]
      · rw [hA1, List.append_assoc]; rfl
      · intro q hq
        rcases List.mem_append.1 hq with hq | hq
        · exact hpre q hq
        · rw [List.mem_singleton] at hq
          subst hq
          exact hin
    · by_cases hfar : tooFar g (m1.heap p)
      · refine Or.inl ⟨update_cells_body_fatal g i j p m1 hin hfar, ?_⟩
        obtain ⟨a, b, hab, hp0⟩ := (hM1.same p).1 ⟨i, j, hr, hp⟩
        refine ⟨a, b, p, hab, hp0, ?_⟩
        rcases hM1.track a b p hab hp0 with ⟨_, hdat⟩ | ⟨hnf, _, hdat⟩
        · exact (tooFar_congr g _ _ hdat).1 hfar
        · exact absurd (inRange_of_migrated g _ _ hnf hdat) hin
      · have hM2 := Migr_move g m0 m1 A0 A1 i j p hM1 hr hp hin hfar
        have hmem := mem_moveList g m1 A1 i j p hM1.dll hM1.disj hr hp
        have hpnew : inRange g ((update_cells_move g m1 i j p).heap p) := by
          refine inRange_of_migrated g _ (m1.heap p) hfar ?_
          rw [update_cells_move_data, if_pos rfl]
        have hother : ∀ q, q ≠ p → inRange g (m1.heap q) →
            inRange g ((update_cells_move g m1 i j p).heap q) := by
          intro q hq hin1
          refine (inRange_congr g _ _ ?_).2 hin1
          rw [update_cells_move_data, if_neg hq]
        have hall : ∀ q, (q = p ∨ inRange g (m1.heap q)) →
            inRange g ((update_cells_move g m1 i j p).heap q) := by
          intro q hq
          by_cases e : q = p
          · rw [e]; exact hpnew
          · rcases hq with hq | hq
            · exact absurd hq e
            · exact hother q e hq
        have hV2 : ∀ c ∈ done, ∀ q ∈ moveList g m1 A1 i j p c.1 c.2,
            inRange g ((update_cells_move g m1 i j p).heap q) := by
          intro c hc q hq
          rcases (hmem c.1 c.2 (hdone c hc) q).1 hq with ⟨e, _, _⟩ | ⟨_, hq1⟩
          · exact hall q (Or.inl e)
          · exact hall q (Or.inr (hV1 c hc q hq1))
        rcases moveList_self g m1 A1 i j p pre rest hA1 (dll_nodup _ _ _ _ (hM1.dll i j hr))
          with hl | hl
        · refine Or.inr ⟨_, ?_, _, pre, hM2, hl, hV2, ?_⟩
          · rw [update_cells_body_move g i j p m1 hin hfar, hnext]
          · exact fun q hq => hall q (Or.inr (hpre q hq))
        · refine Or.inr ⟨_, ?_, _, p :: pre, hM2, hl, hV2, ?_⟩
          · rw [update_cells_body_move g i j p m1 hin hfar, hnext]
          · intro q hq
            rcases List.mem_cons.1 hq with hq | hq
            · exact hall q (Or.inl hq)
            · exact hall q (Or.inr (hpre q hq))

/-- With fuel for every particle, `update_cells` either exits on a particle that was more
than one cell away at the call, or returns a well-formed grid related to the one at the
call in which every particle lies in the box of its cell. -/
theorem update_cells_master (g : Globals K) (m0 : Mem K) (A0 : Int → Int → List Nat)
    (fuel : Nat) (hwf : WF g m0 A0) (hfuel : (allParts g A0).length ≤ fuel) :
    (update_cells g fuel m0 = .fatal ∧
        ∃ a b p, realCell g a b ∧ p ∈ A0 a b ∧ tooFar g (m0.heap p)) ∨
      ∃ m A, update_cells g fuel m0 = .ok m ∧ Migr g m0 A0 m A ∧
        ∀ i j, realCell g i j → ∀ q ∈ A i j, inRange g (m.heap q) := by
  unfold update_cells
  rw [forCells_eq]
  have key := forEach_spec
    (fun (c : Int × Int) (m : Mem K) =>
      whileSome (update_cells_body g c.1 c.2) fuel (m.cells c.1 c.2) m)
    (cellOrder g)
    (fun done m => ∃ A, Migr g m0 A0 m A ∧ ∀ c ∈ done, ∀ q ∈ A c.1 c.2, inRange g (m.heap q))
    (∃ a b p, realCell g a b ∧ p ∈ A0 a b ∧ tooFar g (m0.heap p)) ?_
    (cellOrder g) [] m0 rfl
    ⟨A0, Migr_refl g m0 A0 hwf, fun _ h => absurd h (List.not_mem_nil _)⟩
  · rcases key with h | ⟨m1, h1, A1, hM1, hV1⟩
    · exact Or.inl h
    · exact Or.inr ⟨m1, A1, h1, hM1,
        fun i j hr q hq => hV1 (i, j) ((mem_cellOrder g i j).2 hr) q hq⟩
  · rintro done c rest m hl ⟨A, hM, hV⟩
    have hc : realCell g c.1 c.2 := by
      refine (mem_cellOrder g c.1 c.2).1 ?_
      rw [hl]; simp
    have hdone : ∀ d ∈ done, realCell g d.1 d.2 := by
      intro d hd
      refine (mem_cellOrder g d.1 d.2).1 ?_
      rw [hl]; simp [hd]
    rcases update_cells_walk g m0 A0 c.1 c.2 hc done hdone fuel hfuel m A hM hV with
      h | ⟨m1, h1, A1, hM1, hV1⟩
    · exact Or.inl h
    · exact Or.inr ⟨m1, h1, A1, hM1, hV1⟩

theorem WF_of_Migr (g : Globals K) (m0 m : Mem K) (A0 A : Int → Int → List Nat)
    (h : Migr g m0 A0 m A) : WF g m A :=
  (WF_iff g m A).2 ⟨h.dll, h.disj⟩

/-- A call of `update_cells` that does not exit returns, with the relation to the state
at the call. -/
theorem update_cells_ok (g : Globals K) (m0 : Mem K) (A0 : Int → Int → List Nat)
    (fuel : Nat) (hwf : WF g m0 A0) (hfuel : (allParts g A0).length ≤ fuel)
    (hnf : update_cells g fuel m0 ≠ .fatal) :
    ∃ m A, update_cells g fuel m0 = .ok m ∧ Migr g m0 A0 m A ∧
      ∀ i j, realCell g i j → ∀ q ∈ A i j, inRange g (m.heap q) := by
  rcases update_cells_master g m0 A0 fuel hwf hfuel with ⟨h, _⟩ | h
  · exact absurd h hnf
  · exact h

theorem inRange_not_tooFar (g : Globals K) (r : particle_t K) (hcs : 0 < g.cell_size)
    (h : inRange g r) : ¬ tooFar g r := by
  obtain ⟨h1, h2, h3, h4⟩ := h
  unfold tooFar
  simp only [not_or, not_lt, ge_iff_le, not_le]
  refine ⟨by linarith, by linarith, by linarith, by linarith⟩

/-- **C4.** With `cell_size > 0`, on a well-formed grid and with fuel for every particle,
`update_cells` exits fatally if and only if some particle of some real cell has a local
coordinate `< -cell_size` or `≥ 2 * cell_size` at the call; otherwise it returns. -/
theorem update_cells_fatal_iff (g : Globals K) (m : Mem K) (A : Int → Int → List Nat)
    (fuel : Nat) (hcs : 0 < g.cell_size) (hwf : WF g m A)
    (hfuel : (allParts g A).length ≤ fuel) :
    (update_cells g fuel m = .fatal ↔
      ∃ i j p, realCell g i j ∧ p ∈ A i j ∧
        ((m.heap p).x < -g.cell_size ∨ (m.heap p).x ≥ 2 * g.cell_size ∨
          (m.heap p).y < -g.cell_size ∨ (m.heap p).y ≥ 2 * g.cell_size)) ∧
    ((¬ ∃ i j p, realCell g i j ∧ p ∈ A i j ∧
        ((m.heap p).x < -g.cell_size ∨ (m.heap p).x ≥ 2 * g.cell_size ∨
          (m.heap p).y < -g.cell_size ∨ (m.heap p).y ≥ 2 * g.cell_size)) →
      ∃ m1, update_cells g fuel m = .ok m1) := by
  have hmaster := update_cells_master g m A fuel hwf hfuel
  have hiff : update_cells g fuel m = .fatal ↔
      ∃ i j p, realCell g i j ∧ p ∈ A i j ∧ tooFar g (m.heap p) := by
    constructor
    · intro hf
      rcases hmaster with ⟨_, h⟩ | ⟨m1, A1, h1, _⟩
      · exact h
      · rw [h1] at hf
        cases hf
    · rintro ⟨i, j, p, hr, hp, hfar⟩
      rcases hmaster with ⟨h, _⟩ | ⟨m1, A1, _, hM, hV⟩
      · exact h
      · exfalso
        rcases hM.track i j p hr hp with ⟨hp1, hdat⟩ | ⟨hnf, _, _⟩
        · have hin := (inRange_congr g _ _ hdat).1 (hV i j hr p hp1)
          exact inRange_not_tooFar g _ hcs hin hfar
        · exact hnf hfar
  refine ⟨hiff, fun hno => ?_⟩
  rcases hmaster with ⟨h, _⟩ | ⟨m1, _, h1, _⟩
  · exact absurd (hiff.1 h) hno
  · exact ⟨m1, h1⟩

theorem update_cells_fatal_iff_witness :
    (update_cells exGlobals 4 exDrifted = .fatal ↔
      ∃ i j p, realCell exGlobals i j ∧ p ∈ exLists i j ∧
        ((exDrifted.heap p).x < -exGlobals.cell_size ∨
          (exDrifted.heap p).x ≥ 2 * exGlobals.cell_size ∨
          (exDrifted.heap p).y < -exGlobals.cell_size ∨
          (exDrifted.heap p).y ≥ 2 * exGlobals.cell_size)) :=
  (update_cells_fatal_iff exGlobals exDrifted exLists 4 (by decide) (by decide)
    (by decide)).1

theorem wrapIdx_real (n i : Int) (h1 : 1 ≤ i) (h2 : i ≤ n) : wrapIdx n i = i := by
  unfold wrapIdx
  split_ifs <;> omega

/-- Where a particle is after a returning `update_cells`, from the relation with the
state at the call. -/
theorem Migr_destination (g : Globals K) (m0 m : Mem K) (A0 A : Int → Int → List Nat)
    (hM : Migr g m0 A0 m A)
    (hV : ∀ i j, realCell g i j → ∀ q ∈ A i j, inRange g (m.heap q))
    (i j : Int) (p : Nat) (hr : realCell g i j) (hp : p ∈ A0 i j) :
    p ∈ A (wrapIdx g.x (i + shiftOf g.cell_size (m0.heap p).x))
        (wrapIdx g.y (j + shiftOf g.cell_size (m0.heap p).y)) ∧
      (m.heap p).data = migrated g (m0.heap p) := by
  rcases hM.track i j p hr hp with ⟨hp1, hdat⟩ | ⟨_, hp1, hdat⟩
  · have hin := (inRange_congr g _ _ hdat).1 (hV i j hr p hp1)
    obtain ⟨h1, h2, h3, h4⟩ := hin
    have sx : shiftOf g.cell_size (m0.heap p).x = 0 := by
      unfold shiftOf
      rw [if_neg (not_lt.2 h1), if_neg (not_le.2 h2)]
    have sy : shiftOf g.cell_size (m0.heap p).y = 0 := by
      unfold shiftOf
      rw [if_neg (not_lt.2 h3), if_neg (not_le.2 h4)]
    rw [sx, sy, add_zero, add_zero, wrapIdx_real _ _ hr.1 hr.2.1,
      wrapIdx_real _ _ hr.2.2.1 hr.2.2.2]
    refine ⟨hp1, ?_⟩
    rw [hdat]
    simp [migrated, particle_t.data, sx, sy]
  · exact ⟨hp1, hdat⟩

/-- **C6, amended: in exact arithmetic.** Destination rule of `update_cells`, the
coordinates in an arbitrary ordered ring: on a well-formed grid, with fuel for
every particle, a call that does not exit returns a well-formed grid in which every
particle `p` of a real cell `(i, j)` whose coordinates lay in `[-cell_size, 2*cell_size)`
is a member of the real cell `(wrap (i + sx), wrap (j + sy))` with coordinates
`(x - sx * cell_size, y - sy * cell_size)`; a particle with `cell_size ≤ x < 2*cell_size`
goes to `i + 1` (to `1` from `i = X`), a particle of cell `1` with `-cell_size ≤ x < 0`
goes to `X`, a particle inside the box stays. -/
theorem update_cells_destination (g : Globals K) (m : Mem K) (A : Int → Int → List Nat)
    (fuel : Nat) (hwf : WF g m A) (hfuel : (allParts g A).length ≤ fuel)
    (hnf : update_cells g fuel m ≠ .fatal) :
    ∃ m1 A1, update_cells g fuel m = .ok m1 ∧ WF g m1 A1 ∧
      ∀ i j p, realCell g i j → p ∈ A i j →
        -g.cell_size ≤ (m.heap p).x → (m.heap p).x < 2 * g.cell_size →
        -g.cell_size ≤ (m.heap p).y → (m.heap p).y < 2 * g.cell_size →
        (realCell g (wrapIdx g.x (i + shiftOf g.cell_size (m.heap p).x))
            (wrapIdx g.y (j + shiftOf g.cell_size (m.heap p).y)) ∧
          p ∈ A1 (wrapIdx g.x (i + shiftOf g.cell_size (m.heap p).x))
              (wrapIdx g.y (j + shiftOf g.cell_size (m.heap p).y)) ∧
          (m1.heap p).x = (m.heap p).x - (shiftOf g.cell_size (m.heap p).x : K) * g.cell_size ∧
          (m1.heap p).y = (m.heap p).y - (shiftOf g.cell_size (m.heap p).y : K) * g.cell_size) ∧
        (g.cell_size ≤ (m.heap p).x → 0 ≤ (m.heap p).y → (m.heap p).y < g.cell_size →
          p ∈ A1 (if i = g.x then 1 else i + 1) j ∧
            (m1.heap p).x = (m.heap p).x - g.cell_size) ∧
        (i = 1 → (m.heap p).x < 0 → 0 ≤ (m.heap p).y → (m.heap p).y < g.cell_size →
          p ∈ A1 g.x j ∧ (m1.heap p).x = (m.heap p).x + g.cell_size) ∧
        (inRange g (m.heap p) →
          p ∈ A1 i j ∧ (m1.heap p).x = (m.heap p).x ∧ (m1.heap p).y = (m.heap p).y) := by
  obtain ⟨m1, A1, h1, hM, hV⟩ := update_cells_ok g m A fuel hwf hfuel hnf
  refine ⟨m1, A1, h1, WF_of_Migr g m m1 A A1 hM, ?_⟩
  intro i j p hr hp hx1 hx2 hy1 hy2
  obtain ⟨hmem, hdat⟩ := Migr_destination g m m1 A A1 hM hV i j p hr hp
  have ex : (m1.heap p).x =
      (m.heap p).x - (shiftOf g.cell_size (m.heap p).x : K) * g.cell_size := by
    have := congrArg (fun t => t.1) hdat
    simpa [particle_t.data, migrated] using this
  have ey : (m1.heap p).y =
      (m.heap p).y - (shiftOf g.cell_size (m.heap p).y : K) * g.cell_size := by
    have := congrArg (fun t => t.2.1) hdat
    simpa [particle_t.data, migrated] using this
  have hdx := realCell_wrap g.x i g.cell_size (m.heap p).x hr.1 hr.2.1
  have hdy := realCell_wrap g.y j g.cell_size (m.heap p).y hr.2.2.1 hr.2.2.2
  refine ⟨⟨⟨hdx.1, hdx.2, hdy.1, hdy.2⟩, hmem, ex, ey⟩, ?_, ?_, ?_⟩
  · intro hx3 hy3 hy4
    have hcs : 0 < g.cell_size := by linarith
    have sx : shiftOf g.cell_size (m.heap p).x = 1 := by
      unfold shiftOf
      rw [if_neg (not_lt.2 (by linarith)), if_pos hx3]
    have sy : shiftOf g.cell_size (m.heap p).y = 0 := by
      unfold shiftOf
      rw [if_neg (not_lt.2 hy3), if_neg (not_le.2 hy4)]
    rw [sx, sy, add_zero, wrapIdx_real _ _ hr.2.2.1 hr.2.2.2] at hmem
    rw [sx] at ex
    have hw : wrapIdx g.x (i + 1) = if i = g.x then 1 else i + 1 := by
      unfold wrapIdx
      have := hr.1
      split_ifs <;> omega
    rw [hw] at hmem
    refine ⟨hmem, ?_⟩
    rw [ex]
    push_cast
    ring
  · intro hi hx3 hy3 hy4
    have sx : shiftOf g.cell_size (m.heap p).x = -1 := by
      unfold shiftOf
      rw [if_pos hx3]
    have sy : shiftOf g.cell_size (m.heap p).y = 0 := by
      unfold shiftOf
      rw [if_neg (not_lt.2 hy3), if_neg (not_le.2 hy4)]
    rw [sx, sy, add_zero, wrapIdx_real _ _ hr.2.2.1 hr.2.2.2] at hmem
    rw [sx] at ex
    have hw : wrapIdx g.x (i + -1) = g.x := by
      unfold wrapIdx
      rw [hi]
      simp
    rw [hw] at hmem
    refine ⟨hmem, ?_⟩
    rw [ex]
    push_cast
    ring
  · rintro ⟨a1, a2, a3, a4⟩
    have sx : shiftOf g.cell_size (m.heap p).x = 0 := by
      unfold shiftOf
      rw [if_neg (not_lt.2 a1), if_neg (not_le.2 a2)]
    have sy : shiftOf g.cell_size (m.heap p).y = 0 := by
      unfold shiftOf
      rw [if_neg (not_lt.2 a3), if_neg (not_le.2 a4)]
    rw [sx, sy, add_zero, add_zero, wrapIdx_real _ _ hr.1 hr.2.1,
      wrapIdx_real _ _ hr.2.2.1 hr.2.2.2] at hmem
    rw [sx] at ex
    rw [sy] at ey
    refine ⟨hmem, ?_, ?_⟩
    · rw [ex]; push_cast; ring
    · rw [ey]; push_cast; ring

theorem update_cells_destination_witness :
    ∃ m1 A1, update_cells exGlobals 4 exDrifted = .ok m1 ∧ WF exGlobals m1 A1 ∧
      0 ∈ A1 2 1 ∧ (m1.heap 0).x = 6 := by
  obtain ⟨m1, A1, h1, hwf, h⟩ :=
    update_cells_destination exGlobals exDrifted exLists 4 (by decide) (by decide) (by decide)
  have h2 := (h 1 1 0 (by decide) (by decide) (by decide) (by decide) (by decide)
    (by decide)).2.1 (by decide) (by decide) (by decide)
  exact ⟨m1, A1, h1, hwf, h2.1, h2.2⟩

/-- The particles of a returning `update_cells` are those at the call. -/
theorem Migr_perm (g : Globals K) (m0 m : Mem K) (A0 A : Int → Int → List Nat)
    (hwf : WF g m0 A0) (hM : Migr g m0 A0 m A) :
    (allParts g A).Perm (allParts g A0) := by
  refine (List.perm_ext_iff_of_nodup (WF_of_Migr g m0 m A0 A hM).2 hwf.2).2 ?_
  intro q
  rw [mem_allParts, mem_allParts]
  exact hM.same q

/-- **C8.** `update_cells` conserves the particles: on a grid where every particle is a
member of exactly one real cell's well-formed list, a call that does not exit returns a
grid with the same particles, each again a member of exactly one real cell's well-formed
list; the heads of the ghost cells are not written.  This covers a destination that is
visited later and a destination that is the source cell. -/
theorem update_cells_conserves (g : Globals K) (m : Mem K) (A : Int → Int → List Nat)
    (fuel : Nat) (hwf : WF g m A) (hfuel : (allParts g A).length ≤ fuel)
    (hnf : update_cells g fuel m ≠ .fatal) :
    ∃ m1 A1, update_cells g fuel m = .ok m1 ∧ WF g m1 A1 ∧
      (allParts g A1).Perm (allParts g A) ∧
      (∀ p, (∃ i j, realCell g i j ∧ p ∈ A1 i j) ↔ (∃ i j, realCell g i j ∧ p ∈ A i j)) ∧
      (∀ i j, ¬ realCell g i j → m1.cells i j = m.cells i j) := by
  obtain ⟨m1, A1, h1, hM, _⟩ := update_cells_ok g m A fuel hwf hfuel hnf
  exact ⟨m1, A1, h1, WF_of_Migr g m m1 A A1 hM, Migr_perm g m m1 A A1 hwf hM, hM.same,
    hM.ghost⟩

theorem update_cells_conserves_witness :
    ∃ m1 A1, update_cells exGlobals 4 exDrifted = .ok m1 ∧ WF exGlobals m1 A1 ∧
      (allParts exGlobals A1).Perm (allParts exGlobals exLists) := by
  obtain ⟨m1, A1, h1, hwf, hperm, _⟩ :=
    update_cells_conserves exGlobals exDrifted exLists 4 (by decide) (by decide) (by decide)
  exact ⟨m1, A1, h1, hwf, hperm⟩

end OrderedRing

/-! ## Loops that keep the lists are folds -/

/-- A loop whose body always returns is a fold. -/
theorem forEach_fold {ι σ : Type} (body : ι → σ → Outcome σ) (step : ι → σ → σ)
    (Inv : σ → Prop) (P : ι → Prop)
    (h : ∀ i s, P i → Inv s → body i s = .ok (step i s) ∧ Inv (step i s)) :
    ∀ (l : List ι) (s : σ), (∀ i ∈ l, P i) → Inv s →
      forEach body l s = .ok (l.foldl (fun s i => step i s) s) ∧
        Inv (l.foldl (fun s i => step i s) s)
  | [], s, _, hs => ⟨rfl, hs⟩
  | i :: l, s, hP, hs => by
    obtain ⟨hb, hi⟩ := h i s (hP i (List.mem_cons_self _ _)) hs
    have ih := forEach_fold body step Inv P h l (step i s)
      (fun k hk => hP k (List.mem_cons_of_mem _ hk)) hi
    simpa only [forEach, hb, List.foldl_cons] using ih

/-- A `while` loop over a chain whose body keeps the `next` links is a fold over the
chain; fuel of the length of the chain is enough. -/
theorem whileSome_fold {σ : Type} (mem : σ → Mem K) (body : Nat → σ → Outcome (σ × Option Nat))
    (step : Nat → σ → σ) (h0 : Nat → particle_t K) (Inv : σ → Prop) (P : Nat → Prop)
    (hlink : ∀ s, Inv s → ∀ n, ((mem s).heap n).next = (h0 n).next)
    (hbody : ∀ p s, P p → Inv s →
      body p s = .ok (step p s, ((mem (step p s)).heap p).next) ∧ Inv (step p s)) :
    ∀ (L : List Nat) (fuel : Nat) (s : σ) (start : Option Nat), (∀ p ∈ L, P p) →
      L.length ≤ fuel → Inv s → chain h0 start L →
      whileSome body fuel start s = .ok (L.foldl (fun s p => step p s) s) ∧
        Inv (L.foldl (fun s p => step p s) s)
  | [], fuel, s, start, _, _, hs, hc => by
    have : start = none := hc
    subst this
    refine ⟨?_, hs⟩
    cases fuel <;> rfl
  | p :: rest, 0, _, _, _, hlen, _, _ => by simp at hlen
  | p :: rest, fuel + 1, s, start, hP, hlen, hs, hc => by
    obtain ⟨hst, hc2⟩ := hc
    subst hst
    obtain ⟨hb, hi⟩ := hbody p s (hP p (List.mem_cons_self _ _)) hs
    have ih := whileSome_fold mem body step h0 Inv P hlink hbody rest fuel (step p s)
      ((mem (step p s)).heap p).next (fun k hk => hP k (List.mem_cons_of_mem _ hk))
      (by simpa using hlen) hi (by rw [hlink _ hi p]; exact hc2)
    simpa only [whileSome, hb, List.foldl_cons] using ih

/-- A loop nest over the real cells with a `while` loop over the list of each cell, whose
body keeps the links and the heads, is a fold over the cells and their lists. -/
theorem forCells_fold {σ : Type} (g : Globals K) (mem : σ → Mem K)
    (body : Int → Int → Nat → σ → Outcome (σ × Option Nat)) (step : Int → Int → Nat → σ → σ)
    (m0 : Mem K) (A : Int → Int → List Nat) (fuel : Nat) (Inv : σ → Prop)
    (hlink : ∀ s, Inv s →
      (∀ n, ((mem s).heap n).next = (m0.heap n).next) ∧ (mem s).cells = m0.cells)
    (hbody : ∀ i j p s, realCell g i j → p ∈ A i j → Inv s →
      body i j p s = .ok (step i j p s, ((mem (step i j p s)).heap p).next) ∧
        Inv (step i j p s))
    (hchain : ∀ i j, realCell g i j → chain m0.heap (m0.cells i j) (A i j))
    (hfuel : ∀ i j, realCell g i j → (A i j).length ≤ fuel) (s : σ) (hs : Inv s) :
    forCells g (fun i j s => whileSome (body i j) fuel ((mem s).cells i j) s) s =
        .ok ((cellOrder g).foldl
          (fun s c => (A c.1 c.2).foldl (fun s p => step c.1 c.2 p s) s) s) ∧
      Inv ((cellOrder g).foldl
          (fun s c => (A c.1 c.2).foldl (fun s p => step c.1 c.2 p s) s) s) := by
  rw [forCells_eq]
  refine forEach_fold _ (fun c s => (A c.1 c.2).foldl (fun s p => step c.1 c.2 p s) s) Inv
    (fun c => realCell g c.1 c.2) ?_ (cellOrder g) s
    (fun c hc => (mem_cellOrder g c.1 c.2).1 hc) hs
  intro c s1 hc hs1
  have hr := hc
  rw [(hlink s1 hs1).2]
  exact whileSome_fold mem (body c.1 c.2) (step c.1 c.2) m0.heap Inv (fun p => p ∈ A c.1 c.2)
    (fun s hs => (hlink s hs).1) (fun p s hp hs => hbody c.1 c.2 p s hr hp hs)
    (A c.1 c.2) fuel s1 (m0.cells c.1 c.2) (fun _ hp => hp) (hfuel c.1 c.2 hr) hs1
    (hchain c.1 c.2 hr)

theorem foldl_cells_eq {σ : Type} (g : Globals K) (A : Int → Int → List Nat)
    (step : Nat → σ → σ) (s : σ) :
    (cellOrder g).foldl (fun s c => (A c.1 c.2).foldl (fun s p => step p s) s) s =
      (allParts g A).foldl (fun s p => step p s) s := by
  unfold allParts
  generalize cellOrder g = l
  induction l generalizing s with
  | nil => rfl
  | cons c l ih => rw [List.foldl_cons, List.flatMap_cons, List.foldl_append, ih]

/-- A fold of writes `m.modify p f` over a list without repetition applies `f` once to
every record of the list. -/
theorem foldl_modify_heap (f : particle_t K → particle_t K) :
    ∀ (L : List Nat) (m : Mem K), L.Nodup →
      ((L.foldl (fun m p => m.modify p f) m).heap = fun n =>
        if n ∈ L then f (m.heap n) else m.heap n) ∧
      (L.foldl (fun m p => m.modify p f) m).cells = m.cells ∧
      (L.foldl (fun m p => m.modify p f) m).brk = m.brk
  | [], m, _ => by simp
  | p :: L, m, hnd => by
    obtain ⟨hp, hL⟩ := List.nodup_cons.1 hnd
    obtain ⟨h1, h2, h3⟩ := foldl_modify_heap f L (m.modify p f) hL
    rw [List.foldl_cons]
    refine ⟨?_, h2, h3⟩
    rw [h1]
    funext n
    by_cases e : n = p
    · subst e
      simp [hp]
    · simp [e]

/-! ## `move_particles`, and the drift followed by the migration -/

section OrderedRing

variable [LinearOrderedCommRing K]

theorem move_particles_body_eq (g : Globals K) (p : Nat) (m : Mem K) :
    move_particles_body g p m =
      .ok (m.modify p (move_particles_rec g),
        ((m.modify p (move_particles_rec g)).heap p).next) := by
  have e : ∀ m1 : Mem K, m1 = m.modify p (move_particles_rec g) →
      Outcome.ok (m1, (m1.heap p).next) =
        Outcome.ok (m.modify p (move_particles_rec g),
          ((m.modify p (move_particles_rec g)).heap p).next) := by
    intro m1 h
    rw [h]
  unfold move_particles_body
  refine e _ ?_
  simp only [Mem.modify, move_particles_rec]
  congr 1
  funext n
  by_cases h : n = p
  · subst h
    simp
  · simp [h]

/-- `move_particles` on a grid of null-terminated lists without repetition: with fuel for
the longest list it returns, every record of a real cell has been kicked and drifted
once, and every link, head and other record is kept. -/
theorem move_particles_eq (g : Globals K) (m : Mem K) (A : Int → Int → List Nat) (fuel : Nat)
    (hwf : WF g m A) (hfuel : (allParts g A).length ≤ fuel) :
    ∃ m1, move_particles g fuel m = .ok m1 ∧
      (m1.heap = fun n =>
        if n ∈ allParts g A then move_particles_rec g (m.heap n) else m.heap n) ∧
      m1.cells = m.cells ∧ m1.brk = m.brk := by
  have hw := (WF_iff g m A).1 hwf
  have hlen : ∀ i j, realCell g i j → (A i j).length ≤ fuel := by
    intro i j hr
    refine le_trans ?_ hfuel
    refine List.Subperm.length_le (List.Nodup.subperm (dll_nodup _ _ _ _ (hw.1 i j hr)) ?_)
    intro q hq
    exact (mem_allParts g A q).2 ⟨i, j, hr, hq⟩
  have key := forCells_fold g (fun m : Mem K => m) (fun _ _ => move_particles_body g)
    (fun _ _ p m => m.modify p (move_particles_rec g)) m A fuel
    (fun m1 => (∀ n, (m1.heap n).next = (m.heap n).next) ∧ m1.cells = m.cells)
    (fun _ h => h) ?_ (fun i j hr => dll_chain _ _ _ _ (hw.1 i j hr)) hlen m
    ⟨fun _ => rfl, rfl⟩
  · obtain ⟨h1, _⟩ := key
    rw [foldl_cells_eq g A (fun p (m : Mem K) => m.modify p (move_particles_rec g))] at h1
    obtain ⟨e1, e2, e3⟩ := foldl_modify_heap (move_particles_rec g) (allParts g A) m hwf.2
    exact ⟨_, h1, e1, e2, e3⟩
  · intro i j p s _ _ hs
    refine ⟨move_particles_body_eq g p s, ?_, hs.2⟩
    intro n
    rw [← hs.1 n]
    simp only [Mem.modify_heap]
    split_ifs with h
    · subst h
      simp [move_particles_rec]
    · rfl

theorem move_particles_rec_links (g : Globals K) (r : particle_t K) :
    (move_particles_rec g r).next = r.next ∧ (move_particles_rec g r).prev = r.prev := by
  simp [move_particles_rec]

theorem move_particles_wf (g : Globals K) (m m1 : Mem K) (A : Int → Int → List Nat)
    (hwf : WF g m A)
    (hheap : m1.heap = fun n =>
      if n ∈ allParts g A then move_particles_rec g (m.heap n) else m.heap n)
    (hcells : m1.cells = m.cells) : WF g m1 A := by
  have hw := (WF_iff g m A).1 hwf
  refine (WF_iff g m1 A).2 ⟨cellsDll_congr g m m1 A (fun n => ?_) (fun _ _ _ => by rw [hcells])
    hw.1, hw.2⟩
  rw [hheap]
  simp only []
  split_ifs
  · exact move_particles_rec_links g _
  · exact ⟨rfl, rfl⟩

end OrderedRing

/-! ## `problem_setup` -/

theorem mem_setList_cons (A : Int → Int → List Nat) (i j c d : Int) (p q : Nat) :
    q ∈ setList A i j (p :: A i j) c d ↔ (q = p ∧ c = i ∧ d = j) ∨ q ∈ A c d := by
  by_cases e : c = i ∧ d = j
  · obtain ⟨rfl, rfl⟩ := e
    rw [setList_self, List.mem_cons]
    constructor
    · rintro (h | h)
      · exact Or.inl ⟨h, rfl, rfl⟩
      · exact Or.inr h
    · rintro (h | h)
      · exact Or.inl h.1
      · exact Or.inr h
  · rw [setList_other _ _ _ _ _ _ e]
    constructor
    · exact fun h => Or.inr h
    · rintro (h | h)
      · exact absurd h.2 e
      · exact h

/-- A write of every record of the real cells that keeps the links keeps the grid. -/
theorem WF_of_map (g : Globals K) (m m1 : Mem K) (A : Int → Int → List Nat)
    (f : particle_t K → particle_t K)
    (hf : ∀ r, (f r).next = r.next ∧ (f r).prev = r.prev) (hwf : WF g m A)
    (hheap : m1.heap = fun n => if n ∈ allParts g A then f (m.heap n) else m.heap n)
    (hcells : m1.cells = m.cells) : WF g m1 A := by
  have hw := (WF_iff g m A).1 hwf
  refine (WF_iff g m1 A).2 ⟨cellsDll_congr g m m1 A (fun n => ?_) (fun _ _ _ => by rw [hcells])
    hw.1, hw.2⟩
  rw [hheap]
  simp only []
  split_ifs
  · exact hf _
  · exact ⟨rfl, rfl⟩

/-- A loop nest over the real cells whose `while` body rewrites the visited record by `f`
and keeps its links: with fuel for the longest list it returns the memory in which every
record of a real cell has been rewritten once. -/
theorem forCells_map (g : Globals K) (m : Mem K) (A : Int → Int → List Nat) (fuel : Nat)
    (body : Nat → Mem K → Outcome (Mem K × Option Nat)) (f : particle_t K → particle_t K)
    (hf : ∀ r, (f r).next = r.next ∧ (f r).prev = r.prev)
    (hbody : ∀ p m, body p m = .ok (m.modify p f, ((m.modify p f).heap p).next))
    (hwf : WF g m A) (hfuel : ∀ i j, realCell g i j → (A i j).length ≤ fuel) :
    ∃ m1, forCells g (fun i j m => whileSome body fuel (m.cells i j) m) m = .ok m1 ∧
      (m1.heap = fun n => if n ∈ allParts g A then f (m.heap n) else m.heap n) ∧
      m1.cells = m.cells ∧ m1.brk = m.brk ∧ WF g m1 A := by
  have hw := (WF_iff g m A).1 hwf
  have key := forCells_fold g (fun m : Mem K => m) (fun _ _ => body)
    (fun _ _ p m => m.modify p f) m A fuel
    (fun m1 => (∀ n, (m1.heap n).next = (m.heap n).next) ∧ m1.cells = m.cells)
    (fun _ h => h) ?_ (fun i j hr => dll_chain _ _ _ _ (hw.1 i j hr)) hfuel m
    ⟨fun _ => rfl, rfl⟩
  · obtain ⟨h1, _⟩ := key
    rw [foldl_cells_eq g A (fun p (m : Mem K) => m.modify p f)] at h1
    obtain ⟨e1, e2, e3⟩ := foldl_modify_heap f (allParts g A) m hwf.2
    exact ⟨_, h1, e1, e2, e3, WF_of_map g m _ A f hf hwf e1 e2⟩
  · intro i j p s _ _ hs
    refine ⟨hbody p s, ?_, hs.2⟩
    intro n
    rw [← hs.1 n]
    simp only [Mem.modify_heap]
    split_ifs with h
    · subst h
      exact (hf _).1
    · rfl

theorem length_loopIdx (lo hi : Int) : (loopIdx lo hi).length = (hi - lo).toNat := by
  simp [loopIdx]

theorem length_le_of_WF (g : Globals K) (m : Mem K) (A : Int → Int → List Nat)
    (hwf : WF g m A) (i j : Int) (hr : realCell g i j) :
    (A i j).length ≤ (allParts g A).length := by
  have hw := (WF_iff g m A).1 hwf
  refine List.Subperm.length_le (List.Nodup.subperm (dll_nodup _ _ _ _ (hw.1 i j hr)) ?_)
  intro q hq
  exact (mem_allParts g A q).2 ⟨i, j, hr, hq⟩

section OrderedField

variable {K : Type} [LinearOrderedField K]

/-- A lattice coordinate lies strictly inside the cell. -/
theorem lattice_inRange (n a : Int) (cs : K) (hcs : 0 < cs) (ha0 : 0 ≤ a) (ha1 : a < n) :
    0 ≤ ((1 / 2) * (1 / (n : K)) + (a : K) / (n : K)) * cs ∧
      ((1 / 2) * (1 / (n : K)) + (a : K) / (n : K)) * cs < cs := by
  have hn : (0 : K) < (n : K) := by
    have : (0 : Int) < n := by omega
    exact_mod_cast this
  have ha : (0 : K) ≤ (a : K) := by exact_mod_cast ha0
  have ha2 : (a : K) + 1 ≤ (n : K) := by
    have : a + 1 ≤ n := by omega
    exact_mod_cast this
  have e : (1 / 2) * (1 / (n : K)) + (a : K) / (n : K) = (1 / 2 + (a : K)) / (n : K) := by
    field_simp
    ring
  rw [e]
  have h1 : 0 ≤ (1 / 2 + (a : K)) / (n : K) := div_nonneg (by linarith) hn.le
  have h2 : (1 / 2 + (a : K)) / (n : K) < 1 := by
    rw [div_lt_one hn]
    linarith
  exact ⟨mul_nonneg h1 hcs.le, by nlinarith⟩

theorem problem_setup_place_inv (lib : Libm K) (g : Globals K) (vm ph : K) (i j a b : Int)
    (s : SetupState K) (A : Int → Int → List Nat) (hcs : 0 < g.cell_size)
    (hr : realCell g i j) (ha : a ∈ loopIdx 0 g.num_part_per_dim)
    (hb : b ∈ loopIdx 0 g.num_part_per_dim) (h : LatticeInv g s A) :
    LatticeInv g (problem_setup_place lib g vm ph i j a b s)
      (setList A i j (s.mem.brk :: A i j)) := by
  rw [mem_loopIdx] at ha hb
  have hpA : ∀ c d, s.mem.brk ∉ A c d := fun c d hp => lt_irrefl _ (h.fresh c d _ hp)
  have hx := lattice_inRange g.num_part_per_dim a g.cell_size hcs ha.1 ha.2
  have hy := lattice_inRange g.num_part_per_dim b g.cell_size hcs hb.1 hb.2
  -- the memory before `add_particle`
  obtain ⟨m4, hm4, hlink, hcells, hbrk, hdat⟩ : ∃ m4 : Mem K,
      (problem_setup_place lib g vm ph i j a b s).mem = add_particle m4 i j s.mem.brk ∧
      (∀ n, (m4.heap n).next = (s.mem.heap n).next ∧ (m4.heap n).prev = (s.mem.heap n).prev) ∧
      m4.cells = s.mem.cells ∧ m4.brk = s.mem.brk + 1 ∧
      (∀ n, (n ≠ s.mem.brk → m4.heap n = s.mem.heap n) ∧
        (n = s.mem.brk → inRange g (m4.heap n))) := by
    refine ⟨_, rfl, ?_, rfl, rfl, ?_⟩
    · intro n
      simp only [Mem.modify_heap]
      split_ifs with e
      · subst e; simp
      · exact ⟨rfl, rfl⟩
    · intro n
      constructor
      · intro hn
        simp only [Mem.modify_heap, if_neg hn]
      · intro hn
        subst hn
        simp only [Mem.modify_heap, if_true, inRange, particle_t.setVy_x, particle_t.setVx_x,
          particle_t.setY_x, particle_t.setX_x, particle_t.setVy_y, particle_t.setVx_y,
          particle_t.setY_y]
        exact ⟨hx.1, hx.2, hy.1, hy.2⟩
  have hd4 : cellsDll g m4 A :=
    cellsDll_congr g s.mem m4 A hlink (fun _ _ _ => by rw [hcells]) h.dll
  refine ⟨?_, ?_, ?_, ?_, ?_⟩
  · rw [hm4]
    exact cellsDll_add g m4 A i j _ hd4 h.disj hr (fun c d _ => hpA c d)
  · exact cellsDisjoint_add g A i j _ h.disj hr (fun c d _ => hpA c d)
  · intro c d q hq
    rw [hm4, add_particle_brk, hbrk]
    rcases (mem_setList_cons A i j c d _ q).1 hq with ⟨e, _, _⟩ | hq
    · omega
    · exact Nat.lt_succ_of_lt (h.fresh c d q hq)
  · intro c d hcd q hq
    have hdq : ((problem_setup_place lib g vm ph i j a b s).mem.heap q).data =
        (m4.heap q).data := by
      rw [hm4, add_particle_data]
    refine (inRange_congr g _ _ hdq).2 ?_
    rcases (mem_setList_cons A i j c d _ q).1 hq with ⟨e, _, _⟩ | hq
    · exact (hdat q).2 e
    · rw [(hdat q).1 (fun e => hpA c d (e ▸ hq))]
      exact h.box c d hcd q hq
  · intro c d hcd
    rw [hm4, add_particle_cells, if_neg, hcells]
    · exact h.ghost c d hcd
    · rintro ⟨rfl, rfl⟩
      exact hcd hr

/-- A loop of the first loop nest of `problem_setup` whose body adds `k` particles to
cell `(i, j)` adds `k` per iteration. -/
theorem problem_setup_loop {ι : Type} (g : Globals K)
    (body : ι → SetupState K → Outcome (SetupState K)) (k : Nat) (i j : Int)
    (P : ι → Prop)
    (hstep : ∀ x s A, P x → LatticeInv g s A → ∃ s1 A1, body x s = .ok s1 ∧
      LatticeInv g s1 A1 ∧
      ∀ c d, (A1 c d).length = (A c d).length + if c = i ∧ d = j then k else 0) :
    ∀ (l : List ι) (s : SetupState K) (A : Int → Int → List Nat), (∀ x ∈ l, P x) →
      LatticeInv g s A → ∃ s1 A1, forEach body l s = .ok s1 ∧ LatticeInv g s1 A1 ∧
        ∀ c d, (A1 c d).length = (A c d).length + if c = i ∧ d = j then l.length * k else 0
  | [], s, A, _, h => ⟨s, A, rfl, h, fun c d => by simp⟩
  | x :: l, s, A, hP, h => by
    obtain ⟨s1, A1, hb, h1, hl1⟩ := hstep x s A (hP x (List.mem_cons_self _ _)) h
    obtain ⟨s2, A2, hb2, h2, hl2⟩ := problem_setup_loop g body k i j P hstep l s1 A1
      (fun y hy => hP y (List.mem_cons_of_mem _ hy)) h1
    refine ⟨s2, A2, by simp only [forEach, hb, hb2], h2, fun c d => ?_⟩
    rw [hl2 c d, hl1 c d, List.length_cons]
    split_ifs
    · ring
    · rfl

/-- The lattice of one real cell: `n * n` particles are added to its list. -/
theorem problem_setup_cell (lib : Libm K) (g : Globals K) (vm ph : K) (i j : Int)
    (hcs : 0 < g.cell_size) (hr : realCell g i j) (s : SetupState K)
    (A : Int → Int → List Nat) (h : LatticeInv g s A) :
    ∃ s1 A1,
      forEach (fun a s =>
        forEach (fun b s => .ok (problem_setup_place lib g vm ph i j a b s))
          (loopIdx 0 g.num_part_per_dim) s)
        (loopIdx 0 g.num_part_per_dim) s = .ok s1 ∧
      LatticeInv g s1 A1 ∧
      ∀ c d, (A1 c d).length = (A c d).length +
        if c = i ∧ d = j then g.num_part_per_dim.toNat * (g.num_part_per_dim.toNat * 1)
        else 0 := by
  have hlen : (loopIdx 0 g.num_part_per_dim).length = g.num_part_per_dim.toNat := by
    rw [length_loopIdx, sub_zero]
  have key := problem_setup_loop g
    (fun a s =>
      forEach (fun b s => Outcome.ok (problem_setup_place lib g vm ph i j a b s))
        (loopIdx 0 g.num_part_per_dim) s)
    (g.num_part_per_dim.toNat * 1) i j (fun a => a ∈ loopIdx 0 g.num_part_per_dim) ?_
    (loopIdx 0 g.num_part_per_dim) s A (fun _ hx => hx) h
  · rw [hlen] at key
    exact key
  · intro a s1 A1 ha h1
    have key2 := problem_setup_loop g
      (fun b s => Outcome.ok (problem_setup_place lib g vm ph i j a b s))
      1 i j (fun b => b ∈ loopIdx 0 g.num_part_per_dim) ?_
      (loopIdx 0 g.num_part_per_dim) s1 A1 (fun _ hx => hx) h1
    · rw [hlen] at key2
      exact key2
    · intro b s2 A2 hb h2
      refine ⟨_, _, rfl, problem_setup_place_inv lib g vm ph i j a b s2 A2 hcs hr ha hb h2, ?_⟩
      intro c d
      by_cases e : c = i ∧ d = j
      · obtain ⟨rfl, rfl⟩ := e
        simp [setList_self]
      · rw [setList_other _ _ _ _ _ _ e, if_neg e, add_zero]

/-- The first loop nest of `problem_setup` returns a well-formed grid with `n * n`
particles in the box of every real cell and null ghost heads. -/
theorem problem_setup_lattice_spec (lib : Libm K) (g : Globals K) (vm ph : K)
    (hcs : 0 < g.cell_size) (s : SetupState K) (hs : ∀ i j, s.mem.cells i j = none) :
    ∃ s1 A1, problem_setup_lattice lib g vm ph s = .ok s1 ∧ LatticeInv g s1 A1 ∧
      ∀ c d, realCell g c d →
        (A1 c d).length = g.num_part_per_dim.toNat * (g.num_part_per_dim.toNat * 1) := by
  unfold problem_setup_lattice
  rw [forCells_eq]
  have h0 : LatticeInv g s (fun _ _ => []) := by
    refine ⟨fun i j _ => hs i j, ?_, ?_, ?_, fun i j _ => hs i j⟩
    · intro i j a b p _ _ hp
      exact absurd hp (List.not_mem_nil _)
    · intro i j p hp
      exact absurd hp (List.not_mem_nil _)
    · intro i j _ p hp
      exact absurd hp (List.not_mem_nil _)
  have key := forEach_spec
    (fun (c : Int × Int) s =>
      forEach (fun a s =>
        forEach (fun b s => Outcome.ok (problem_setup_place lib g vm ph c.1 c.2 a b s))
          (loopIdx 0 g.num_part_per_dim) s)
        (loopIdx 0 g.num_part_per_dim) s)
    (cellOrder g)
    (fun done s1 => ∃ A1, LatticeInv g s1 A1 ∧ ∀ c d, (A1 c d).length =
      if (c, d) ∈ done then g.num_part_per_dim.toNat * (g.num_part_per_dim.toNat * 1) else 0)
    False ?_ (cellOrder g) [] s rfl ⟨_, h0, fun c d => by simp⟩
  · rcases key with ⟨_, hF⟩ | ⟨s1, h1, A1, hI, hl⟩
    · exact absurd hF id
    · refine ⟨s1, A1, h1, hI, fun c d hcd => ?_⟩
      rw [hl c d, if_pos ((mem_cellOrder g c d).2 hcd)]
  · rintro done c rest s1 hl ⟨A1, hI, hlen⟩
    have hc : realCell g c.1 c.2 := by
      refine (mem_cellOrder g c.1 c.2).1 ?_
      rw [hl]; simp
    have hcd : c ∉ done := by
      have hnd := nodup_cellOrder g
      rw [hl] at hnd
      exact fun e => (List.nodup_append.1 hnd).2.2 e (List.mem_cons_self _ _)
    obtain ⟨s2, A2, hb, hI2, hlen2⟩ := problem_setup_cell lib g vm ph c.1 c.2 hcs hc s1 A1 hI
    refine Or.inr ⟨s2, hb, A2, hI2, fun a b => ?_⟩
    rw [hlen2 a b, hlen a b]
    by_cases e : a = c.1 ∧ b = c.2
    · have e2 : (a, b) = c := Prod.ext e.1 e.2
      have e3 : (a, b) ∉ done := e2 ▸ hcd
      have e4 : (a, b) ∈ done ++ [c] := by rw [e2]; simp
      rw [if_neg e3, if_pos e, if_pos e4, zero_add]
    · have e2 : (a, b) ≠ c := fun h => e ⟨congrArg Prod.fst h, congrArg Prod.snd h⟩
      have e4 : (a, b) ∈ done ++ [c] ↔ (a, b) ∈ done := by simp [e2]
      rw [if_neg e, add_zero]
      simp only [e4]

theorem problem_setup_shift_eq (ax ay : K) (p : Nat) (m : Mem K) :
    problem_setup_shift ax ay p m =
      .ok (m.modify p (problem_setup_shift_rec ax ay),
        ((m.modify p (problem_setup_shift_rec ax ay)).heap p).next) := by
  have e : ∀ m1 : Mem K, m1 = m.modify p (problem_setup_shift_rec ax ay) →
      Outcome.ok (m1, (m1.heap p).next) =
        Outcome.ok (m.modify p (problem_setup_shift_rec ax ay),
          ((m.modify p (problem_setup_shift_rec ax ay)).heap p).next) := by
    intro m1 h
    rw [h]
  unfold problem_setup_shift
  refine e _ ?_
  simp only [Mem.modify, problem_setup_shift_rec]
  congr 1
  funext n
  by_cases h : n = p
  · subst h
    simp
  · simp [h]

/-- `problem_setup` returns, with fuel `n * n`, a well-formed grid with `n * n` particles
in every real cell, each inside the box of its cell, and null ghost heads. -/
theorem problem_setup_spec (lib : Libm K) (g : Globals K) (fuel : Nat) (m : Mem K)
    (hcs : 0 < g.cell_size)
    (hfuel : g.num_part_per_dim.toNat * g.num_part_per_dim.toNat ≤ fuel) :
    ∃ m1 A, problem_setup lib g fuel m = .ok (problem_setup_globals g, m1) ∧
      WF (problem_setup_globals g) m1 A ∧
      (∀ i j, realCell g i j → ∀ p ∈ A i j, inRange g (m1.heap p)) ∧
      (∀ i j, realCell g i j →
        (A i j).length = g.num_part_per_dim.toNat * g.num_part_per_dim.toNat) ∧
      (∀ i j, ¬ realCell g i j → m1.cells i j = none) := by
  unfold problem_setup
  simp only []
  obtain ⟨s1, A1, h1, hI, hlen⟩ := problem_setup_lattice_spec lib (problem_setup_globals g)
    (lib.sqrt (3 * g.init_temp)) (2 * lib.pi / (lib.rand_max : K)) hcs
    { mem := { heap := m.heap, cells := fun _ _ => none, brk := m.brk },
      v_sum_x := 0, v_sum_y := 0, calls := 0 } (fun _ _ => rfl)
  rw [h1]
  simp only [Outcome.bind]
  have hwf : WF (problem_setup_globals g) s1.mem A1 :=
    (WF_iff _ _ _).2 ⟨hI.dll, hI.disj⟩
  obtain ⟨m2, h2, hheap, hcells, _, hwf2⟩ := forCells_map (problem_setup_globals g) s1.mem A1
    fuel
    (problem_setup_shift (s1.v_sum_x / ((problem_setup_globals g).num_particles : K))
      (s1.v_sum_y / ((problem_setup_globals g).num_particles : K)))
    (problem_setup_shift_rec (s1.v_sum_x / ((problem_setup_globals g).num_particles : K))
      (s1.v_sum_y / ((problem_setup_globals g).num_particles : K)))
    (fun r => by simp [problem_setup_shift_rec])
    (fun p m => problem_setup_shift_eq _ _ p m) hwf
    (fun i j hr => by
      rw [hlen i j hr]
      simpa using hfuel)
  rw [h2]
  refine ⟨m2, A1, rfl, hwf2, ?_, ?_, ?_⟩
  · intro i j hr p hp
    have hbox := hI.box i j hr p hp
    rw [hheap]
    simp only []
    split_ifs
    · exact hbox
    · exact hbox
  · intro i j hr
    rw [hlen i j hr, Nat.mul_one]
    rfl
  · intro i j hr
    rw [hcells]
    exact hI.ghost i j hr

/-- **C7, amended: in exact arithmetic.** Cell-membership invariant, the coordinates in
an arbitrary ordered field.  With `cell_size > 0` and `num_part_per_dim ≥ 1`,
`problem_setup` returns (fuel `n * n` suffices) a well-formed grid in which every particle
of every real cell has `0 ≤ x < cell_size` and `0 ≤ y < cell_size`; and every call of
`update_cells` on a well-formed grid that does not hit the fatal condition returns (fuel
for every particle suffices) a well-formed grid with the same property, whatever the
coordinates were before the call. -/
theorem cell_membership_invariant (lib : Libm K) (g : Globals K) (fuel : Nat) (m0 : Mem K)
    (m : Mem K) (A : Int → Int → List Nat) (fuel1 : Nat)
    (hcs : 0 < g.cell_size) (hn : 1 ≤ g.num_part_per_dim)
    (hfuel : g.num_part_per_dim.toNat * g.num_part_per_dim.toNat ≤ fuel)
    (hwf : WF g m A) (hfuel1 : (allParts g A).length ≤ fuel1)
    (hnf : update_cells g fuel1 m ≠ .fatal) :
    (∃ g1 m1 A1, problem_setup lib g fuel m0 = .ok (g1, m1) ∧
      g1.cell_size = g.cell_size ∧ g1.x = g.x ∧ g1.y = g.y ∧ WF g1 m1 A1 ∧
      (∀ i j, realCell g1 i j → A1 i j ≠ []) ∧
      ∀ i j, realCell g1 i j → ∀ p ∈ A1 i j,
        0 ≤ (m1.heap p).x ∧ (m1.heap p).x < g1.cell_size ∧
        0 ≤ (m1.heap p).y ∧ (m1.heap p).y < g1.cell_size) ∧
    (∃ m2 A2, update_cells g fuel1 m = .ok m2 ∧ WF g m2 A2 ∧
      (allParts g A2).Perm (allParts g A) ∧
      ∀ i j, realCell g i j → ∀ p ∈ A2 i j,
        0 ≤ (m2.heap p).x ∧ (m2.heap p).x < g.cell_size ∧
        0 ≤ (m2.heap p).y ∧ (m2.heap p).y < g.cell_size) := by
  constructor
  · obtain ⟨m1, A1, h1, hwf1, hbox, hlen, _⟩ := problem_setup_spec lib g fuel m0 hcs hfuel
    refine ⟨problem_setup_globals g, m1, A1, h1, rfl, rfl, rfl, hwf1, ?_, hbox⟩
    intro i j hr he
    have := hlen i j hr
    rw [he, List.length_nil] at this
    have h1 : 1 ≤ g.num_part_per_dim.toNat := by omega
    have h2 : 1 ≤ g.num_part_per_dim.toNat * g.num_part_per_dim.toNat :=
      Nat.mul_le_mul h1 h1
    omega
  · obtain ⟨m2, A2, h2, hM, hV⟩ := update_cells_ok g m A fuel1 hwf hfuel1 hnf
    exact ⟨m2, A2, h2, WF_of_Migr g m m2 A A2 hM, Migr_perm g m m2 A A2 hwf hM, hV⟩

end OrderedField

theorem cell_membership_invariant_witness :
    ∃ m2 A2, update_cells exGlobalsQ 2 exGridQ = .ok m2 ∧ WF exGlobalsQ m2 A2 ∧
      (allParts exGlobalsQ A2).Perm (allParts exGlobalsQ exListsQ) ∧
      ∀ i j, realCell exGlobalsQ i j → ∀ p ∈ A2 i j,
        0 ≤ (m2.heap p).x ∧ (m2.heap p).x < exGlobalsQ.cell_size ∧
        0 ≤ (m2.heap p).y ∧ (m2.heap p).y < exGlobalsQ.cell_size :=
  (cell_membership_invariant exLibm exGlobalsQ 4 exGridQ exGridQ exListsQ 2
    (by norm_num [exGlobalsQ]) (by decide) (by decide) (by decide) (by decide)
    (by
      intro hf
      rcases update_cells_master exGlobalsQ exGridQ exListsQ 2 (by decide) (by decide) with
        ⟨_, a, b, p, _, hp, hfar⟩ | ⟨m, A, h, _⟩
      · unfold exListsQ at hp
        split_ifs at hp
        · simp only [List.mem_cons, List.mem_singleton, List.not_mem_nil, or_false] at hp
          rcases hp with rfl | rfl
          · norm_num [tooFar, exGridQ, exGlobalsQ] at hfar
          · norm_num [tooFar, exGridQ, exGlobalsQ] at hfar
        · exact absurd hp (List.not_mem_nil _)
      · rw [h] at hf
        cases hf)).2

/-! ## `comp_accel` -/

section OrderedField

variable {K : Type} [LinearOrderedField K]

theorem addAccel_zero (s : Mem K × K) (p : Nat) : addAccel s p (0, 0, 0) = s := by
  obtain ⟨⟨h, c, k⟩, e⟩ := s
  simp only [addAccel, Mem.modify, add_zero]
  congr 2
  funext n
  by_cases e : n = p
  · subst e
    simp only [if_true]
    generalize h n = r
    cases r
    rfl
  · simp only [if_neg e]

theorem addAccel_add (s : Mem K × K) (p : Nat) (t u : K × K × K) :
    addAccel (addAccel s p t) p u = addAccel s p (t + u) := by
  obtain ⟨⟨h, c, k⟩, e⟩ := s
  simp only [addAccel, Mem.modify, Prod.fst_add, Prod.snd_add, add_assoc]
  congr 2
  funext n
  by_cases e : n = p
  · subst e
    simp [particle_t.setAx, particle_t.setAy, add_assoc]
  · simp only [if_neg e]

theorem foldl_addAccel {ι : Type} (p : Nat) (T : ι → K × K × K) :
    ∀ (L : List ι) (s : Mem K × K),
      L.foldl (fun s q => addAccel s p (T q)) s = addAccel s p (L.map T).sum
  | [], s => (addAccel_zero s p).symm
  | q :: L, s => by
    rw [List.foldl_cons, foldl_addAccel p T L, addAccel_add, List.map_cons, List.sum_cons]

theorem sameGeom_addAccel (h0 : Nat → particle_t K) (c0 : Int → Int → Option Nat)
    (s : Mem K × K) (p : Nat) (t : K × K × K) (h : sameGeom h0 c0 s.1) :
    sameGeom h0 c0 (addAccel s p t).1 := by
  refine ⟨fun n => ?_, h.2⟩
  simp only [addAccel, Mem.modify_heap]
  split_ifs with e
  · subst e
    simpa using h.1 n
  · exact h.1 n

theorem comp_accel_terms_congr (g : Globals K) (sqrt : K → K) (h h0 : Nat → particle_t K)
    (i j a b : Int) (p q : Nat)
    (hxy : ∀ n, (h n).x = (h0 n).x ∧ (h n).y = (h0 n).y) :
    comp_accel_terms g sqrt h i j a b p q = comp_accel_terms g sqrt h0 i j a b p q := by
  unfold comp_accel_terms
  rw [(hxy p).1, (hxy p).2, (hxy q).1, (hxy q).2]

theorem comp_accel_pair_eq (g : Globals K) (sqrt : K → K) (i j a b : Int) (p q : Nat)
    (s : Mem K × K) :
    comp_accel_pair g sqrt i j a b p q s =
      .ok (addAccel s p (comp_accel_terms g sqrt s.1.heap i j a b p q),
        ((addAccel s p (comp_accel_terms g sqrt s.1.heap i j a b p q)).1.heap q).next) := by
  unfold comp_accel_pair comp_accel_terms
  by_cases e : p = q
  · simp only [if_pos e, addAccel_zero]
  · simp only [if_neg e]
    split_ifs with hr
    · rfl
    · simp only [addAccel_zero]

end OrderedField

theorem mem_paddedOrder {K : Type} (g : Globals K) (i j : Int) :
    (i, j) ∈ paddedOrder g ↔ 0 ≤ i ∧ i ≤ g.x + 1 ∧ 0 ≤ j ∧ j ≤ g.y + 1 := by
  unfold paddedOrder
  simp only [List.mem_flatMap, List.mem_map, mem_loopIdx, Prod.mk.injEq]
  constructor
  · rintro ⟨a, ha, b, hb, rfl, rfl⟩
    omega
  · rintro h
    exact ⟨i, by omega, j, by omega, rfl, rfl⟩

section OrderedField

variable {K : Type} [LinearOrderedField K]

/-- The scan of the nine neighbour cells for one particle `p` of the real cell `(i, j)`
adds the sum of the visit terms to `p->ax`, `p->ay` and `pot_energy`. -/
theorem comp_accel_particle_eq (g : Globals K) (sqrt : K → K) (fuel : Nat)
    (h0 : Nat → particle_t K) (c0 : Int → Int → Option Nat) (A : Int → Int → List Nat)
    (hchain : ∀ c ∈ paddedOrder g, chain h0 (c0 c.1 c.2) (A c.1 c.2))
    (hfuel : ∀ c ∈ paddedOrder g, (A c.1 c.2).length ≤ fuel)
    (i j : Int) (hr : realCell g i j) (p : Nat) (s : Mem K × K) (hs : sameGeom h0 c0 s.1) :
    comp_accel_particle g sqrt fuel i j p s =
      .ok (addAccel s p
          (neighbourSum A i j (fun a b q => comp_accel_terms g sqrt h0 i j a b p q)),
        ((addAccel s p
          (neighbourSum A i j
            (fun a b q => comp_accel_terms g sqrt h0 i j a b p q))).1.heap p).next) := by
  have hq : ∀ a b, a ∈ loopIdx (-1) 2 → b ∈ loopIdx (-1) 2 → ∀ s1 : Mem K × K,
      sameGeom h0 c0 s1.1 →
      whileSome (comp_accel_pair g sqrt i j a b p) fuel (s1.1.cells (i + a) (j + b)) s1 =
          .ok (addAccel s1 p
            ((A (i + a) (j + b)).map
              (fun q => comp_accel_terms g sqrt h0 i j a b p q)).sum) ∧
        sameGeom h0 c0 (addAccel s1 p
            ((A (i + a) (j + b)).map
              (fun q => comp_accel_terms g sqrt h0 i j a b p q)).sum).1 := by
    intro a b ha hb s1 hs1
    rw [mem_loopIdx] at ha hb
    have hpad : (i + a, j + b) ∈ paddedOrder g := by
      rw [mem_paddedOrder]
      obtain ⟨h1, h2, h3, h4⟩ := hr
      omega
    have key := whileSome_fold (fun s : Mem K × K => s.1) (comp_accel_pair g sqrt i j a b p)
      (fun q s => addAccel s p (comp_accel_terms g sqrt h0 i j a b p q)) h0
      (fun s => sameGeom h0 c0 s.1) (fun _ => True)
      (fun s hs n => (hs.1 n).1)
      (fun q s2 _ hs2 => by
        refine ⟨?_, sameGeom_addAccel h0 c0 s2 p _ hs2⟩
        rw [comp_accel_pair_eq, comp_accel_terms_congr g sqrt s2.1.heap h0 i j a b p q
          (fun n => (hs2.1 n).2)])
      (A (i + a) (j + b)) fuel s1 (c0 (i + a) (j + b)) (fun _ _ => trivial)
      (hfuel _ hpad) hs1 (hchain _ hpad)
    rw [foldl_addAccel] at key
    rw [hs1.2]
    exact key
  have hb : ∀ a, a ∈ loopIdx (-1) 2 → ∀ s1 : Mem K × K, sameGeom h0 c0 s1.1 →
      forEach (fun b s =>
          whileSome (comp_accel_pair g sqrt i j a b p) fuel (s.1.cells (i + a) (j + b)) s)
          (loopIdx (-1) 2) s1 =
        .ok (addAccel s1 p ((loopIdx (-1) 2).map (fun b =>
          ((A (i + a) (j + b)).map
            (fun q => comp_accel_terms g sqrt h0 i j a b p q)).sum)).sum) ∧
      sameGeom h0 c0 (addAccel s1 p ((loopIdx (-1) 2).map (fun b =>
          ((A (i + a) (j + b)).map
            (fun q => comp_accel_terms g sqrt h0 i j a b p q)).sum)).sum).1 := by
    intro a ha s1 hs1
    have key := forEach_fold
      (fun b (s : Mem K × K) =>
        whileSome (comp_accel_pair g sqrt i j a b p) fuel (s.1.cells (i + a) (j + b)) s)
      (fun b s => addAccel s p ((A (i + a) (j + b)).map
        (fun q => comp_accel_terms g sqrt h0 i j a b p q)).sum)
      (fun s => sameGeom h0 c0 s.1) (fun b => b ∈ loopIdx (-1) 2)
      (fun b s2 hb2 hs2 => hq a b ha hb2 s2 hs2) (loopIdx (-1) 2) s1 (fun _ h => h) hs1
    rw [foldl_addAccel] at key
    exact key
  have ha := forEach_fold
    (fun a (s : Mem K × K) =>
      forEach (fun b s =>
          whileSome (comp_accel_pair g sqrt i j a b p) fuel (s.1.cells (i + a) (j + b)) s)
          (loopIdx (-1) 2) s)
    (fun a s => addAccel s p ((loopIdx (-1) 2).map (fun b =>
      ((A (i + a) (j + b)).map (fun q => comp_accel_terms g sqrt h0 i j a b p q)).sum)).sum)
    (fun s => sameGeom h0 c0 s.1) (fun a => a ∈ loopIdx (-1) 2)
    (fun a s2 ha2 hs2 => hb a ha2 s2 hs2) (loopIdx (-1) 2) s (fun _ h => h) hs
  rw [foldl_addAccel] at ha
  unfold comp_accel_particle
  rw [ha.1]
  rfl

/-- A fold of `addAccel` over visits of pairwise different particles: every visited
record gets its increment once, the energy gets the sum. -/
theorem foldl_visits :
    ∀ (V : List (Nat × K × K × K)) (s : Mem K × K), (V.map Prod.fst).Nodup →
      (V.foldl (fun s v => addAccel s v.1 v.2) s).2 = s.2 + (V.map (fun v => v.2.2.2)).sum ∧
      (∀ v ∈ V, (V.foldl (fun s v => addAccel s v.1 v.2) s).1.heap v.1 =
        ((s.1.heap v.1).setAx ((s.1.heap v.1).ax + v.2.1)).setAy
          ((s.1.heap v.1).ay + v.2.2.1)) ∧
      (∀ n, n ∉ V.map Prod.fst →
        (V.foldl (fun s v => addAccel s v.1 v.2) s).1.heap n = s.1.heap n) ∧
      (V.foldl (fun s v => addAccel s v.1 v.2) s).1.cells = s.1.cells
  | [], s, _ => by simp
  | v :: V, s, hnd => by
    rw [List.map_cons, List.nodup_cons] at hnd
    obtain ⟨h1, h2, h3, h4⟩ := foldl_visits V (addAccel s v.1 v.2) hnd.2
    rw [List.foldl_cons]
    refine ⟨?_, ?_, ?_, ?_⟩
    · rw [h1, List.map_cons, List.sum_cons]
      simp only [addAccel]
      ring
    · intro w hw
      rcases List.mem_cons.1 hw with e | hw
      · subst e
        rw [h3 _ hnd.1]
        simp [addAccel]
      · rw [h2 w hw]
        have hne : w.1 ≠ v.1 := fun e => hnd.1 (e ▸ List.mem_map_of_mem Prod.fst hw)
        simp [addAccel, hne]
    · intro n hn
      rw [List.map_cons, List.mem_cons, not_or] at hn
      rw [h3 n hn.2]
      simp [addAccel, hn.1]
    · rw [h4]
      rfl

theorem foldl_cells_visits (g : Globals K) (A : Int → Int → List Nat)
    (N : Int → Int → Nat → K × K × K) (s : Mem K × K) :
    (cellOrder g).foldl
        (fun s c => (A c.1 c.2).foldl (fun s p => addAccel s p (N c.1 c.2 p)) s) s =
      ((cellOrder g).flatMap (fun c => (A c.1 c.2).map (fun p => (p, N c.1 c.2 p)))).foldl
        (fun s v => addAccel s v.1 v.2) s := by
  generalize cellOrder g = l
  induction l generalizing s with
  | nil => rfl
  | cons c l ih =>
    rw [List.foldl_cons, List.flatMap_cons, List.foldl_append, ih, List.foldl_map]

theorem comp_accel_zero_eq (p : Nat) (m : Mem K) :
    comp_accel_zero p m =
      .ok (m.modify p comp_accel_zero_rec, ((m.modify p comp_accel_zero_rec).heap p).next) := by
  have e : ∀ m1 : Mem K, m1 = m.modify p comp_accel_zero_rec →
      Outcome.ok (m1, (m1.heap p).next) =
        Outcome.ok (m.modify p comp_accel_zero_rec,
          ((m.modify p comp_accel_zero_rec).heap p).next) := by
    intro m1 h
    rw [h]
  unfold comp_accel_zero
  refine e _ ?_
  simp only [Mem.modify, comp_accel_zero_rec]
  congr 1
  funext n
  by_cases h : n = p
  · subst h
    simp
  · simp [h]

/-- The visit terms of the code in the form of the specification. -/
theorem comp_accel_terms_eq (g : Globals K) (sqrt : K → K) (h : Nat → particle_t K)
    (i j a b : Int) (p q : Nat) (hrc : g.r_cut_off_2 = g.r_cut_off ^ 2) :
    comp_accel_terms g sqrt h i j a b p q =
      ((pairForce g h p q a b).1, (pairForce g h p q a b).2, pairEnergy g sqrt h p q a b) := by
  have hdx : ((i - 1 : Int) : K) * g.cell_size + (h p).x -
      (((i + a - 1 : Int) : K) * g.cell_size + (h q).x) = pairDx g h p q a := by
    unfold pairDx
    push_cast
    ring
  have hdy : ((j - 1 : Int) : K) * g.cell_size + (h p).y -
      (((j + b - 1 : Int) : K) * g.cell_size + (h q).y) = pairDy g h p q b := by
    unfold pairDy
    push_cast
    ring
  unfold comp_accel_terms pairForce pairEnergy
  by_cases e : p = q
  · have e2 : ¬ (q ≠ p ∧ pairR2 g h p q a b < g.r_cut_off ^ 2) := fun hh => hh.1 e.symm
    simp only [if_pos e, if_neg e2]
  · have e1 : q ≠ p := fun hh => e hh.symm
    simp only [if_neg e, hdx, hdy, hrc]
    have hr2 : pairDx g h p q a * pairDx g h p q a + pairDy g h p q b * pairDy g h p q b =
        pairR2 g h p q a b := by
      unfold pairR2
      ring
    rw [hr2]
    by_cases hlt : pairR2 g h p q a b < g.r_cut_off ^ 2
    · simp only [if_pos hlt, if_pos (And.intro e1 hlt), ljFactor]
      refine Prod.ext ?_ (Prod.ext ?_ ?_)
      · simp only []; ring
      · simp only []; ring
      · simp only []; ring
    · have e2 : ¬ (q ≠ p ∧ pairR2 g h p q a b < g.r_cut_off ^ 2) := fun hh => hlt hh.2
      simp only [if_neg hlt, if_neg e2]

theorem list_sum_fst {M N : Type} [AddCommMonoid M] [AddCommMonoid N] :
    ∀ (L : List (M × N)), L.sum.1 = (L.map Prod.fst).sum ∧ L.sum.2 = (L.map Prod.snd).sum
  | [] => ⟨rfl, rfl⟩
  | v :: L => by
    obtain ⟨h1, h2⟩ := list_sum_fst L
    simp [h1, h2]

theorem neighbourSum_fst {M N : Type} [AddCommMonoid M] [AddCommMonoid N]
    (A : Int → Int → List Nat) (i j : Int) (t : Int → Int → Nat → M × N) :
    (neighbourSum A i j t).1 = neighbourSum A i j (fun a b q => (t a b q).1) ∧
      (neighbourSum A i j t).2 = neighbourSum A i j (fun a b q => (t a b q).2) := by
  unfold neighbourSum
  constructor
  · rw [(list_sum_fst _).1, List.map_map]
    congr 2
    funext a
    simp only [Function.comp]
    rw [(list_sum_fst _).1, List.map_map]
    congr 2
    funext b
    simp only [Function.comp]
    rw [(list_sum_fst _).1, List.map_map]
    rfl
  · rw [(list_sum_fst _).2, List.map_map]
    congr 2
    funext a
    simp only [Function.comp]
    rw [(list_sum_fst _).2, List.map_map]
    congr 2
    funext b
    simp only [Function.comp]
    rw [(list_sum_fst _).2, List.map_map]
    rfl

theorem list_sum_flatMap {ι M : Type} [AddMonoid M] (f : ι → List M) :
    ∀ (l : List ι), (l.flatMap f).sum = (l.map (fun x => (f x).sum)).sum
  | [] => rfl
  | x :: l => by
    rw [List.flatMap_cons, List.sum_append, List.map_cons, List.sum_cons, list_sum_flatMap f l]

/-- `comp_accel` on a well-formed grid whose padded cells all head null-terminated
lists: with fuel for the longest list it returns; every record of a real cell `(i, j)`
has as acceleration the sum of the visit terms over its nine neighbour cells, every other
field is kept, and the result is the sum of the energy terms over all visits divided by
`num_particles`. -/
theorem comp_accel_eq (g : Globals K) (sqrt : K → K) (fuel : Nat) (m : Mem K)
    (A : Int → Int → List Nat) (hwf : WF g m A)
    (hchain : ∀ c ∈ paddedOrder g, chain m.heap (m.cells c.1 c.2) (A c.1 c.2))
    (hfuel : ∀ c ∈ paddedOrder g, (A c.1 c.2).length ≤ fuel) :
    ∃ m1 e, comp_accel g sqrt fuel m = .ok (m1, e) ∧
      (∀ i j p, realCell g i j → p ∈ A i j →
        m1.heap p =
          ((m.heap p).setAx (0 + (neighbourSum A i j
              (fun a b q => comp_accel_terms g sqrt m.heap i j a b p q)).1)).setAy
            (0 + (neighbourSum A i j
              (fun a b q => comp_accel_terms g sqrt m.heap i j a b p q)).2.1)) ∧
      (∀ n, n ∉ allParts g A → m1.heap n = m.heap n) ∧
      m1.cells = m.cells ∧
      e = (0 + ((cellOrder g).map (fun c => ((A c.1 c.2).map (fun p =>
        (neighbourSum A c.1 c.2
          (fun a b q => comp_accel_terms g sqrt m.heap c.1 c.2 a b p q)).2.2)).sum)).sum) /
        (g.num_particles : K) := by
  have hw := (WF_iff g m A).1 hwf
  have hreal : ∀ i j, realCell g i j → (i, j) ∈ paddedOrder g := by
    intro i j hr
    rw [mem_paddedOrder]
    obtain ⟨h1, h2, h3, h4⟩ := hr
    omega
  -- first loop nest
  obtain ⟨m1, h1, hheap1, hcells1, _, _⟩ := forCells_map g m A fuel comp_accel_zero
    comp_accel_zero_rec (fun r => by simp [comp_accel_zero_rec]) comp_accel_zero_eq hwf
    (fun i j hr => hfuel (i, j) (hreal i j hr))
  have hgeom1 : sameGeom m.heap m.cells m1 := by
    refine ⟨fun n => ?_, hcells1⟩
    rw [hheap1]
    simp only []
    split_ifs
    · simp [comp_accel_zero_rec]
    · exact ⟨rfl, rfl, rfl⟩
  -- second loop nest
  have key := forCells_fold g (fun s : Mem K × K => s.1)
    (fun i j => comp_accel_particle g sqrt fuel i j)
    (fun i j p s => addAccel s p
      (neighbourSum A i j (fun a b q => comp_accel_terms g sqrt m.heap i j a b p q)))
    m A fuel (fun s => sameGeom m.heap m.cells s.1)
    (fun s hs => ⟨fun n => (hs.1 n).1, hs.2⟩)
    (fun i j p s hr _ hs =>
      ⟨comp_accel_particle_eq g sqrt fuel m.heap m.cells A hchain hfuel i j hr p s hs,
        sameGeom_addAccel m.heap m.cells s p _ hs⟩)
    (fun i j hr => dll_chain _ _ _ _ (hw.1 i j hr))
    (fun i j hr => hfuel (i, j) (hreal i j hr)) (m1, 0) hgeom1
  obtain ⟨h2, _⟩ := key
  rw [foldl_cells_visits g A
    (fun i j p => neighbourSum A i j
      (fun a b q => comp_accel_terms g sqrt m.heap i j a b p q))] at h2
  have hVfst : ((cellOrder g).flatMap (fun c => (A c.1 c.2).map (fun p =>
      (p, neighbourSum A c.1 c.2
        (fun a b q => comp_accel_terms g sqrt m.heap c.1 c.2 a b p q))))).map Prod.fst =
      allParts g A := by
    unfold allParts
    rw [List.map_flatMap]
    congr 1
    funext c
    rw [List.map_map]
    exact List.map_id _
  obtain ⟨e1, e2, e3, e4⟩ := foldl_visits
    ((cellOrder g).flatMap (fun c => (A c.1 c.2).map (fun p =>
      (p, neighbourSum A c.1 c.2
        (fun a b q => comp_accel_terms g sqrt m.heap c.1 c.2 a b p q))))) (m1, 0)
    (by rw [hVfst]; exact hwf.2)
  generalize List.foldl (fun (s : Mem K × K) (v : Nat × K × K × K) => addAccel s v.1 v.2)
    (m1, 0) ((cellOrder g).flatMap (fun c => (A c.1 c.2).map (fun p =>
      (p, neighbourSum A c.1 c.2
        (fun a b q => comp_accel_terms g sqrt m.heap c.1 c.2 a b p q))))) = F
    at h2 e1 e2 e3 e4
  refine ⟨F.1, F.2 / (g.num_particles : K), ?_, ?_, ?_, ?_, ?_⟩
  · unfold comp_accel
    rw [h1]
    simp only [Outcome.bind]
    rw [h2]
  · intro i j p hr hp
    have hv : (p, neighbourSum A i j
        (fun a b q => comp_accel_terms g sqrt m.heap i j a b p q)) ∈
        (cellOrder g).flatMap (fun c => (A c.1 c.2).map (fun p =>
          (p, neighbourSum A c.1 c.2
            (fun a b q => comp_accel_terms g sqrt m.heap c.1 c.2 a b p q)))) := by
      rw [List.mem_flatMap]
      exact ⟨(i, j), (mem_cellOrder g i j).2 hr, List.mem_map_of_mem _ hp⟩
    rw [e2 _ hv]
    have hpall : p ∈ allParts g A := (mem_allParts g A p).2 ⟨i, j, hr, hp⟩
    simp only [hheap1, if_pos hpall, comp_accel_zero_rec]
    rfl
  · intro n hn
    rw [e3 n (by rw [hVfst]; exact hn)]
    simp only [hheap1, if_neg hn]
  · rw [e4]
    exact hcells1
  · rw [e1]
    congr 2
    rw [List.map_flatMap, list_sum_flatMap]
    congr 2
    funext c
    rw [List.map_map]
    rfl

/-- The accelerations written by `comp_accel`, in the form of the specification. -/
theorem comp_accel_force (g : Globals K) (sqrt : K → K) (fuel : Nat) (m : Mem K)
    (A : Int → Int → List Nat) (hrc : g.r_cut_off_2 = g.r_cut_off ^ 2) (hwf : WF g m A)
    (hchain : ∀ c ∈ paddedOrder g, chain m.heap (m.cells c.1 c.2) (A c.1 c.2))
    (hfuel : ∀ c ∈ paddedOrder g, (A c.1 c.2).length ≤ fuel) :
    ∃ m1 e, comp_accel g sqrt fuel m = .ok (m1, e) ∧
      (∀ i j p, realCell g i j → p ∈ A i j →
        (m1.heap p).ax = neighbourSum A i j (fun a b q => (pairForce g m.heap p q a b).1) ∧
        (m1.heap p).ay = neighbourSum A i j (fun a b q => (pairForce g m.heap p q a b).2)) ∧
      e = (1 / (g.num_particles : K)) *
        ((cellOrder g).map (fun c => ((A c.1 c.2).map (fun p =>
          neighbourSum A c.1 c.2
            (fun a b q => pairEnergy g sqrt m.heap p q a b))).sum)).sum := by
  obtain ⟨m1, e, h1, hacc, _, _, he⟩ := comp_accel_eq g sqrt fuel m A hwf hchain hfuel
  refine ⟨m1, e, h1, ?_, ?_⟩
  · intro i j p hr hp
    rw [hacc i j p hr hp]
    simp only [particle_t.setAy_ax, particle_t.setAx_ax, particle_t.setAy_ay, zero_add]
    constructor
    · rw [(neighbourSum_fst A i j _).1]
      simp only [comp_accel_terms_eq g sqrt m.heap _ _ _ _ _ _ hrc]
    · rw [(neighbourSum_fst A i j _).2, (neighbourSum_fst A i j _).1]
      simp only [comp_accel_terms_eq g sqrt m.heap _ _ _ _ _ _ hrc]
  · rw [he, zero_add, div_eq_mul_inv, mul_comm, one_div]
    congr 3
    funext c
    congr 2
    funext p
    rw [(neighbourSum_fst A c.1 c.2 _).2, (neighbourSum_fst A c.1 c.2 _).2]
    simp only [comp_accel_terms_eq g sqrt m.heap _ _ _ _ _ _ hrc]

theorem pairForce_congr (g : Globals K) (h h0 : Nat → particle_t K)
    (hxy : ∀ n, (h n).x = (h0 n).x ∧ (h n).y = (h0 n).y) (p q : Nat) (a b : Int) :
    pairForce g h p q a b = pairForce g h0 p q a b := by
  unfold pairForce pairR2 pairDx pairDy
  rw [(hxy p).1, (hxy p).2, (hxy q).1, (hxy q).2]

/-- **C9.** `comp_accel` on a well-formed grid (`r_cut_off_2 = r_cut_off^2` as set by
`setup`, every padded cell heading a null-terminated list, fuel for the longest list)
returns, and for every particle `p` of a real cell `(i, j)` the acceleration `p.a` is
the sum over `a, b ∈ {-1, 0, 1}` and over the particles `q ≠ p` of the list of cell
`(i+a, j+b)` with `r2 < cutoff^2` of `f * (dx, dy)`, where `dx = p.x - q.x - a*cell_size`,
`dy = p.y - q.y - b*cell_size`, `r2 = dx^2 + dy^2` and
`f = 48*(1/r2)*(1/r2)^3*((1/r2)^3 - 0.5)`.  Pairs with `r2 ≥ cutoff^2` contribute
nothing, and the accelerations stored before the call have no influence. -/
theorem comp_accel_acceleration (g : Globals K) (sqrt : K → K) (fuel : Nat) (m : Mem K)
    (A : Int → Int → List Nat) (hrc : g.r_cut_off_2 = g.r_cut_off ^ 2) (hwf : WF g m A)
    (hchain : ∀ c ∈ paddedOrder g, chain m.heap (m.cells c.1 c.2) (A c.1 c.2))
    (hfuel : ∀ c ∈ paddedOrder g, (A c.1 c.2).length ≤ fuel) :
    (∃ m1 e, comp_accel g sqrt fuel m = .ok (m1, e) ∧
      ∀ i j p, realCell g i j → p ∈ A i j →
        (m1.heap p).ax = neighbourSum A i j (fun a b q => (pairForce g m.heap p q a b).1) ∧
        (m1.heap p).ay = neighbourSum A i j (fun a b q => (pairForce g m.heap p q a b).2)) ∧
    (∀ p q a b, g.r_cut_off ^ 2 ≤ pairR2 g m.heap p q a b →
      pairForce g m.heap p q a b = (0, 0)) ∧
    (∀ p a b, pairForce g m.heap p p a b = (0, 0)) ∧
    (∀ (u v : Nat → K) (m1 m2 : Mem K) (e1 e2 : K),
      comp_accel g sqrt fuel m = .ok (m1, e1) →
      comp_accel g sqrt fuel (withAccel m u v) = .ok (m2, e2) →
      ∀ i j p, realCell g i j → p ∈ A i j →
        (m2.heap p).ax = (m1.heap p).ax ∧ (m2.heap p).ay = (m1.heap p).ay) := by
  refine ⟨?_, ?_, ?_, ?_⟩
  · obtain ⟨m1, e, h1, hacc, _⟩ := comp_accel_force g sqrt fuel m A hrc hwf hchain hfuel
    exact ⟨m1, e, h1, hacc⟩
  · intro p q a b hge
    unfold pairForce
    rw [if_neg]
    exact fun h => absurd h.2 (not_lt.2 hge)
  · intro p a b
    unfold pairForce
    rw [if_neg]
    exact fun h => h.1 rfl
  · intro u v m1 m2 e1 e2 h1 h2 i j p hr hp
    have hw := (WF_iff g m A).1 hwf
    have hwf2 : WF g (withAccel m u v) A :=
      (WF_iff g _ A).2 ⟨cellsDll_congr g m _ A (fun n => ⟨rfl, rfl⟩) (fun _ _ _ => rfl) hw.1,
        hw.2⟩
    have hchain2 : ∀ c ∈ paddedOrder g,
        chain (withAccel m u v).heap ((withAccel m u v).cells c.1 c.2) (A c.1 c.2) :=
      fun c hc => chain_congr m.heap _ _ _ (fun _ _ => rfl) (hchain c hc)
    obtain ⟨m1a, ea, h1a, hacc1, _⟩ := comp_accel_force g sqrt fuel m A hrc hwf hchain hfuel
    obtain ⟨m2a, eb, h2a, hacc2, _⟩ := comp_accel_force g sqrt fuel _ A hrc hwf2 hchain2 hfuel
    rw [h1] at h1a
    rw [h2] at h2a
    cases h1a
    cases h2a
    rw [(hacc1 i j p hr hp).1, (hacc1 i j p hr hp).2, (hacc2 i j p hr hp).1,
      (hacc2 i j p hr hp).2]
    have hcongr : ∀ p q a b,
        pairForce g (withAccel m u v).heap p q a b = pairForce g m.heap p q a b :=
      fun p q a b => pairForce_congr g _ m.heap (fun n => ⟨rfl, rfl⟩) p q a b
    simp only [hcongr, and_self]

/-- **C10.** The value returned by `comp_accel` (same preconditions as for the
accelerations) is `1 / num_particles` times the sum, over every particle `p` of every
real cell and every candidate `q ≠ p` of its nine neighbour cells with `r2 < cutoff^2`,
of `4*r6inv*(r6inv - 1) - Uc - Duc*(sqrt r2 - cutoff)` with `r6inv = (1/r2)^3`: one term
for every visit of an ordered pair. -/
theorem comp_accel_energy (g : Globals K) (sqrt : K → K) (fuel : Nat) (m : Mem K)
    (A : Int → Int → List Nat) (hrc : g.r_cut_off_2 = g.r_cut_off ^ 2) (hwf : WF g m A)
    (hchain : ∀ c ∈ paddedOrder g, chain m.heap (m.cells c.1 c.2) (A c.1 c.2))
    (hfuel : ∀ c ∈ paddedOrder g, (A c.1 c.2).length ≤ fuel) :
    ∃ m1 e, comp_accel g sqrt fuel m = .ok (m1, e) ∧
      e = (1 / (g.num_particles : K)) *
        ((cellOrder g).map (fun c => ((A c.1 c.2).map (fun p =>
          neighbourSum A c.1 c.2
            (fun a b q => pairEnergy g sqrt m.heap p q a b))).sum)).sum := by
  obtain ⟨m1, e, h1, _, he⟩ := comp_accel_force g sqrt fuel m A hrc hwf hchain hfuel
  exact ⟨m1, e, h1, he⟩

end OrderedField

/-- After `apply_boundary` on a well-formed grid with `x, y ≥ 1`, the grid is well formed
for the lists of the wrapped cells, and every cell of the padded grid heads the
null-terminated list of its wrapped real cell: the state `comp_accel` is called in. -/
theorem apply_boundary_padded (g : Globals K) (m : Mem K) (A : Int → Int → List Nat)
    (hx : 1 ≤ g.x) (hy : 1 ≤ g.y) (hwf : WF g m A) :
    WF g (apply_boundary g m) (fun i j => A (wrapIdx g.x i) (wrapIdx g.y j)) ∧
      ∀ c ∈ paddedOrder g,
        chain (apply_boundary g m).heap ((apply_boundary g m).cells c.1 c.2)
          (A (wrapIdx g.x c.1) (wrapIdx g.y c.2)) := by
  have hw := (WF_iff g m A).1 hwf
  have hwrap : ∀ i j, realCell g i j → wrapIdx g.x i = i ∧ wrapIdx g.y j = j :=
    fun i j hr => ⟨wrapIdx_real _ _ hr.1 hr.2.1, wrapIdx_real _ _ hr.2.2.1 hr.2.2.2⟩
  constructor
  · refine (WF_iff g _ _).2 ⟨?_, ?_⟩
    · intro i j hr
      rw [apply_boundary_heap,
        apply_boundary_cells g m hx hy i j (by linarith [hr.1]) (by linarith [hr.2.1])
          (by linarith [hr.2.2.1]) (by linarith [hr.2.2.2])]
      simp only [(hwrap i j hr).1, (hwrap i j hr).2]
      exact hw.1 i j hr
    · intro i j a b p h1 h2 hp1 hp2
      simp only [(hwrap i j h1).1, (hwrap i j h1).2] at hp1
      simp only [(hwrap a b h2).1, (hwrap a b h2).2] at hp2
      exact hw.2 i j a b p h1 h2 hp1 hp2
  · intro c hc
    obtain ⟨h1, h2, h3, h4⟩ := (mem_paddedOrder g c.1 c.2).1 hc
    rw [apply_boundary_heap, apply_boundary_cells g m hx hy c.1 c.2 h1 h2 h3 h4]
    have w1 : 1 ≤ wrapIdx g.x c.1 ∧ wrapIdx g.x c.1 ≤ g.x := by
      unfold wrapIdx; split_ifs <;> omega
    have w2 : 1 ≤ wrapIdx g.y c.2 ∧ wrapIdx g.y c.2 ≤ g.y := by
      unfold wrapIdx; split_ifs <;> omega
    exact dll_chain _ _ _ _ (hw.1 _ _ ⟨w1.1, w1.2, w2.1, w2.2⟩)

section OrderedField

variable {K : Type} [LinearOrderedField K]

/-- The squared cut-off computed by `setup` is the square of the cut-off, also after
`problem_setup`. -/
theorem setup_r_cut_off_2 (g : Globals K) :
    (setup g).r_cut_off_2 = (setup g).r_cut_off ^ 2 ∧
      (problem_setup_globals (setup g)).r_cut_off_2 =
        (problem_setup_globals (setup g)).r_cut_off ^ 2 := by
  simp only [setup, problem_setup_globals, sq, and_self]

end OrderedField

theorem comp_accel_acceleration_witness :
    ∃ m1 e, comp_accel (setup exGlobalsQ) (fun v => v) 2
        (apply_boundary (setup exGlobalsQ) exGridQ) = .ok (m1, e) ∧
      ∀ i j p, realCell (setup exGlobalsQ) i j → p ∈ exPaddedQ i j →
        (m1.heap p).ax = neighbourSum exPaddedQ i j (fun a b q =>
          (pairForce (setup exGlobalsQ) (apply_boundary (setup exGlobalsQ) exGridQ).heap
            p q a b).1) ∧
        (m1.heap p).ay = neighbourSum exPaddedQ i j (fun a b q =>
          (pairForce (setup exGlobalsQ) (apply_boundary (setup exGlobalsQ) exGridQ).heap
            p q a b).2) :=
  (comp_accel_acceleration (setup exGlobalsQ) (fun v => v) 2
    (apply_boundary (setup exGlobalsQ) exGridQ) exPaddedQ (by norm_num [setup, exGlobalsQ])
    (by decide) (by decide) (by decide)).1

theorem comp_accel_energy_witness :
    ∃ m1 e, comp_accel (setup exGlobalsQ) (fun v => v) 2
        (apply_boundary (setup exGlobalsQ) exGridQ) = .ok (m1, e) ∧
      e = (1 / ((setup exGlobalsQ).num_particles : Rat)) *
        ((cellOrder (setup exGlobalsQ)).map (fun c => ((exPaddedQ c.1 c.2).map (fun p =>
          neighbourSum exPaddedQ c.1 c.2 (fun a b q =>
            pairEnergy (setup exGlobalsQ) (fun v => v)
              (apply_boundary (setup exGlobalsQ) exGridQ).heap p q a b))).sum)).sum :=
  comp_accel_energy (setup exGlobalsQ) (fun v => v) 2
    (apply_boundary (setup exGlobalsQ) exGridQ) exPaddedQ (by norm_num [setup, exGlobalsQ])
    (by decide) (by decide) (by decide)

/-! ## `move_particles` and `update_velocity`, particle by particle -/

section OrderedField

variable [LinearOrderedField K]

/-- `setup` leaves the half step `dth` at `dt / 2`. -/
theorem setup_dth (g : Globals K) : (setup g).dth = (setup g).dt / 2 := by
  simp [setup]

/-- **C12.** With `dth = dt / 2`, as `setup` leaves it, `move_particles` on a well-formed
grid returns, with fuel for the particles, and for every particle of a real cell the new
velocity is `v + (dt / 2) * a` and the new position is `pos + dt * v1` for that new
velocity `v1`; the accelerations, the identifiers, every link, every head, the lists of
the cells and the records outside the real cells are unchanged. -/
theorem move_particles_spec (g : Globals K) (m : Mem K) (A : Int → Int → List Nat) (fuel : Nat)
    (hdth : g.dth = g.dt / 2) (hwf : WF g m A) (hfuel : (allParts g A).length ≤ fuel) :
    ∃ m1, move_particles g fuel m = .ok m1 ∧
      (∀ i j p, realCell g i j → p ∈ A i j →
        (m1.heap p).vx = (m.heap p).vx + (g.dt / 2) * (m.heap p).ax ∧
        (m1.heap p).vy = (m.heap p).vy + (g.dt / 2) * (m.heap p).ay ∧
        (m1.heap p).x = (m.heap p).x + g.dt * (m1.heap p).vx ∧
        (m1.heap p).y = (m.heap p).y + g.dt * (m1.heap p).vy ∧
        (m1.heap p).ax = (m.heap p).ax ∧ (m1.heap p).ay = (m.heap p).ay ∧
        (m1.heap p).part_id = (m.heap p).part_id) ∧
      (∀ n, (m1.heap n).next = (m.heap n).next ∧ (m1.heap n).prev = (m.heap n).prev) ∧
      (∀ n, n ∉ allParts g A → m1.heap n = m.heap n) ∧
      m1.cells = m.cells ∧ WF g m1 A := by
  obtain ⟨m1, h1, hheap, hcells, _⟩ := move_particles_eq g m A fuel hwf hfuel
  refine ⟨m1, h1, ?_, ?_, ?_, hcells, move_particles_wf g m m1 A hwf hheap hcells⟩
  · intro i j p hr hp
    have hpall : p ∈ allParts g A := (mem_allParts g A p).2 ⟨i, j, hr, hp⟩
    have hrec : m1.heap p = move_particles_rec g (m.heap p) := by
      rw [hheap]
      simp only [if_pos hpall]
    rw [hrec, ← hdth]
    simp [move_particles_rec]
  · intro n
    rw [hheap]
    simp only []
    split_ifs
    · exact move_particles_rec_links g _
    · exact ⟨rfl, rfl⟩
  · intro n hn
    rw [hheap]
    simp only [if_neg hn]

theorem move_particles_spec_witness :
    ∃ m1, move_particles (setup exGlobalsQ) 2 exGridQ = .ok m1 ∧
      (∀ i j p, realCell (setup exGlobalsQ) i j → p ∈ exListsQ i j →
        (m1.heap p).vx = (exGridQ.heap p).vx +
          ((setup exGlobalsQ).dt / 2) * (exGridQ.heap p).ax ∧
        (m1.heap p).vy = (exGridQ.heap p).vy +
          ((setup exGlobalsQ).dt / 2) * (exGridQ.heap p).ay ∧
        (m1.heap p).x = (exGridQ.heap p).x + (setup exGlobalsQ).dt * (m1.heap p).vx ∧
        (m1.heap p).y = (exGridQ.heap p).y + (setup exGlobalsQ).dt * (m1.heap p).vy ∧
        (m1.heap p).ax = (exGridQ.heap p).ax ∧ (m1.heap p).ay = (exGridQ.heap p).ay ∧
        (m1.heap p).part_id = (exGridQ.heap p).part_id) ∧
      (∀ n, (m1.heap n).next = (exGridQ.heap n).next ∧
        (m1.heap n).prev = (exGridQ.heap n).prev) ∧
      (∀ n, n ∉ allParts (setup exGlobalsQ) exListsQ → m1.heap n = exGridQ.heap n) ∧
      m1.cells = exGridQ.cells ∧ WF (setup exGlobalsQ) m1 exListsQ :=
  move_particles_spec (setup exGlobalsQ) exGridQ exListsQ 2 (setup_dth exGlobalsQ)
    (by decide) (by decide)

end OrderedField


section OrderedRing

variable [LinearOrderedCommRing K]

theorem update_velocity_body_eq (g : Globals K) (p : Nat) (s : Mem K × K) :
    update_velocity_body g p s =
      .ok ((s.1.modify p (update_velocity_rec g),
          s.2 + speed2 (update_velocity_rec g (s.1.heap p))),
        ((s.1.modify p (update_velocity_rec g)).heap p).next) := by
  have e : ∀ (m1 : Mem K) (k : K), m1 = s.1.modify p (update_velocity_rec g) →
      k = s.2 + speed2 (update_velocity_rec g (s.1.heap p)) →
      Outcome.ok ((m1, k), (m1.heap p).next) =
        Outcome.ok ((s.1.modify p (update_velocity_rec g),
          s.2 + speed2 (update_velocity_rec g (s.1.heap p))),
          ((s.1.modify p (update_velocity_rec g)).heap p).next) := by
    intro m1 k h1 h2
    rw [h1, h2]
  unfold update_velocity_body
  refine e _ _ ?_ ?_
  · simp only [Mem.modify, update_velocity_rec]
    congr 1
    funext n
    by_cases h : n = p
    · subst h
      simp
    · simp [h]
  · simp [Mem.modify, update_velocity_rec, speed2]

/-- A fold that rewrites every record of a list without repetition by `f` and adds
`w` of the rewritten record to an accumulator. -/
theorem foldl_modify_acc (f : particle_t K → particle_t K) (w : particle_t K → K) :
    ∀ (L : List Nat) (s : Mem K × K), L.Nodup →
      L.foldl (fun s p => (s.1.modify p f, s.2 + w (f (s.1.heap p)))) s =
        (L.foldl (fun m p => m.modify p f) s.1,
          s.2 + (L.map (fun p => w (f (s.1.heap p)))).sum)
  | [], s, _ => by simp
  | p :: L, s, hnd => by
    obtain ⟨hp, hL⟩ := List.nodup_cons.1 hnd
    rw [List.foldl_cons, foldl_modify_acc f w L _ hL, List.foldl_cons, List.map_cons,
      List.sum_cons]
    have e : L.map (fun q => w (f ((s.1.modify p f).heap q))) =
        L.map (fun q => w (f (s.1.heap q))) := by
      refine List.map_congr_left ?_
      intro q hq
      have hne : q ≠ p := fun h => hp (h ▸ hq)
      simp [Mem.modify_heap, hne]
    simp only [e, add_assoc]

end OrderedRing

section OrderedField

variable [LinearOrderedField K]

/-- `update_velocity` on a well-formed grid: with fuel for the longest list it returns,
every record of a real cell has been kicked once, and the value returned is the sum of the
squared new velocities times `0.5 / num_particles`. -/
theorem update_velocity_eq (g : Globals K) (m : Mem K) (A : Int → Int → List Nat) (fuel : Nat)
    (hwf : WF g m A) (hfuel : ∀ i j, realCell g i j → (A i j).length ≤ fuel) :
    ∃ m1, update_velocity g fuel m = .ok (m1,
        ((allParts g A).map (fun p => speed2 (update_velocity_rec g (m.heap p)))).sum *
          ((1 / 2) / (g.num_particles : K))) ∧
      (m1.heap = fun n =>
        if n ∈ allParts g A then update_velocity_rec g (m.heap n) else m.heap n) ∧
      m1.cells = m.cells ∧ m1.brk = m.brk := by
  have hw := (WF_iff g m A).1 hwf
  have key := forCells_fold g (fun s : Mem K × K => s.1) (fun _ _ => update_velocity_body g)
    (fun _ _ p s => (s.1.modify p (update_velocity_rec g),
      s.2 + speed2 (update_velocity_rec g (s.1.heap p)))) m A fuel
    (fun s => (∀ n, (s.1.heap n).next = (m.heap n).next) ∧ s.1.cells = m.cells)
    (fun _ h => h) ?_ (fun i j hr => dll_chain _ _ _ _ (hw.1 i j hr)) hfuel (m, 0)
    ⟨fun _ => rfl, rfl⟩
  · obtain ⟨h1, _⟩ := key
    rw [foldl_cells_eq g A (fun p (s : Mem K × K) => (s.1.modify p (update_velocity_rec g),
      s.2 + speed2 (update_velocity_rec g (s.1.heap p)))),
      foldl_modify_acc (update_velocity_rec g) speed2 (allParts g A) (m, 0) hwf.2] at h1
    obtain ⟨e1, e2, e3⟩ := foldl_modify_heap (update_velocity_rec g) (allParts g A) m hwf.2
    refine ⟨_, ?_, e1, e2, e3⟩
    unfold update_velocity
    rw [h1]
    simp [Outcome.bind]
  · intro i j p s _ _ hs
    refine ⟨update_velocity_body_eq g p s, ?_, hs.2⟩
    intro n
    rw [← hs.1 n]
    simp only [Mem.modify_heap]
    split_ifs with h
    · subst h
      simp [update_velocity_rec]
    · rfl

/-- **C13.** With `dth = dt / 2`, as `setup` leaves it, `update_velocity` on a well-formed
grid returns, with fuel for the particles; for every particle of a real cell the new
velocity is `v + (dt / 2) * a` and the position, the acceleration and the identifier are
unchanged, as are all links, all heads, the lists of the cells and the records outside the
real cells; the value returned is `0.5 * sum (vx1 ^ 2 + vy1 ^ 2) / num_particles` over
the new velocities of the particles of the real cells. -/
theorem update_velocity_spec (g : Globals K) (m : Mem K) (A : Int → Int → List Nat)
    (fuel : Nat) (hdth : g.dth = g.dt / 2) (hwf : WF g m A)
    (hfuel : (allParts g A).length ≤ fuel) :
    ∃ m1 ke, update_velocity g fuel m = .ok (m1, ke) ∧
      (∀ i j p, realCell g i j → p ∈ A i j →
        (m1.heap p).vx = (m.heap p).vx + (g.dt / 2) * (m.heap p).ax ∧
        (m1.heap p).vy = (m.heap p).vy + (g.dt / 2) * (m.heap p).ay ∧
        (m1.heap p).x = (m.heap p).x ∧ (m1.heap p).y = (m.heap p).y ∧
        (m1.heap p).ax = (m.heap p).ax ∧ (m1.heap p).ay = (m.heap p).ay ∧
        (m1.heap p).part_id = (m.heap p).part_id) ∧
      (∀ n, (m1.heap n).next = (m.heap n).next ∧ (m1.heap n).prev = (m.heap n).prev) ∧
      (∀ n, n ∉ allParts g A → m1.heap n = m.heap n) ∧
      m1.cells = m.cells ∧ WF g m1 A ∧
      ke = (1 / 2) * ((allParts g A).map
        (fun p => (m1.heap p).vx ^ 2 + (m1.heap p).vy ^ 2)).sum / (g.num_particles : K) := by
  obtain ⟨m1, h1, hheap, hcells, _⟩ := update_velocity_eq g m A fuel hwf
    (fun i j hr => le_trans (length_le_of_WF g m A hwf i j hr) hfuel)
  have hlinks : ∀ r : particle_t K, (update_velocity_rec g r).next = r.next ∧
      (update_velocity_rec g r).prev = r.prev := fun r => by simp [update_velocity_rec]
  refine ⟨m1, _, h1, ?_, ?_, ?_, hcells,
    WF_of_map g m m1 A (update_velocity_rec g) hlinks hwf hheap hcells, ?_⟩
  · intro i j p hr hp
    have hpall : p ∈ allParts g A := (mem_allParts g A p).2 ⟨i, j, hr, hp⟩
    have hrec : m1.heap p = update_velocity_rec g (m.heap p) := by
      rw [hheap]
      simp only [if_pos hpall]
    rw [hrec, ← hdth]
    simp [update_velocity_rec]
  · intro n
    rw [hheap]
    simp only []
    split_ifs
    · exact hlinks _
    · exact ⟨rfl, rfl⟩
  · intro n hn
    rw [hheap]
    simp only [if_neg hn]
  · have e : (allParts g A).map (fun p => (m1.heap p).vx ^ 2 + (m1.heap p).vy ^ 2) =
        (allParts g A).map (fun p => speed2 (update_velocity_rec g (m.heap p))) := by
      refine List.map_congr_left ?_
      intro p hp
      rw [hheap]
      simp only [if_pos hp, speed2, pow_two]
    rw [e]
    ring

theorem update_velocity_spec_witness :
    ∃ m1 ke, update_velocity (setup exGlobalsQ) 2 exGridQ = .ok (m1, ke) ∧
      (∀ i j p, realCell (setup exGlobalsQ) i j → p ∈ exListsQ i j →
        (m1.heap p).vx = (exGridQ.heap p).vx +
          ((setup exGlobalsQ).dt / 2) * (exGridQ.heap p).ax ∧
        (m1.heap p).vy = (exGridQ.heap p).vy +
          ((setup exGlobalsQ).dt / 2) * (exGridQ.heap p).ay ∧
        (m1.heap p).x = (exGridQ.heap p).x ∧ (m1.heap p).y = (exGridQ.heap p).y ∧
        (m1.heap p).ax = (exGridQ.heap p).ax ∧ (m1.heap p).ay = (exGridQ.heap p).ay ∧
        (m1.heap p).part_id = (exGridQ.heap p).part_id) ∧
      (∀ n, (m1.heap n).next = (exGridQ.heap n).next ∧
        (m1.heap n).prev = (exGridQ.heap n).prev) ∧
      (∀ n, n ∉ allParts (setup exGlobalsQ) exListsQ → m1.heap n = exGridQ.heap n) ∧
      m1.cells = exGridQ.cells ∧ WF (setup exGlobalsQ) m1 exListsQ ∧
      ke = (1 / 2) * ((allParts (setup exGlobalsQ) exListsQ).map
        (fun p => (m1.heap p).vx ^ 2 + (m1.heap p).vy ^ 2)).sum /
          ((setup exGlobalsQ).num_particles : Rat) :=
  update_velocity_spec (setup exGlobalsQ) exGridQ exListsQ 2 (setup_dth exGlobalsQ)
    (by decide) (by decide)

end OrderedField

/-! ## `parse_args` -/

theorem ite_ok {E α : Type} (c : Prop) [Decidable c] (a b : Except E α)
    (ha : ∃ s, a = .ok s) (hb : ¬ c → ∃ s, b = .ok s) :
    ∃ s, (if c then a else b) = .ok s := by
  by_cases h : c
  · rw [if_pos h]
    exact ha
  · rw [if_neg h]
    exact hb h

theorem parse_args_case_ok (lc : Libc K) (c : Char) (optarg : String) (s : Globals K × Flags)
    (hc : c ≠ 'h' ∧ c ≠ '?') : ∃ s1, parse_args_case lc c optarg s = .ok s1 := by
  unfold parse_args_case
  iterate 14 refine ite_ok _ _ _ ⟨_, rfl⟩ (fun _ => ?_)
  rw [if_neg (fun h => h.elim hc.2 hc.1)]
  exact ⟨_, rfl⟩

/-- Without `-h` and without an option unknown to `getopt_long` the option loop of
`parse_args` runs to its end. -/
theorem parse_args_loop_ok (lc : Libc K) :
    ∀ (opts : List (Char × String)) (s : Globals K × Flags),
      (∀ o ∈ opts, o.1 ≠ 'h' ∧ o.1 ≠ '?') → ∃ s1, parse_args_loop lc opts s = .ok s1
  | [], s, _ => ⟨s, rfl⟩
  | o :: rest, s, h => by
    obtain ⟨s1, h1⟩ := parse_args_case_ok lc o.1 o.2 s (h o (List.mem_cons_self _ _))
    obtain ⟨s2, h2⟩ := parse_args_loop_ok lc rest s1
      (fun k hk => h k (List.mem_cons_of_mem _ hk))
    exact ⟨s2, by simp only [parse_args_loop, h1, h2]⟩

section OrderedField

variable [LinearOrderedField K]

/-- **C14.** For options without `-h` and without an unknown option the option loop of
`parse_args` runs to its end in a state `s1`, and `parse_args` leaves the program with the
configuration error exactly when `r_cut_off > cell_size` in `s1`; otherwise it returns `s1`,
in particular when the cut off equals the cell size; and when `parse_args` leaves with the
configuration error, `main` ends with it, before `setup`, `problem_setup` and the time
loop. -/
theorem parse_args_config (lc : Libc K) (lib : Libm K) (opts : List (Char × String))
    (hopts : ∀ o ∈ opts, o.1 ≠ 'h' ∧ o.1 ≠ '?') :
    ∃ s1, parse_args_loop lc opts (set_defaults (initGlobals, initFlags)) = .ok s1 ∧
      (parse_args lc opts (set_defaults (initGlobals, initFlags)) = .error .config ↔
        s1.1.r_cut_off > s1.1.cell_size) ∧
      (¬ s1.1.r_cut_off > s1.1.cell_size →
        parse_args lc opts (set_defaults (initGlobals, initFlags)) = .ok s1) ∧
      (s1.1.r_cut_off = s1.1.cell_size →
        parse_args lc opts (set_defaults (initGlobals, initFlags)) = .ok s1) ∧
      (s1.1.r_cut_off > s1.1.cell_size →
        ∀ fuel steps m, main lc lib opts fuel steps m = .error .config) ∧
      (¬ s1.1.r_cut_off > s1.1.cell_size →
        ∀ fuel steps m, ∃ r, main lc lib opts fuel steps m = .ok r) := by
  obtain ⟨s1, h1⟩ := parse_args_loop_ok lc opts (set_defaults (initGlobals, initFlags)) hopts
  refine ⟨s1, h1, ?_, ?_, ?_, ?_, ?_⟩
  · unfold parse_args
    rw [h1]
    by_cases h : s1.1.r_cut_off > s1.1.cell_size
    · simp [h]
    · simp [h]
  · intro h
    unfold parse_args
    rw [h1]
    simp [h]
  · intro h
    unfold parse_args
    rw [h1]
    simp [h]
  · intro h fuel steps m
    unfold main parse_args
    rw [h1]
    simp [h]
  · intro h fuel steps m
    unfold main parse_args
    rw [h1]
    simp [h]


theorem parse_args_config_witness :
    ∃ s1, parse_args_loop exLibc [('r', "3"), ('s', "3")]
        (set_defaults (initGlobals, initFlags)) = .ok s1 ∧
      (parse_args exLibc [('r', "3"), ('s', "3")] (set_defaults (initGlobals, initFlags)) =
          .error .config ↔ s1.1.r_cut_off > s1.1.cell_size) ∧
      (¬ s1.1.r_cut_off > s1.1.cell_size →
        parse_args exLibc [('r', "3"), ('s', "3")] (set_defaults (initGlobals, initFlags)) =
          .ok s1) ∧
      (s1.1.r_cut_off = s1.1.cell_size →
        parse_args exLibc [('r', "3"), ('s', "3")] (set_defaults (initGlobals, initFlags)) =
          .ok s1) ∧
      (s1.1.r_cut_off > s1.1.cell_size →
        ∀ fuel steps m, main exLibc exLibm [('r', "3"), ('s', "3")] fuel steps m =
          .error .config) ∧
      (¬ s1.1.r_cut_off > s1.1.cell_size →
        ∀ fuel steps m, ∃ r, main exLibc exLibm [('r', "3"), ('s', "3")] fuel steps m =
          .ok r) :=
  parse_args_config exLibc exLibm [('r', "3"), ('s', "3")] (by decide)

/-- **C15, on the code.** With the defaults of `data.c` and the single option `-d 1`,
`parse_args` stores `dt = 1`, and `setup` then replaces it by `t_end / niters = 1 / 2000`:
the time step the time loop uses is not the value given with `-d`. -/
theorem del_t_overwritten :
    (parse_args exLibc [('d', "1")] (set_defaults (initGlobals, initFlags))).map
        (fun s => (s.1.dt, (setup s.1).dt)) = .ok (exLibc.atof "1", 1 / 2000) ∧
      exLibc.atof "1" = 1 ∧ (1 : Rat) ≠ 1 / 2000 := by
  have e : exLibc.atof "1" = 1 := by decide
  refine ⟨?_, e, by norm_num⟩
  have h : parse_args_loop exLibc [('d', "1")] (set_defaults (initGlobals, initFlags)) =
      .ok ({ (set_defaults ((initGlobals : Globals Rat), initFlags)).1 with
          dt := exLibc.atof "1" },
        (set_defaults ((initGlobals : Globals Rat), initFlags)).2) := by
    simp [parse_args_loop, parse_args_case]
  unfold parse_args
  rw [h]
  norm_num [setup, set_defaults, initGlobals, Except.map]

end OrderedField

/-! ## `problem_setup`: count, positions and momentum -/

theorem setPairs_self (B : Int → Int → List (Int × Int)) (i j : Int) (L : List (Int × Int)) :
    setPairs B i j L i j = L := by
  simp [setPairs]

theorem setPairs_other (B : Int → Int → List (Int × Int)) (i j a b : Int)
    (L : List (Int × Int)) (h : ¬ (a = i ∧ b = j)) : setPairs B i j L a b = B a b := by
  simp [setPairs, h]

theorem setPairs_setPairs (B : Int → Int → List (Int × Int)) (i j : Int)
    (L M : List (Int × Int)) : setPairs (setPairs B i j L) i j M = setPairs B i j M := by
  funext a b
  by_cases h : a = i ∧ b = j <;> simp [setPairs, h]

/-- Adding a particle at the head of the list of one real cell adds it to the particles
of the grid. -/
theorem allParts_setList_cons (g : Globals K) (A : Int → Int → List Nat) (i j : Int) (p : Nat)
    (hr : realCell g i j) :
    (allParts g (setList A i j (p :: A i j))).Perm (p :: allParts g A) := by
  have key : ∀ l : List (Int × Int), l.Nodup →
      ((i, j) ∈ l → (l.flatMap (fun c => setList A i j (p :: A i j) c.1 c.2)).Perm
        (p :: l.flatMap (fun c => A c.1 c.2))) ∧
      ((i, j) ∉ l → l.flatMap (fun c => setList A i j (p :: A i j) c.1 c.2) =
        l.flatMap (fun c => A c.1 c.2)) := by
    intro l
    induction l with
    | nil => intro _; exact ⟨fun h => absurd h (List.not_mem_nil _), fun _ => rfl⟩
    | cons c l ih =>
      intro hnd
      obtain ⟨hc, hl⟩ := List.nodup_cons.1 hnd
      obtain ⟨ih1, ih2⟩ := ih hl
      by_cases e : c = (i, j)
      · subst e
        refine ⟨fun _ => ?_, fun h => absurd (List.mem_cons_self _ _) h⟩
        rw [List.flatMap_cons, List.flatMap_cons, ih2 hc, setList_self]
        exact List.Perm.refl _
      · have e2 : ¬ (c.1 = i ∧ c.2 = j) := fun h => e (Prod.ext h.1 h.2)
        constructor
        · intro h
          have h2 : (i, j) ∈ l := by
            rcases List.mem_cons.1 h with h | h
            · exact absurd h.symm e
            · exact h
          rw [List.flatMap_cons, List.flatMap_cons, setList_other _ _ _ _ _ _ e2]
          exact (List.Perm.append_left _ (ih1 h2)).trans List.perm_middle
        · intro h
          have h2 : (i, j) ∉ l := fun h3 => h (List.mem_cons_of_mem _ h3)
          rw [List.flatMap_cons, List.flatMap_cons, setList_other _ _ _ _ _ _ e2, ih2 h2]
  exact (key (cellOrder g) (nodup_cellOrder g)).1 ((mem_cellOrder g i j).2 hr)

section OrderedField

variable [LinearOrderedField K]

theorem problem_setup_place_track (lib : Libm K) (g : Globals K) (vm ph : K) (i j a b : Int)
    (s : SetupState K) (A : Int → Int → List Nat) (B : Int → Int → List (Int × Int))
    (hr : realCell g i j) (h : LatticeTrack g s A B) :
    LatticeTrack g (problem_setup_place lib g vm ph i j a b s)
      (setList A i j (s.mem.brk :: A i j)) (setPairs B i j ((a, b) :: B i j)) := by
  have hpA : ∀ c d, s.mem.brk ∉ A c d := fun c d hp => lt_irrefl _ (h.fresh c d _ hp)
  -- the memory before `add_particle`
  obtain ⟨m4, hm4, hlink, hcells, hbrk, hdat, hnew, hsx, hsy⟩ : ∃ m4 : Mem K,
      (problem_setup_place lib g vm ph i j a b s).mem = add_particle m4 i j s.mem.brk ∧
      (∀ n, (m4.heap n).next = (s.mem.heap n).next ∧ (m4.heap n).prev = (s.mem.heap n).prev) ∧
      m4.cells = s.mem.cells ∧ m4.brk = s.mem.brk + 1 ∧
      (∀ n, n ≠ s.mem.brk → m4.heap n = s.mem.heap n) ∧
      ((m4.heap s.mem.brk).x, (m4.heap s.mem.brk).y) = latticeLocal g (a, b) ∧
      (problem_setup_place lib g vm ph i j a b s).v_sum_x =
        s.v_sum_x + ((add_particle m4 i j s.mem.brk).heap s.mem.brk).vx ∧
      (problem_setup_place lib g vm ph i j a b s).v_sum_y =
        s.v_sum_y + ((add_particle m4 i j s.mem.brk).heap s.mem.brk).vy := by
    refine ⟨_, rfl, ?_, rfl, rfl, ?_, ?_, rfl, rfl⟩
    · intro n
      simp only [Mem.modify_heap]
      split_ifs with e
      · subst e; simp
      · exact ⟨rfl, rfl⟩
    · intro n hn
      simp only [Mem.modify_heap, if_neg hn]
    · simp [Mem.modify_heap, latticeLocal]
  have hd4 : cellsDll g m4 A :=
    cellsDll_congr g s.mem m4 A hlink (fun _ _ _ => by rw [hcells]) h.dll
  -- the data of the old particles are kept
  have hold : ∀ q, q ≠ s.mem.brk →
      ((problem_setup_place lib g vm ph i j a b s).mem.heap q).data = (s.mem.heap q).data := by
    intro q hq
    rw [hm4, add_particle_data, hdat q hq]
  have hpos : ∀ c d, (A c d).map (fun p =>
      (((problem_setup_place lib g vm ph i j a b s).mem.heap p).x,
        ((problem_setup_place lib g vm ph i j a b s).mem.heap p).y)) =
      (B c d).map (latticeLocal g) := by
    intro c d
    rw [← h.pos c d]
    refine List.map_congr_left ?_
    intro q hq
    have e := data_fields _ _ (hold q (fun e => hpA c d (e ▸ hq)))
    rw [e.1, e.2.1]
  have hall : ∀ q ∈ allParts g A, q ≠ s.mem.brk := by
    intro q hq e
    obtain ⟨c, d, _, hq2⟩ := (mem_allParts g A q).1 hq
    exact hpA c d (e ▸ hq2)
  refine ⟨?_, ?_, ?_, ?_, ?_, ?_, ?_⟩
  · rw [hm4]
    exact cellsDll_add g m4 A i j _ hd4 h.disj hr (fun c d _ => hpA c d)
  · exact cellsDisjoint_add g A i j _ h.disj hr (fun c d _ => hpA c d)
  · intro c d q hq
    rw [hm4, add_particle_brk, hbrk]
    rcases (mem_setList_cons A i j c d _ q).1 hq with ⟨e, _, _⟩ | hq
    · omega
    · exact Nat.lt_succ_of_lt (h.fresh c d q hq)
  · intro c d hcd
    rw [hm4, add_particle_cells, if_neg, hcells]
    · exact h.ghost c d hcd
    · rintro ⟨rfl, rfl⟩
      exact hcd hr
  · intro c d
    by_cases e : c = i ∧ d = j
    · obtain ⟨rfl, rfl⟩ := e
      rw [setList_self, setPairs_self, List.map_cons, List.map_cons, hpos c d, ← hnew]
      have e := data_fields _ _ (add_particle_data m4 c d s.mem.brk s.mem.brk)
      rw [hm4, e.1, e.2.1]
    · rw [setList_other _ _ _ _ _ _ e, setPairs_other _ _ _ _ _ _ e]
      exact hpos c d
  · rw [hsx, ((allParts_setList_cons g A i j s.mem.brk hr).map _).sum_eq, List.map_cons,
      List.sum_cons, hm4, add_comm, h.sumx]
    congr 1
    refine congrArg List.sum (List.map_congr_left ?_)
    intro q hq
    have e := data_fields _ _ (hold q (hall q hq))
    rw [← hm4, e.2.2.2.2.1]
  · rw [hsy, ((allParts_setList_cons g A i j s.mem.brk hr).map _).sum_eq, List.map_cons,
      List.sum_cons, hm4, add_comm, h.sumy]
    congr 1
    refine congrArg List.sum (List.map_congr_left ?_)
    intro q hq
    have e := data_fields _ _ (hold q (hall q hq))
    rw [← hm4, e.2.2.2.2.2.1]

end OrderedField

theorem setPairs_same (B : Int → Int → List (Int × Int)) (i j : Int) :
    setPairs B i j (B i j) = B := by
  funext a b
  by_cases h : a = i ∧ b = j
  · obtain ⟨rfl, rfl⟩ := h
    rw [setPairs_self]
  · rw [setPairs_other _ _ _ _ _ _ h]

theorem length_latticeOrder (n : Int) : (latticeOrder n).length = n.toNat * n.toNat := by
  have h1 : ∀ (a : Int) (l : List Int), (l.flatMap (fun b => [(a, b)])).length = l.length := by
    intro a l
    induction l with
    | nil => rfl
    | cons b l ih => simp [List.flatMap_cons, ih]
  have h2 : ∀ (k : Nat) (l : List Int),
      (l.flatMap (fun (_ : Int) => (List.replicate k (0 : Int)))).length = l.length * k := by
    intro k l
    induction l with
    | nil => simp
    | cons b l ih => simp [List.flatMap_cons, ih, Nat.succ_mul, Nat.add_comm]
  have h3 : ∀ (l l2 : List Int),
      (l.flatMap (fun a => l2.flatMap (fun b => [(a, b)]))).length = l.length * l2.length := by
    intro l l2
    induction l with
    | nil => simp
    | cons a l ih =>
      rw [List.flatMap_cons, List.length_append, ih, h1, List.length_cons, Nat.succ_mul,
        Nat.add_comm]
  unfold latticeOrder
  rw [h3, List.length_reverse, length_loopIdx, sub_zero]

theorem perm_latticeOrder (n : Int) : (latticeOrder n).Perm (latticeIndex n) := by
  have h1 : ∀ (a : Int) (l : List Int),
      (l.reverse.flatMap (fun b => [(a, b)])).Perm (l.map (fun b => (a, b))) := by
    intro a l
    have e : ∀ l2 : List Int, l2.flatMap (fun b => [(a, b)]) = l2.map (fun b => (a, b)) := by
      intro l2
      induction l2 with
      | nil => rfl
      | cons b l2 ih => rw [List.flatMap_cons, List.map_cons, ih]; rfl
    rw [e]
    exact (List.reverse_perm l).map _
  unfold latticeOrder latticeIndex
  refine ((List.reverse_perm (loopIdx 0 n)).flatMap_right _).trans ?_
  exact List.Perm.flatMap_left _ (fun a _ => h1 a _)

theorem length_cellOrder (g : Globals K) : (cellOrder g).length = g.x.toNat * g.y.toNat := by
  have h3 : ∀ (l l2 : List Int),
      (l.flatMap (fun i => l2.map (fun j => (i, j)))).length = l.length * l2.length := by
    intro l l2
    induction l with
    | nil => simp
    | cons a l ih =>
      rw [List.flatMap_cons, List.length_append, ih, List.length_map, List.length_cons,
        Nat.succ_mul, Nat.add_comm]
  unfold cellOrder
  rw [h3, length_loopIdx, length_loopIdx]
  simp

/-- The number of particles of a grid whose real cells all hold `k` particles. -/
theorem length_allParts (g : Globals K) (A : Int → Int → List Nat) (k : Nat)
    (h : ∀ i j, realCell g i j → (A i j).length = k) :
    (allParts g A).length = g.x.toNat * g.y.toNat * k := by
  have key : ∀ l : List (Int × Int), (∀ c ∈ l, (A c.1 c.2).length = k) →
      (l.flatMap (fun c => A c.1 c.2)).length = l.length * k := by
    intro l
    induction l with
    | nil => intro _; simp
    | cons c l ih =>
      intro hl
      rw [List.flatMap_cons, List.length_append, hl c (List.mem_cons_self _ _),
        ih (fun d hd => hl d (List.mem_cons_of_mem _ hd)), List.length_cons, Nat.succ_mul,
        Nat.add_comm]
  unfold allParts
  rw [key _ (fun c hc => h c.1 c.2 ((mem_cellOrder g c.1 c.2).1 hc)), length_cellOrder]

theorem allParts_nil (g : Globals K) : allParts g (fun _ _ => []) = [] := by
  unfold allParts
  generalize cellOrder g = l
  induction l with
  | nil => rfl
  | cons c l ih => rw [List.flatMap_cons, ih]; rfl

section OrderedField

variable [LinearOrderedField K]

theorem list_sum_map_sub {ι : Type} (f : ι → K) (c : K) :
    ∀ l : List ι, (l.map (fun p => f p - c)).sum = (l.map f).sum - (l.length : K) * c
  | [] => by simp
  | x :: l => by
    rw [List.map_cons, List.sum_cons, list_sum_map_sub f c l, List.map_cons, List.sum_cons,
      List.length_cons]
    push_cast
    ring

/-- A loop of the first loop nest of `problem_setup` whose body puts the lattice positions
`f x` in front of the list of cell `(i, j)`. -/
theorem problem_setup_track_loop {ι : Type} (g : Globals K)
    (body : ι → SetupState K → Outcome (SetupState K)) (f : ι → List (Int × Int)) (i j : Int)
    (P : ι → Prop)
    (hstep : ∀ x s A B, P x → LatticeTrack g s A B → ∃ s1 A1, body x s = .ok s1 ∧
      LatticeTrack g s1 A1 (setPairs B i j (f x ++ B i j))) :
    ∀ (l : List ι) (s : SetupState K) (A : Int → Int → List Nat)
      (B : Int → Int → List (Int × Int)), (∀ x ∈ l, P x) → LatticeTrack g s A B →
      ∃ s1 A1, forEach body l s = .ok s1 ∧
        LatticeTrack g s1 A1 (setPairs B i j (l.reverse.flatMap f ++ B i j))
  | [], s, A, B, _, h => by
    refine ⟨s, A, rfl, ?_⟩
    simpa [setPairs_same] using h
  | x :: l, s, A, B, hP, h => by
    obtain ⟨s1, A1, hb, h1⟩ := hstep x s A B (hP x (List.mem_cons_self _ _)) h
    obtain ⟨s2, A2, hb2, h2⟩ := problem_setup_track_loop g body f i j P hstep l s1 A1 _
      (fun y hy => hP y (List.mem_cons_of_mem _ hy)) h1
    refine ⟨s2, A2, by simp only [forEach, hb, hb2], ?_⟩
    rw [setPairs_setPairs, setPairs_self] at h2
    have e : (x :: l).reverse.flatMap f ++ B i j = l.reverse.flatMap f ++ (f x ++ B i j) := by
      simp [List.flatMap_append]
    rw [e]
    exact h2

/-- The lattice of one real cell: the positions `latticeOrder n` are put in front of its
list. -/
theorem problem_setup_track_cell (lib : Libm K) (g : Globals K) (vm ph : K) (i j : Int)
    (hr : realCell g i j) (s : SetupState K) (A : Int → Int → List Nat)
    (B : Int → Int → List (Int × Int)) (h : LatticeTrack g s A B) :
    ∃ s1 A1,
      forEach (fun a s =>
        forEach (fun b s => .ok (problem_setup_place lib g vm ph i j a b s))
          (loopIdx 0 g.num_part_per_dim) s)
        (loopIdx 0 g.num_part_per_dim) s = .ok s1 ∧
      LatticeTrack g s1 A1 (setPairs B i j (latticeOrder g.num_part_per_dim ++ B i j)) := by
  refine problem_setup_track_loop g
    (fun a s =>
      forEach (fun b s => Outcome.ok (problem_setup_place lib g vm ph i j a b s))
        (loopIdx 0 g.num_part_per_dim) s)
    (fun a => (loopIdx 0 g.num_part_per_dim).reverse.flatMap (fun b => [(a, b)])) i j
    (fun _ => True) ?_ (loopIdx 0 g.num_part_per_dim) s A B (fun _ _ => trivial) h
  intro a s1 A1 B1 _ h1
  refine problem_setup_track_loop g
    (fun b s => Outcome.ok (problem_setup_place lib g vm ph i j a b s))
    (fun b => [(a, b)]) i j (fun _ => True) ?_ (loopIdx 0 g.num_part_per_dim) s1 A1 B1
    (fun _ _ => trivial) h1
  intro b s2 A2 B2 _ h2
  exact ⟨_, _, rfl, problem_setup_place_track lib g vm ph i j a b s2 A2 B2 hr h2⟩

/-- The first loop nest of `problem_setup` returns a well-formed grid in which the list
of every real cell holds the lattice positions `latticeOrder n`, with null ghost heads and
the velocity sums of the particles. -/
theorem problem_setup_lattice_track (lib : Libm K) (g : Globals K) (vm ph : K)
    (s : SetupState K) (hs : ∀ i j, s.mem.cells i j = none) (hx : s.v_sum_x = 0)
    (hy : s.v_sum_y = 0) :
    ∃ s1 A1 B1, problem_setup_lattice lib g vm ph s = .ok s1 ∧ LatticeTrack g s1 A1 B1 ∧
      ∀ c d, realCell g c d → B1 c d = latticeOrder g.num_part_per_dim := by
  unfold problem_setup_lattice
  rw [forCells_eq]
  have h0 : LatticeTrack g s (fun _ _ => []) (fun _ _ => []) := by
    refine ⟨fun i j _ => hs i j, ?_, ?_, fun i j _ => hs i j, fun _ _ => rfl, ?_, ?_⟩
    · intro i j a b p _ _ hp
      exact absurd hp (List.not_mem_nil _)
    · intro i j p hp
      exact absurd hp (List.not_mem_nil _)
    · rw [hx, allParts_nil]
      rfl
    · rw [hy, allParts_nil]
      rfl
  have key := forEach_spec
    (fun (c : Int × Int) s =>
      forEach (fun a s =>
        forEach (fun b s => Outcome.ok (problem_setup_place lib g vm ph c.1 c.2 a b s))
          (loopIdx 0 g.num_part_per_dim) s)
        (loopIdx 0 g.num_part_per_dim) s)
    (cellOrder g)
    (fun done s1 => ∃ A1 B1, LatticeTrack g s1 A1 B1 ∧ ∀ c d, B1 c d =
      if (c, d) ∈ done then latticeOrder g.num_part_per_dim else [])
    False ?_ (cellOrder g) [] s rfl ⟨_, _, h0, fun c d => by simp⟩
  · rcases key with ⟨_, hF⟩ | ⟨s1, h1, A1, B1, hI, hl⟩
    · exact absurd hF id
    · refine ⟨s1, A1, B1, h1, hI, fun c d hcd => ?_⟩
      rw [hl c d, if_pos ((mem_cellOrder g c d).2 hcd)]
  · rintro done c rest s1 hl ⟨A1, B1, hI, hB⟩
    have hc : realCell g c.1 c.2 := by
      refine (mem_cellOrder g c.1 c.2).1 ?_
      rw [hl]; simp
    have hcd : c ∉ done := by
      have hnd := nodup_cellOrder g
      rw [hl] at hnd
      exact fun e => (List.nodup_append.1 hnd).2.2 e (List.mem_cons_self _ _)
    obtain ⟨s2, A2, hb, hI2⟩ := problem_setup_track_cell lib g vm ph c.1 c.2 hc s1 A1 B1 hI
    refine Or.inr ⟨s2, hb, A2, _, hI2, fun a b => ?_⟩
    by_cases e : a = c.1 ∧ b = c.2
    · have e2 : (a, b) = c := Prod.ext e.1 e.2
      have e3 : (c.1, c.2) ∉ done := hcd
      have e4 : (a, b) ∈ done ++ [c] := by rw [e2]; simp
      obtain ⟨rfl, rfl⟩ := e
      rw [setPairs_self, hB, if_neg e3, if_pos e4, List.append_nil]
    · have e2 : (a, b) ≠ c := fun h => e ⟨congrArg Prod.fst h, congrArg Prod.snd h⟩
      have e4 : (a, b) ∈ done ++ [c] ↔ (a, b) ∈ done := by simp [e2]
      rw [setPairs_other _ _ _ _ _ _ e, hB]
      simp only [e4]

/-- `problem_setup` returns, with fuel `n * n`: the grid is well formed, the ghost heads
are null, the local coordinates along the list of every real cell are those of the lattice
positions `latticeOrder n`, and the velocity sums over the particles are the sums before
the shift minus the number of particles times the mean that was subtracted. -/
theorem problem_setup_track (lib : Libm K) (g : Globals K) (fuel : Nat) (m : Mem K)
    (hfuel : g.num_part_per_dim.toNat * g.num_part_per_dim.toNat ≤ fuel) :
    ∃ m1 A sx sy, problem_setup lib g fuel m = .ok (problem_setup_globals g, m1) ∧
      WF (problem_setup_globals g) m1 A ∧
      (∀ i j, ¬ realCell g i j → m1.cells i j = none) ∧
      (∀ i j, realCell g i j →
        (A i j).map (fun p => ((m1.heap p).x, (m1.heap p).y)) =
          (latticeOrder g.num_part_per_dim).map (latticeLocal g)) ∧
      ((allParts g A).map (fun p => (m1.heap p).vx)).sum =
        sx - ((allParts g A).length : K) *
          (sx / ((g.x * g.y * g.num_part_per_dim * g.num_part_per_dim : Int) : K)) ∧
      ((allParts g A).map (fun p => (m1.heap p).vy)).sum =
        sy - ((allParts g A).length : K) *
          (sy / ((g.x * g.y * g.num_part_per_dim * g.num_part_per_dim : Int) : K)) := by
  unfold problem_setup
  simp only []
  obtain ⟨s1, A1, B1, h1, hI, hB⟩ := problem_setup_lattice_track lib (problem_setup_globals g)
    (lib.sqrt (3 * g.init_temp)) (2 * lib.pi / (lib.rand_max : K))
    { mem := { heap := m.heap, cells := fun _ _ => none, brk := m.brk },
      v_sum_x := 0, v_sum_y := 0, calls := 0 } (fun _ _ => rfl) rfl rfl
  rw [h1]
  simp only [Outcome.bind]
  have hwf : WF (problem_setup_globals g) s1.mem A1 :=
    (WF_iff _ _ _).2 ⟨hI.dll, hI.disj⟩
  have hpos : ∀ i j, realCell g i j →
      (A1 i j).map (fun p => ((s1.mem.heap p).x, (s1.mem.heap p).y)) =
        (latticeOrder g.num_part_per_dim).map (latticeLocal g) := by
    intro i j hr
    rw [hI.pos i j, hB i j hr]
    rfl
  have hlen : ∀ i j, realCell g i j →
      (A1 i j).length = g.num_part_per_dim.toNat * g.num_part_per_dim.toNat := by
    intro i j hr
    have := congrArg List.length (hpos i j hr)
    rw [List.length_map, List.length_map, length_latticeOrder] at this
    exact this
  obtain ⟨m2, h2, hheap, hcells, _, hwf2⟩ := forCells_map (problem_setup_globals g) s1.mem A1
    fuel
    (problem_setup_shift (s1.v_sum_x / ((problem_setup_globals g).num_particles : K))
      (s1.v_sum_y / ((problem_setup_globals g).num_particles : K)))
    (problem_setup_shift_rec (s1.v_sum_x / ((problem_setup_globals g).num_particles : K))
      (s1.v_sum_y / ((problem_setup_globals g).num_particles : K)))
    (fun r => by simp [problem_setup_shift_rec])
    (fun p m => problem_setup_shift_eq _ _ p m) hwf
    (fun i j hr => by
      rw [hlen i j hr]
      exact hfuel)
  rw [h2]
  have hrec : ∀ p ∈ allParts g A1, m2.heap p =
      problem_setup_shift_rec (s1.v_sum_x / ((problem_setup_globals g).num_particles : K))
        (s1.v_sum_y / ((problem_setup_globals g).num_particles : K)) (s1.mem.heap p) := by
    intro p hp
    rw [hheap]
    exact if_pos hp
  refine ⟨m2, A1, s1.v_sum_x, s1.v_sum_y, rfl, hwf2, ?_, ?_, ?_, ?_⟩
  · intro i j hr
    rw [hcells]
    exact hI.ghost i j hr
  · intro i j hr
    rw [← hpos i j hr]
    refine List.map_congr_left ?_
    intro p hp
    rw [hrec p ((mem_allParts g A1 p).2 ⟨i, j, hr, hp⟩)]
    simp [problem_setup_shift_rec]
  · have e : (allParts g A1).map (fun p => (m2.heap p).vx) =
        (allParts g A1).map (fun p => (s1.mem.heap p).vx -
          s1.v_sum_x / ((problem_setup_globals g).num_particles : K)) := by
      refine List.map_congr_left ?_
      intro p hp
      rw [hrec p hp]
      simp [problem_setup_shift_rec]
    rw [e, list_sum_map_sub, hI.sumx]
    rfl
  · have e : (allParts g A1).map (fun p => (m2.heap p).vy) =
        (allParts g A1).map (fun p => (s1.mem.heap p).vy -
          s1.v_sum_y / ((problem_setup_globals g).num_particles : K)) := by
      refine List.map_congr_left ?_
      intro p hp
      rw [hrec p hp]
      simp [problem_setup_shift_rec]
    rw [e, list_sum_map_sub, hI.sumy]
    rfl

end OrderedField

section OrderedField

variable [LinearOrderedField K]

/-- **C16.** For `x, y ≥ 1` and `n = num_part_per_dim ≥ 1`, `problem_setup` returns, with
fuel `n * n`; afterwards `num_particles = x * y * n ^ 2`, the grid is well formed, every
real cell heads a well-formed list of exactly `n ^ 2` distinct particles, every head
outside the real cells is null, and the number of particles of the real cells is
`num_particles`. -/
theorem problem_setup_count (lib : Libm K) (g : Globals K) (fuel : Nat) (m : Mem K)
    (hx : 1 ≤ g.x) (hy : 1 ≤ g.y) (hn : 1 ≤ g.num_part_per_dim)
    (hfuel : g.num_part_per_dim.toNat * g.num_part_per_dim.toNat ≤ fuel) :
    ∃ g1 m1 A, problem_setup lib g fuel m = .ok (g1, m1) ∧
      g1.num_particles = g.x * g.y * g.num_part_per_dim ^ 2 ∧
      WF g1 m1 A ∧
      (∀ i j, realCell g i j → dll m1.heap none (m1.cells i j) (A i j) ∧ (A i j).Nodup ∧
        ((A i j).length : Int) = g.num_part_per_dim ^ 2) ∧
      (∀ i j, ¬ realCell g i j → m1.cells i j = none) ∧
      (allParts g A).Nodup ∧ ((allParts g A).length : Int) = g1.num_particles := by
  obtain ⟨m1, A, sx, sy, h1, hwf, hghost, hpos, _, _⟩ := problem_setup_track lib g fuel m hfuel
  have hw := (WF_iff _ _ _).1 hwf
  have hlen : ∀ i j, realCell g i j →
      (A i j).length = g.num_part_per_dim.toNat * g.num_part_per_dim.toNat := by
    intro i j hr
    have := congrArg List.length (hpos i j hr)
    rw [List.length_map, List.length_map, length_latticeOrder] at this
    exact this
  have hnn : ((g.num_part_per_dim.toNat : Nat) : Int) = g.num_part_per_dim :=
    Int.toNat_of_nonneg (by omega)
  refine ⟨_, m1, A, h1, ?_, hwf, ?_, hghost, hwf.2, ?_⟩
  · simp only [problem_setup_globals]
    ring
  · intro i j hr
    refine ⟨hw.1 i j hr, dll_nodup _ _ _ _ (hw.1 i j hr), ?_⟩
    rw [hlen i j hr]
    push_cast
    rw [hnn]
    ring
  · rw [length_allParts g A _ hlen]
    push_cast
    rw [hnn, Int.toNat_of_nonneg (by omega : 0 ≤ g.x), Int.toNat_of_nonneg (by omega : 0 ≤ g.y)]
    simp only [problem_setup_globals]
    ring

theorem problem_setup_count_witness :
    ∃ g1 m1 A, problem_setup exLibm exGlobalsQ 4 exGridQ = .ok (g1, m1) ∧
      g1.num_particles = exGlobalsQ.x * exGlobalsQ.y * exGlobalsQ.num_part_per_dim ^ 2 ∧
      WF g1 m1 A ∧
      (∀ i j, realCell exGlobalsQ i j →
        dll m1.heap none (m1.cells i j) (A i j) ∧ (A i j).Nodup ∧
        ((A i j).length : Int) = exGlobalsQ.num_part_per_dim ^ 2) ∧
      (∀ i j, ¬ realCell exGlobalsQ i j → m1.cells i j = none) ∧
      (allParts exGlobalsQ A).Nodup ∧
      ((allParts exGlobalsQ A).length : Int) = g1.num_particles :=
  problem_setup_count exLibm exGlobalsQ 4 exGridQ (by decide) (by decide) (by decide)
    (by decide)

/-- **C17.** `problem_setup` returns, with fuel `n * n`, and afterwards, for every real
cell `(i, j)`, the global coordinates `((i-1) * cell_size + p.x, (j-1) * cell_size + p.y)`
of the particles of its list are, up to the order, the lattice points
`(((i-1) + (a + 1/2)/n) * cell_size, ((j-1) + (b + 1/2)/n) * cell_size)` of the positions
`(a, b)` with `a, b` in `0..n-1`, each position taken once and each particle met once. -/
theorem lattice_round_trip (lib : Libm K) (g : Globals K) (fuel : Nat) (m : Mem K)
    (hfuel : g.num_part_per_dim.toNat * g.num_part_per_dim.toNat ≤ fuel) :
    ∃ g1 m1 A, problem_setup lib g fuel m = .ok (g1, m1) ∧ WF g1 m1 A ∧
      (latticeIndex g.num_part_per_dim).Nodup ∧
      (∀ ab, ab ∈ latticeIndex g.num_part_per_dim ↔
        (0 ≤ ab.1 ∧ ab.1 < g.num_part_per_dim) ∧ 0 ≤ ab.2 ∧ ab.2 < g.num_part_per_dim) ∧
      ∀ i j, realCell g i j → (A i j).Nodup ∧
        ((A i j).map (fun p => globalPos g1 i j (m1.heap p))).Perm
          ((latticeIndex g.num_part_per_dim).map (latticePoint g i j)) := by
  obtain ⟨m1, A, sx, sy, h1, hwf, _, hpos, _, _⟩ := problem_setup_track lib g fuel m hfuel
  have hw := (WF_iff _ _ _).1 hwf
  refine ⟨_, m1, A, h1, hwf, ?_, ?_, ?_⟩
  · unfold latticeIndex
    rw [List.nodup_flatMap]
    refine ⟨fun a _ => ?_, ?_⟩
    · refine List.Nodup.map ?_ (nodup_loopIdx _ _)
      intro b c h
      simpa using h
    · refine List.Nodup.pairwise_of_forall_ne (nodup_loopIdx _ _) ?_
      intro a _ b _ hab
      simp only [Function.onFun, List.disjoint_left, List.mem_map]
      rintro c ⟨_, _, rfl⟩ ⟨_, _, h⟩
      exact hab (congrArg Prod.fst h).symm
  · intro ab
    unfold latticeIndex
    simp only [List.mem_flatMap, List.mem_map, mem_loopIdx]
    constructor
    · rintro ⟨a, ha, b, hb, rfl⟩
      exact ⟨ha, hb⟩
    · rintro ⟨ha, hb⟩
      exact ⟨ab.1, ha, ab.2, hb, rfl⟩
  · intro i j hr
    refine ⟨dll_nodup _ _ _ _ (hw.1 i j hr), ?_⟩
    have e : (A i j).map (fun p => globalPos (problem_setup_globals g) i j (m1.heap p)) =
        (latticeOrder g.num_part_per_dim).map (latticePoint g i j) := by
      have e1 : (A i j).map (fun p => globalPos (problem_setup_globals g) i j (m1.heap p)) =
          ((A i j).map (fun p => ((m1.heap p).x, (m1.heap p).y))).map
            (fun xy => (((i - 1 : Int) : K) * g.cell_size + xy.1,
              ((j - 1 : Int) : K) * g.cell_size + xy.2)) := by
        rw [List.map_map]
        rfl
      rw [e1, hpos i j hr, List.map_map]
      refine List.map_congr_left ?_
      intro ab _
      simp only [Function.comp, latticeLocal, latticePoint]
      refine Prod.ext ?_ ?_ <;> simp only [] <;> ring
    rw [e]
    exact (perm_latticeOrder _).map _

theorem lattice_round_trip_witness :
    ∃ g1 m1 A, problem_setup exLibm exGlobalsQ 4 exGridQ = .ok (g1, m1) ∧ WF g1 m1 A ∧
      (latticeIndex exGlobalsQ.num_part_per_dim).Nodup ∧
      (∀ ab, ab ∈ latticeIndex exGlobalsQ.num_part_per_dim ↔
        (0 ≤ ab.1 ∧ ab.1 < exGlobalsQ.num_part_per_dim) ∧
          0 ≤ ab.2 ∧ ab.2 < exGlobalsQ.num_part_per_dim) ∧
      ∀ i j, realCell exGlobalsQ i j → (A i j).Nodup ∧
        ((A i j).map (fun p => globalPos g1 i j (m1.heap p))).Perm
          ((latticeIndex exGlobalsQ.num_part_per_dim).map (latticePoint exGlobalsQ i j)) :=
  lattice_round_trip exLibm exGlobalsQ 4 exGridQ (by decide)

/-- **C18.** For `x, y, n ≥ 1` and every C library, so for every sequence of values of
`rand()`, `problem_setup` returns, with fuel `n * n`, and afterwards the sum of `vx` and
the sum of `vy` over the particles of the real cells are `0`. -/
theorem problem_setup_momentum (lib : Libm K) (g : Globals K) (fuel : Nat) (m : Mem K)
    (hx : 1 ≤ g.x) (hy : 1 ≤ g.y) (hn : 1 ≤ g.num_part_per_dim)
    (hfuel : g.num_part_per_dim.toNat * g.num_part_per_dim.toNat ≤ fuel) :
    ∃ g1 m1 A, problem_setup lib g fuel m = .ok (g1, m1) ∧ WF g1 m1 A ∧
      ((allParts g1 A).map (fun p => (m1.heap p).vx)).sum = 0 ∧
      ((allParts g1 A).map (fun p => (m1.heap p).vy)).sum = 0 := by
  obtain ⟨m1, A, sx, sy, h1, hwf, _, hpos, hsx, hsy⟩ := problem_setup_track lib g fuel m hfuel
  have hlen : ∀ i j, realCell g i j →
      (A i j).length = g.num_part_per_dim.toNat * g.num_part_per_dim.toNat := by
    intro i j hr
    have := congrArg List.length (hpos i j hr)
    rw [List.length_map, List.length_map, length_latticeOrder] at this
    exact this
  have hcount : (((allParts g A).length : Nat) : K) =
      ((g.x * g.y * g.num_part_per_dim * g.num_part_per_dim : Int) : K) := by
    have e : (((allParts g A).length : Nat) : Int) =
        g.x * g.y * g.num_part_per_dim * g.num_part_per_dim := by
      rw [length_allParts g A _ hlen]
      push_cast
      rw [Int.toNat_of_nonneg (by omega : 0 ≤ g.num_part_per_dim),
        Int.toNat_of_nonneg (by omega : 0 ≤ g.x), Int.toNat_of_nonneg (by omega : 0 ≤ g.y)]
      ring
    rw [← e]
    push_cast
    rfl
  have hpos : (0 : K) < ((g.x * g.y * g.num_part_per_dim * g.num_part_per_dim : Int) : K) := by
    have : (0 : Int) < g.x * g.y * g.num_part_per_dim * g.num_part_per_dim := by positivity
    exact_mod_cast this
  have hne := ne_of_gt hpos
  refine ⟨_, m1, A, h1, hwf, ?_, ?_⟩
  · change ((allParts g A).map (fun p => (m1.heap p).vx)).sum = 0
    rw [hsx, hcount, mul_div_cancel₀ _ hne, sub_self]
  · change ((allParts g A).map (fun p => (m1.heap p).vy)).sum = 0
    rw [hsy, hcount, mul_div_cancel₀ _ hne, sub_self]

theorem problem_setup_momentum_witness :
    ∃ g1 m1 A, problem_setup exLibm exGlobalsQ 4 exGridQ = .ok (g1, m1) ∧ WF g1 m1 A ∧
      ((allParts g1 A).map (fun p => (m1.heap p).vx)).sum = 0 ∧
      ((allParts g1 A).map (fun p => (m1.heap p).vy)).sum = 0 :=
  problem_setup_momentum exLibm exGlobalsQ 4 exGridQ (by decide) (by decide) (by decide)
    (by decide)

end OrderedField

/-! ## `comp_accel` after `apply_boundary` -/

theorem wrapIdx_range (n i : Int) (hn : 1 ≤ n) (h0 : 0 ≤ i) (h1 : i ≤ n + 1) :
    1 ≤ wrapIdx n i ∧ wrapIdx n i ≤ n := by
  unfold wrapIdx
  split_ifs <;> omega

theorem loopIdx_nbr : loopIdx (-1) 2 = [-1, 0, 1] := by decide

/-- The sum over the nine neighbour cells, written out. -/
theorem neighbourSum_nine {M : Type} [AddCommMonoid M] (A : Int → Int → List Nat) (i j : Int)
    (t : Int → Int → Nat → M) :
    neighbourSum A i j t =
      (((A (i + -1) (j + -1)).map (t (-1) (-1))).sum +
        (((A (i + -1) (j + 0)).map (t (-1) 0)).sum +
          ((A (i + -1) (j + 1)).map (t (-1) 1)).sum)) +
      ((((A (i + 0) (j + -1)).map (t 0 (-1))).sum +
        (((A (i + 0) (j + 0)).map (t 0 0)).sum +
          ((A (i + 0) (j + 1)).map (t 0 1)).sum)) +
      (((A (i + 1) (j + -1)).map (t 1 (-1))).sum +
        (((A (i + 1) (j + 0)).map (t 1 0)).sum +
          ((A (i + 1) (j + 1)).map (t 1 1)).sum))) := by
  unfold neighbourSum
  rw [loopIdx_nbr]
  simp only [List.map_cons, List.map_nil, List.sum_cons, List.sum_nil, add_zero]

section OrderedField

variable [LinearOrderedField K]

/-- `comp_accel` called after `apply_boundary` on a well-formed grid with `x, y ≥ 1`
returns, with fuel for the particles, and the acceleration it leaves in a particle of a
real cell is the sum of the pair contributions over the lists of the nine neighbour cells
of the padded grid. -/
theorem comp_accel_periodic (g : Globals K) (sqrt : K → K) (fuel : Nat) (m : Mem K)
    (A : Int → Int → List Nat) (hx : 1 ≤ g.x) (hy : 1 ≤ g.y)
    (hrc : g.r_cut_off_2 = g.r_cut_off ^ 2) (hwf : WF g m A)
    (hfuel : (allParts g A).length ≤ fuel) :
    ∃ m1 e, comp_accel g sqrt fuel (apply_boundary g m) = .ok (m1, e) ∧
      ∀ i j p, realCell g i j → p ∈ A i j →
        (m1.heap p).ax =
          neighbourSum (paddedLists g A) i j (fun a b q => (pairForce g m.heap p q a b).1) ∧
        (m1.heap p).ay =
          neighbourSum (paddedLists g A) i j (fun a b q => (pairForce g m.heap p q a b).2) := by
  obtain ⟨hwf1, hchain⟩ := apply_boundary_padded g m A hx hy hwf
  have hlen : ∀ c ∈ paddedOrder g, (paddedLists g A c.1 c.2).length ≤ fuel := by
    intro c hc
    have h := (mem_paddedOrder g c.1 c.2).1 hc
    have h1 := wrapIdx_range g.x c.1 hx h.1 h.2.1
    have h2 := wrapIdx_range g.y c.2 hy h.2.2.1 h.2.2.2
    exact le_trans (length_le_of_WF g m A hwf _ _ ⟨h1.1, h1.2, h2.1, h2.2⟩) hfuel
  obtain ⟨m1, e, h1, hacc, _⟩ := comp_accel_force g sqrt fuel (apply_boundary g m)
    (paddedLists g A) hrc hwf1 hchain hlen
  refine ⟨m1, e, h1, ?_⟩
  intro i j p hr hp
  have hp2 : p ∈ paddedLists g A i j := by
    unfold paddedLists
    rw [wrapIdx_real _ _ hr.1 hr.2.1, wrapIdx_real _ _ hr.2.2.1 hr.2.2.2]
    exact hp
  have h2 := hacc i j p hr hp2
  rw [apply_boundary_heap] at h2
  exact h2

end OrderedField

section OrderedField

variable [LinearOrderedField K]

/-- The contribution of `p` at offset `(1, 1)` to `q` is the opposite of the contribution
of `q` at offset `(-1, -1)` to `p`. -/
theorem pairForce_corner (g : Globals K) (h : Nat → particle_t K) (p q : Nat) :
    pairForce g h q p 1 1 =
      (-(pairForce g h p q (-1) (-1)).1, -(pairForce g h p q (-1) (-1)).2) := by
  have e : pairR2 g h q p 1 1 = pairR2 g h p q (-1) (-1) := by
    simp only [pairR2, pairDx, pairDy]
    push_cast
    ring
  unfold pairForce
  rw [e]
  by_cases hc : q ≠ p ∧ pairR2 g h p q (-1) (-1) < g.r_cut_off ^ 2
  · rw [if_pos hc, if_pos ⟨fun e => hc.1 e.symm, hc.2⟩]
    simp only [pairDx, pairDy]
    push_cast
    refine Prod.ext ?_ ?_ <;> simp only [] <;> ring
  · rw [if_neg hc, if_neg (fun h2 => hc ⟨fun e => h2.1 e.symm, h2.2⟩)]
    simp

/-- **C11.** On a grid with `x, y ≥ 3` whose only particles are `p`, alone in the real
cell `(1, 1)`, and `q`, alone in the real cell `(x, y)`, `comp_accel` called after
`apply_boundary` returns, and the acceleration of `p` is the single contribution of `q`
met in the ghost cell `(0, 0)` with the displacement `dx = p.x - q.x + cell_size`,
`dy = p.y - q.y + cell_size`: whenever `dx^2 + dy^2 < cutoff^2` it is `f * (dx, dy)` with
`f` the force factor at `dx^2 + dy^2`, and the acceleration of `q` is its opposite. -/
theorem ghost_alias_pair (g : Globals K) (sqrt : K → K) (fuel : Nat) (m : Mem K)
    (A : Int → Int → List Nat) (p q : Nat) (hx : 3 ≤ g.x) (hy : 3 ≤ g.y)
    (hrc : g.r_cut_off_2 = g.r_cut_off ^ 2) (hwf : WF g m A)
    (hp : A 1 1 = [p]) (hq : A g.x g.y = [q])
    (hempty : ∀ i j, realCell g i j → ¬ (i = 1 ∧ j = 1) → ¬ (i = g.x ∧ j = g.y) → A i j = [])
    (hfuel : 2 ≤ fuel) :
    ∃ m1 e, comp_accel g sqrt fuel (apply_boundary g m) = .ok (m1, e) ∧
      pairDx g m.heap p q (-1) = (m.heap p).x - (m.heap q).x + g.cell_size ∧
      pairDy g m.heap p q (-1) = (m.heap p).y - (m.heap q).y + g.cell_size ∧
      ((m1.heap p).ax, (m1.heap p).ay) = pairForce g m.heap p q (-1) (-1) ∧
      (((m.heap p).x - (m.heap q).x + g.cell_size) ^ 2 +
          ((m.heap p).y - (m.heap q).y + g.cell_size) ^ 2 < g.r_cut_off ^ 2 →
        (m1.heap p).ax =
          ljFactor (((m.heap p).x - (m.heap q).x + g.cell_size) ^ 2 +
            ((m.heap p).y - (m.heap q).y + g.cell_size) ^ 2) *
            ((m.heap p).x - (m.heap q).x + g.cell_size) ∧
        (m1.heap p).ay =
          ljFactor (((m.heap p).x - (m.heap q).x + g.cell_size) ^ 2 +
            ((m.heap p).y - (m.heap q).y + g.cell_size) ^ 2) *
            ((m.heap p).y - (m.heap q).y + g.cell_size)) ∧
      (m1.heap q).ax = -(m1.heap p).ax ∧ (m1.heap q).ay = -(m1.heap p).ay := by
  have hw := (WF_iff g m A).1 hwf
  have hr11 : realCell g 1 1 := ⟨le_refl _, by omega, le_refl _, by omega⟩
  have hrxy : realCell g g.x g.y := ⟨by omega, le_refl _, by omega, le_refl _⟩
  have hpq : q ≠ p := by
    intro e
    have := hw.2 1 1 g.x g.y p hr11 hrxy (by rw [hp]; simp) (by rw [hq, e]; simp)
    omega
  have hall : (allParts g A).length ≤ fuel := by
    have hsub : (allParts g A).Subperm [p, q] := by
      refine List.Nodup.subperm hwf.2 ?_
      intro n hn
      obtain ⟨i, j, hr, hn2⟩ := (mem_allParts g A n).1 hn
      by_cases e1 : i = 1 ∧ j = 1
      · rw [e1.1, e1.2, hp] at hn2
        simp at hn2
        simp [hn2]
      · by_cases e2 : i = g.x ∧ j = g.y
        · rw [e2.1, e2.2, hq] at hn2
          simp at hn2
          simp [hn2]
        · rw [hempty i j hr e1 e2] at hn2
          exact absurd hn2 (List.not_mem_nil _)
    exact le_trans hsub.length_le hfuel
  obtain ⟨m1, e, h1, hacc⟩ := comp_accel_periodic g sqrt fuel m A (by omega) (by omega) hrc hwf
    hall
  have hdx : pairDx g m.heap p q (-1) = (m.heap p).x - (m.heap q).x + g.cell_size := by
    simp only [pairDx]
    push_cast
    ring
  have hdy : pairDy g m.heap p q (-1) = (m.heap p).y - (m.heap q).y + g.cell_size := by
    simp only [pairDy]
    push_cast
    ring
  -- the lists of the neighbour cells of `(1, 1)` and of `(x, y)`
  have w0 : wrapIdx g.x 0 = g.x := by simp [wrapIdx]
  have w0y : wrapIdx g.y 0 = g.y := by simp [wrapIdx]
  have w1 : wrapIdx g.x 1 = 1 := wrapIdx_real _ _ (by omega) (by omega)
  have w1y : wrapIdx g.y 1 = 1 := wrapIdx_real _ _ (by omega) (by omega)
  have w2 : wrapIdx g.x 2 = 2 := wrapIdx_real _ _ (by omega) (by omega)
  have w2y : wrapIdx g.y 2 = 2 := wrapIdx_real _ _ (by omega) (by omega)
  have wm : wrapIdx g.x (g.x + -1) = g.x - 1 := by
    rw [wrapIdx_real _ _ (by omega) (by omega)]; ring
  have wmy : wrapIdx g.y (g.y + -1) = g.y - 1 := by
    rw [wrapIdx_real _ _ (by omega) (by omega)]; ring
  have wx : wrapIdx g.x (g.x + 0) = g.x := by
    rw [add_zero]; exact wrapIdx_real _ _ (by omega) (by omega)
  have wxy : wrapIdx g.y (g.y + 0) = g.y := by
    rw [add_zero]; exact wrapIdx_real _ _ (by omega) (by omega)
  have wp : wrapIdx g.x (g.x + 1) = 1 := by
    unfold wrapIdx
    rw [if_neg (by omega), if_pos rfl]
  have wpy : wrapIdx g.y (g.y + 1) = 1 := by
    unfold wrapIdx
    rw [if_neg (by omega), if_pos rfl]
  have hE : ∀ i j, 1 ≤ i → i ≤ g.x → 1 ≤ j → j ≤ g.y → ¬ (i = 1 ∧ j = 1) →
      ¬ (i = g.x ∧ j = g.y) → A i j = [] :=
    fun i j a b c d => hempty i j ⟨a, b, c, d⟩
  have hsump : ∀ t : Int → Int → Nat → K, t 0 0 p = 0 →
      neighbourSum (paddedLists g A) 1 1 t = t (-1) (-1) q := by
    intro t ht
    rw [neighbourSum_nine]
    simp only [paddedLists]
    norm_num only []
    rw [w0, w0y, w1, w1y, w2, w2y, hp, hq,
      hE g.x 1 (by omega) (by omega) (by omega) (by omega) (by omega) (by omega),
      hE g.x 2 (by omega) (by omega) (by omega) (by omega) (by omega) (by omega),
      hE 1 g.y (by omega) (by omega) (by omega) (by omega) (by omega) (by omega),
      hE 1 2 (by omega) (by omega) (by omega) (by omega) (by omega) (by omega),
      hE 2 g.y (by omega) (by omega) (by omega) (by omega) (by omega) (by omega),
      hE 2 1 (by omega) (by omega) (by omega) (by omega) (by omega) (by omega),
      hE 2 2 (by omega) (by omega) (by omega) (by omega) (by omega) (by omega)]
    simp [ht]
  have hsumq : ∀ t : Int → Int → Nat → K, t 0 0 q = 0 →
      neighbourSum (paddedLists g A) g.x g.y t = t 1 1 p := by
    intro t ht
    rw [neighbourSum_nine]
    simp only [paddedLists]
    rw [wm, wmy, wx, wxy, wp, wpy, hp, hq,
      hE (g.x - 1) (g.y - 1) (by omega) (by omega) (by omega) (by omega) (by omega) (by omega),
      hE (g.x - 1) g.y (by omega) (by omega) (by omega) (by omega) (by omega) (by omega),
      hE (g.x - 1) 1 (by omega) (by omega) (by omega) (by omega) (by omega) (by omega),
      hE g.x (g.y - 1) (by omega) (by omega) (by omega) (by omega) (by omega) (by omega),
      hE g.x 1 (by omega) (by omega) (by omega) (by omega) (by omega) (by omega),
      hE 1 (g.y - 1) (by omega) (by omega) (by omega) (by omega) (by omega) (by omega),
      hE 1 g.y (by omega) (by omega) (by omega) (by omega) (by omega) (by omega)]
    simp [ht]
  have hself : ∀ n a b, pairForce g m.heap n n a b = (0, 0) := by
    intro n a b
    unfold pairForce
    rw [if_neg]
    exact fun h => h.1 rfl
  have hap := hacc 1 1 p hr11 (by rw [hp]; simp)
  have haq := hacc g.x g.y q hrxy (by rw [hq]; simp)
  rw [hsump _ (by rw [hself]), hsump _ (by rw [hself])] at hap
  rw [hsumq _ (by rw [hself]), hsumq _ (by rw [hself]), pairForce_corner] at haq
  refine ⟨m1, e, h1, hdx, hdy, Prod.ext hap.1 hap.2, ?_, ?_, ?_⟩
  · intro hlt
    have hr2 : pairR2 g m.heap p q (-1) (-1) =
        ((m.heap p).x - (m.heap q).x + g.cell_size) ^ 2 +
          ((m.heap p).y - (m.heap q).y + g.cell_size) ^ 2 := by
      rw [pairR2, hdx, hdy]
    have hF : pairForce g m.heap p q (-1) (-1) =
        (ljFactor (pairR2 g m.heap p q (-1) (-1)) * pairDx g m.heap p q (-1),
          ljFactor (pairR2 g m.heap p q (-1) (-1)) * pairDy g m.heap p q (-1)) := by
      unfold pairForce
      rw [if_pos ⟨hpq, by rw [hr2]; exact hlt⟩]
    rw [hap.1, hap.2, hF, hr2, hdx, hdy]
    exact ⟨rfl, rfl⟩
  · rw [haq.1, hap.1]
  · rw [haq.2, hap.2]

theorem ghost_alias_pair_witness :
    ∃ m1 e, comp_accel (setup exGlobals3) (fun v => v) 2
        (apply_boundary (setup exGlobals3) exCorners) = .ok (m1, e) ∧
      pairDx (setup exGlobals3) exCorners.heap 0 1 (-1) =
        (exCorners.heap 0).x - (exCorners.heap 1).x + (setup exGlobals3).cell_size ∧
      pairDy (setup exGlobals3) exCorners.heap 0 1 (-1) =
        (exCorners.heap 0).y - (exCorners.heap 1).y + (setup exGlobals3).cell_size ∧
      ((m1.heap 0).ax, (m1.heap 0).ay) =
        pairForce (setup exGlobals3) exCorners.heap 0 1 (-1) (-1) ∧
      (((exCorners.heap 0).x - (exCorners.heap 1).x + (setup exGlobals3).cell_size) ^ 2 +
          ((exCorners.heap 0).y - (exCorners.heap 1).y + (setup exGlobals3).cell_size) ^ 2 <
            (setup exGlobals3).r_cut_off ^ 2 →
        (m1.heap 0).ax =
          ljFactor
            (((exCorners.heap 0).x - (exCorners.heap 1).x + (setup exGlobals3).cell_size) ^ 2 +
              ((exCorners.heap 0).y - (exCorners.heap 1).y +
                (setup exGlobals3).cell_size) ^ 2) *
            ((exCorners.heap 0).x - (exCorners.heap 1).x + (setup exGlobals3).cell_size) ∧
        (m1.heap 0).ay =
          ljFactor
            (((exCorners.heap 0).x - (exCorners.heap 1).x + (setup exGlobals3).cell_size) ^ 2 +
              ((exCorners.heap 0).y - (exCorners.heap 1).y +
                (setup exGlobals3).cell_size) ^ 2) *
            ((exCorners.heap 0).y - (exCorners.heap 1).y + (setup exGlobals3).cell_size)) ∧
      (m1.heap 1).ax = -(m1.heap 0).ax ∧ (m1.heap 1).ay = -(m1.heap 0).ay :=
  ghost_alias_pair (setup exGlobals3) (fun v => v) 2 exCorners exCornerLists 0 1 (by decide)
    (by decide) (setup_r_cut_off_2 exGlobals3).1 (by decide) (by decide) (by decide)
    (fun i j _ h1 h2 => by
      have h3 : ¬ (i = 3 ∧ j = 3) := h2
      simp [exCornerLists, h1, h3])
    (by decide)

end OrderedField

/-! ## The scan of `comp_accel` as a sum over pairs of particles -/

theorem offsets_eq :
    offsets = [(-1, -1), (-1, 0), (-1, 1), (0, -1), (0, 0), (0, 1), (1, -1), (1, 0), (1, 1)] := by
  decide

theorem mem_offsets (o : Int × Int) :
    o ∈ offsets ↔ (-1 ≤ o.1 ∧ o.1 ≤ 1) ∧ -1 ≤ o.2 ∧ o.2 ≤ 1 := by
  unfold offsets
  simp only [List.mem_flatMap, List.mem_map, mem_loopIdx]
  constructor
  · rintro ⟨a, ha, b, hb, rfl⟩
    exact ⟨⟨ha.1, by omega⟩, hb.1, by omega⟩
  · rintro ⟨ha, hb⟩
    exact ⟨o.1, ⟨ha.1, by omega⟩, o.2, ⟨hb.1, by omega⟩, rfl⟩

theorem neighbourSum_offsets {M : Type} [AddCommMonoid M] (A : Int → Int → List Nat)
    (i j : Int) (t : Int → Int → Nat → M) :
    neighbourSum A i j t =
      (offsets.map (fun o => ((A (i + o.1) (j + o.2)).map (fun q => t o.1 o.2 q)).sum)).sum := by
  unfold neighbourSum offsets
  rw [List.map_flatMap, list_sum_flatMap]
  congr 2

theorem allParts_eq_cellParts (g : Globals K) (A : Int → Int → List Nat) :
    allParts g A = (cellParts g A).map Prod.snd := by
  unfold allParts cellParts
  rw [List.map_flatMap]
  congr 1
  funext c
  rw [List.map_map]
  simp [Function.comp]

theorem mem_cellParts (g : Globals K) (A : Int → Int → List Nat) (u : (Int × Int) × Nat) :
    u ∈ cellParts g A ↔ realCell g u.1.1 u.1.2 ∧ u.2 ∈ A u.1.1 u.1.2 := by
  unfold cellParts
  simp only [List.mem_flatMap, List.mem_map]
  constructor
  · rintro ⟨c, hc, p, hp, rfl⟩
    exact ⟨(mem_cellOrder g c.1 c.2).1 hc, hp⟩
  · rintro ⟨hr, hp⟩
    exact ⟨u.1, (mem_cellOrder g u.1.1 u.1.2).2 hr, u.2, hp, rfl⟩

theorem list_sum_comm {α β M : Type} [AddCommMonoid M] (f : α → β → M) (l2 : List β) :
    ∀ l1 : List α, (l1.map (fun x => (l2.map (fun y => f x y)).sum)).sum =
      (l2.map (fun y => (l1.map (fun x => f x y)).sum)).sum
  | [] => by simp
  | x :: l1 => by
    rw [List.map_cons, List.sum_cons, list_sum_comm f l2 l1]
    simp only [List.map_cons, List.sum_cons]
    rw [List.sum_map_add]

theorem list_sum_indicator {α M : Type} [DecidableEq α] [AddCommMonoid M] (f : α → M) (d : α) :
    ∀ l : List α, l.Nodup → d ∈ l → (l.map (fun c => if c = d then f c else 0)).sum = f d
  | [], _, h => absurd h (List.not_mem_nil _)
  | c :: l, hnd, h => by
    obtain ⟨hc, hl⟩ := List.nodup_cons.1 hnd
    rw [List.map_cons, List.sum_cons]
    by_cases e : c = d
    · subst e
      have hz : (l.map (fun x => if x = c then f x else 0)).sum = 0 := by
        have : l.map (fun x => if x = c then f x else 0) = l.map (fun _ => (0 : M)) := by
          refine List.map_congr_left ?_
          intro x hx
          rw [if_neg (fun (e : x = c) => hc (e ▸ hx))]
        rw [this]
        simp
      rw [if_pos rfl, hz, add_zero]
    · have h2 : d ∈ l := by
        rcases List.mem_cons.1 h with h | h
        · exact absurd h.symm e
        · exact h
      rw [if_neg e, zero_add, list_sum_indicator f d l hl h2]

/-- The sum over the list of one real cell, as a sum over all particles of the grid. -/
theorem sum_cellParts_cell {M : Type} [AddCommMonoid M] (g : Globals K)
    (A : Int → Int → List Nat) (d : Int × Int) (hd : realCell g d.1 d.2) (f : Nat → M) :
    ((cellParts g A).map (fun v => if v.1 = d then f v.2 else 0)).sum =
      ((A d.1 d.2).map f).sum := by
  unfold cellParts
  rw [List.map_flatMap, list_sum_flatMap]
  have e : ∀ c : Int × Int,
      (((A c.1 c.2).map (fun p => (c, p))).map (fun v => if v.1 = d then f v.2 else 0)).sum =
        if c = d then ((A c.1 c.2).map f).sum else 0 := by
    intro c
    rw [List.map_map]
    by_cases h : c = d
    · rw [if_pos h]
      congr 1
      refine List.map_congr_left ?_
      intro p _
      simp [Function.comp, h]
    · rw [if_neg h]
      have : (A c.1 c.2).map ((fun v : (Int × Int) × Nat => if v.1 = d then f v.2 else 0) ∘
          (fun p => (c, p))) = (A c.1 c.2).map (fun _ => (0 : M)) := by
        refine List.map_congr_left ?_
        intro p _
        simp [Function.comp, h]
      rw [this]
      simp
  simp only [e]
  exact list_sum_indicator (fun c => ((A c.1 c.2).map f).sum) d (cellOrder g) (nodup_cellOrder g)
    ((mem_cellOrder g d.1 d.2).2 hd)

theorem wrapIdx_symm (n i k a : Int) (hi : 1 ≤ i ∧ i ≤ n) (hk : 1 ≤ k ∧ k ≤ n)
    (ha : -1 ≤ a ∧ a ≤ 1) : k = wrapIdx n (i + a) ↔ i = wrapIdx n (k + -a) := by
  unfold wrapIdx
  constructor <;> intro h <;> split_ifs at h ⊢ <;> omega

theorem wrapCell_real (g : Globals K) (c o : Int × Int) (hx : 1 ≤ g.x) (hy : 1 ≤ g.y)
    (hc : realCell g c.1 c.2) (ho : o ∈ offsets) :
    realCell g (wrapCell g c o).1 (wrapCell g c o).2 := by
  rw [mem_offsets] at ho
  obtain ⟨h1, h2, h3, h4⟩ := hc
  have a1 := wrapIdx_range g.x (c.1 + o.1) hx (by omega) (by omega)
  have a2 := wrapIdx_range g.y (c.2 + o.2) hy (by omega) (by omega)
  exact ⟨a1.1, a1.2, a2.1, a2.2⟩

theorem wrapCell_symm (g : Globals K) (c d o : Int × Int) (hc : realCell g c.1 c.2) (hd : realCell g d.1 d.2) (ho : o ∈ offsets) :
    d = wrapCell g c o ↔ c = wrapCell g d (-o.1, -o.2) := by
  rw [mem_offsets] at ho
  have e1 := wrapIdx_symm g.x c.1 d.1 o.1 ⟨hc.1, hc.2.1⟩ ⟨hd.1, hd.2.1⟩ ho.1
  have e2 := wrapIdx_symm g.y c.2 d.2 o.2 ⟨hc.2.2.1, hc.2.2.2⟩ ⟨hd.2.2.1, hd.2.2.2⟩ ho.2
  unfold wrapCell
  constructor
  · intro h
    exact Prod.ext (e1.1 (congrArg Prod.fst h)) (e2.1 (congrArg Prod.snd h))
  · intro h
    exact Prod.ext (e1.2 (congrArg Prod.fst h)) (e2.2 (congrArg Prod.snd h))

theorem offsets_neg {M : Type} [AddCommMonoid M] (f : Int × Int → M) :
    (offsets.map (fun o => f (-o.1, -o.2))).sum = (offsets.map f).sum := by
  rw [offsets_eq]
  simp only [List.map_cons, List.map_nil, List.sum_cons, List.sum_nil, neg_neg, neg_zero,
    add_zero]
  abel

section OrderedField

variable [LinearOrderedField K]

theorem list_sum_neg {α : Type} (f : α → K) :
    ∀ l : List α, (l.map (fun x => -f x)).sum = -(l.map f).sum
  | [] => by simp
  | x :: l => by
    rw [List.map_cons, List.sum_cons, list_sum_neg f l, List.map_cons, List.sum_cons]
    ring

/-- A double sum of an antisymmetric term over one list vanishes. -/
theorem list_sum_antisymm {α : Type} (G : α → α → K) (l : List α)
    (h : ∀ u ∈ l, ∀ v ∈ l, G v u = -G u v) :
    (l.map (fun u => (l.map (fun v => G u v)).sum)).sum = 0 := by
  have e1 : (l.map (fun u => (l.map (fun v => G u v)).sum)).sum =
      (l.map (fun u => (l.map (fun v => -G v u)).sum)).sum := by
    refine congrArg List.sum (List.map_congr_left ?_)
    intro u hu
    refine congrArg List.sum (List.map_congr_left ?_)
    intro v hv
    exact h v hv u hu
  have e2 : (l.map (fun u => (l.map (fun v => -G v u)).sum)).sum =
      -(l.map (fun u => (l.map (fun v => G v u)).sum)).sum := by
    rw [← list_sum_neg]
    refine congrArg List.sum (List.map_congr_left ?_)
    intro u _
    rw [← list_sum_neg]
  have e3 := list_sum_comm (fun u v => G v u) l l
  simp only [] at e3
  rw [e2, e3] at e1
  linarith

/-- The contribution of `p` to `q` at the opposite offset is the opposite of the
contribution of `q` to `p`. -/
theorem pairForce_antisymm (g : Globals K) (h : Nat → particle_t K) (p q : Nat) (a b : Int) :
    pairForce g h q p (-a) (-b) =
      (-(pairForce g h p q a b).1, -(pairForce g h p q a b).2) := by
  have e : pairR2 g h q p (-a) (-b) = pairR2 g h p q a b := by
    simp only [pairR2, pairDx, pairDy]
    push_cast
    ring
  unfold pairForce
  rw [e]
  by_cases hc : q ≠ p ∧ pairR2 g h p q a b < g.r_cut_off ^ 2
  · rw [if_pos hc, if_pos ⟨fun e => hc.1 e.symm, hc.2⟩]
    simp only [pairDx, pairDy]
    push_cast
    refine Prod.ext ?_ ?_ <;> simp only [] <;> ring
  · rw [if_neg hc, if_neg (fun h2 => hc ⟨fun e => h2.1 e.symm, h2.2⟩)]
    simp

/-- The scan of the nine neighbour cells of the padded grid, as a sum over all particles
of the grid: the candidate `v` of the real cell `v.1` is met at the offset `o` when the
neighbour cell at `o` wraps to `v.1`. -/
theorem neighbourSum_pairs (g : Globals K) (A : Int → Int → List Nat) (c : Int × Int)
    (hx : 1 ≤ g.x) (hy : 1 ≤ g.y) (hc : realCell g c.1 c.2) (t : Int → Int → Nat → K) :
    neighbourSum (paddedLists g A) c.1 c.2 t =
      ((cellParts g A).map (fun v =>
        (offsets.map (fun o => if v.1 = wrapCell g c o then t o.1 o.2 v.2 else 0)).sum)).sum := by
  rw [neighbourSum_offsets]
  refine Eq.trans ?_ (list_sum_comm
    (fun (o : Int × Int) (v : (Int × Int) × Nat) =>
      if v.1 = wrapCell g c o then t o.1 o.2 v.2 else 0) (cellParts g A) offsets)
  refine congrArg List.sum (List.map_congr_left ?_)
  intro o ho
  rw [sum_cellParts_cell g A (wrapCell g c o) (wrapCell_real g c o hx hy hc ho)
    (fun q => t o.1 o.2 q)]
  rfl

/-- The sum over all particles of the real cells of the scan sums of an antisymmetric
pair term vanishes. -/
theorem scan_sum_zero (g : Globals K) (A : Int → Int → List Nat) (hx : 1 ≤ g.x) (hy : 1 ≤ g.y)
    (t : Nat → Nat → Int → Int → K) (hanti : ∀ p q a b, t q p (-a) (-b) = -t p q a b) :
    ((cellParts g A).map (fun u =>
      neighbourSum (paddedLists g A) u.1.1 u.1.2 (fun a b q => t u.2 q a b))).sum = 0 := by
  have e1 : (cellParts g A).map (fun u =>
      neighbourSum (paddedLists g A) u.1.1 u.1.2 (fun a b q => t u.2 q a b)) =
      (cellParts g A).map (fun u => ((cellParts g A).map (fun v =>
        (offsets.map (fun o =>
          if v.1 = wrapCell g u.1 o then t u.2 v.2 o.1 o.2 else 0)).sum)).sum) := by
    refine List.map_congr_left ?_
    intro u hu
    exact neighbourSum_pairs g A u.1 hx hy ((mem_cellParts g A u).1 hu).1
      (fun a b q => t u.2 q a b)
  rw [e1]
  refine list_sum_antisymm (fun u v =>
    (offsets.map (fun o => if v.1 = wrapCell g u.1 o then t u.2 v.2 o.1 o.2 else 0)).sum)
    (cellParts g A) ?_
  intro u hu v hv
  simp only []
  rw [← offsets_neg (fun o => if u.1 = wrapCell g v.1 o then t v.2 u.2 o.1 o.2 else 0),
    ← list_sum_neg]
  refine congrArg List.sum (List.map_congr_left ?_)
  intro o ho
  have hs := wrapCell_symm g u.1 v.1 o ((mem_cellParts g A u).1 hu).1
    ((mem_cellParts g A v).1 hv).1 ho
  simp only []
  by_cases hv1 : v.1 = wrapCell g u.1 o
  · rw [if_pos hv1, if_pos (hs.1 hv1), hanti]
  · rw [if_neg hv1, if_neg (fun h => hv1 (hs.2 h)), neg_zero]

end OrderedField

section OrderedField

variable [LinearOrderedField K]

/-- **C20.** On a well-formed grid with `x, y ≥ 1`, for `comp_accel` called after
`apply_boundary`: a candidate `q` met by `p` of the real cell `(i, j)` in the neighbour
cell at offset `(a, b)` is a particle of the real cell that the neighbour wraps to, `p` is
met exactly once by `q` in the neighbour cell of that real cell at offset `(-a, -b)`, and
the contribution of `p` to `q` there is the opposite of the contribution `f * (dx, dy)` of
`q` to `p`; `comp_accel` returns, the accelerations are the sums of these contributions,
and the sum of `ax` and the sum of `ay` over the particles of the real cells are `0`. -/
theorem pairwise_symmetry (g : Globals K) (sqrt : K → K) (fuel : Nat) (m : Mem K)
    (A : Int → Int → List Nat) (hx : 1 ≤ g.x) (hy : 1 ≤ g.y)
    (hrc : g.r_cut_off_2 = g.r_cut_off ^ 2) (hwf : WF g m A)
    (hfuel : (allParts g A).length ≤ fuel) :
    (∀ i j p a b q, realCell g i j → p ∈ A i j → (a, b) ∈ offsets →
      q ∈ paddedLists g A (i + a) (j + b) →
      realCell g (wrapIdx g.x (i + a)) (wrapIdx g.y (j + b)) ∧
      q ∈ A (wrapIdx g.x (i + a)) (wrapIdx g.y (j + b)) ∧
      (-a, -b) ∈ offsets ∧
      (paddedLists g A (wrapIdx g.x (i + a) + -a) (wrapIdx g.y (j + b) + -b)).count p = 1 ∧
      pairForce g m.heap q p (-a) (-b) =
        (-(pairForce g m.heap p q a b).1, -(pairForce g m.heap p q a b).2)) ∧
    ∃ m1 e, comp_accel g sqrt fuel (apply_boundary g m) = .ok (m1, e) ∧
      (∀ i j p, realCell g i j → p ∈ A i j →
        (m1.heap p).ax =
          neighbourSum (paddedLists g A) i j (fun a b q => (pairForce g m.heap p q a b).1) ∧
        (m1.heap p).ay =
          neighbourSum (paddedLists g A) i j (fun a b q => (pairForce g m.heap p q a b).2)) ∧
      ((allParts g A).map (fun p => (m1.heap p).ax)).sum = 0 ∧
      ((allParts g A).map (fun p => (m1.heap p).ay)).sum = 0 := by
  have hw := (WF_iff g m A).1 hwf
  constructor
  · intro i j p a b q hr hp ho hq
    have ho2 := (mem_offsets (a, b)).1 ho
    simp only [] at ho2
    have hreal := wrapCell_real g (i, j) (a, b) hx hy hr ho
    have e1 := (wrapIdx_symm g.x i (wrapIdx g.x (i + a)) a ⟨hr.1, hr.2.1⟩
      ⟨hreal.1, hreal.2.1⟩ ho2.1).1 rfl
    have e2 := (wrapIdx_symm g.y j (wrapIdx g.y (j + b)) b ⟨hr.2.2.1, hr.2.2.2⟩
      ⟨hreal.2.2.1, hreal.2.2.2⟩ ho2.2).1 rfl
    refine ⟨hreal, hq, ?_, ?_, pairForce_antisymm g m.heap p q a b⟩
    · rw [mem_offsets]
      simp only []
      omega
    · unfold paddedLists
      rw [← e1, ← e2]
      exact List.count_eq_one_of_mem (dll_nodup _ _ _ _ (hw.1 i j hr)) hp
  · obtain ⟨m1, e, h1, hacc⟩ := comp_accel_periodic g sqrt fuel m A hx hy hrc hwf hfuel
    refine ⟨m1, e, h1, hacc, ?_, ?_⟩
    · rw [allParts_eq_cellParts, List.map_map]
      have e1 : (cellParts g A).map ((fun p => (m1.heap p).ax) ∘ Prod.snd) =
          (cellParts g A).map (fun u => neighbourSum (paddedLists g A) u.1.1 u.1.2
            (fun a b q => (pairForce g m.heap u.2 q a b).1)) := by
        refine List.map_congr_left ?_
        intro u hu
        have h := (mem_cellParts g A u).1 hu
        exact (hacc u.1.1 u.1.2 u.2 h.1 h.2).1
      rw [e1]
      refine scan_sum_zero g A hx hy (fun p q a b => (pairForce g m.heap p q a b).1) ?_
      intro p q a b
      simp only [pairForce_antisymm g m.heap p q a b]
    · rw [allParts_eq_cellParts, List.map_map]
      have e1 : (cellParts g A).map ((fun p => (m1.heap p).ay) ∘ Prod.snd) =
          (cellParts g A).map (fun u => neighbourSum (paddedLists g A) u.1.1 u.1.2
            (fun a b q => (pairForce g m.heap u.2 q a b).2)) := by
        refine List.map_congr_left ?_
        intro u hu
        have h := (mem_cellParts g A u).1 hu
        exact (hacc u.1.1 u.1.2 u.2 h.1 h.2).2
      rw [e1]
      refine scan_sum_zero g A hx hy (fun p q a b => (pairForce g m.heap p q a b).2) ?_
      intro p q a b
      simp only [pairForce_antisymm g m.heap p q a b]

theorem pairwise_symmetry_witness :
    (∀ i j p a b q, realCell (setup exGlobalsQ) i j → p ∈ exListsQ i j → (a, b) ∈ offsets →
      q ∈ paddedLists (setup exGlobalsQ) exListsQ (i + a) (j + b) →
      realCell (setup exGlobalsQ) (wrapIdx (setup exGlobalsQ).x (i + a))
        (wrapIdx (setup exGlobalsQ).y (j + b)) ∧
      q ∈ exListsQ (wrapIdx (setup exGlobalsQ).x (i + a))
        (wrapIdx (setup exGlobalsQ).y (j + b)) ∧
      (-a, -b) ∈ offsets ∧
      (paddedLists (setup exGlobalsQ) exListsQ (wrapIdx (setup exGlobalsQ).x (i + a) + -a)
        (wrapIdx (setup exGlobalsQ).y (j + b) + -b)).count p = 1 ∧
      pairForce (setup exGlobalsQ) exGridQ.heap q p (-a) (-b) =
        (-(pairForce (setup exGlobalsQ) exGridQ.heap p q a b).1,
          -(pairForce (setup exGlobalsQ) exGridQ.heap p q a b).2)) ∧
    ∃ m1 e, comp_accel (setup exGlobalsQ) (fun v => v) 2
        (apply_boundary (setup exGlobalsQ) exGridQ) = .ok (m1, e) ∧
      (∀ i j p, realCell (setup exGlobalsQ) i j → p ∈ exListsQ i j →
        (m1.heap p).ax = neighbourSum (paddedLists (setup exGlobalsQ) exListsQ) i j
          (fun a b q => (pairForce (setup exGlobalsQ) exGridQ.heap p q a b).1) ∧
        (m1.heap p).ay = neighbourSum (paddedLists (setup exGlobalsQ) exListsQ) i j
          (fun a b q => (pairForce (setup exGlobalsQ) exGridQ.heap p q a b).2)) ∧
      ((allParts (setup exGlobalsQ) exListsQ).map (fun p => (m1.heap p).ax)).sum = 0 ∧
      ((allParts (setup exGlobalsQ) exListsQ).map (fun p => (m1.heap p).ay)).sum = 0 :=
  pairwise_symmetry (setup exGlobalsQ) (fun v => v) 2 exGridQ exListsQ (by decide) (by decide)
    (setup_r_cut_off_2 exGlobalsQ).1 (by decide) (by decide)

end OrderedField

/-! ## The cell-list scan against the all-pairs minimum-image sum -/

section MinImage

variable [LinearOrderedField K] [FloorRing K]

/-- A displacement shorter than half the period is its own minimum image, whatever
multiple of the period is added to it. -/
theorem minImage_small (L s : K) (t : Int) (hL : 0 < L) (hs : |s| < L / 2) :
    minImage L (s + (t : K) * L) = s := by
  have hne : L ≠ 0 := ne_of_gt hL
  have e : (s + (t : K) * L) / L = s / L + (t : K) := by
    field_simp
  have h0 : round (s / L) = 0 := by
    rw [round_eq_zero_iff]
    rw [abs_lt] at hs
    constructor
    · rw [le_div_iff₀ hL]
      linarith
    · rw [div_lt_iff₀ hL]
      linarith
  unfold minImage
  rw [e, round_add_int, h0]
  push_cast
  ring

theorem wrapIdx_inj (n i a b : Int) (hn : 3 ≤ n) (hi : 1 ≤ i ∧ i ≤ n) (ha : -1 ≤ a ∧ a ≤ 1)
    (hb : -1 ≤ b ∧ b ≤ 1) (h : wrapIdx n (i + a) = wrapIdx n (i + b)) : a = b := by
  unfold wrapIdx at h
  split_ifs at h <;> omega

/-- A cell index congruent to `i + a` modulo the number of cells is the wrap of `i + a`. -/
theorem wrapIdx_of_congr (n i k a t : Int) (hn : 1 ≤ n) (hi : 1 ≤ i ∧ i ≤ n)
    (hk : 1 ≤ k ∧ k ≤ n) (ha : -1 ≤ a ∧ a ≤ 1) (h : i + a - k = t * n) :
    k = wrapIdx n (i + a) := by
  have h1 : t * n ≤ n := by omega
  have h2 : -n ≤ t * n := by omega
  have ht1 : t ≤ 1 := by
    by_contra hc
    have : 2 * n ≤ t * n := by nlinarith
    omega
  have ht2 : -1 ≤ t := by
    by_contra hc
    have : t * n ≤ -2 * n := by nlinarith
    omega
  unfold wrapIdx
  have ht : t = -1 ∨ t = 0 ∨ t = 1 := by omega
  rcases ht with rfl | rfl | rfl <;> split_ifs <;> omega

/-- On one axis with at least three cells: the scan displacement of a candidate met at
offset `a` is the minimum image of the global displacement when it is shorter than one
cell. -/
theorem minImage_scan (n i k a : Int) (cs px qx : K) (hn : 3 ≤ n) (hcs : 0 < cs)
    (hk : k = wrapIdx n (i + a)) (hs : |px - qx - (a : K) * cs| < cs) :
    minImage ((n : K) * cs)
        ((((i - 1 : Int) : K) * cs + px) - (((k - 1 : Int) : K) * cs + qx)) =
      px - qx - (a : K) * cs := by
  have hnK : (3 : K) ≤ (n : K) := by exact_mod_cast hn
  have hL : 0 < (n : K) * cs := by nlinarith
  obtain ⟨t, ht⟩ : ∃ t : Int, i + a - k = t * n := by
    rw [hk]
    unfold wrapIdx
    split_ifs
    · exact ⟨-1, by omega⟩
    · exact ⟨1, by omega⟩
    · exact ⟨0, by omega⟩
  have e : (((i - 1 : Int) : K) * cs + px) - (((k - 1 : Int) : K) * cs + qx) =
      (px - qx - (a : K) * cs) + (t : K) * ((n : K) * cs) := by
    have : ((i + a - k : Int) : K) = ((t * n : Int) : K) := by rw [ht]
    push_cast at this
    push_cast
    linear_combination cs * this
  rw [e]
  exact minImage_small _ _ t hL (by nlinarith)

/-- On one axis: a minimum image shorter than one cell is the scan displacement at an
offset `a` in `{-1, 0, 1}` at which the cell of the candidate is met. -/
theorem minImage_found (n i k : Int) (cs px qx : K) (hn : 1 ≤ n) (hcs : 0 < cs)
    (hi : 1 ≤ i ∧ i ≤ n) (hk : 1 ≤ k ∧ k ≤ n) (hp : 0 ≤ px ∧ px < cs) (hq : 0 ≤ qx ∧ qx < cs)
    (hm : |minImage ((n : K) * cs)
      ((((i - 1 : Int) : K) * cs + px) - (((k - 1 : Int) : K) * cs + qx))| < cs) :
    ∃ a : Int, (-1 ≤ a ∧ a ≤ 1) ∧ k = wrapIdx n (i + a) ∧
      minImage ((n : K) * cs)
          ((((i - 1 : Int) : K) * cs + px) - (((k - 1 : Int) : K) * cs + qx)) =
        px - qx - (a : K) * cs := by
  have hform : minImage ((n : K) * cs)
      ((((i - 1 : Int) : K) * cs + px) - (((k - 1 : Int) : K) * cs + qx)) =
      px - qx - ((k - i + round (((((i - 1 : Int) : K) * cs + px) -
        (((k - 1 : Int) : K) * cs + qx)) / ((n : K) * cs)) * n : Int) : K) * cs := by
    unfold minImage
    push_cast
    ring
  rw [hform] at hm ⊢
  generalize round (((((i - 1 : Int) : K) * cs + px) -
    (((k - 1 : Int) : K) * cs + qx)) / ((n : K) * cs)) = t at hm ⊢
  rw [abs_lt] at hm
  have h1 : ((k - i + t * n : Int) : K) * cs < 2 * cs := by linarith [hp.1, hp.2, hq.1, hq.2]
  have h2 : (-2) * cs < ((k - i + t * n : Int) : K) * cs := by
    linarith [hp.1, hp.2, hq.1, hq.2]
  have h3 : ((k - i + t * n : Int) : K) < 2 := lt_of_mul_lt_mul_right h1 hcs.le
  have h4 : (-2 : K) < ((k - i + t * n : Int) : K) := lt_of_mul_lt_mul_right h2 hcs.le
  have h5 : k - i + t * n < 2 := by exact_mod_cast h3
  have h6 : -2 < k - i + t * n := by exact_mod_cast h4
  refine ⟨k - i + t * n, ⟨by omega, by omega⟩, ?_, rfl⟩
  exact wrapIdx_of_congr n i k _ t hn hi hk ⟨by omega, by omega⟩ (by ring)

end MinImage

theorem nodup_offsets : offsets.Nodup := by
  rw [offsets_eq]
  decide

theorem wrapCell_inj (g : Globals K) (c o1 o2 : Int × Int) (hx : 3 ≤ g.x) (hy : 3 ≤ g.y)
    (hc : realCell g c.1 c.2) (h1 : o1 ∈ offsets) (h2 : o2 ∈ offsets)
    (h : wrapCell g c o1 = wrapCell g c o2) : o1 = o2 := by
  rw [mem_offsets] at h1 h2
  unfold wrapCell at h
  exact Prod.ext
    (wrapIdx_inj g.x c.1 o1.1 o2.1 hx ⟨hc.1, hc.2.1⟩ h1.1 h2.1 (congrArg Prod.fst h))
    (wrapIdx_inj g.y c.2 o1.2 o2.2 hy ⟨hc.2.2.1, hc.2.2.2⟩ h1.2 h2.2 (congrArg Prod.snd h))

section MinImage

variable [LinearOrderedField K] [FloorRing K]

/-- A candidate met by the scan within the cut off is met at its minimum image. -/
theorem minImageDisp_scan (g : Globals K) (h : Nat → particle_t K) (c d o : Int × Int)
    (p q : Nat) (hx : 3 ≤ g.x) (hy : 3 ≤ g.y) (hrc0 : 0 < g.r_cut_off)
    (hrcs : g.r_cut_off ≤ g.cell_size) (hd : d = wrapCell g c o)
    (hlt : pairR2 g h p q o.1 o.2 < g.r_cut_off ^ 2) :
    minImageDisp g h c p (d, q) = (pairDx g h p q o.1, pairDy g h p q o.2) := by
  have hcs : 0 < g.cell_size := lt_of_lt_of_le hrc0 hrcs
  have hsq : g.r_cut_off ^ 2 ≤ g.cell_size ^ 2 := by nlinarith
  unfold pairR2 at hlt
  have h1 : |pairDx g h p q o.1| < g.cell_size := by
    have : pairDx g h p q o.1 ^ 2 < g.cell_size ^ 2 := by
      nlinarith [sq_nonneg (pairDy g h p q o.2)]
    exact abs_lt_of_sq_lt_sq this hcs.le
  have h2 : |pairDy g h p q o.2| < g.cell_size := by
    have : pairDy g h p q o.2 ^ 2 < g.cell_size ^ 2 := by
      nlinarith [sq_nonneg (pairDx g h p q o.1)]
    exact abs_lt_of_sq_lt_sq this hcs.le
  unfold minImageDisp globalPos
  unfold pairDx at h1
  unfold pairDy at h2
  refine Prod.ext ?_ ?_
  · exact minImage_scan g.x c.1 d.1 o.1 g.cell_size (h p).x (h q).x hx hcs
      (by rw [hd]; rfl) h1
  · exact minImage_scan g.y c.2 d.2 o.2 g.cell_size (h p).y (h q).y hy hcs
      (by rw [hd]; rfl) h2

/-- A particle whose minimum image lies within the cut off is met by the scan, at an
offset where the scan displacement is the minimum image. -/
theorem minImageDisp_found (g : Globals K) (h : Nat → particle_t K) (c d : Int × Int)
    (p q : Nat) (hx : 1 ≤ g.x) (hy : 1 ≤ g.y) (hrc0 : 0 < g.r_cut_off)
    (hrcs : g.r_cut_off ≤ g.cell_size) (hc : realCell g c.1 c.2) (hd : realCell g d.1 d.2)
    (hp : inRange g (h p)) (hq : inRange g (h q))
    (hlt : (minImageDisp g h c p (d, q)).1 ^ 2 + (minImageDisp g h c p (d, q)).2 ^ 2 <
      g.r_cut_off ^ 2) :
    ∃ o ∈ offsets, d = wrapCell g c o ∧
      minImageDisp g h c p (d, q) = (pairDx g h p q o.1, pairDy g h p q o.2) := by
  have hcs : 0 < g.cell_size := lt_of_lt_of_le hrc0 hrcs
  have hsq : g.r_cut_off ^ 2 ≤ g.cell_size ^ 2 := by nlinarith
  have h1 : |(minImageDisp g h c p (d, q)).1| < g.cell_size := by
    have : (minImageDisp g h c p (d, q)).1 ^ 2 < g.cell_size ^ 2 := by
      nlinarith [sq_nonneg (minImageDisp g h c p (d, q)).2]
    exact abs_lt_of_sq_lt_sq this hcs.le
  have h2 : |(minImageDisp g h c p (d, q)).2| < g.cell_size := by
    have : (minImageDisp g h c p (d, q)).2 ^ 2 < g.cell_size ^ 2 := by
      nlinarith [sq_nonneg (minImageDisp g h c p (d, q)).1]
    exact abs_lt_of_sq_lt_sq this hcs.le
  obtain ⟨a, ha, hka, hma⟩ := minImage_found g.x c.1 d.1 g.cell_size (h p).x (h q).x hx hcs
    ⟨hc.1, hc.2.1⟩ ⟨hd.1, hd.2.1⟩ ⟨hp.1, hp.2.1⟩ ⟨hq.1, hq.2.1⟩ h1
  obtain ⟨b, hb, hkb, hmb⟩ := minImage_found g.y c.2 d.2 g.cell_size (h p).y (h q).y hy hcs
    ⟨hc.2.2.1, hc.2.2.2⟩ ⟨hd.2.2.1, hd.2.2.2⟩ ⟨hp.2.2.1, hp.2.2.2⟩ ⟨hq.2.2.1, hq.2.2.2⟩ h2
  refine ⟨(a, b), (mem_offsets (a, b)).2 ⟨ha, hb⟩, Prod.ext hka hkb, Prod.ext hma hmb⟩

/-- The contributions of one particle `q` of the real cell `d` to the scan of `p`, summed
over the nine offsets, are the term of `q` in the all-pairs minimum-image sum. -/
theorem scan_pair_eq (g : Globals K) (h : Nat → particle_t K) (c d : Int × Int) (p q : Nat)
    (hx : 3 ≤ g.x) (hy : 3 ≤ g.y) (hrc0 : 0 < g.r_cut_off) (hrcs : g.r_cut_off ≤ g.cell_size)
    (hc : realCell g c.1 c.2) (hd : realCell g d.1 d.2) (hp : inRange g (h p))
    (hq : inRange g (h q)) :
    (offsets.map (fun o =>
        if d = wrapCell g c o then (pairForce g h p q o.1 o.2).1 else 0)).sum =
      (minImageForce g h c p (d, q)).1 ∧
    (offsets.map (fun o =>
        if d = wrapCell g c o then (pairForce g h p q o.1 o.2).2 else 0)).sum =
      (minImageForce g h c p (d, q)).2 := by
  -- the two sums have at most one term
  have hsum : ∀ f : Int × Int → K,
      ((∃ o ∈ offsets, d = wrapCell g c o ∧
          (offsets.map (fun o => if d = wrapCell g c o then f o else 0)).sum = f o) ∨
        ((∀ o ∈ offsets, d ≠ wrapCell g c o) ∧
          (offsets.map (fun o => if d = wrapCell g c o then f o else 0)).sum = 0)) := by
    intro f
    by_cases hex : ∃ o ∈ offsets, d = wrapCell g c o
    · obtain ⟨o0, ho0, hd0⟩ := hex
      refine Or.inl ⟨o0, ho0, hd0, ?_⟩
      have e : offsets.map (fun o => if d = wrapCell g c o then f o else 0) =
          offsets.map (fun o => if o = o0 then f o else 0) := by
        refine List.map_congr_left ?_
        intro o ho
        by_cases e1 : o = o0
        · rw [if_pos e1, if_pos (e1 ▸ hd0)]
        · rw [if_neg e1, if_neg]
          intro e2
          exact e1 (wrapCell_inj g c o o0 hx hy hc ho ho0 (e2.symm.trans hd0))
      rw [e]
      exact list_sum_indicator f o0 offsets nodup_offsets ho0
    · refine Or.inr ⟨fun o ho e => hex ⟨o, ho, e⟩, ?_⟩
      have e : offsets.map (fun o => if d = wrapCell g c o then f o else 0) =
          offsets.map (fun _ => (0 : K)) := by
        refine List.map_congr_left ?_
        intro o ho
        rw [if_neg (fun e => hex ⟨o, ho, e⟩)]
      rw [e]
      simp
  -- the term of the all-pairs sum
  have hterm : (∀ o ∈ offsets, d = wrapCell g c o →
        pairForce g h p q o.1 o.2 = minImageForce g h c p (d, q)) ∧
      ((∀ o ∈ offsets, d ≠ wrapCell g c o) → minImageForce g h c p (d, q) = (0, 0)) := by
    constructor
    · intro o ho hdo
      by_cases hqp : q = p
      · unfold pairForce minImageForce
        rw [if_neg (fun e => e.1 hqp), if_neg (fun e => e.1 hqp)]
      by_cases hlt : pairR2 g h p q o.1 o.2 < g.r_cut_off ^ 2
      · have hdisp := minImageDisp_scan g h c d o p q hx hy hrc0 hrcs hdo hlt
        unfold pairForce minImageForce
        rw [hdisp]
        simp only []
        rw [if_pos ⟨hqp, hlt⟩, if_pos ⟨hqp, hlt⟩]
        rfl
      · unfold pairForce minImageForce
        rw [if_neg (fun e => hlt e.2), if_neg]
        rintro ⟨_, hm⟩
        obtain ⟨o1, ho1, hd1, hdisp⟩ := minImageDisp_found g h c d p q (by omega) (by omega)
          hrc0 hrcs hc hd hp hq hm
        have e := wrapCell_inj g c o o1 hx hy hc ho ho1 (hdo.symm.trans hd1)
        subst e
        rw [hdisp] at hm
        exact hlt hm
    · intro hno
      unfold minImageForce
      rw [if_neg]
      rintro ⟨_, hm⟩
      obtain ⟨o1, ho1, hd1, _⟩ := minImageDisp_found g h c d p q (by omega) (by omega)
        hrc0 hrcs hc hd hp hq hm
      exact hno o1 ho1 hd1
  constructor
  · rcases hsum (fun o => (pairForce g h p q o.1 o.2).1) with ⟨o, ho, hdo, hs⟩ | ⟨hno, hs⟩
    · rw [hs]
      exact congrArg Prod.fst (hterm.1 o ho hdo)
    · rw [hs, hterm.2 hno]
  · rcases hsum (fun o => (pairForce g h p q o.1 o.2).2) with ⟨o, ho, hdo, hs⟩ | ⟨hno, hs⟩
    · rw [hs]
      exact congrArg Prod.snd (hterm.1 o ho hdo)
    · rw [hs, hterm.2 hno]

end MinImage

section MinImage

variable [LinearOrderedField K] [FloorRing K]

/-- **C19.** On a well-formed grid with `x, y ≥ 3`, `0 < cutoff ≤ cell_size` and all
local coordinates in `[0, cell_size)`, `comp_accel` called after `apply_boundary` returns,
and the acceleration of every particle `p` of a real cell is the all-pairs sum, over the
other particles `q` of the real cells, of `f * (dx, dy)` over the minimum-image
displacement of `q` in the periodic domain of size `x * cell_size` by `y * cell_size`,
restricted to `dx^2 + dy^2 < cutoff^2`.  Every particle whose minimum image lies within
the cut off is met by the scan, in a neighbour cell where the scan displacement is the
minimum image, and no real cell is met at two of the nine offsets. -/
theorem cell_scan_all_pairs (g : Globals K) (sqrt : K → K) (fuel : Nat) (m : Mem K)
    (A : Int → Int → List Nat) (hx : 3 ≤ g.x) (hy : 3 ≤ g.y) (hrc0 : 0 < g.r_cut_off)
    (hrcs : g.r_cut_off ≤ g.cell_size) (hrc : g.r_cut_off_2 = g.r_cut_off ^ 2)
    (hwf : WF g m A) (hin : ∀ i j, realCell g i j → ∀ p ∈ A i j, inRange g (m.heap p))
    (hfuel : (allParts g A).length ≤ fuel) :
    ∃ m1 e, comp_accel g sqrt fuel (apply_boundary g m) = .ok (m1, e) ∧
      (∀ i j p, realCell g i j → p ∈ A i j →
        ((m1.heap p).ax, (m1.heap p).ay) = allPairsSum g m.heap A (i, j) p) ∧
      (∀ c d p q, realCell g c.1 c.2 → realCell g d.1 d.2 → p ∈ A c.1 c.2 → q ∈ A d.1 d.2 →
        (minImageDisp g m.heap c p (d, q)).1 ^ 2 + (minImageDisp g m.heap c p (d, q)).2 ^ 2 <
          g.r_cut_off ^ 2 →
        ∃ o ∈ offsets, q ∈ paddedLists g A (c.1 + o.1) (c.2 + o.2) ∧
          minImageDisp g m.heap c p (d, q) =
            (pairDx g m.heap p q o.1, pairDy g m.heap p q o.2)) ∧
      (∀ c o1 o2, realCell g c.1 c.2 → o1 ∈ offsets → o2 ∈ offsets →
        wrapCell g c o1 = wrapCell g c o2 → o1 = o2) := by
  obtain ⟨m1, e, h1, hacc⟩ := comp_accel_periodic g sqrt fuel m A (by omega) (by omega) hrc hwf
    hfuel
  refine ⟨m1, e, h1, ?_, ?_, ?_⟩
  · intro i j p hr hp
    have hpin := hin i j hr p hp
    have key : ∀ v ∈ cellParts g A,
        (offsets.map (fun o =>
            if v.1 = wrapCell g (i, j) o then (pairForce g m.heap p v.2 o.1 o.2).1
            else 0)).sum = (minImageForce g m.heap (i, j) p v).1 ∧
        (offsets.map (fun o =>
            if v.1 = wrapCell g (i, j) o then (pairForce g m.heap p v.2 o.1 o.2).2
            else 0)).sum = (minImageForce g m.heap (i, j) p v).2 := by
      intro v hv
      have hv2 := (mem_cellParts g A v).1 hv
      exact scan_pair_eq g m.heap (i, j) v.1 p v.2 hx hy hrc0 hrcs hr hv2.1 hpin
        (hin v.1.1 v.1.2 hv2.1 v.2 hv2.2)
    unfold allPairsSum
    refine Prod.ext ?_ ?_
    · simp only []
      rw [(hacc i j p hr hp).1,
        neighbourSum_pairs g A (i, j) (by omega) (by omega) hr
          (fun a b q => (pairForce g m.heap p q a b).1)]
      exact congrArg List.sum (List.map_congr_left (fun v hv => (key v hv).1))
    · simp only []
      rw [(hacc i j p hr hp).2,
        neighbourSum_pairs g A (i, j) (by omega) (by omega) hr
          (fun a b q => (pairForce g m.heap p q a b).2)]
      exact congrArg List.sum (List.map_congr_left (fun v hv => (key v hv).2))
  · intro c d p q hc hd hp hq hlt
    obtain ⟨o, ho, hdo, hdisp⟩ := minImageDisp_found g m.heap c d p q (by omega) (by omega)
      hrc0 hrcs hc hd (hin c.1 c.2 hc p hp) (hin d.1 d.2 hd q hq) hlt
    refine ⟨o, ho, ?_, hdisp⟩
    unfold paddedLists
    have e1 : wrapIdx g.x (c.1 + o.1) = d.1 := (congrArg Prod.fst hdo).symm
    have e2 : wrapIdx g.y (c.2 + o.2) = d.2 := (congrArg Prod.snd hdo).symm
    rw [e1, e2]
    exact hq
  · intro c o1 o2 hc ho1 ho2 h
    exact wrapCell_inj g c o1 o2 hx hy hc ho1 ho2 h

theorem cell_scan_all_pairs_witness :
    ∃ m1 e, comp_accel (setup exGlobals3) (fun v => v) 2
        (apply_boundary (setup exGlobals3) exCorners) = .ok (m1, e) ∧
      (∀ i j p, realCell (setup exGlobals3) i j → p ∈ exCornerLists i j →
        ((m1.heap p).ax, (m1.heap p).ay) =
          allPairsSum (setup exGlobals3) exCorners.heap exCornerLists (i, j) p) ∧
      (∀ c d p q, realCell (setup exGlobals3) c.1 c.2 → realCell (setup exGlobals3) d.1 d.2 →
        p ∈ exCornerLists c.1 c.2 → q ∈ exCornerLists d.1 d.2 →
        (minImageDisp (setup exGlobals3) exCorners.heap c p (d, q)).1 ^ 2 +
            (minImageDisp (setup exGlobals3) exCorners.heap c p (d, q)).2 ^ 2 <
          (setup exGlobals3).r_cut_off ^ 2 →
        ∃ o ∈ offsets, q ∈ paddedLists (setup exGlobals3) exCornerLists (c.1 + o.1)
            (c.2 + o.2) ∧
          minImageDisp (setup exGlobals3) exCorners.heap c p (d, q) =
            (pairDx (setup exGlobals3) exCorners.heap p q o.1,
              pairDy (setup exGlobals3) exCorners.heap p q o.2)) ∧
      (∀ c o1 o2, realCell (setup exGlobals3) c.1 c.2 → o1 ∈ offsets → o2 ∈ offsets →
        wrapCell (setup exGlobals3) c o1 = wrapCell (setup exGlobals3) c o2 → o1 = o2) :=
  cell_scan_all_pairs (setup exGlobals3) (fun v => v) 2 exCorners exCornerLists (by decide)
    (by decide) (by norm_num [setup, exGlobals3, exGlobalsQ])
    (by norm_num [setup, exGlobals3, exGlobalsQ]) (setup_r_cut_off_2 exGlobals3).1 (by decide)
    (fun i j _ p _ => by
      by_cases e : p = 0 <;>
        norm_num [inRange, exCorners, setup, exGlobals3, exGlobalsQ, e])
    (by decide)

end MinImage

/-! ## The pair potential, its shift and its gradient -/

section OrderedField

variable [LinearOrderedField K]

/-- The energy term of a visit within the cut off is the shifted potential at the
squared distance of the pair. -/
theorem pairEnergy_eq (g : Globals K) (sqrt : K → K) (h : Nat → particle_t K) (p q : Nat)
    (a b : Int) :
    pairEnergy g sqrt h p q a b =
      if q ≠ p ∧ pairR2 g h p q a b < g.r_cut_off ^ 2 then
        shiftedEnergy g sqrt (pairR2 g h p q a b)
      else 0 := by
  unfold pairEnergy shiftedEnergy ljPotential
  rfl

/-- The shift constants computed by `setup`. -/
theorem setup_shift (g : Globals K) :
    (setup g).r_cut_off = g.r_cut_off ∧
      (setup g).Uc = 4 * (1 / g.r_cut_off ^ 2) ^ 3 * ((1 / g.r_cut_off ^ 2) ^ 3 - 1) ∧
      (setup g).Duc =
        -48 * (1 / g.r_cut_off ^ 2) ^ 3 * ((1 / g.r_cut_off ^ 2) ^ 3 - 1 / 2) / g.r_cut_off := by
  refine ⟨rfl, ?_, ?_⟩
  · simp only [setup]
    ring
  · simp only [setup]
    ring

end OrderedField

/-- The unshifted pair potential of `comp_accel` at the squared distance `s^2` is
`U(s) = 4 * (s^-12 - s^-6)`. -/
theorem ljPotential_zpow (s : Real) :
    ljPotential (s ^ 2) = 4 * (s ^ (-12 : Int) - s ^ (-6 : Int)) := by
  have e12 : s ^ (-12 : Int) = (s ^ 12)⁻¹ := by
    have : (-12 : Int) = -((12 : Nat) : Int) := by norm_num
    rw [this, zpow_neg, zpow_natCast]
  have e6 : s ^ (-6 : Int) = (s ^ 6)⁻¹ := by
    have : (-6 : Int) = -((6 : Nat) : Int) := by norm_num
    rw [this, zpow_neg, zpow_natCast]
  rw [e12, e6]
  unfold ljPotential
  by_cases hs : s = 0
  · subst hs
    simp
  · field_simp
    ring

/-- The derivative of `U(s) = 4 * (s^-12 - s^-6)` at `r > 0` is minus the force factor of
`comp_accel` times `r`. -/
theorem hasDerivAt_lj (r : Real) (hr : 0 < r) :
    HasDerivAt (fun s : Real => 4 * (s ^ (-12 : Int) - s ^ (-6 : Int)))
      (-(ljFactor (r ^ 2) * r)) r := by
  have hne : r ≠ 0 := ne_of_gt hr
  have h12 := hasDerivAt_zpow (-12) r (Or.inl hne)
  have h6 := hasDerivAt_zpow (-6) r (Or.inl hne)
  have hU := (h12.sub h6).const_mul (4 : Real)
  have hval : (4 : Real) * ((((-12 : Int) : Real)) * r ^ ((-12 : Int) - 1) -
      (((-6 : Int) : Real)) * r ^ ((-6 : Int) - 1)) = -(ljFactor (r ^ 2) * r) := by
    have e13 : r ^ ((-12 : Int) - 1) = (r ^ 13)⁻¹ := by
      have : ((-12 : Int) - 1) = -((13 : Nat) : Int) := by norm_num
      rw [this, zpow_neg, zpow_natCast]
    have e7 : r ^ ((-6 : Int) - 1) = (r ^ 7)⁻¹ := by
      have : ((-6 : Int) - 1) = -((7 : Nat) : Int) := by norm_num
      rw [this, zpow_neg, zpow_natCast]
    rw [e13, e7]
    unfold ljFactor
    push_cast
    field_simp
    ring
  rw [hval] at hU
  exact hU

/-- The derivative of the unshifted pair potential of `comp_accel` along the distance, at
`r > 0`, is minus the force factor times `r`. -/
theorem hasDerivAt_ljPotential (r : Real) (hr : 0 < r) :
    HasDerivAt (fun s : Real => ljPotential (s ^ 2)) (-(ljFactor (r ^ 2) * r)) r := by
  have e : (fun s : Real => ljPotential (s ^ 2)) =
      fun s : Real => 4 * (s ^ (-12 : Int) - s ^ (-6 : Int)) := by
    funext s
    exact ljPotential_zpow s
  rw [e]
  exact hasDerivAt_lj r hr

/-- **C24.** For every `r > 0`, with `r2 = r^2` and the force factor
`f = 48 * (1/r2) * (1/r2)^3 * ((1/r2)^3 - 0.5)` of `comp_accel` (the product
`48 * r_2_inv * r_6_inv * (r_6_inv - 0.5)` of the code), `f * r` is minus the derivative at
`r` of `U(s) = 4 * (s^-12 - s^-6)`, and `U(s)` is the value `4 * r_6_inv * (r_6_inv - 1)`
that the energy sum uses at `r_2 = s^2`. -/
theorem force_is_gradient (r : Real) (hr : 0 < r) :
    ljFactor (r ^ 2) =
        48 * (1 / r ^ 2) * ((1 / r ^ 2) * (1 / r ^ 2) * (1 / r ^ 2)) *
          ((1 / r ^ 2) * (1 / r ^ 2) * (1 / r ^ 2) - 1 / 2) ∧
      HasDerivAt (fun s : Real => 4 * (s ^ (-12 : Int) - s ^ (-6 : Int)))
        (-(ljFactor (r ^ 2) * r)) r ∧
      (∀ s : Real, ljPotential (s ^ 2) = 4 * (s ^ (-12 : Int) - s ^ (-6 : Int))) ∧
      ljFactor (r ^ 2) * r = -deriv (fun s : Real => ljPotential (s ^ 2)) r := by
  refine ⟨?_, hasDerivAt_lj r hr, ljPotential_zpow, ?_⟩
  · unfold ljFactor
    ring
  · rw [(hasDerivAt_ljPotential r hr).deriv, neg_neg]

theorem force_is_gradient_witness :
    ljFactor ((2 : Real) ^ 2) =
        48 * (1 / (2 : Real) ^ 2) * ((1 / (2 : Real) ^ 2) * (1 / (2 : Real) ^ 2) *
          (1 / (2 : Real) ^ 2)) *
          ((1 / (2 : Real) ^ 2) * (1 / (2 : Real) ^ 2) * (1 / (2 : Real) ^ 2) - 1 / 2) ∧
      HasDerivAt (fun s : Real => 4 * (s ^ (-12 : Int) - s ^ (-6 : Int)))
        (-(ljFactor ((2 : Real) ^ 2) * 2)) 2 ∧
      (∀ s : Real, ljPotential (s ^ 2) = 4 * (s ^ (-12 : Int) - s ^ (-6 : Int))) ∧
      ljFactor ((2 : Real) ^ 2) * 2 = -deriv (fun s : Real => ljPotential (s ^ 2)) 2 :=
  force_is_gradient 2 (by norm_num)

/-- **C21.** For every cut off `rc > 0`, `setup` computes `Uc = 4 * rc^-6 * (rc^-6 - 1)`
and `Duc = -48 * rc^-6 * (rc^-6 - 0.5) / rc`, and with these constants the energy term
`E(r) = 4 * r^-6 * (r^-6 - 1) - Uc - Duc * (r - rc)` of `comp_accel`, taken at
`r_2 = r^2` with the real square root, satisfies `E(rc) = 0` and has derivative `0` at
`r = rc`. -/
theorem shift_constants (g : Globals Real) (hrc : 0 < g.r_cut_off) :
    (setup g).r_cut_off = g.r_cut_off ∧
      (setup g).Uc = 4 * g.r_cut_off ^ (-6 : Int) * (g.r_cut_off ^ (-6 : Int) - 1) ∧
      (setup g).Duc =
        -48 * g.r_cut_off ^ (-6 : Int) * (g.r_cut_off ^ (-6 : Int) - 1 / 2) / g.r_cut_off ∧
      (∀ r : Real, 0 ≤ r → shiftedEnergy (setup g) Real.sqrt (r ^ 2) =
        4 * r ^ (-6 : Int) * (r ^ (-6 : Int) - 1) - (setup g).Uc -
          (setup g).Duc * (r - g.r_cut_off)) ∧
      shiftedEnergy (setup g) Real.sqrt (g.r_cut_off ^ 2) = 0 ∧
      HasDerivAt (fun r : Real => shiftedEnergy (setup g) Real.sqrt (r ^ 2)) 0
        g.r_cut_off := by
  have hne : g.r_cut_off ≠ 0 := ne_of_gt hrc
  have e6 : ∀ r : Real, r ^ (-6 : Int) = (1 / r ^ 2) ^ 3 := by
    intro r
    have : (-6 : Int) = -((6 : Nat) : Int) := by norm_num
    rw [this, zpow_neg, zpow_natCast, one_div, inv_pow, ← pow_mul]
  obtain ⟨h1, h2, h3⟩ := setup_shift g
  refine ⟨h1, ?_, ?_, ?_, ?_, ?_⟩
  · rw [h2, e6]
  · rw [h3, e6]
  · intro r hr
    unfold shiftedEnergy ljPotential
    rw [Real.sqrt_sq hr, e6, h1]
  · unfold shiftedEnergy ljPotential
    rw [Real.sqrt_sq hrc.le, h1, h2]
    ring
  · have hsq : HasDerivAt (fun r : Real => r ^ 2) (2 * g.r_cut_off) g.r_cut_off := by
      simpa using hasDerivAt_pow 2 g.r_cut_off
    have hsqrt := hsq.sqrt (pow_ne_zero 2 hne)
    have hlj := hasDerivAt_ljPotential g.r_cut_off hrc
    have hall := (hlj.sub_const (setup g).Uc).sub
      ((hsqrt.sub_const (setup g).r_cut_off).const_mul (setup g).Duc)
    have hval : -(ljFactor (g.r_cut_off ^ 2) * g.r_cut_off) -
        (setup g).Duc * (2 * g.r_cut_off / (2 * Real.sqrt (g.r_cut_off ^ 2))) = 0 := by
      rw [Real.sqrt_sq hrc.le, h3]
      unfold ljFactor
      field_simp
      ring
    rw [hval] at hall
    exact hall

theorem shift_constants_witness :
    (setup (initGlobals : Globals Real)).r_cut_off = (initGlobals : Globals Real).r_cut_off ∧
      (setup (initGlobals : Globals Real)).Uc =
        4 * (initGlobals : Globals Real).r_cut_off ^ (-6 : Int) *
          ((initGlobals : Globals Real).r_cut_off ^ (-6 : Int) - 1) ∧
      (setup (initGlobals : Globals Real)).Duc =
        -48 * (initGlobals : Globals Real).r_cut_off ^ (-6 : Int) *
          ((initGlobals : Globals Real).r_cut_off ^ (-6 : Int) - 1 / 2) /
            (initGlobals : Globals Real).r_cut_off ∧
      (∀ r : Real, 0 ≤ r →
        shiftedEnergy (setup (initGlobals : Globals Real)) Real.sqrt (r ^ 2) =
          4 * r ^ (-6 : Int) * (r ^ (-6 : Int) - 1) - (setup (initGlobals : Globals Real)).Uc -
            (setup (initGlobals : Globals Real)).Duc *
              (r - (initGlobals : Globals Real).r_cut_off)) ∧
      shiftedEnergy (setup (initGlobals : Globals Real)) Real.sqrt
        ((initGlobals : Globals Real).r_cut_off ^ 2) = 0 ∧
      HasDerivAt
        (fun r : Real => shiftedEnergy (setup (initGlobals : Globals Real)) Real.sqrt (r ^ 2)) 0
        (initGlobals : Globals Real).r_cut_off :=
  shift_constants (initGlobals : Globals Real) (by norm_num [initGlobals])

/-! ## Migration and the periodic position -/

section OrderedRing

variable [LinearOrderedCommRing K]

/-- On one axis: moving a particle of the real cell `i` to the wrapped cell of `i + s`
with its local coordinate rebased by `s` cells changes the global coordinate by `0` when
the index does not wrap, by `+n * cs` when it wraps from `0` to `n`, and by `-n * cs` when
it wraps from `n + 1` to `1`. -/
theorem globalCoord_wrap (n i s : Int) (cs v : K) (hi : 1 ≤ i ∧ i ≤ n) :
    (globalCoord cs (wrapIdx n (i + s)) (v - (s : K) * cs) = globalCoord cs i v ∨
      globalCoord cs (wrapIdx n (i + s)) (v - (s : K) * cs) =
        globalCoord cs i v + (n : K) * cs ∨
      globalCoord cs (wrapIdx n (i + s)) (v - (s : K) * cs) =
        globalCoord cs i v - (n : K) * cs) ∧
    (wrapIdx n (i + s) = i + s →
      globalCoord cs (wrapIdx n (i + s)) (v - (s : K) * cs) = globalCoord cs i v) ∧
    (i + s = 0 →
      globalCoord cs (wrapIdx n (i + s)) (v - (s : K) * cs) =
        globalCoord cs i v + (n : K) * cs) ∧
    (i + s = n + 1 →
      globalCoord cs (wrapIdx n (i + s)) (v - (s : K) * cs) =
        globalCoord cs i v - (n : K) * cs) := by
  have h0 : wrapIdx n (i + s) = i + s →
      globalCoord cs (wrapIdx n (i + s)) (v - (s : K) * cs) = globalCoord cs i v := by
    intro h
    rw [h]
    unfold globalCoord
    push_cast
    ring
  have h1 : i + s = 0 →
      globalCoord cs (wrapIdx n (i + s)) (v - (s : K) * cs) =
        globalCoord cs i v + (n : K) * cs := by
    intro h
    have hw : wrapIdx n (i + s) = n := by
      unfold wrapIdx
      rw [if_pos h]
    have hs : (s : K) = -(i : K) := by
      have : s = -i := by omega
      rw [this]
      push_cast
      rfl
    rw [hw]
    unfold globalCoord
    push_cast
    rw [hs]
    ring
  have h2 : i + s = n + 1 →
      globalCoord cs (wrapIdx n (i + s)) (v - (s : K) * cs) =
        globalCoord cs i v - (n : K) * cs := by
    intro h
    have hw : wrapIdx n (i + s) = 1 := by
      unfold wrapIdx
      rw [if_neg (by omega), if_pos h]
    have hs : (s : K) = (n : K) + 1 - (i : K) := by
      have : s = n + 1 - i := by omega
      rw [this]
      push_cast
      rfl
    rw [hw]
    unfold globalCoord
    push_cast
    rw [hs]
    ring
  refine ⟨?_, h0, h1, h2⟩
  by_cases e0 : i + s = 0
  · exact Or.inr (Or.inl (h1 e0))
  · by_cases e1 : i + s = n + 1
    · exact Or.inr (Or.inr (h2 e1))
    · refine Or.inl (h0 ?_)
      unfold wrapIdx
      rw [if_neg e0, if_neg e1]

/-- **C23.** On a well-formed grid, with fuel for every particle, a call of
`update_cells` that does not exit returns a well-formed grid in which every particle `p`
of a real cell `(i, j)` at the call is a member of the real cell `(i1, j1)`, the wrap of
`(i + sx, j + sy)`, and on each axis its global coordinate
`(cell_index - 1) * cell_size + local` is the one at the call, or that plus
`x * cell_size` (resp. `y * cell_size`), or that minus it: unchanged when the index did
not wrap, plus one domain length when it wrapped from `0`, minus one when it wrapped from
`x + 1` (resp. `y + 1`). -/
theorem migration_periodic (g : Globals K) (m : Mem K) (A : Int → Int → List Nat)
    (fuel : Nat) (hwf : WF g m A) (hfuel : (allParts g A).length ≤ fuel)
    (hnf : update_cells g fuel m ≠ .fatal) :
    ∃ m1 A1, update_cells g fuel m = .ok m1 ∧ WF g m1 A1 ∧
      ∀ i j p, realCell g i j → p ∈ A i j →
        ∃ i1 j1, realCell g i1 j1 ∧ p ∈ A1 i1 j1 ∧
          i1 = wrapIdx g.x (i + shiftOf g.cell_size (m.heap p).x) ∧
          j1 = wrapIdx g.y (j + shiftOf g.cell_size (m.heap p).y) ∧
          (globalCoord g.cell_size i1 (m1.heap p).x = globalCoord g.cell_size i (m.heap p).x ∨
            globalCoord g.cell_size i1 (m1.heap p).x =
              globalCoord g.cell_size i (m.heap p).x + (g.x : K) * g.cell_size ∨
            globalCoord g.cell_size i1 (m1.heap p).x =
              globalCoord g.cell_size i (m.heap p).x - (g.x : K) * g.cell_size) ∧
          (globalCoord g.cell_size j1 (m1.heap p).y = globalCoord g.cell_size j (m.heap p).y ∨
            globalCoord g.cell_size j1 (m1.heap p).y =
              globalCoord g.cell_size j (m.heap p).y + (g.y : K) * g.cell_size ∨
            globalCoord g.cell_size j1 (m1.heap p).y =
              globalCoord g.cell_size j (m.heap p).y - (g.y : K) * g.cell_size) ∧
          (i1 = i + shiftOf g.cell_size (m.heap p).x →
            globalCoord g.cell_size i1 (m1.heap p).x =
              globalCoord g.cell_size i (m.heap p).x) ∧
          (j1 = j + shiftOf g.cell_size (m.heap p).y →
            globalCoord g.cell_size j1 (m1.heap p).y =
              globalCoord g.cell_size j (m.heap p).y) ∧
          (i + shiftOf g.cell_size (m.heap p).x = 0 →
            globalCoord g.cell_size i1 (m1.heap p).x =
              globalCoord g.cell_size i (m.heap p).x + (g.x : K) * g.cell_size) ∧
          (i + shiftOf g.cell_size (m.heap p).x = g.x + 1 →
            globalCoord g.cell_size i1 (m1.heap p).x =
              globalCoord g.cell_size i (m.heap p).x - (g.x : K) * g.cell_size) ∧
          (j + shiftOf g.cell_size (m.heap p).y = 0 →
            globalCoord g.cell_size j1 (m1.heap p).y =
              globalCoord g.cell_size j (m.heap p).y + (g.y : K) * g.cell_size) ∧
          (j + shiftOf g.cell_size (m.heap p).y = g.y + 1 →
            globalCoord g.cell_size j1 (m1.heap p).y =
              globalCoord g.cell_size j (m.heap p).y - (g.y : K) * g.cell_size) := by
  obtain ⟨m1, A1, h1, hM, hV⟩ := update_cells_ok g m A fuel hwf hfuel hnf
  refine ⟨m1, A1, h1, WF_of_Migr g m m1 A A1 hM, ?_⟩
  intro i j p hr hp
  obtain ⟨hmem, hdat⟩ := Migr_destination g m m1 A A1 hM hV i j p hr hp
  have ex : (m1.heap p).x =
      (m.heap p).x - (shiftOf g.cell_size (m.heap p).x : K) * g.cell_size := by
    have := congrArg (fun t => t.1) hdat
    simpa [particle_t.data, migrated] using this
  have ey : (m1.heap p).y =
      (m.heap p).y - (shiftOf g.cell_size (m.heap p).y : K) * g.cell_size := by
    have := congrArg (fun t => t.2.1) hdat
    simpa [particle_t.data, migrated] using this
  have hdx := realCell_wrap g.x i g.cell_size (m.heap p).x hr.1 hr.2.1
  have hdy := realCell_wrap g.y j g.cell_size (m.heap p).y hr.2.2.1 hr.2.2.2
  obtain ⟨a1, a2, a3, a4⟩ := globalCoord_wrap g.x i (shiftOf g.cell_size (m.heap p).x)
    g.cell_size (m.heap p).x ⟨hr.1, hr.2.1⟩
  obtain ⟨b1, b2, b3, b4⟩ := globalCoord_wrap g.y j (shiftOf g.cell_size (m.heap p).y)
    g.cell_size (m.heap p).y ⟨hr.2.2.1, hr.2.2.2⟩
  refine ⟨_, _, ⟨hdx.1, hdx.2, hdy.1, hdy.2⟩, hmem, rfl, rfl, ?_⟩
  rw [ex, ey]
  exact ⟨a1, b1, a2, b2, a3, a4, b3, b4⟩

theorem migration_periodic_witness :
    ∃ m1 A1, update_cells exGlobals 4 exDrifted = .ok m1 ∧ WF exGlobals m1 A1 ∧
      ∃ i1 j1, realCell exGlobals i1 j1 ∧ (0 : Nat) ∈ A1 i1 j1 ∧
        globalCoord exGlobals.cell_size i1 (m1.heap 0).x =
          globalCoord exGlobals.cell_size 1 (exDrifted.heap 0).x ∧
        globalCoord exGlobals.cell_size j1 (m1.heap 0).y =
          globalCoord exGlobals.cell_size 1 (exDrifted.heap 0).y := by
  obtain ⟨m1, A1, h1, hwf, h⟩ :=
    migration_periodic exGlobals exDrifted exLists 4 (by decide) (by decide) (by decide)
  obtain ⟨i1, j1, hr, hp, hi, hj, _, _, hx, hy, _⟩ := h 1 1 0 (by decide) (by decide)
  exact ⟨m1, A1, h1, hwf, i1, j1, hr, hp, hx (by rw [hi]; decide), hy (by rw [hj]; decide)⟩

end OrderedRing

/-! ## The time loop of `main` -/

theorem allParts_congr (g : Globals K) (A B : Int → Int → List Nat)
    (h : ∀ i j, realCell g i j → B i j = A i j) : allParts g B = allParts g A := by
  have key : ∀ l : List (Int × Int), (∀ c ∈ l, B c.1 c.2 = A c.1 c.2) →
      l.flatMap (fun c => B c.1 c.2) = l.flatMap (fun c => A c.1 c.2) := by
    intro l
    induction l with
    | nil => intro _; rfl
    | cons c l ih =>
      intro hl
      rw [List.flatMap_cons, List.flatMap_cons, hl c (List.mem_cons_self _ _),
        ih (fun d hd => hl d (List.mem_cons_of_mem _ hd))]
  exact key _ (fun c hc => h c.1 c.2 ((mem_cellOrder g c.1 c.2).1 hc))

theorem allParts_padded (g : Globals K) (A : Int → Int → List Nat) :
    allParts g (paddedLists g A) = allParts g A := by
  refine allParts_congr g A _ ?_
  intro i j hr
  unfold paddedLists
  rw [wrapIdx_real _ _ hr.1 hr.2.1, wrapIdx_real _ _ hr.2.2.1 hr.2.2.2]

section OrderedField

variable [LinearOrderedField K]

/-- The five routines of the body of the time loop on a well-formed grid with
`x, y ≥ 1` and fuel for the particles: either `update_cells` exits on a particle that
`move_particles` has put more than one cell away, or they return a well-formed grid with
the same number of particles. -/
theorem main_routines_spec (g : Globals K) (sqrt : K → K) (fuel : Nat) (m : Mem K)
    (A : Int → Int → List Nat) (hx : 1 ≤ g.x) (hy : 1 ≤ g.y) (hwf : WF g m A)
    (hfuel : (allParts g A).length ≤ fuel) :
    (main_routines g sqrt fuel m = .fatal ∧
        ∃ a b p, realCell g a b ∧ p ∈ A a b ∧ tooFar g (move_particles_rec g (m.heap p))) ∨
      ∃ r A1, main_routines g sqrt fuel m = .ok r ∧ WF g r.1 A1 ∧
        (allParts g A1).length = (allParts g A).length := by
  obtain ⟨m1, h1, hheap1, hcells1, _⟩ := move_particles_eq g m A fuel hwf hfuel
  have hwf1 := move_particles_wf g m m1 A hwf hheap1 hcells1
  unfold main_routines
  rw [h1]
  simp only [Outcome.bind]
  rcases update_cells_master g m1 A fuel hwf1 hfuel with
    ⟨h2, a, b, p, hr, hp, hfar⟩ | ⟨m2, A2, h2, hM, _⟩
  · left
    rw [h2]
    refine ⟨rfl, a, b, p, hr, hp, ?_⟩
    have hpall : p ∈ allParts g A := (mem_allParts g A p).2 ⟨a, b, hr, hp⟩
    rw [hheap1] at hfar
    simpa only [if_pos hpall] using hfar
  · right
    rw [h2]
    simp only []
    have hwf2 := WF_of_Migr g m1 m2 A A2 hM
    have hlen2 : (allParts g A2).length = (allParts g A).length :=
      (Migr_perm g m1 m2 A A2 hwf1 hM).length_eq
    obtain ⟨hwf3, hchain⟩ := apply_boundary_padded g m2 A2 hx hy hwf2
    have hlenp : ∀ c ∈ paddedOrder g, (paddedLists g A2 c.1 c.2).length ≤ fuel := by
      intro c hc
      have h := (mem_paddedOrder g c.1 c.2).1 hc
      have a1 := wrapIdx_range g.x c.1 hx h.1 h.2.1
      have a2 := wrapIdx_range g.y c.2 hy h.2.2.1 h.2.2.2
      exact le_trans (length_le_of_WF g m2 A2 hwf2 _ _ ⟨a1.1, a1.2, a2.1, a2.2⟩)
        (hlen2 ▸ hfuel)
    obtain ⟨m3, e, h3, hacc, hother, hcells3, _⟩ := comp_accel_eq g sqrt fuel
      (apply_boundary g m2) (paddedLists g A2) hwf3 hchain hlenp
    rw [h3]
    simp only []
    have hw3 := (WF_iff g _ _).1 hwf3
    have hwf4 : WF g m3 (paddedLists g A2) := by
      refine (WF_iff g m3 _).2 ⟨cellsDll_congr g (apply_boundary g m2) m3 _ (fun n => ?_)
        (fun _ _ _ => by rw [hcells3]) hw3.1, hw3.2⟩
      by_cases hn : n ∈ allParts g (paddedLists g A2)
      · obtain ⟨i, j, hr, hn2⟩ := (mem_allParts g _ n).1 hn
        rw [hacc i j n hr hn2]
        simp
      · rw [hother n hn]
        exact ⟨rfl, rfl⟩
    have hreal : ∀ i j, realCell g i j → (paddedLists g A2 i j).length ≤ fuel := by
      intro i j hr
      refine hlenp (i, j) ((mem_paddedOrder g i j).2 ?_)
      obtain ⟨b1, b2, b3, b4⟩ := hr
      omega
    obtain ⟨m4, h4, hheap4, hcells4, _⟩ := update_velocity_eq g m3 (paddedLists g A2) fuel
      hwf4 hreal
    rw [h4]
    simp only []
    refine ⟨_, paddedLists g A2, rfl, ?_, ?_⟩
    · exact WF_of_map g m3 m4 (paddedLists g A2) (update_velocity_rec g)
        (fun r => by simp [update_velocity_rec]) hwf4 hheap4 hcells4
    · rw [allParts_padded, hlen2]

end OrderedField

section OrderedField

variable [LinearOrderedField K]

/-- The body of the time loop when the five routines return: with `output_freq ≠ 0` the
loop variables are advanced, with `output_freq = 0` the remainder traps. -/
theorem main_body_of_routines (g : Globals K) (f : Flags) (sqrt : K → K) (fuel : Nat)
    (s : Sim K) (r : Mem K × K × K) (h : main_routines g sqrt fuel s.mem = .ok r) :
    (f.output_freq ≠ 0 → main_body g f sqrt fuel s =
      .ok { mem := r.1, potential_energy := r.2.1, kinetic_energy := r.2.2,
            iters := s.iters + 1, t := s.t + g.dt }) ∧
    (f.output_freq = 0 → main_body g f sqrt fuel s = .divZero) := by
  unfold main_body output_due
  rw [h]
  constructor
  · intro hf
    simp only [if_neg hf]
  · intro hf
    simp only [if_pos hf]

theorem main_body_fatal (g : Globals K) (f : Flags) (sqrt : K → K) (fuel : Nat)
    (s : Sim K) (h : main_routines g sqrt fuel s.mem = .fatal) :
    main_body g f sqrt fuel s = .fatal := by
  unfold main_body
  rw [h]

/-- A body of the time loop that returns has advanced `t` by `dt` and `iters` by one. -/
theorem main_body_ok (g : Globals K) (f : Flags) (sqrt : K → K) (fuel : Nat)
    (s s1 : Sim K) (h : main_body g f sqrt fuel s = .ok s1) :
    s1.t = s.t + g.dt ∧ s1.iters = s.iters + 1 ∧ f.output_freq ≠ 0 ∧
      ∃ r, main_routines g sqrt fuel s.mem = .ok r ∧ s1.mem = r.1 := by
  unfold main_body output_due at h
  cases hr : main_routines g sqrt fuel s.mem with
  | ok r =>
    rw [hr] at h
    by_cases hf : f.output_freq = 0
    · simp only [if_pos hf] at h
      cases h
    · simp only [if_neg hf] at h
      cases h
      exact ⟨rfl, rfl, hf, r, rfl, rfl⟩
  | fatal =>
    rw [hr] at h
    cases h
  | outOfFuel =>
    rw [hr] at h
    cases h

/-- In exact arithmetic, with `dt = t_end / niters`, `t_end > 0` and `niters > 0`: from a
state with `t = (niters - k) * dt` the time loop is `k` executions of its body. -/
theorem main_loop_repeat (g : Globals K) (f : Flags) (sqrt : K → K) (fuel : Nat)
    (hte : 0 < g.t_end) (hn : 0 < g.niters) (hdt : g.dt = g.t_end / (g.niters : K)) :
    ∀ (k steps : Nat) (s : Sim K), k ≤ steps → (k : Int) ≤ g.niters →
      s.t = ((g.niters - (k : Int) : Int) : K) * g.dt →
      main_loop g f sqrt fuel steps s = repeatBody (main_body g f sqrt fuel) k s := by
  have hnK : (0 : K) < (g.niters : K) := by exact_mod_cast hn
  have hdtpos : 0 < g.dt := by
    rw [hdt]
    exact div_pos hte hnK
  have hend : (g.niters : K) * g.dt = g.t_end := by
    rw [hdt, mul_div_cancel₀ _ (ne_of_gt hnK)]
  intro k
  induction k with
  | zero =>
    intro steps s _ _ ht
    have ht2 : s.t = g.t_end := by
      rw [ht, ← hend]
      push_cast
      ring
    unfold main_loop
    rw [if_neg (by rw [ht2]; exact lt_irrefl _)]
    rfl
  | succ k ih =>
    intro steps s hsteps hk ht
    obtain ⟨steps1, rfl⟩ : ∃ n, steps = n + 1 := ⟨steps - 1, by omega⟩
    have hlt : s.t < g.t_end := by
      rw [ht, ← hend]
      push_cast
      nlinarith
    unfold main_loop
    rw [if_pos hlt]
    simp only [repeatBody]
    cases hb : main_body g f sqrt fuel s with
    | ok s1 =>
      simp only [Run.bind]
      refine ih steps1 s1 (by omega) (by omega) ?_
      rw [(main_body_ok g f sqrt fuel s s1 hb).1, ht]
      push_cast
      ring
    | fatal => rfl
    | divZero => rfl
    | outOfFuel => rfl

/-- With `output_freq ≠ 0`, on a well-formed grid with `x, y ≥ 1` and fuel for the
particles, `k` executions of the body of the time loop either end in the exit of
`update_cells` or return a well-formed grid with `iters` advanced by `k` and `t` by
`k * dt`. -/
theorem repeatBody_spec (g : Globals K) (f : Flags) (sqrt : K → K) (fuel : Nat)
    (hx : 1 ≤ g.x) (hy : 1 ≤ g.y) (hf : f.output_freq ≠ 0) :
    ∀ (k : Nat) (s : Sim K) (A : Int → Int → List Nat), WF g s.mem A →
      (allParts g A).length ≤ fuel →
      repeatBody (main_body g f sqrt fuel) k s = .fatal ∨
        ∃ s1 A1, repeatBody (main_body g f sqrt fuel) k s = .ok s1 ∧ WF g s1.mem A1 ∧
          (allParts g A1).length = (allParts g A).length ∧
          s1.iters = s.iters + (k : Int) ∧ s1.t = s.t + (k : K) * g.dt := by
  intro k
  induction k with
  | zero =>
    intro s A hwf _
    exact Or.inr ⟨s, A, rfl, hwf, rfl, by simp, by simp⟩
  | succ k ih =>
    intro s A hwf hfuel
    simp only [repeatBody]
    rcases main_routines_spec g sqrt fuel s.mem A hx hy hwf hfuel with
      ⟨h, _⟩ | ⟨r, A1, h, hwf1, hlen1⟩
    · rw [main_body_fatal g f sqrt fuel s h]
      exact Or.inl rfl
    · rw [(main_body_of_routines g f sqrt fuel s r h).1 hf]
      simp only [Run.bind]
      have hih := ih ⟨r.1, r.2.1, r.2.2, s.iters + 1, s.t + g.dt⟩ A1 hwf1 (hlen1 ▸ hfuel)
      rcases hih with h2 | ⟨s2, A2, h2, hwf2, hlen2, hi2, ht2⟩
      · exact Or.inl h2
      · refine Or.inr ⟨s2, A2, h2, hwf2, hlen2.trans hlen1, ?_, ?_⟩
        · rw [hi2]
          push_cast
          ring
        · rw [ht2]
          push_cast
          ring

/-- The iteration count of the time loop: in exact arithmetic, for `t_end > 0`,
`niters > 0`, `dt = t_end / niters` and `output_freq ≠ 0`, from `t = 0` on a well-formed
grid with `x, y ≥ 1`, with fuel for the particles and `niters` steps, the time loop is
`niters` executions of its body, and it ends in the exit of `update_cells` or returns
with `iters` advanced by `niters` and `t = t_end`. -/
theorem main_loop_count (g : Globals K) (f : Flags) (sqrt : K → K) (fuel steps : Nat)
    (s : Sim K) (A : Int → Int → List Nat) (hte : 0 < g.t_end) (hn : 0 < g.niters)
    (hdt : g.dt = g.t_end / (g.niters : K)) (hf : f.output_freq ≠ 0) (ht0 : s.t = 0)
    (hx : 1 ≤ g.x) (hy : 1 ≤ g.y) (hwf : WF g s.mem A)
    (hfuel : (allParts g A).length ≤ fuel) (hsteps : g.niters.toNat ≤ steps) :
    main_loop g f sqrt fuel steps s =
        repeatBody (main_body g f sqrt fuel) g.niters.toNat s ∧
      (main_loop g f sqrt fuel steps s = .fatal ∨
        ∃ s1 A1, main_loop g f sqrt fuel steps s = .ok s1 ∧ WF g s1.mem A1 ∧
          s1.iters = s.iters + g.niters ∧ s1.t = g.t_end) := by
  have hnn : ((g.niters.toNat : Nat) : Int) = g.niters := Int.toNat_of_nonneg hn.le
  have hnK : (0 : K) < (g.niters : K) := by exact_mod_cast hn
  have hrep := main_loop_repeat g f sqrt fuel hte hn hdt g.niters.toNat steps s hsteps
    (le_of_eq hnn) (by rw [hnn, sub_self, ht0]; simp)
  refine ⟨hrep, ?_⟩
  rw [hrep]
  rcases repeatBody_spec g f sqrt fuel hx hy hf g.niters.toNat s A hwf hfuel with
    h | ⟨s1, A1, h, hwf1, _, hi, ht⟩
  · exact Or.inl h
  · refine Or.inr ⟨s1, A1, h, hwf1, ?_, ?_⟩
    · rw [hi, hnn]
    · have e : ((g.niters.toNat : Nat) : K) = (g.niters : K) := by
        rw [← hnn]
        push_cast
        rfl
      rw [ht, ht0, zero_add, e, hdt, mul_div_cancel₀ _ (ne_of_gt hnK)]

/-- With `output_freq = 0` the time loop never reaches its end from a state with
`t < t_end`: on a well-formed grid with `x, y ≥ 1`, fuel for the particles and at least
one step, it ends in the exit of `update_cells` or in the remainder by zero of the first
iteration. -/
theorem main_loop_freq_zero (g : Globals K) (f : Flags) (sqrt : K → K) (fuel steps : Nat)
    (s : Sim K) (A : Int → Int → List Nat) (hf : f.output_freq = 0) (ht : s.t < g.t_end)
    (hx : 1 ≤ g.x) (hy : 1 ≤ g.y) (hwf : WF g s.mem A)
    (hfuel : (allParts g A).length ≤ fuel) (hsteps : 1 ≤ steps) :
    main_loop g f sqrt fuel steps s = .fatal ∨
      main_loop g f sqrt fuel steps s = .divZero := by
  obtain ⟨steps1, rfl⟩ : ∃ n, steps = n + 1 := ⟨steps - 1, by omega⟩
  unfold main_loop
  rw [if_pos ht]
  simp only []
  rcases main_routines_spec g sqrt fuel s.mem A hx hy hwf hfuel with
    ⟨h, _⟩ | ⟨r, A1, h, _, _⟩
  · rw [main_body_fatal g f sqrt fuel s h]
    exact Or.inl rfl
  · rw [(main_body_of_routines g f sqrt fuel s r h).2 hf]
    exact Or.inr rfl

end OrderedField

section OrderedField

variable [LinearOrderedField K]

/-- `comp_accel` after `apply_boundary` on a well-formed grid with `x, y ≥ 1` returns a
well-formed grid. -/
theorem comp_accel_boundary_wf (g : Globals K) (sqrt : K → K) (fuel : Nat) (m : Mem K)
    (A : Int → Int → List Nat) (hx : 1 ≤ g.x) (hy : 1 ≤ g.y) (hwf : WF g m A)
    (hfuel : (allParts g A).length ≤ fuel) :
    ∃ r, comp_accel g sqrt fuel (apply_boundary g m) = .ok r ∧
      WF g r.1 (paddedLists g A) := by
  obtain ⟨hwf3, hchain⟩ := apply_boundary_padded g m A hx hy hwf
  have hlenp : ∀ c ∈ paddedOrder g, (paddedLists g A c.1 c.2).length ≤ fuel := by
    intro c hc
    have h := (mem_paddedOrder g c.1 c.2).1 hc
    have a1 := wrapIdx_range g.x c.1 hx h.1 h.2.1
    have a2 := wrapIdx_range g.y c.2 hy h.2.2.1 h.2.2.2
    exact le_trans (length_le_of_WF g m A hwf _ _ ⟨a1.1, a1.2, a2.1, a2.2⟩) hfuel
  obtain ⟨m3, e, h3, hacc, hother, hcells3, _⟩ := comp_accel_eq g sqrt fuel
    (apply_boundary g m) (paddedLists g A) hwf3 hchain hlenp
  refine ⟨(m3, e), h3, ?_⟩
  have hw3 := (WF_iff g _ _).1 hwf3
  refine (WF_iff g m3 _).2 ⟨cellsDll_congr g (apply_boundary g m) m3 _ (fun n => ?_)
    (fun _ _ _ => by rw [hcells3]) hw3.1, hw3.2⟩
  by_cases hn : n ∈ allParts g (paddedLists g A)
  · obtain ⟨i, j, hr, hn2⟩ := (mem_allParts g _ n).1 hn
    rw [hacc i j n hr hn2]
    simp
  · rw [hother n hn]
    exact ⟨rfl, rfl⟩

/-- When the options leave `output_freq = 0` (and `t_end > 0`, `x, y ≥ 1`), `main` with
fuel for the particles and at least one step does not reach the end of the time loop: it
ends in the exit of `update_cells` or in the remainder by zero of the first iteration. -/
theorem main_freq_zero (lc : Libc K) (lib : Libm K) (opts : List (Char × String))
    (fuel steps : Nat) (m : Mem K) (s : Globals K × Flags)
    (hp : parse_args lc opts (set_defaults (initGlobals, initFlags)) = .ok s)
    (hf : s.2.output_freq = 0) (hte : 0 < s.1.t_end) (hx : 1 ≤ s.1.x) (hy : 1 ≤ s.1.y)
    (hfuel : s.1.x.toNat * s.1.y.toNat *
      (s.1.num_part_per_dim.toNat * s.1.num_part_per_dim.toNat) ≤ fuel)
    (hsteps : 1 ≤ steps) :
    main lc lib opts fuel steps m = .ok .fatal ∨
      main lc lib opts fuel steps m = .ok .divZero := by
  have hfuel1 : (setup s.1).num_part_per_dim.toNat * (setup s.1).num_part_per_dim.toNat ≤
      fuel := by
    refine le_trans ?_ hfuel
    have h1 : 1 ≤ s.1.x.toNat := by omega
    have h2 : 1 ≤ s.1.y.toNat := by omega
    have h3 : 1 ≤ s.1.x.toNat * s.1.y.toNat := Nat.mul_le_mul h1 h2
    calc (setup s.1).num_part_per_dim.toNat * (setup s.1).num_part_per_dim.toNat
        = 1 * (s.1.num_part_per_dim.toNat * s.1.num_part_per_dim.toNat) := by
          rw [Nat.one_mul]; rfl
      _ ≤ s.1.x.toNat * s.1.y.toNat *
          (s.1.num_part_per_dim.toNat * s.1.num_part_per_dim.toNat) :=
          Nat.mul_le_mul_right _ h3
  obtain ⟨m1, A, sx, sy, h1, hwf, _, hpos, _, _⟩ :=
    problem_setup_track lib (setup s.1) fuel m hfuel1
  have hlen : ∀ i j, realCell (setup s.1) i j →
      (A i j).length =
        (setup s.1).num_part_per_dim.toNat * (setup s.1).num_part_per_dim.toNat := by
    intro i j hr
    have := congrArg List.length (hpos i j hr)
    rw [List.length_map, List.length_map, length_latticeOrder] at this
    exact this
  have hall : (allParts (problem_setup_globals (setup s.1)) A).length ≤ fuel := by
    have e := length_allParts (setup s.1) A _ hlen
    exact le_trans (le_of_eq e) hfuel
  obtain ⟨c, h2, hwf2⟩ := comp_accel_boundary_wf (problem_setup_globals (setup s.1)) lib.sqrt
    fuel m1 A hx hy hwf hall
  have hall2 : (allParts (problem_setup_globals (setup s.1))
      (paddedLists (problem_setup_globals (setup s.1)) A)).length ≤ fuel := by
    rw [allParts_padded]
    exact hall
  have hloop := main_loop_freq_zero (problem_setup_globals (setup s.1)) s.2 lib.sqrt fuel steps
    ⟨c.1, 0, 0, 0, 0⟩ (paddedLists (problem_setup_globals (setup s.1)) A) hf hte hx hy hwf2
    hall2 hsteps
  unfold main
  rw [hp]
  simp only []
  rw [h1]
  simp only [Run.ofOutcome, Run.bind]
  rw [h2]
  simp only []
  rcases hloop with h | h
  · left
    rw [h]
  · right
    rw [h]

end OrderedField

section OrderedField

variable [LinearOrderedField K]

/-- With `output_freq = 0`, a first iteration whose five routines return ends the time
loop in the remainder by zero. -/
theorem main_loop_div_zero (g : Globals K) (f : Flags) (sqrt : K → K) (fuel steps : Nat)
    (s : Sim K) (r : Mem K × K × K) (hf : f.output_freq = 0) (ht : s.t < g.t_end)
    (hr : main_routines g sqrt fuel s.mem = .ok r) (hsteps : 1 ≤ steps) :
    main_loop g f sqrt fuel steps s = .divZero := by
  obtain ⟨steps1, rfl⟩ : ∃ n, steps = n + 1 := ⟨steps - 1, by omega⟩
  unfold main_loop
  rw [if_pos ht]
  simp only []
  rw [(main_body_of_routines g f sqrt fuel s r hr).2 hf]
  rfl

/-- A scan whose candidates are all the particle itself adds nothing. -/
theorem neighbourSum_self (g : Globals K) (sqrt : K → K) (h : Nat → particle_t K)
    (A : Int → Int → List Nat) (i j : Int) (p : Nat)
    (hA : ∀ a b, -1 ≤ a → a ≤ 1 → -1 ≤ b → b ≤ 1 → ∀ q ∈ A (i + a) (j + b), q = p) :
    neighbourSum A i j (fun a b q => comp_accel_terms g sqrt h i j a b p q) = (0, 0, 0) := by
  have hz : ∀ a b, -1 ≤ a → a ≤ 1 → -1 ≤ b → b ≤ 1 → ((A (i + a) (j + b)).map
      (fun q => comp_accel_terms g sqrt h i j a b p q)).sum = (0, 0, 0) := by
    intro a b a1 a2 b1 b2
    have e : (A (i + a) (j + b)).map (fun q => comp_accel_terms g sqrt h i j a b p q) =
        (A (i + a) (j + b)).map (fun _ => ((0, 0, 0) : K × K × K)) := by
      refine List.map_congr_left ?_
      intro q hq
      rw [hA a b a1 a2 b1 b2 q hq]
      unfold comp_accel_terms
      rw [if_pos rfl]
    rw [e]
    generalize A (i + a) (j + b) = l
    induction l with
    | nil => rfl
    | cons x l ih =>
      rw [List.map_cons, List.sum_cons, ih]
      simp
  rw [neighbourSum_nine, hz (-1) (-1) (by decide) (by decide) (by decide) (by decide),
    hz (-1) 0 (by decide) (by decide) (by decide) (by decide),
    hz (-1) 1 (by decide) (by decide) (by decide) (by decide),
    hz 0 (-1) (by decide) (by decide) (by decide) (by decide),
    hz 0 0 (by decide) (by decide) (by decide) (by decide),
    hz 0 1 (by decide) (by decide) (by decide) (by decide),
    hz 1 (-1) (by decide) (by decide) (by decide) (by decide),
    hz 1 0 (by decide) (by decide) (by decide) (by decide),
    hz 1 1 (by decide) (by decide) (by decide) (by decide)]
  simp

end OrderedField

/-- **C22, on the code.** The command line `-f 0 -x 1 -y 1 -p 1` is accepted by
`parse_args` and leaves `output_freq = 0` with `t_end = 0.5 > 0` and `niters = 1000 > 0`.
For every C library `lib` (every value of `rand()`), the single particle created by
`problem_setup` has zero velocity after the mean is removed and zero acceleration, so the
five routines of the first iteration return without the exit of `update_cells`; the
remainder `iters % output_freq` is then taken with `output_freq = 0`, and `main` ends
there instead of executing the body `niters` times. -/
theorem freq_zero_trap (lib : Libm Rat) (m : Mem Rat) :
    parse_args exLibc exOptsZero (set_defaults (initGlobals, initFlags)) = .ok exParsedZero ∧
      exParsedZero.2.output_freq = 0 ∧ 0 < exParsedZero.1.t_end ∧
      0 < exParsedZero.1.niters ∧
      main exLibc lib exOptsZero 1 1000 m = .ok .divZero := by
  have hloop : parse_args_loop exLibc exOptsZero (set_defaults (initGlobals, initFlags)) =
      .ok exParsedZero := by
    simp [parse_args_loop, parse_args_case, exOptsZero, exParsedZero, set_defaults,
      initGlobals, initFlags, exLibc, readNat]
  have hp : parse_args exLibc exOptsZero (set_defaults (initGlobals, initFlags)) =
      .ok exParsedZero := by
    unfold parse_args
    rw [hloop]
    norm_num [exParsedZero, initGlobals]
  refine ⟨hp, rfl, by norm_num [exParsedZero, initGlobals], by decide, ?_⟩
  -- the state after `problem_setup`
  obtain ⟨m1, A, sx, sy, h1, hwf, _, hpos, hsx, hsy⟩ :=
    problem_setup_track lib (setup exParsedZero.1) 1 m (by decide)
  have r11 : realCell (setup exParsedZero.1) 1 1 := by decide
  have hreal : ∀ a b, realCell (setup exParsedZero.1) a b → a = 1 ∧ b = 1 := by
    intro a b hr
    have h2 : a ≤ 1 := hr.2.1
    have h4 : b ≤ 1 := hr.2.2.2
    have h1 := hr.1
    have h3 := hr.2.2.1
    omega
  have hpos11 := hpos 1 1 r11
  rw [show latticeOrder (setup exParsedZero.1).num_part_per_dim = [(0, 0)] from by decide]
    at hpos11
  obtain ⟨p, hA, hxy⟩ : ∃ p, A 1 1 = [p] ∧
      ((m1.heap p).x, (m1.heap p).y) = latticeLocal (setup exParsedZero.1) (0, 0) := by
    rcases hl : A 1 1 with _ | ⟨p, _ | ⟨q, l⟩⟩
    · rw [hl] at hpos11
      simp at hpos11
    · rw [hl] at hpos11
      refine ⟨p, rfl, ?_⟩
      simpa using hpos11
    · rw [hl] at hpos11
      simp at hpos11
  have hall : allParts (setup exParsedZero.1) A = [p] := by
    unfold allParts
    rw [show cellOrder (setup exParsedZero.1) = [(1, 1)] from by decide]
    simp [hA]
  have hxp : (m1.heap p).x = 5 / 4 := by
    have := congrArg Prod.fst hxy
    simp only [] at this
    rw [this]
    norm_num [latticeLocal, setup, exParsedZero, initGlobals]
  have hyp : (m1.heap p).y = 5 / 4 := by
    have := congrArg Prod.snd hxy
    simp only [] at this
    rw [this]
    norm_num [latticeLocal, setup, exParsedZero, initGlobals]
  have hvx : (m1.heap p).vx = 0 := by
    rw [hall] at hsx
    norm_num [setup, exParsedZero, initGlobals] at hsx
    exact hsx
  have hvy : (m1.heap p).vy = 0 := by
    rw [hall] at hsy
    norm_num [setup, exParsedZero, initGlobals] at hsy
    exact hsy
  -- the first call of `comp_accel`
  have hx1 : (1 : Int) ≤ (problem_setup_globals (setup exParsedZero.1)).x := by decide
  have hy1 : (1 : Int) ≤ (problem_setup_globals (setup exParsedZero.1)).y := by decide
  have hlen1 : (allParts (problem_setup_globals (setup exParsedZero.1)) A).length ≤ 1 := by
    have : allParts (problem_setup_globals (setup exParsedZero.1)) A = [p] := hall
    rw [this]
    simp
  have hpad : ∀ a b, -1 ≤ a → a ≤ 1 → -1 ≤ b → b ≤ 1 →
      paddedLists (problem_setup_globals (setup exParsedZero.1)) A (1 + a) (1 + b) = [p] := by
    intro a b a1 a2 b1 b2
    have ea : wrapIdx (problem_setup_globals (setup exParsedZero.1)).x (1 + a) = 1 := by
      have : (problem_setup_globals (setup exParsedZero.1)).x = 1 := rfl
      rw [this]
      unfold wrapIdx
      split_ifs <;> omega
    have eb : wrapIdx (problem_setup_globals (setup exParsedZero.1)).y (1 + b) = 1 := by
      have : (problem_setup_globals (setup exParsedZero.1)).y = 1 := rfl
      rw [this]
      unfold wrapIdx
      split_ifs <;> omega
    unfold paddedLists
    rw [ea, eb, hA]
  have hpad11 : paddedLists (problem_setup_globals (setup exParsedZero.1)) A 1 1 = [p] :=
    hpad 0 0 (by decide) (by decide) (by decide) (by decide)
  obtain ⟨hwf3, hchain⟩ := apply_boundary_padded (problem_setup_globals (setup exParsedZero.1))
    m1 A hx1 hy1 hwf
  have hlenp : ∀ c ∈ paddedOrder (problem_setup_globals (setup exParsedZero.1)),
      (paddedLists (problem_setup_globals (setup exParsedZero.1)) A c.1 c.2).length ≤ 1 := by
    intro c hc
    have h := (mem_paddedOrder _ c.1 c.2).1 hc
    have a1 := wrapIdx_range (problem_setup_globals (setup exParsedZero.1)).x c.1 hx1 h.1 h.2.1
    have a2 := wrapIdx_range (problem_setup_globals (setup exParsedZero.1)).y c.2 hy1 h.2.2.1
      h.2.2.2
    exact le_trans (length_le_of_WF _ m1 A hwf _ _ ⟨a1.1, a1.2, a2.1, a2.2⟩) hlen1
  obtain ⟨m3, e, h3, hacc, _, _, _⟩ := comp_accel_eq (problem_setup_globals (setup exParsedZero.1))
    lib.sqrt 1 (apply_boundary (problem_setup_globals (setup exParsedZero.1)) m1)
    (paddedLists (problem_setup_globals (setup exParsedZero.1)) A) hwf3 hchain hlenp
  obtain ⟨c, h2, hwf2⟩ := comp_accel_boundary_wf (problem_setup_globals (setup exParsedZero.1))
    lib.sqrt 1 m1 A hx1 hy1 hwf hlen1
  have hc : c = (m3, e) := by
    rw [h3] at h2
    cases h2
    rfl
  have hrec := hacc 1 1 p r11 (by rw [hpad11]; simp)
  rw [neighbourSum_self _ _ _ _ 1 1 p (fun a b a1 a2 b1 b2 q hq => by
    rw [hpad a b a1 a2 b1 b2] at hq
    simpa using hq), apply_boundary_heap] at hrec
  -- the first iteration of the time loop
  have hroutines : ∃ r, main_routines (problem_setup_globals (setup exParsedZero.1))
      lib.sqrt 1 c.1 = .ok r := by
    rcases main_routines_spec (problem_setup_globals (setup exParsedZero.1)) lib.sqrt 1 c.1
      (paddedLists (problem_setup_globals (setup exParsedZero.1)) A) hx1 hy1 hwf2
      (by rw [allParts_padded]; exact hlen1) with ⟨_, a, b, q, hr, hq, hfar⟩ | ⟨r, _, hr, _⟩
    · exfalso
      obtain ⟨rfl, rfl⟩ := hreal a b hr
      rw [hpad11] at hq
      have hq2 : q = p := by simpa using hq
      subst hq2
      rw [hc] at hfar
      simp only [] at hfar
      rw [hrec] at hfar
      norm_num [tooFar, move_particles_rec, hxp, hyp, hvx, hvy, setup, problem_setup_globals,
        exParsedZero, initGlobals] at hfar
    · exact ⟨r, hr⟩
  obtain ⟨r, hr⟩ := hroutines
  have hloop2 := main_loop_div_zero (problem_setup_globals (setup exParsedZero.1))
    exParsedZero.2 lib.sqrt 1 1000 ⟨c.1, 0, 0, 0, 0⟩ r rfl
    (by norm_num [setup, problem_setup_globals, exParsedZero, initGlobals]) hr (by decide)
  unfold main
  rw [hp]
  simp only []
  rw [h1]
  simp only [Run.ofOutcome, Run.bind]
  rw [h2]
  simp only []
  rw [hloop2]

/-- The iteration count on an example: with the default `output_freq = 100`, the time
loop of `setup exGlobalsQ` from `exGridQ` is `1000` executions of its body. -/
theorem main_loop_count_example :
    main_loop (setup exGlobalsQ) initFlags (fun v => v) 2 1000 ⟨exGridQ, 0, 0, 0, 0⟩ =
        repeatBody (main_body (setup exGlobalsQ) initFlags (fun v => v) 2)
          (setup exGlobalsQ).niters.toNat ⟨exGridQ, 0, 0, 0, 0⟩ ∧
      (main_loop (setup exGlobalsQ) initFlags (fun v => v) 2 1000 ⟨exGridQ, 0, 0, 0, 0⟩ =
          .fatal ∨
        ∃ s1 A1,
          main_loop (setup exGlobalsQ) initFlags (fun v => v) 2 1000 ⟨exGridQ, 0, 0, 0, 0⟩ =
            .ok s1 ∧
          WF (setup exGlobalsQ) s1.mem A1 ∧ s1.iters = 0 + (setup exGlobalsQ).niters ∧
          s1.t = (setup exGlobalsQ).t_end) :=
  main_loop_count (setup exGlobalsQ) initFlags (fun v => v) 2 1000 ⟨exGridQ, 0, 0, 0, 0⟩
    exListsQ (by norm_num [setup, exGlobalsQ]) (by decide) rfl (by decide) rfl (by decide)
    (by decide) (by decide) (by decide) (by decide)

/-! ## `update_cells` with the rounding of `double` -/

theorem bitLength_zero (fuel : Nat) : bitLength fuel 0 = 0 := by
  cases fuel <;> simp [bitLength]

/-- The count `bitLength fuel a` is `Nat.log2 a + 1` as soon as `a ≤ fuel`. -/
theorem bitLength_eq (fuel a : Nat) (h : a ≤ fuel) (ha : a ≠ 0) :
    bitLength fuel a = Nat.log2 a + 1 := by
  induction fuel generalizing a with
  | zero => exact absurd (Nat.le_zero.1 h) ha
  | succ fuel ih =>
    rw [bitLength, if_neg ha]
    by_cases h2 : 2 ≤ a
    · have hne : a / 2 ≠ 0 := by omega
      have hle : a / 2 ≤ fuel := by omega
      rw [ih (a / 2) hle hne]
      conv_rhs => rw [Nat.log2, if_pos h2]
    · have h1 : a = 1 := by omega
      subst h1
      rw [show (1 : Nat) / 2 = 0 from rfl, bitLength_zero]
      conv_rhs => rw [Nat.log2, if_neg h2]

/-- An integer of fewer than 54 bits is not rounded. -/
theorem round53_of_lt (n : Int) (h : n.natAbs < 2 ^ 53) : round53 n = n := by
  unfold round53
  exact if_pos h

section OrderedRing

variable [LinearOrderedCommRing K]

/-- Without rounding the body is the body of the exact model. -/
theorem update_cells_body_fl_id (g : Globals K) (i j : Int) (p : Nat) (m : Mem K) :
    update_cells_body_fl (fun v => v) g i j p m = update_cells_body g i j p m := rfl

/-- Without rounding the routine is the routine of the exact model. -/
theorem update_cells_fl_id (g : Globals K) (fuel : Nat) (m : Mem K) :
    update_cells_fl (fun v => v) g fuel m = update_cells g fuel m := rfl

end OrderedRing

/-- A run that is observed has returned. -/
theorem observe_some (o : Outcome (Mem Int)) (p : Nat)
    (v : Option Nat × Option Nat × Int × Int) (h : observe o p = some v) :
    ∃ m, o = .ok m ∧ m.cells 1 1 = v.1 ∧ m.cells 2 1 = v.2.1 ∧
      (m.heap p).x = v.2.2.1 ∧ (m.heap p).y = v.2.2.2 := by
  cases o with
  | ok m =>
    simp only [observe, Option.some.injEq] at h
    subst h
    exact ⟨m, rfl, rfl, rfl, rfl, rfl⟩
  | fatal => simp [observe] at h
  | outOfFuel => simp [observe] at h

/-- **C6, the claim as stated fails in binary64.** Coordinates are counted in units of
`2 ^ (-60)` and `cell_size` is `2.5`.  In `exEdge 1` the particle `0` of the real cell
`(1, 1)` has `x = -12` units (about `-1e-17`) and `y = 1`, both inside
`[-cell_size, 2*cell_size)`, and the rule names the cell `(wrap (1 - 1), 1) = (2, 1)`.
With the rounding of `double` the sum `x + cell_size` is `cell_size`; `update_cells`
returns, the list of the cell `(2, 1)` is empty and the particle is the head of the list
of the cell `(1, 1)` with `x = 0`: rebased to `x = cell_size` and put in the cell `(2, 1)`,
it is met again there and moved on.  In exact arithmetic the same call leaves it in the
cell `(2, 1)` with `x + cell_size`. -/
theorem update_cells_destination_counterexample :
    WF exGlobals64 (exEdge 1) (exEdgeLists 1) ∧ realCell exGlobals64 1 1 ∧
      (0 : Nat) ∈ exEdgeLists 1 1 1 ∧
      round53 exGlobals64.cell_size = exGlobals64.cell_size ∧
      round53 ((exEdge 1).heap 0).x = ((exEdge 1).heap 0).x ∧
      round53 ((exEdge 1).heap 0).y = ((exEdge 1).heap 0).y ∧
      -exGlobals64.cell_size ≤ ((exEdge 1).heap 0).x ∧
      ((exEdge 1).heap 0).x < 2 * exGlobals64.cell_size ∧
      -exGlobals64.cell_size ≤ ((exEdge 1).heap 0).y ∧
      ((exEdge 1).heap 0).y < 2 * exGlobals64.cell_size ∧
      wrapIdx exGlobals64.x (1 + shiftOf exGlobals64.cell_size ((exEdge 1).heap 0).x) = 2 ∧
      wrapIdx exGlobals64.y (1 + shiftOf exGlobals64.cell_size ((exEdge 1).heap 0).y) = 1 ∧
      round53 (((exEdge 1).heap 0).x + exGlobals64.cell_size) = exGlobals64.cell_size ∧
      (∃ m1, update_cells_fl round53 exGlobals64 1 (exEdge 1) = .ok m1 ∧
        m1.cells 2 1 = none ∧ m1.cells 1 1 = some 0 ∧ (m1.heap 0).x = 0 ∧
        (m1.heap 0).x ≠
          ((exEdge 1).heap 0).x -
            (shiftOf exGlobals64.cell_size ((exEdge 1).heap 0).x) * exGlobals64.cell_size) ∧
      (∃ m2, update_cells exGlobals64 1 (exEdge 1) = .ok m2 ∧
        m2.cells 2 1 = some 0 ∧ m2.cells 1 1 = none ∧
        (m2.heap 0).x = ((exEdge 1).heap 0).x + exGlobals64.cell_size) := by
  refine ⟨by decide, by decide, by decide, by decide, by decide, by decide, by decide,
    by decide, by decide, by decide, by decide, by decide, by decide, ?_, ?_⟩
  · obtain ⟨m1, h1, a1, a2, a3, _⟩ :=
      observe_some (update_cells_fl round53 exGlobals64 1 (exEdge 1)) 0
        (some 0, none, 0, 2 ^ 60) (by decide)
    refine ⟨m1, h1, a2, a1, a3, ?_⟩
    rw [a3]
    decide
  · obtain ⟨m2, h2, a1, a2, a3, _⟩ :=
      observe_some (update_cells exGlobals64 1 (exEdge 1)) 0
        (none, some 0, 5 * 2 ^ 59 - 12, 2 ^ 60) (by decide)
    refine ⟨m2, h2, a2, a1, ?_⟩
    rw [a3]
    decide

/-- **C7, the claim as stated fails in binary64.** Coordinates are counted in units of
`2 ^ (-60)`, `cell_size` is `2.5 > 0` and `num_part_per_dim` is `1`.  In `exEdge 2` the
particle `0` of the real cell `(2, 1)` has `x = -12` units (about `-1e-17`) and `y = 1`,
in range for one hop.  With the rounding of `double` the sum `x + cell_size` is
`cell_size`; `update_cells` returns and the particle is the head of the list of the real
cell `(1, 1)`, which the traversal has left behind, with `x = cell_size`: not below
`cell_size`. -/
theorem cell_membership_invariant_counterexample :
    0 < exGlobals64.cell_size ∧ 1 ≤ exGlobals64.num_part_per_dim ∧
      WF exGlobals64 (exEdge 2) (exEdgeLists 2) ∧ realCell exGlobals64 2 1 ∧
      (0 : Nat) ∈ exEdgeLists 2 2 1 ∧
      round53 exGlobals64.cell_size = exGlobals64.cell_size ∧
      round53 ((exEdge 2).heap 0).x = ((exEdge 2).heap 0).x ∧
      round53 ((exEdge 2).heap 0).y = ((exEdge 2).heap 0).y ∧
      -exGlobals64.cell_size ≤ ((exEdge 2).heap 0).x ∧
      ((exEdge 2).heap 0).x < 2 * exGlobals64.cell_size ∧
      -exGlobals64.cell_size ≤ ((exEdge 2).heap 0).y ∧
      ((exEdge 2).heap 0).y < 2 * exGlobals64.cell_size ∧
      round53 (((exEdge 2).heap 0).x + exGlobals64.cell_size) = exGlobals64.cell_size ∧
      ∃ m1, update_cells_fl round53 exGlobals64 1 (exEdge 2) = .ok m1 ∧
        realCell exGlobals64 1 1 ∧ m1.cells 1 1 = some 0 ∧
        (m1.heap 0).x = exGlobals64.cell_size ∧ ¬ (m1.heap 0).x < exGlobals64.cell_size := by
  refine ⟨by decide, by decide, by decide, by decide, by decide, by decide, by decide,
    by decide, by decide, by decide, by decide, by decide, by decide, ?_⟩
  obtain ⟨m1, h1, a1, _, a3, _⟩ :=
    observe_some (update_cells_fl round53 exGlobals64 1 (exEdge 2)) 0
      (some 0, none, 5 * 2 ^ 59, 2 ^ 60) (by decide)
  refine ⟨m1, h1, by decide, a1, ?_, ?_⟩
  · rw [a3]
    decide
  · rw [a3]
    decide

end Lemmas

end MD
